import Mathlib

/-!
# Per-core kernel substrate: messaging, deferred calls, trap entry and exit, syscalls

A shallow embedding of `kernel/arch/x86/common/Processor.cpp` and `kernel/Syscall.cpp`.

* Pointers are indices (`Nat`) into explicit heaps; a null pointer is `none`.
* Code that can fail to return (a failed `VERIFY`, `halt_this()`, a loop that is still
  running when the iteration budget is used up) returns `Except Fault _`.
* Observable effects (callback invocations, TLB flushes, IPIs, pool traffic) are appended
  to a chronological `trace`.
* Execution is sequential: every function body runs without interference, and the other
  cores act only at `Processor::pause()` inside the wait loops.
* The definitions are computable. The records are values: the generated code builds a new
  record for every update instead of overwriting one in place.
-/

set_option compiler.reuse false

namespace Kernel

/-! ## Part I: definitions -/

/-- Reasons for which a piece of kernel code does not return to its caller. -/
inductive Fault where
  /-- a `VERIFY` assertion failed (kernel abort) -/
  | verify_failed
  /-- `halt_this()` was reached -/
  | halted
  /-- a loop was still running when the iteration budget ran out -/
  | spinning
  /-- an access outside the processor table -/
  | bad_access
  /-- control was handed to a function that never returns -/
  | no_return
deriving DecidableEq, Repr

/-- Observable effects, recorded in the order in which they happen. -/
inductive Event where
  | invoke_callback (cpu msg : Nat) (cb : Option Nat)
  | flush_tlb_local (cpu ptr page_count : Nat)
  | refs_fetch_sub (cpu msg prev_refs : Nat)
  | cleanup_callback (msg : Nat)
  | return_to_pool (msg : Nat)
  | get_from_pool (msg : Nat)
  | send_ipi (cpu : Nat)
  | broadcast_ipi
deriving DecidableEq, Repr

/-- Point update of a heap. -/
def upd {α : Type} (f : Nat → α) (i : Nat) (v : α) : Nat → α :=
  fun j => if j = i then v else f j

/-- Unsigned 32-bit subtraction (`u32`, wraps around). -/
def u32_sub (a b : Nat) : Nat := (a + 2 ^ 32 - b % 2 ^ 32) % 2 ^ 32

/-- `ProcessorMessageEntry`: the delivery entry of one message for one destination core. -/
structure ProcessorMessageEntry where
  next : Option Nat := none
  msg : Nat := 0
deriving DecidableEq, Repr

/-- `ProcessorMessage::Type`. -/
inductive MessageType where
  | FlushTlb
  | Callback
deriving DecidableEq, Repr

/-- The `flush_tlb` member of a message. -/
structure FlushTlbData where
  page_directory : Nat := 0
  ptr : Nat := 0
  page_count : Nat := 0
deriving DecidableEq, Repr

/-- `ProcessorMessage`. `next` is the pool link, `per_proc_entries` points at the first of
the message's delivery entries, `callback` is the content of `callback_storage`
(`none` once destroyed). -/
structure ProcessorMessage where
  next : Option Nat := none
  type : MessageType := MessageType.FlushTlb
  callback : Option Nat := none
  flush_tlb : FlushTlbData := {}
  refs : Nat := 0
  async : Bool := false
  per_proc_entries : Nat := 0
deriving DecidableEq, Repr

/-- The per-core state of `Processor` that the messaging code touches. `cr3` is what
`read_cr3()` returns on that core. -/
structure Processor where
  m_in_critical : Nat := 0
  m_message_queue : Option Nat := none
  m_halt_requested : Bool := false
  cr3 : Nat := 0
deriving DecidableEq, Repr

/-- What the memory manager contributes: `PAGE_SIZE`, the width of `size_t`,
`Memory::is_user_address`, `Memory::is_user_range` and `PageDirectory::cr3()`.
Their definitions are outside this source tree, so they are parameters. -/
structure MemoryManager where
  PAGE_SIZE : Nat := 4096
  size_bits : Nat := 64
  is_user_address : Nat → Bool
  is_user_range : Nat → Nat → Bool
  cr3 : Nat → Nat

/-- The machine: `Processor::count()`, the processor table `s_processors`, the message
and delivery-entry heaps, the pool head `s_message_pool`, `s_smp_enabled`, and the trace.
`pause_schedule` lists, for each coming `Processor::pause()` of a wait loop, the cores
that run their IPI handler (`smp_process_pending_messages`) during that pause. -/
structure System where
  mm : MemoryManager
  count : Nat
  procs : Nat → Processor
  msgs : Nat → ProcessorMessage
  entries : Nat → ProcessorMessageEntry
  s_message_pool : Option Nat
  s_smp_enabled : Bool
  pause_schedule : List (List Nat)
  trace : List Event

/-- Append an event to the trace. -/
def emit (e : Event) (s : System) : System :=
  { s with trace := s.trace ++ [e] }

/-- Modelled from the spec: `Processor::enter_critical` (declared in `Processor.h`, which
is not part of this source tree) increments the critical-section depth. -/
def enter_critical (cpu : Nat) (s : System) : System :=
  { s with procs := upd s.procs cpu { s.procs cpu with m_in_critical := (s.procs cpu).m_in_critical + 1 } }

/-- Modelled from the spec: `Processor::leave_critical` decrements the critical-section
depth; a leave without a matching enter is a fatal error. -/
def leave_critical (cpu : Nat) (s : System) : Except Fault System :=
  if (s.procs cpu).m_in_critical = 0 then Except.error Fault.verify_failed
  else Except.ok
    { s with procs := upd s.procs cpu { s.procs cpu with m_in_critical := (s.procs cpu).m_in_critical - 1 } }

/-- `Atomic<T*>::compare_exchange_strong(expected, desired)` on a cell holding `cur`:
the success flag, the new content of the cell, the new value of `expected`. -/
def compare_exchange_strong (cur expected desired : Option Nat) :
    Bool × Option Nat × Option Nat :=
  if cur = expected then (true, desired, expected) else (false, cur, cur)

/-- `Processor::flush_tlb_local`: the `invlpg` loop acts on the hardware TLB only, so the
call is recorded as one event. -/
def flush_tlb_local (cpu vaddr page_count : Nat) (s : System) : System :=
  emit (Event.flush_tlb_local cpu vaddr page_count) s

/-- The retry loop of `Processor::smp_return_to_pool`; `next` is the local variable. The
`Processor::pause()` between two attempts is the spin-wait hint of the processor: it
changes no state, and in a sequential execution no other core runs during the retry. -/
def smp_return_to_pool_loop (msg : Nat) : Nat → Option Nat → System → Except Fault System
  | 0, _, _ => Except.error Fault.spinning
  | fuel + 1, next, s =>
    let s1 := { s with msgs := upd s.msgs msg { s.msgs msg with next := next } }
    match compare_exchange_strong s1.s_message_pool next (some msg) with
    | (true, v, _) => Except.ok { s1 with s_message_pool := v }
    | (false, _, next1) => smp_return_to_pool_loop msg fuel next1 s1

/-- `Processor::smp_return_to_pool`. Without interference the second
compare-and-swap succeeds, so two iterations are all the loop can take. -/
def smp_return_to_pool (msg : Nat) (s : System) : Except Fault System :=
  smp_return_to_pool_loop msg 2 none (emit (Event.return_to_pool msg) s)

/-- `Processor::smp_cleanup_message`: destroys the callback of a `Callback` message. -/
def smp_cleanup_message (msg : Nat) (s : System) : System :=
  match (s.msgs msg).type with
  | MessageType.Callback =>
    emit (Event.cleanup_callback msg)
      { s with msgs := upd s.msgs msg { s.msgs msg with callback := none } }
  | MessageType.FlushTlb => s

/-- The `reverse_list` lambda of `smp_process_pending_messages`: in-place reversal of the
chain starting at `list`, accumulated in `rev_list`. Returns the new entry heap and the
new head. -/
def reverse_list : Nat → Option Nat → Option Nat → (Nat → ProcessorMessageEntry) →
    Except Fault ((Nat → ProcessorMessageEntry) × Option Nat)
  | _, none, rev_list, entries => Except.ok (entries, rev_list)
  | 0, some _, _, _ => Except.error Fault.spinning
  | fuel + 1, some list, rev_list, entries =>
    let next := (entries list).next
    reverse_list fuel next (some list) (upd entries list { entries list with next := rev_list })

/-- The `switch (msg->type)` of `smp_process_pending_messages`, run on core `cpu`. -/
def process_message (cpu msg : Nat) (s : System) : Except Fault System :=
  match (s.msgs msg).type with
  | MessageType.Callback =>
    Except.ok (emit (Event.invoke_callback cpu msg (s.msgs msg).callback) s)
  | MessageType.FlushTlb =>
    let f := (s.msgs msg).flush_tlb
    if s.mm.is_user_address f.ptr then
      if s.mm.is_user_range f.ptr (f.page_count * s.mm.PAGE_SIZE % 2 ^ s.mm.size_bits) then
        if (s.procs cpu).cr3 ≠ s.mm.cr3 f.page_directory then Except.ok s
        else Except.ok (flush_tlb_local cpu f.ptr f.page_count s)
      else Except.error Fault.verify_failed
    else Except.ok (flush_tlb_local cpu f.ptr f.page_count s)

/-- What follows the `switch` for one entry: the reference-count decrement, and the
return to the pool by the core that takes the count from 1 to 0 when the message is
asynchronous. -/
def release_message (cpu msg : Nat) (s : System) : Except Fault System :=
  let is_async := (s.msgs msg).async
  let prev_refs := (s.msgs msg).refs
  let s1 := emit (Event.refs_fetch_sub cpu msg prev_refs)
    { s with msgs := upd s.msgs msg { s.msgs msg with refs := u32_sub prev_refs 1 } }
  if prev_refs = 0 then Except.error Fault.verify_failed
  else if prev_refs = 1 ∧ is_async = true then
    smp_return_to_pool msg (smp_cleanup_message msg s1)
  else Except.ok s1

/-- The `for (auto cur_msg = pending_msgs; cur_msg; cur_msg = next_msg)` loop. -/
def process_pending_loop (cpu : Nat) : Nat → Option Nat → System → Except Fault System
  | _, none, s => Except.ok s
  | 0, some _, _ => Except.error Fault.spinning
  | fuel + 1, some cur_msg, s =>
    let next_msg := (s.entries cur_msg).next
    let msg := (s.entries cur_msg).msg
    match process_message cpu msg s with
    | Except.error f => Except.error f
    | Except.ok s1 =>
      match release_message cpu msg s1 with
      | Except.error f => Except.error f
      | Except.ok s2 =>
        if (s2.procs cpu).m_halt_requested then Except.error Fault.halted
        else process_pending_loop cpu fuel next_msg s2

/-- `Processor::smp_process_pending_messages` on core `cpu`; every loop may take up to
`fuel` iterations. Returns `did_process`. -/
def smp_process_pending_messages (fuel cpu : Nat) (s : System) : Except Fault (Bool × System) :=
  if s.s_smp_enabled = false then Except.error Fault.verify_failed
  else
    let s0 := enter_critical cpu s
    match (s0.procs cpu).m_message_queue with
    | some pending_msgs =>
      let s1 := { s0 with procs := upd s0.procs cpu { s0.procs cpu with m_message_queue := none } }
      match reverse_list fuel (some pending_msgs) none s1.entries with
      | Except.error f => Except.error f
      | Except.ok (entries1, rev) =>
        match process_pending_loop cpu fuel rev { s1 with entries := entries1 } with
        | Except.error f => Except.error f
        | Except.ok s2 =>
          match leave_critical cpu s2 with
          | Except.error f => Except.error f
          | Except.ok s3 => Except.ok (true, s3)
    | none =>
      if (s0.procs cpu).m_halt_requested then Except.error Fault.halted
      else
        match leave_critical cpu s0 with
        | Except.error f => Except.error f
        | Except.ok s1 => Except.ok (false, s1)

/-- The cores in `others` (those that exist) run their IPI handler, one after the other. -/
def run_ipi_handlers (fuel : Nat) : List Nat → System → Except Fault System
  | [], s => Except.ok s
  | c :: cs, s =>
    if c < s.count then
      match smp_process_pending_messages fuel c s with
      | Except.error f => Except.error f
      | Except.ok (_, s1) => run_ipi_handlers fuel cs s1
    else run_ipi_handlers fuel cs s

/-- `Processor::pause()` inside a loop that waits for other cores (`smp_get_from_pool`
on an empty pool, the `msg.refs != 0` loops): the point at which the other cores make
progress, as listed by the head of `pause_schedule`. -/
def pause (fuel : Nat) (s : System) : Except Fault System :=
  match s.pause_schedule with
  | [] => Except.ok s
  | others :: rest => run_ipi_handlers fuel others { s with pause_schedule := rest }

/-- `Processor::smp_get_from_pool`, called on core `cpu`. The loop may take as many
iterations as the last numeric argument says; `dfuel` is the budget of the loops of the
drains it runs. -/
def smp_get_from_pool (dfuel cpu : Nat) : Nat → System → Except Fault (Nat × System)
  | 0, _ => Except.error Fault.spinning
  | fuel + 1, s =>
    match s.s_message_pool with
    | none =>
      match smp_process_pending_messages dfuel cpu s with
      | Except.error f => Except.error f
      | Except.ok (did_process, s1) =>
        if did_process then smp_get_from_pool dfuel cpu fuel s1
        else
          match pause dfuel s1 with
          | Except.error f => Except.error f
          | Except.ok s2 => smp_get_from_pool dfuel cpu fuel s2
    | some msg =>
      match compare_exchange_strong s.s_message_pool (some msg) (s.msgs msg).next with
      | (true, v, _) => Except.ok (msg, emit (Event.get_from_pool msg) { s with s_message_pool := v })
      | (false, _, _) => smp_get_from_pool dfuel cpu fuel s

/-- The retry loop of `Processor::smp_enqueue_message` on the queue of core `cpu`;
`msg_entry` is `&msg.per_proc_entries[get_id()]`, `next` the local variable.
Returns `next == nullptr`. -/
def smp_enqueue_message_loop (cpu msg_entry : Nat) :
    Nat → Option Nat → System → Except Fault (Bool × System)
  | 0, _, _ => Except.error Fault.spinning
  | fuel + 1, next, s =>
    let s1 := { s with entries := upd s.entries msg_entry { s.entries msg_entry with next := next } }
    match compare_exchange_strong (s1.procs cpu).m_message_queue next (some msg_entry) with
    | (true, v, next1) =>
      Except.ok (decide (next1 = none),
        { s1 with procs := upd s1.procs cpu { s1.procs cpu with m_message_queue := v } })
    | (false, _, next1) => smp_enqueue_message_loop cpu msg_entry fuel next1 s1

/-- `Processor::smp_enqueue_message` on core `cpu` (the destination). -/
def smp_enqueue_message (cpu msg : Nat) (s : System) : Except Fault (Bool × System) :=
  let msg_entry := (s.msgs msg).per_proc_entries + cpu
  if (s.entries msg_entry).msg ≠ msg then Except.error Fault.verify_failed
  else smp_enqueue_message_loop cpu msg_entry 2 none s

/-- The `for_each` of `smp_broadcast_message` over the cores `procs`, carrying
`need_broadcast`. -/
def smp_broadcast_enqueue (cur_proc msg : Nat) :
    List Nat → Bool → System → Except Fault (Bool × System)
  | [], need_broadcast, s => Except.ok (need_broadcast, s)
  | proc :: rest, need_broadcast, s =>
    if proc ≠ cur_proc then
      match smp_enqueue_message proc msg s with
      | Except.error f => Except.error f
      | Except.ok (was_empty, s1) =>
        smp_broadcast_enqueue cur_proc msg rest (was_empty || need_broadcast) s1
    else smp_broadcast_enqueue cur_proc msg rest need_broadcast s

/-- `Processor::smp_broadcast_message`, called on core `cur_proc`. -/
def smp_broadcast_message (cur_proc msg : Nat) (s : System) : Except Fault System :=
  let s1 := { s with msgs := upd s.msgs msg { s.msgs msg with refs := u32_sub s.count 1 } }
  if (s1.msgs msg).refs = 0 then Except.error Fault.verify_failed
  else
    match smp_broadcast_enqueue cur_proc msg (List.range s1.count) false s1 with
    | Except.error f => Except.error f
    | Except.ok (need_broadcast, s2) =>
      if need_broadcast then Except.ok (emit Event.broadcast_ipi s2) else Except.ok s2

/-- The wait loop shared by `smp_broadcast_wait_sync` and `smp_unicast_message`:
`while (msg.refs != 0) { pause(); cur_proc.smp_process_pending_messages(); }`.
`dfuel` is the budget of the loops of the drains it runs. -/
def wait_refs_zero (dfuel cur_proc msg : Nat) : Nat → System → Except Fault System
  | 0, _ => Except.error Fault.spinning
  | fuel + 1, s =>
    if (s.msgs msg).refs ≠ 0 then
      match pause dfuel s with
      | Except.error f => Except.error f
      | Except.ok s1 =>
        match smp_process_pending_messages dfuel cur_proc s1 with
        | Except.error f => Except.error f
        | Except.ok (_, s2) => wait_refs_zero dfuel cur_proc msg fuel s2
    else Except.ok s

/-- `Processor::smp_broadcast_wait_sync`. -/
def smp_broadcast_wait_sync (fuel cur_proc msg : Nat) (s : System) : Except Fault System :=
  if (s.msgs msg).async then Except.error Fault.verify_failed
  else
    match wait_refs_zero fuel cur_proc msg fuel s with
    | Except.error f => Except.error f
    | Except.ok s1 => smp_return_to_pool msg (smp_cleanup_message msg s1)

/-- `Processor::smp_unicast_message`, called on core `cur_proc`. -/
def smp_unicast_message (fuel cur_proc cpu msg : Nat) (async : Bool) (s : System) :
    Except Fault System :=
  if cpu = cur_proc then Except.error Fault.verify_failed
  else if s.count ≤ cpu then Except.error Fault.bad_access
  else
    let s1 := { s with msgs := upd s.msgs msg { s.msgs msg with async := async } }
    let s2 := { s1 with msgs := upd s1.msgs msg { s1.msgs msg with refs := 1 } }
    match smp_enqueue_message cpu msg s2 with
    | Except.error f => Except.error f
    | Except.ok (was_empty, s3) =>
      let s4 := if was_empty then emit (Event.send_ipi cpu) s3 else s3
      if async = false then
        match wait_refs_zero fuel cur_proc msg fuel s4 with
        | Except.error f => Except.error f
        | Except.ok s5 => smp_return_to_pool msg (smp_cleanup_message msg s5)
      else Except.ok s4

/-- `Processor::smp_unicast`, called on core `cur_proc` with callback `callback`. -/
def smp_unicast (fuel cur_proc cpu callback : Nat) (async : Bool) (s : System) :
    Except Fault System :=
  match smp_get_from_pool fuel cur_proc fuel s with
  | Except.error f => Except.error f
  | Except.ok (msg, s1) =>
    let s2 := { s1 with msgs := upd s1.msgs msg { s1.msgs msg with type := MessageType.Callback } }
    let s3 := { s2 with msgs := upd s2.msgs msg { s2.msgs msg with callback := some callback } }
    smp_unicast_message fuel cur_proc cpu msg async s3

/-- `Processor::smp_broadcast_flush_tlb`, called on core `cur_proc`. -/
def smp_broadcast_flush_tlb (fuel cur_proc page_directory vaddr page_count : Nat) (s : System) :
    Except Fault System :=
  match smp_get_from_pool fuel cur_proc fuel s with
  | Except.error f => Except.error f
  | Except.ok (msg, s1) =>
    let flush : FlushTlbData := { page_directory := page_directory, ptr := vaddr, page_count := page_count }
    let s2 := { s1 with msgs := upd s1.msgs msg { s1.msgs msg with async := false, type := MessageType.FlushTlb, flush_tlb := flush } }
    match smp_broadcast_message cur_proc msg s2 with
    | Except.error f => Except.error f
    | Except.ok s3 => smp_broadcast_wait_sync fuel cur_proc msg (flush_tlb_local cur_proc vaddr page_count s3)

/-- The inner loop of `smp_enable` over `k`, on the two arrays `msgs` and `msg_entries`:
`msg_entries[msg_entry_i + k].msg = &msg`. -/
def smp_enable_entries (msg msg_entry_i : Nat) (ks : List Nat)
    (heaps : (Nat → ProcessorMessage) × (Nat → ProcessorMessageEntry)) :
    (Nat → ProcessorMessage) × (Nat → ProcessorMessageEntry) :=
  ks.foldl (fun h k =>
    (h.1, upd h.2 (msg_entry_i + k) { h.2 (msg_entry_i + k) with msg := msg })) heaps

/-- The outer loop of `smp_enable` over the message indices `is`: the two stores to the
message, then the inner loop; `msg_entry_i` is `i * msg_entries_cnt`. -/
def smp_enable_loop (msg_pool_size msg_entries_cnt : Nat) (is : List Nat)
    (heaps : (Nat → ProcessorMessage) × (Nat → ProcessorMessageEntry)) :
    (Nat → ProcessorMessage) × (Nat → ProcessorMessageEntry) :=
  is.foldl (fun h i =>
    smp_enable_entries i (i * msg_entries_cnt) (List.range msg_entries_cnt)
      (upd h.1 i { h.1 i with
          next := if i + 1 < msg_pool_size then some (i + 1) else none
          per_proc_entries := i * msg_entries_cnt }, h.2)) heaps

/-- `Processor::smp_enable`: the two arrays are freshly allocated, so the heaps start
from default-constructed objects. `Processor::count() * 100u` is a product of two `u32`
values and wraps at `2 ^ 32` before it becomes the `size_t msg_pool_size`. -/
def smp_enable (s : System) : System :=
  let msg_pool_size := (s.count * 100) % 2 ^ 32
  let msg_entries_cnt := s.count
  let heaps := smp_enable_loop msg_pool_size msg_entries_cnt (List.range msg_pool_size)
    (fun _ => {}, fun _ => {})
  { s with msgs := heaps.1, entries := heaps.2, s_message_pool := some 0, s_smp_enabled := true }

/-- The machine after `early_initialize` has run on `count` cores: empty queues, no halt
requested, SMP not yet enabled. -/
def boot (mm : MemoryManager) (count : Nat) (cr3 : Nat → Nat) : System :=
  { mm := mm, count := count,
    procs := fun c => { m_in_critical := 0, m_message_queue := none, m_halt_requested := false, cr3 := cr3 c },
    msgs := fun _ => {}, entries := fun _ => {},
    s_message_pool := none, s_smp_enabled := false, pause_schedule := [], trace := [] }

/-! ### Deferred calls (per processor) -/

/-- `DeferredCallEntry`: `handler` is the content of `handler_storage` (`none` for an
empty function). -/
structure DeferredCallEntry where
  next : Option Nat := none
  handler : Option Nat := none
  was_allocated : Bool := false
deriving DecidableEq, Repr

/-- Effects of the deferred-call code. -/
inductive DeferredEvent where
  | invoke_handler (handler : Option Nat)
  | allocate (entry : Nat)
  | free (entry : Nat)
deriving DecidableEq, Repr

/-- The deferred-call state of one `Processor`. The entries with index below `pool_count`
are the array `m_deferred_call_pool` (its size is fixed in `Processor.h`, so it is a
parameter); `new DeferredCallEntry` hands out the fresh index `next_alloc`. -/
structure DeferredCalls where
  m_in_critical : Nat
  pool_count : Nat
  entries : Nat → DeferredCallEntry
  next_alloc : Nat
  m_pending_deferred_calls : Option Nat
  m_free_deferred_call_pool_entry : Option Nat
  trace : List DeferredEvent

/-- `Processor::deferred_call_pool_init` on the pool entries `is` (`0 .. pool_count - 1`). -/
def deferred_call_pool_init (pool_count : Nat) (s : DeferredCalls) : DeferredCalls :=
  let entries := (List.range pool_count).foldl (fun es i =>
    upd es i { next := if i + 1 < pool_count then some (i + 1) else none,
               handler := none, was_allocated := false }) s.entries
  { s with pool_count := pool_count, entries := entries,
           next_alloc := max s.next_alloc pool_count,
           m_pending_deferred_calls := none, m_free_deferred_call_pool_entry := some 0 }

/-- `Processor::deferred_call_return_to_pool`. -/
def deferred_call_return_to_pool (entry : Nat) (s : DeferredCalls) : Except Fault DeferredCalls :=
  if s.m_in_critical = 0 then Except.error Fault.verify_failed
  else if (s.entries entry).was_allocated then Except.error Fault.verify_failed
  else
    Except.ok { s with
      entries := upd s.entries entry
        { s.entries entry with handler := none, next := s.m_free_deferred_call_pool_entry },
      m_free_deferred_call_pool_entry := some entry }

/-- `Processor::deferred_call_get_free`. -/
def deferred_call_get_free (s : DeferredCalls) : Except Fault (Nat × DeferredCalls) :=
  if s.m_in_critical = 0 then Except.error Fault.verify_failed
  else
    match s.m_free_deferred_call_pool_entry with
    | some entry =>
      let s1 := { s with m_free_deferred_call_pool_entry := (s.entries entry).next }
      if (s1.entries entry).was_allocated then Except.error Fault.verify_failed
      else Except.ok (entry, s1)
    | none =>
      let entry := s.next_alloc
      Except.ok (entry,
        { s with
          entries := upd s.entries entry
            { s.entries entry with handler := none, was_allocated := true },
          next_alloc := s.next_alloc + 1,
          trace := s.trace ++ [DeferredEvent.allocate entry] })

/-- The `reverse_list` lambda of `deferred_call_execute_pending`. -/
def reverse_deferred_list : Nat → Option Nat → Option Nat → (Nat → DeferredCallEntry) →
    Except Fault ((Nat → DeferredCallEntry) × Option Nat)
  | _, none, rev_list, entries => Except.ok (entries, rev_list)
  | 0, some _, _, _ => Except.error Fault.spinning
  | fuel + 1, some list, rev_list, entries =>
    let next := (entries list).next
    reverse_deferred_list fuel next (some list)
      (upd entries list { entries list with next := rev_list })

/-- The `do { .. } while (pending_list)` loop of `deferred_call_execute_pending`;
`pending_list` is not null when the body starts. -/
def deferred_call_execute_loop : Nat → Nat → DeferredCalls → Except Fault DeferredCalls
  | 0, _, _ => Except.error Fault.spinning
  | fuel + 1, pending_list, s =>
    let s1 := { s with
      trace := s.trace ++ [DeferredEvent.invoke_handler (s.entries pending_list).handler] }
    let next := (s1.entries pending_list).next
    let freed :=
      if (s1.entries pending_list).was_allocated then
        Except.ok { s1 with
          entries := upd s1.entries pending_list { s1.entries pending_list with handler := none },
          trace := s1.trace ++ [DeferredEvent.free pending_list] }
      else deferred_call_return_to_pool pending_list s1
    match freed with
    | Except.error f => Except.error f
    | Except.ok s2 =>
      match next with
      | some n => deferred_call_execute_loop fuel n s2
      | none => Except.ok s2

/-- `Processor::deferred_call_execute_pending`; the callbacks themselves queue nothing. -/
def deferred_call_execute_pending (fuel : Nat) (s : DeferredCalls) : Except Fault DeferredCalls :=
  if s.m_in_critical = 0 then Except.error Fault.verify_failed
  else
    match s.m_pending_deferred_calls with
    | none => Except.ok s
    | some pending_list =>
      let s1 := { s with m_pending_deferred_calls := none }
      match reverse_deferred_list fuel (some pending_list) none s1.entries with
      | Except.error f => Except.error f
      | Except.ok (entries1, rev) =>
        match rev with
        | none => Except.error Fault.bad_access
        | some first => deferred_call_execute_loop fuel first { s1 with entries := entries1 }

/-- `Processor::deferred_call_queue_entry`. -/
def deferred_call_queue_entry (entry : Nat) (s : DeferredCalls) : Except Fault DeferredCalls :=
  if s.m_in_critical = 0 then Except.error Fault.verify_failed
  else
    Except.ok { s with
      entries := upd s.entries entry { s.entries entry with next := s.m_pending_deferred_calls },
      m_pending_deferred_calls := some entry }

/-- `Processor::deferred_call_queue`. Modelled from the spec: the `ScopedCritical` guard
(declared outside this source tree) enters the critical section on construction and
leaves it when the function returns. -/
def deferred_call_queue (callback : Nat) (s : DeferredCalls) : Except Fault DeferredCalls :=
  let s0 := { s with m_in_critical := s.m_in_critical + 1 }
  match deferred_call_get_free s0 with
  | Except.error f => Except.error f
  | Except.ok (entry, s1) =>
    let s2 := { s1 with entries := upd s1.entries entry { s1.entries entry with handler := some callback } }
    match deferred_call_queue_entry entry s2 with
    | Except.error f => Except.error f
    | Except.ok s3 => Except.ok { s3 with m_in_critical := s3.m_in_critical - 1 }

/-- The callbacks `cbs` are submitted with `deferred_call_queue`, first to last. -/
def deferred_call_queue_all : List Nat → DeferredCalls → Except Fault DeferredCalls
  | [], s => Except.ok s
  | cb :: cbs, s =>
    match deferred_call_queue cb s with
    | Except.error f => Except.error f
    | Except.ok s1 => deferred_call_queue_all cbs s1

/-- The handlers invoked in a trace, in order. -/
def invoked : List DeferredEvent → List (Option Nat)
  | [] => []
  | DeferredEvent.invoke_handler h :: es => h :: invoked es
  | _ :: es => invoked es

/-- A freshly booted processor before `deferred_call_pool_init`. -/
def deferred_boot : DeferredCalls :=
  { m_in_critical := 0, pool_count := 0, entries := fun _ => {}, next_alloc := 0,
    m_pending_deferred_calls := none, m_free_deferred_call_pool_entry := none, trace := [] }

/-! ### System-call dispatch (`kernel/Syscall.cpp`) -/

/-- `NeedsBigProcessLock`. -/
inductive NeedsBigProcessLock where
  | Yes
  | No
deriving DecidableEq, Repr

/-- `HandlerMetadata`: a table slot; `handler = none` is a null handler. -/
structure HandlerMetadata where
  handler : Option Nat
  needs_lock : NeedsBigProcessLock
deriving DecidableEq, Repr

/-- `KResultOr<FlatPtr>`: an error code or a value. -/
inductive KResultOr where
  | error (code : Nat)
  | value (v : Nat)
deriving DecidableEq, Repr

/-- `RegisterState`, as far as the dispatcher touches it: the return register and the
rest of the saved registers. -/
structure RegisterState where
  return_reg : Nat
  saved : Nat
deriving DecidableEq, Repr

/-- What the dispatcher takes from headers outside this source tree: the enumeration
`Syscall::Function` (`__Count` and the four special call numbers, pairwise distinct as
enumerators are), the error code `ENOSYS`, the table generated by `ENUMERATE_SYSCALLS`,
and what the handlers return. -/
structure SyscallAbi where
  Count : Nat
  SC_exit : Nat
  SC_exit_thread : Nat
  SC_fork : Nat
  SC_sigreturn : Nat
  ENOSYS : Nat
  s_syscall_table : Nat → HandlerMetadata
  handler_result : Nat → Nat → Nat → Nat → Nat → KResultOr
  handler_result_regs : Nat → RegisterState → KResultOr
  exit_ne_exit_thread : SC_exit ≠ SC_exit_thread

/-- Effects of the dispatcher, in the order in which they happen. -/
inductive SyscallEvent where
  | did_syscall
  | add_syscall_event
  | table_read (function : Nat)
  | lock_big_lock
  | unlock_big_lock
  | tracer_trap
  | sys_exit (arg1 : Nat)
  | sys_exit_thread (arg1 arg2 arg3 : Nat)
  | call_args (handler arg1 arg2 arg3 arg4 : Nat)
  | call_regs (handler : Nat) (regs : RegisterState)
deriving DecidableEq, Repr

/-- How a call of `Syscall::handle` ends. -/
inductive SyscallOutcome where
  | returned (result : KResultOr)
  | never_returns
  | verify_failed
deriving DecidableEq, Repr

/-- The state around one system call: the interrupt flag, whether the process has a
tracer that traces system calls, the saved registers, and the trace. -/
structure SyscallState where
  interrupts_enabled : Bool
  tracing_syscalls : Bool
  regs : RegisterState
  trace : List SyscallEvent
deriving DecidableEq, Repr

/-- Append events to the trace of a system call. -/
def SyscallState.emit (s : SyscallState) (es : List SyscallEvent) : SyscallState :=
  { s with trace := s.trace ++ es }

/-- The `if (function == SC_exit || function == SC_exit_thread)` block of
`Syscall::handle`. Modelled from the spec: `Process::sys$exit` and
`Process::sys$exit_thread` (defined outside this source tree) never return. -/
def handle_exit (abi : SyscallAbi) (function arg1 arg2 arg3 : Nat) (s : SyscallState) :
    SyscallOutcome × SyscallState :=
  let s1 :=
    if s.tracing_syscalls then
      (({ s with regs := { s.regs with return_reg := 0 }, tracing_syscalls := false } :
        SyscallState)).emit [SyscallEvent.tracer_trap]
    else s
  if function = abi.SC_exit then
    (SyscallOutcome.never_returns, s1.emit [SyscallEvent.sys_exit arg1])
  else if function = abi.SC_exit_thread then
    (SyscallOutcome.never_returns, s1.emit [SyscallEvent.sys_exit_thread arg1 arg2 arg3])
  else (SyscallOutcome.verify_failed, s1)

/-- `Syscall::handle`. The `MutexLocker` releases the lock it holds when the function
returns. -/
def handle (abi : SyscallAbi) (function arg1 arg2 arg3 arg4 : Nat) (s : SyscallState) :
    SyscallOutcome × SyscallState :=
  if s.interrupts_enabled = false then (SyscallOutcome.verify_failed, s)
  else
    let s1 := s.emit [SyscallEvent.did_syscall, SyscallEvent.add_syscall_event]
    if abi.Count ≤ function then (SyscallOutcome.returned (KResultOr.error abi.ENOSYS), s1)
    else
      let syscall_metadata := abi.s_syscall_table function
      let s2 := s1.emit [SyscallEvent.table_read function]
      match syscall_metadata.handler with
      | none => (SyscallOutcome.returned (KResultOr.error abi.ENOSYS), s2)
      | some handler =>
        let needs_big_lock := decide (syscall_metadata.needs_lock = NeedsBigProcessLock.Yes)
        let s3 := if needs_big_lock then s2.emit [SyscallEvent.lock_big_lock] else s2
        let unlock := fun (t : SyscallState) =>
          if needs_big_lock then t.emit [SyscallEvent.unlock_big_lock] else t
        if function = abi.SC_exit ∨ function = abi.SC_exit_thread then
          handle_exit abi function arg1 arg2 arg3 s3
        else if function = abi.SC_fork ∨ function = abi.SC_sigreturn then
          (SyscallOutcome.returned (abi.handler_result_regs handler s3.regs),
           unlock (s3.emit [SyscallEvent.call_regs handler s3.regs]))
        else
          (SyscallOutcome.returned (abi.handler_result handler arg1 arg2 arg3 arg4),
           unlock (s3.emit [SyscallEvent.call_args handler arg1 arg2 arg3 arg4]))

/-- The event is the invocation of a handler: a table handler or one of the two exit
functions. -/
def is_handler_call : SyscallEvent → Bool
  | SyscallEvent.call_args _ _ _ _ _ => true
  | SyscallEvent.call_regs _ _ => true
  | SyscallEvent.sys_exit _ => true
  | SyscallEvent.sys_exit_thread _ _ _ => true
  | _ => false

/-- The event is an invocation of a table handler (the normal return path). -/
def is_table_call : SyscallEvent → Bool
  | SyscallEvent.call_args _ _ _ _ _ => true
  | SyscallEvent.call_regs _ _ => true
  | _ => false

/-- An ABI for the examples: 5 call numbers, `exit = 0`, `exit_thread = 1`, `fork = 2`,
`sigreturn = 3`; slot 4 holds a null handler, slot `f < 4` handler `10 + f`; slots 0 and
2 need the big lock. A handler returns the sum of its arguments, a register-state
handler the saved registers. -/
def demo_abi : SyscallAbi :=
  { Count := 5, SC_exit := 0, SC_exit_thread := 1, SC_fork := 2, SC_sigreturn := 3, ENOSYS := 38,
    s_syscall_table := fun f =>
      { handler := if f < 4 then some (10 + f) else none,
        needs_lock := if f = 0 ∨ f = 2 then NeedsBigProcessLock.Yes else NeedsBigProcessLock.No },
    handler_result := fun _ a b c d => KResultOr.value (a + b + c + d),
    handler_result_regs := fun _ r => KResultOr.value r.saved,
    exit_ne_exit_thread := by decide }

/-- A system call in progress with interrupts enabled and no tracer. -/
def demo_syscall_state : SyscallState :=
  { interrupts_enabled := true, tracing_syscalls := false,
    regs := { return_reg := 0, saved := 99 }, trace := [] }

/-- The events with which the dispatcher takes the big lock for a table slot. -/
def lock_events (md : HandlerMetadata) : List SyscallEvent :=
  if md.needs_lock = NeedsBigProcessLock.Yes then [SyscallEvent.lock_big_lock] else []

/-- The events with which the dispatcher releases the big lock on return. -/
def unlock_events (md : HandlerMetadata) : List SyscallEvent :=
  if md.needs_lock = NeedsBigProcessLock.Yes then [SyscallEvent.unlock_big_lock] else []

/-- The bookkeeping events that precede the dispatch proper. -/
def is_bookkeeping (function : Nat) (e : SyscallEvent) : Prop :=
  e = SyscallEvent.did_syscall ∨ e = SyscallEvent.add_syscall_event ∨
    e = SyscallEvent.table_read function

/-! ### Heap chains and the sequential reading of the drain loop -/

/-- The chain that starts at `head` and follows `next` visits exactly the nodes `xs`, in
that order, and then ends in a null pointer. -/
def IsList (next : Nat → Option Nat) : Option Nat → List Nat → Prop
  | head, [] => head = none
  | head, x :: xs => head = some x ∧ IsList next (next x) xs

/-- One pass through the body of the drain loop for the message `msg`: the `switch`, the
reference-count decrement with its pool return, and the halt check. -/
def process_one (cpu msg : Nat) (s : System) : Except Fault System :=
  match process_message cpu msg s with
  | Except.error f => Except.error f
  | Except.ok s1 =>
    match release_message cpu msg s1 with
    | Except.error f => Except.error f
    | Except.ok s2 =>
      if (s2.procs cpu).m_halt_requested then Except.error Fault.halted else Except.ok s2

/-- The messages `msgs` are processed one after the other, each one completely before the
next one starts. -/
def process_in_order (cpu : Nat) : List Nat → System → Except Fault System
  | [], s => Except.ok s
  | m :: ms, s =>
    match process_one cpu m s with
    | Except.error f => Except.error f
    | Except.ok s1 => process_in_order cpu ms s1

/-- The messages whose reference count core `cpu` decremented, in the order of the trace. -/
def decremented_by (cpu : Nat) : List Event → List Nat
  | [] => []
  | Event.refs_fetch_sub c m _ :: es =>
    if c = cpu then m :: decremented_by cpu es else decremented_by cpu es
  | _ :: es => decremented_by cpu es

/-- The `(address, page count)` arguments of the `flush_tlb_local` calls made by core
`cpu`, in the order of the trace. -/
def flushes_on (cpu : Nat) : List Event → List (Nat × Nat)
  | [] => []
  | Event.flush_tlb_local c ptr page_count :: es =>
    if c = cpu then (ptr, page_count) :: flushes_on cpu es else flushes_on cpu es
  | _ :: es => flushes_on cpu es

/-- The part of the machine that processing a message leaves alone: the delivery entries,
the processor table and the configuration. -/
def SameCores (s s1 : System) : Prop :=
  s1.entries = s.entries ∧ s1.procs = s.procs ∧ s1.count = s.count ∧ s1.mm = s.mm ∧
    s1.s_smp_enabled = s.s_smp_enabled ∧ s1.pause_schedule = s.pause_schedule

/-- The messages `msgs` are handed to `smp_enqueue_message` on core `cpu` one after the
other, first to last, with no drain in between. -/
def enqueue_all (cpu : Nat) : List Nat → System → Except Fault System
  | [], s => Except.ok s
  | m :: ms, s =>
    match smp_enqueue_message cpu m s with
    | Except.error f => Except.error f
    | Except.ok (_, s1) => enqueue_all cpu ms s1

/-- The message `m` can be processed without tripping an assertion: it is in flight (its
reference count is not zero) and, if it is a flush of a user address, its range is a
user range. -/
def Deliverable (s : System) (m : Nat) : Prop :=
  (s.msgs m).refs ≠ 0 ∧
    ((s.msgs m).type = MessageType.FlushTlb →
      s.mm.is_user_address (s.msgs m).flush_tlb.ptr = true →
      s.mm.is_user_range (s.msgs m).flush_tlb.ptr
        ((s.msgs m).flush_tlb.page_count * s.mm.PAGE_SIZE % 2 ^ s.mm.size_bits) = true)

/-- A memory manager for the examples: no address is a user address, and page directory
`pd` is loaded as `cr3 = pd`. -/
def demo_mm : MemoryManager :=
  { is_user_address := fun _ => false, is_user_range := fun _ _ => false, cr3 := fun pd => pd }

/-- The machine right after `smp_enable` on `N` freshly booted cores; core `c` runs with
`cr3 = c`. -/
def enabled_system (N : Nat) : System := smp_enable (boot demo_mm N (fun c => c))

/-- A small machine used to exercise the theorems: two cores, every message a callback
message in flight with one reference, delivery entry `2 * m + c` belonging to message `m`. -/
def demo_system : System :=
  { mm := { is_user_address := fun _ => false, is_user_range := fun _ _ => false, cr3 := fun pd => pd },
    count := 2,
    procs := fun _ => {},
    msgs := fun m => { type := MessageType.Callback, callback := some m, refs := 1,
                       async := true, per_proc_entries := 2 * m },
    entries := fun e => { msg := e / 2 },
    s_message_pool := none, s_smp_enabled := true, pause_schedule := [], trace := [] }

/-- Well-formed deferred-call state: the pending list `P` and the free list `F` are
chains that share no entry, the free entries are pool entries, and `new` will hand out
an entry that is on neither list. -/
structure DeferredInv (s : DeferredCalls) (P F : List Nat) : Prop where
  pending : IsList (fun e => (s.entries e).next) s.m_pending_deferred_calls P
  free : IsList (fun e => (s.entries e).next) s.m_free_deferred_call_pool_entry F
  disjoint : ∀ e, e ∈ P → e ∉ F
  free_pool : ∀ e, e ∈ F → (s.entries e).was_allocated = false
  bound : ∀ e, e ∈ P ∨ e ∈ F → e < s.next_alloc

/-- The heap entries released with `delete` in a trace, in order. -/
def freed_entries : List DeferredEvent → List Nat
  | [] => []
  | DeferredEvent.free e :: es => e :: freed_entries es
  | _ :: es => freed_entries es

/-- The heap entries obtained with `new` in a trace, in order. -/
def allocated_entries : List DeferredEvent → List Nat
  | [] => []
  | DeferredEvent.allocate e :: es => e :: allocated_entries es
  | _ :: es => allocated_entries es

/-- One call of the deferred-call interface of a processor. -/
inductive DeferredOp where
  | queue (callback : Nat)
  | execute_pending
deriving DecidableEq, Repr

/-- One call of the deferred-call interface. -/
def run_deferred_op (fuel : Nat) : DeferredOp → DeferredCalls → Except Fault DeferredCalls
  | DeferredOp.queue callback, s => deferred_call_queue callback s
  | DeferredOp.execute_pending, s => deferred_call_execute_pending fuel s

/-- A sequence of calls of the deferred-call interface, first to last. -/
def run_deferred_ops (fuel : Nat) : List DeferredOp → DeferredCalls → Except Fault DeferredCalls
  | [], s => Except.ok s
  | op :: ops, s =>
    match run_deferred_op fuel op s with
    | Except.error f => Except.error f
    | Except.ok s1 => run_deferred_ops fuel ops s1

/-- The pool discipline of the deferred-call lists for a pool of `n` entries (the
indices below `n`): the pending list `P` and the free list `F` are chains that share no
entry, the free list holds pool entries only, every pool entry is on one of the two lists
and carries `was_allocated = false`, and the pending entries outside the pool are heap
entries handed out earlier, carrying `was_allocated = true`. -/
structure PoolInv (n : Nat) (s : DeferredCalls) (P F : List Nat) : Prop where
  pending : IsList (fun e => (s.entries e).next) s.m_pending_deferred_calls P
  free : IsList (fun e => (s.entries e).next) s.m_free_deferred_call_pool_entry F
  disjoint : ∀ e, e ∈ P → e ∉ F
  free_lt : ∀ e, e ∈ F → e < n
  flag_pool : ∀ e, e < n → (s.entries e).was_allocated = false
  flag_heap : ∀ e, e ∈ P → n ≤ e → (s.entries e).was_allocated = true
  cover : ∀ e, e < n → e ∈ P ∨ e ∈ F
  bound : ∀ e, e ∈ P → e < s.next_alloc
  alloc_ge : n ≤ s.next_alloc

/-! ### Pool accounting and the invariant of the messaging state -/

/-- The event records a call of `smp_get_from_pool`. -/
def is_get : Event → Bool
  | Event.get_from_pool _ => true
  | _ => false

/-- The event records a call of `smp_return_to_pool`. -/
def is_return : Event → Bool
  | Event.return_to_pool _ => true
  | _ => false

/-- Number of `smp_get_from_pool` calls recorded in a trace. -/
def acquired (tr : List Event) : Nat := tr.countP is_get

/-- Number of `smp_return_to_pool` calls recorded in a trace. -/
def returned (tr : List Event) : Nat := tr.countP is_return

/-- At the end of the trace `tr`: no more returns than acquisitions, at most `cap`
messages acquired and not yet returned, and every single message acquired either as
often as returned (it is free) or once more (it is in flight). -/
def BalancedAt (cap : Nat) (tr : List Event) : Prop :=
  returned tr ≤ acquired tr ∧ acquired tr ≤ returned tr + cap ∧
    ∀ m, tr.count (Event.return_to_pool m) ≤ tr.count (Event.get_from_pool m) ∧
      tr.count (Event.get_from_pool m) ≤ tr.count (Event.return_to_pool m) + 1

/-- `BalancedAt` holds at every moment of the trace. -/
def Balanced (cap : Nat) (tr : List Event) : Prop :=
  ∀ k, BalancedAt cap (tr.take k)

/-- Number of cores whose pending queue holds an entry of message `m`. -/
def holders (N : Nat) (Q : Nat → List Nat) (m : Nat) : Nat :=
  (List.range N).countP (fun c => decide (m ∈ Q c))

/-- The pending queues are well-formed chains: the queue of core `c` holds, in chain
order, the entries `m * N + c` of the messages `Q c`; delivery entry `m * N + c` belongs
to message `m`, as `smp_enable` sets it up. -/
structure ChainInv (N : Nat) (s : System) (Q : Nat → List Nat) : Prop where
  queue : ∀ c, c < N →
    IsList (fun e => (s.entries e).next) (s.procs c).m_message_queue
      ((Q c).map (fun m => m * N + c))
  entry_msg : ∀ m c, m < 100 * N → c < N → (s.entries (m * N + c)).msg = m

/-- The invariant of the message heap, the pool and the trace for `N` cores. `Q c` are
the messages queued on core `c`, `H` the messages held by a sender (acquired and to be
returned by the sender itself), `F` the free list. -/
structure MsgInv (N : Nat) (s : System) (Q : Nat → List Nat) (H F : List Nat) : Prop where
  count_eq : s.count = N
  N_lt : N < 2 ^ 32
  enabled : s.s_smp_enabled = true
  per_proc : ∀ m, m < 100 * N → (s.msgs m).per_proc_entries = m * N
  pool : IsList (fun m => (s.msgs m).next) s.s_message_pool F
  queue_nodup : ∀ c, (Q c).Nodup
  queue_lt : ∀ c m, m ∈ Q c → m < 100 * N ∧ c < N
  held_lt : ∀ m, m ∈ H → m < 100 * N
  free_lt : ∀ m, m ∈ F → m < 100 * N
  cover : ∀ m, m < 100 * N → m ∈ F ∨ m ∈ H ∨ ∃ c, m ∈ Q c
  free_excl : ∀ m, m ∈ F → m ∉ H ∧ ∀ c, m ∉ Q c
  refs : ∀ c m, m ∈ Q c → (s.msgs m).refs = holders N Q m
  async : ∀ c m, m ∈ Q c → ((s.msgs m).async = true ↔ m ∉ H)
  trace_msg : ∀ m, s.trace.count (Event.get_from_pool m)
    = s.trace.count (Event.return_to_pool m) + (if m ∈ F ∨ 100 * N ≤ m then 0 else 1)
  trace_total : acquired s.trace + F.length = returned s.trace + 100 * N
  balanced : Balanced (100 * N) s.trace

/-- The range of a user-address flush message is a user range (what the `VERIFY` in the
`FlushTlb` case of the drain asserts). -/
def FlushValid (s : System) (m : Nat) : Prop :=
  (s.msgs m).type = MessageType.FlushTlb →
    s.mm.is_user_address (s.msgs m).flush_tlb.ptr = true →
    s.mm.is_user_range (s.msgs m).flush_tlb.ptr
      ((s.msgs m).flush_tlb.page_count * s.mm.PAGE_SIZE % 2 ^ s.mm.size_bits) = true

/-- What a drain of core `c` whose queue held the messages `ms` (chain order, most recent
first) does to the machine: the configuration and the per-core flags are untouched, the
messages of the queue lose one reference each (none of them was at zero), every other
reference count and every payload is untouched, and the trace gains the decrements of
`ms` in arrival order, all of them by `c`. -/
structure Drained (c : Nat) (ms : List Nat) (s s1 : System) : Prop where
  count_eq : s1.count = s.count
  mm_eq : s1.mm = s.mm
  enabled_eq : s1.s_smp_enabled = s.s_smp_enabled
  schedule_eq : s1.pause_schedule = s.pause_schedule
  procs_eq : ∀ c1, (s1.procs c1).m_halt_requested = (s.procs c1).m_halt_requested ∧
    (s1.procs c1).cr3 = (s.procs c1).cr3 ∧ (s1.procs c1).m_in_critical = (s.procs c1).m_in_critical
  refs_other : ∀ m, m ∉ ms → (s1.msgs m).refs = (s.msgs m).refs
  refs_queued : ∀ m, m ∈ ms → (s1.msgs m).refs = (s.msgs m).refs - 1 ∧ (s.msgs m).refs ≠ 0
  payload : ∀ m, (s1.msgs m).async = (s.msgs m).async ∧ (s1.msgs m).type = (s.msgs m).type ∧
    (s1.msgs m).flush_tlb = (s.msgs m).flush_tlb ∧
    (s1.msgs m).per_proc_entries = (s.msgs m).per_proc_entries
  trace : ∃ new, s1.trace = s.trace ++ new ∧
    (∀ c1, decremented_by c1 new = if c1 = c then ms.reverse else []) ∧
    (∀ c1, c1 ≠ c ∨ ms = [] → flushes_on c1 new = [])

/-- The queues after the cores of `order` have drained: theirs are empty. -/
def emptied (N : Nat) (Q : Nat → List Nat) (order : List Nat) : Nat → List Nat :=
  fun c => if c ∈ order ∧ c < N then [] else Q c

/-- What the drains of the cores in `order` (in that order, repetitions allowed) do to
the machine: every message loses one reference per draining core that had it queued, and
every draining core records the decrements of its queue in arrival order. -/
structure DrainedAll (N : Nat) (order : List Nat) (Q : Nat → List Nat) (s s1 : System) :
    Prop where
  count_eq : s1.count = s.count
  mm_eq : s1.mm = s.mm
  enabled_eq : s1.s_smp_enabled = s.s_smp_enabled
  schedule_eq : s1.pause_schedule = s.pause_schedule
  procs_eq : ∀ c1, (s1.procs c1).m_halt_requested = (s.procs c1).m_halt_requested ∧
    (s1.procs c1).cr3 = (s.procs c1).cr3 ∧ (s1.procs c1).m_in_critical = (s.procs c1).m_in_critical
  refs : ∀ m, (s1.msgs m).refs
    = (s.msgs m).refs - (List.range N).countP (fun c => decide (c ∈ order ∧ m ∈ Q c))
  payload : ∀ m, (s1.msgs m).async = (s.msgs m).async ∧ (s1.msgs m).type = (s.msgs m).type ∧
    (s1.msgs m).flush_tlb = (s.msgs m).flush_tlb ∧
    (s1.msgs m).per_proc_entries = (s.msgs m).per_proc_entries
  trace : ∃ new, s1.trace = s.trace ++ new ∧
    (∀ c1, decremented_by c1 new = if c1 ∈ order ∧ c1 < N then (Q c1).reverse else []) ∧
    (∀ c1, c1 ∉ order ∨ ¬ c1 < N ∨ Q c1 = [] → flushes_on c1 new = [])

/-- The queues after `smp_broadcast_message(msg)` by `sender`: the message is in front of
the queue of every other core among the cores `cs`. -/
def broadcast_queues (cs : List Nat) (sender msg : Nat) (Q : Nat → List Nat) : Nat → List Nat :=
  fun c => if c ∈ cs ∧ c ≠ sender then msg :: Q c else Q c

/-- The messages held by their sender once `msg` has been sent: an asynchronous message
is no longer the sender's to return. -/
def held_after_send (async : Bool) (msg : Nat) (H : List Nat) : List Nat :=
  if async then H.filter (fun m => decide (m ≠ msg)) else H

/-- Number of cores other than `sender`, among the `N` cores, that occur in `order`. -/
def drained_others (N sender : Nat) (order : List Nat) : Nat :=
  (List.range N).countP (fun c => decide (c ∈ order ∧ c ≠ sender))

/-- Between the states `s` (queues `Q`) and `s1` (queues `Q1`) nothing but drains has
run: the configuration, the per-core flags and the payloads are the same, the queues
have only lost messages, a core with no flush message in its queue has flushed nothing,
and a core has decremented a message exactly if the message has left its queue. -/
structure Progress (Q : Nat → List Nat) (s : System) (Q1 : Nat → List Nat) (s1 : System) :
    Prop where
  mm_eq : s1.mm = s.mm
  procs_eq : ∀ c1, (s1.procs c1).m_halt_requested = (s.procs c1).m_halt_requested ∧
    (s1.procs c1).cr3 = (s.procs c1).cr3 ∧ (s1.procs c1).m_in_critical = (s.procs c1).m_in_critical
  payload : ∀ m, (s1.msgs m).async = (s.msgs m).async ∧ (s1.msgs m).type = (s.msgs m).type ∧
    (s1.msgs m).flush_tlb = (s.msgs m).flush_tlb ∧
    (s1.msgs m).per_proc_entries = (s.msgs m).per_proc_entries
  shrink : ∀ c m, m ∈ Q1 c → m ∈ Q c
  trace : ∃ new, s1.trace = s.trace ++ new ∧
    (∀ c, (∀ m, m ∈ Q c → (s.msgs m).type = MessageType.Callback) → flushes_on c new = []) ∧
    (∀ c m, (decremented_by c new).count m + (if m ∈ Q1 c then 1 else 0)
      = (if m ∈ Q c then 1 else 0))

/-- The flush that the `FlushTlb` case of the drain owes for the message `m` on core
`cpu`: the address and page count of a `FlushTlb` message, unless the address is a user
address and the active page directory of the core (`read_cr3()`) is not the one of the
message. -/
def flush_due (s : System) (cpu m : Nat) : Option (Nat × Nat) :=
  match (s.msgs m).type with
  | MessageType.Callback => none
  | MessageType.FlushTlb =>
    if s.mm.is_user_address (s.msgs m).flush_tlb.ptr = true ∧
        (s.procs cpu).cr3 ≠ s.mm.cr3 (s.msgs m).flush_tlb.page_directory then none
    else some ((s.msgs m).flush_tlb.ptr, (s.msgs m).flush_tlb.page_count)

/-- The events of the `switch (msg->type)` for the message `m` on core `cpu`, read off
the state in which the drain starts. -/
def switch_events (s : System) (cpu m : Nat) : List Event :=
  match (s.msgs m).type with
  | MessageType.Callback => [Event.invoke_callback cpu m (s.msgs m).callback]
  | MessageType.FlushTlb =>
    match flush_due s cpu m with
    | some (ptr, page_count) => [Event.flush_tlb_local cpu ptr page_count]
    | none => []

/-- The events of what follows the `switch`: the decrement, and for an asynchronous
message whose count goes from 1 to 0 the cleanup (a callback is destroyed) and the return
to the pool. -/
def release_events (s : System) (cpu m : Nat) : List Event :=
  Event.refs_fetch_sub cpu m (s.msgs m).refs ::
    (if (s.msgs m).refs = 1 ∧ (s.msgs m).async = true then
      (match (s.msgs m).type with
        | MessageType.Callback => [Event.cleanup_callback m]
        | MessageType.FlushTlb => []) ++ [Event.return_to_pool m]
     else [])

/-- The events of one pass through the body of the drain loop. -/
def message_events (s : System) (cpu m : Nat) : List Event :=
  switch_events s cpu m ++ release_events s cpu m

/-- The callback that processing the message `m` invokes: for a `Callback` message the
message and its `callback_storage`, for a `FlushTlb` message none. -/
def callback_due (s : System) (m : Nat) : Option (Nat × Option Nat) :=
  match (s.msgs m).type with
  | MessageType.Callback => some (m, (s.msgs m).callback)
  | MessageType.FlushTlb => none

/-- The callbacks invoked by core `cpu`, each with the message it belongs to, in the order
of the trace. -/
def callbacks_on (cpu : Nat) : List Event → List (Nat × Option Nat)
  | [] => []
  | Event.invoke_callback c m cb :: es =>
    if c = cpu then (m, cb) :: callbacks_on cpu es else callbacks_on cpu es
  | _ :: es => callbacks_on cpu es

/-- A memory manager with the usual split: the addresses below `0xC0000000` are user
addresses, and page directory `pd` is loaded as `cr3 = pd`. -/
def kernel_split_mm : MemoryManager :=
  { is_user_address := fun a => decide (a < 0xC0000000),
    is_user_range := fun a n => decide (a + n ≤ 0xC0000000),
    cr3 := fun pd => pd }

/-- A small machine for the flush examples: two cores, core `c` running with `cr3 = c`;
message 0 is a synchronous flush of one page at the kernel address `0xC0100000` for page
directory 0, every other message a synchronous flush of one page at the user address
`0x1000` for page directory 0; one reference each. -/
def flush_demo_system : System :=
  { mm := kernel_split_mm, count := 2,
    procs := fun c => { cr3 := c },
    msgs := fun m =>
      { type := MessageType.FlushTlb,
        flush_tlb := { page_directory := 0, ptr := if m = 0 then 0xC0100000 else 0x1000,
                       page_count := 1 },
        refs := 1, async := false, per_proc_entries := 2 * m },
    entries := fun e => { msg := e / 2 },
    s_message_pool := none, s_smp_enabled := true, pause_schedule := [], trace := [] }

/-- One call of a sequential execution of the messaging interface: a drain on a core, a
unicast of a callback from `cur_proc` to `cpu`, or a broadcast TLB flush from `cur_proc`. -/
inductive Call where
  | process_pending (cpu : Nat)
  | unicast (cur_proc cpu callback : Nat) (async : Bool)
  | broadcast_flush_tlb (cur_proc page_directory vaddr page_count : Nat)

/-- The core on which the call is made. -/
def Call.core : Call → Nat
  | Call.process_pending cpu => cpu
  | Call.unicast cur_proc _ _ _ => cur_proc
  | Call.broadcast_flush_tlb cur_proc _ _ _ => cur_proc

/-- The call is made and runs to its end. -/
def run_call (fuel : Nat) : Call → System → Except Fault System
  | Call.process_pending cpu, s =>
    match smp_process_pending_messages fuel cpu s with
    | Except.error f => Except.error f
    | Except.ok (_, s1) => Except.ok s1
  | Call.unicast cur_proc cpu callback async, s => smp_unicast fuel cur_proc cpu callback async s
  | Call.broadcast_flush_tlb cur_proc page_directory vaddr page_count, s =>
    smp_broadcast_flush_tlb fuel cur_proc page_directory vaddr page_count s

/-- A sequential execution: the calls are made one after the other. -/
def run_calls (fuel : Nat) : List Call → System → Except Fault System
  | [], s => Except.ok s
  | call :: rest, s =>
    match run_call fuel call s with
    | Except.error f => Except.error f
    | Except.ok s1 => run_calls fuel rest s1

/-! ### Trap entry and exit (`enter_trap`, `exit_trap`, `check_invoke_scheduler`) -/

/-- `Thread::PreviousMode`. -/
inductive PreviousMode where
  | KernelMode
  | UserMode
deriving DecidableEq, Repr

/-- `TrapFrame`: `regs` is `none` for a null pointer and otherwise holds the saved `cs`. -/
structure TrapFrame where
  prev_irq_level : Nat := 0
  next_trap : Option Nat := none
  regs : Option Nat := none
deriving DecidableEq, Repr

/-- The part of a `Thread` that the trap code touches. -/
structure Thread where
  current_trap : Option Nat := none
  previous_mode : PreviousMode := PreviousMode.KernelMode
deriving DecidableEq, Repr

/-- Calls that leave the processor: `Thread::update_time_scheduled` (the time argument is
left out) and `Scheduler::invoke_async`. -/
inductive TrapEvent where
  | update_time_scheduled (thread : Nat) (is_kernel : Bool) (no_longer_running : Bool)
  | invoke_async
deriving DecidableEq, Repr

/-- The processor that runs the trap code (`this`, which is `Processor::current()`),
with the kernel state it reaches: the interrupt flag, its counters and scheduler flags,
`Processor::current_thread()`, the threads, the trap frames, its deferred calls and the
messaging state of the machine. The counters are declared in `Processor.h`, outside this
source tree; they are natural numbers here. `m_in_critical` is the one field that the
deferred-call code and the messaging code see as well: it is copied into their state
when they are called and read back when they return. Handlers of deferred calls and
message callbacks are opaque: running one changes nothing in this state. -/
structure Core where
  id : Nat
  interrupts_enabled : Bool
  m_in_irq : Nat
  m_in_critical : Nat
  m_invoke_scheduler_async : Bool
  m_scheduler_initialized : Bool
  current_thread : Option Nat
  threads : Nat → Thread
  traps : Nat → TrapFrame
  deferred : DeferredCalls
  smp : System
  trace : List TrapEvent

/-- Modelled from the spec: `Thread::set_previous_mode` (declared in `Thread.h`, which is
not part of this source tree) records the mode and reports whether it changed. -/
def set_previous_mode (mode : PreviousMode) (t : Thread) : Bool × Thread :=
  if t.previous_mode = mode then (false, t) else (true, { t with previous_mode := mode })

/-- The mode of a saved code segment: `(cs & 3) != 0 ? UserMode : KernelMode`. -/
def mode_of_cs (cs : Nat) : PreviousMode :=
  if cs &&& 3 ≠ 0 then PreviousMode.UserMode else PreviousMode.KernelMode

/-- The `if (current_thread) { .. } else { .. }` statement of `enter_trap`: the envelope
is pushed on the trap stack of the interrupted thread. Reading `trap.regs->cs` through a
null `regs` is a bad access. -/
def enter_trap_push (trap : Nat) (s : Core) : Except Fault Core :=
  match s.current_thread with
  | some current_thread =>
    let current_trap := (s.threads current_thread).current_trap
    let s1 := { s with traps := upd s.traps trap { s.traps trap with next_trap := current_trap } }
    let s2 := { s1 with threads := upd s1.threads current_thread { s1.threads current_thread with current_trap := some trap } }
    match (s2.traps trap).regs with
    | none => Except.error Fault.bad_access
    | some cs =>
      let new_previous_mode := mode_of_cs cs
      let r := set_previous_mode new_previous_mode (s2.threads current_thread)
      let s3 := { s2 with threads := upd s2.threads current_thread r.2 }
      if r.1 = true ∧ (s3.traps trap).prev_irq_level = 0 then
        Except.ok { s3 with trace := s3.trace ++ [TrapEvent.update_time_scheduled current_thread (decide (new_previous_mode = PreviousMode.KernelMode)) false] }
      else Except.ok s3
  | none =>
    Except.ok { s with traps := upd s.traps trap { s.traps trap with next_trap := none } }

/-- `Processor::enter_trap`. -/
def enter_trap (trap : Nat) (raise_irq : Bool) (s : Core) : Except Fault Core :=
  if s.interrupts_enabled then Except.error Fault.verify_failed
  else
    let s1 := { s with traps := upd s.traps trap { s.traps trap with prev_irq_level := s.m_in_irq } }
    let s2 := if raise_irq then { s1 with m_in_irq := s1.m_in_irq + 1 } else s1
    enter_trap_push trap s2

/-- `Processor::check_invoke_scheduler`. Modelled from the spec: the `InterruptDisabler`
guard (declared outside this source tree) disables interrupts for the scope and puts the
interrupt flag back when the function returns. -/
def check_invoke_scheduler (s : Core) : Except Fault Core :=
  let s1 := { s with interrupts_enabled := false }
  if s1.m_in_irq ≠ 0 then Except.error Fault.verify_failed
  else if s1.m_in_critical ≠ 0 then Except.error Fault.verify_failed
  else
    let s2 :=
      if s1.m_invoke_scheduler_async = true ∧ s1.m_scheduler_initialized = true then
        { s1 with m_invoke_scheduler_async := false, trace := s1.trace ++ [TrapEvent.invoke_async] }
      else s1
    Except.ok { s2 with interrupts_enabled := s.interrupts_enabled }

/-- The statement `if (s_smp_enabled) smp_process_pending_messages();` of `exit_trap`. -/
def exit_trap_messages (fuel : Nat) (s : Core) : Except Fault Core :=
  if s.smp.s_smp_enabled then
    let p := { s.smp.procs s.id with m_in_critical := s.m_in_critical }
    match smp_process_pending_messages fuel s.id { s.smp with procs := upd s.smp.procs s.id p } with
    | Except.error f => Except.error f
    | Except.ok (_, smp1) => Except.ok { s with smp := smp1, m_in_critical := (smp1.procs s.id).m_in_critical }
  else Except.ok s

/-- The statement `deferred_call_execute_pending();` of `exit_trap`. -/
def exit_trap_deferred (fuel : Nat) (s : Core) : Except Fault Core :=
  match deferred_call_execute_pending fuel { s.deferred with m_in_critical := s.m_in_critical } with
  | Except.error f => Except.error f
  | Except.ok d => Except.ok { s with deferred := d, m_in_critical := d.m_in_critical }

/-- The `if (current_thread) { .. }` statement of `exit_trap`: the envelope is popped and
the previous mode is the one of the envelope below, or kernel mode when there is none. -/
def exit_trap_pop (trap : Nat) (s : Core) : Except Fault Core :=
  match s.current_thread with
  | none => Except.ok s
  | some current_thread =>
    let s1 := { s with threads := upd s.threads current_thread { s.threads current_thread with current_trap := (s.traps trap).next_trap } }
    let new_previous_mode : Except Fault PreviousMode :=
      match (s1.threads current_thread).current_trap with
      | some current_trap =>
        match (s1.traps current_trap).regs with
        | none => Except.error Fault.verify_failed
        | some cs => Except.ok (mode_of_cs cs)
      | none => Except.ok PreviousMode.KernelMode
    match new_previous_mode with
    | Except.error f => Except.error f
    | Except.ok mode =>
      let r := set_previous_mode mode (s1.threads current_thread)
      let s2 := { s1 with threads := upd s1.threads current_thread r.2 }
      if r.1 = true then
        Except.ok { s2 with trace := s2.trace ++ [TrapEvent.update_time_scheduled current_thread true false] }
      else Except.ok s2

/-- `Processor::exit_trap`; every loop of the drain and of the deferred calls may take up
to `fuel` iterations. -/
def exit_trap (fuel : Nat) (trap : Nat) (s : Core) : Except Fault Core :=
  if s.interrupts_enabled then Except.error Fault.verify_failed
  else
    let s1 := { s with m_in_critical := s.m_in_critical + 1 }
    if s1.m_in_irq < (s1.traps trap).prev_irq_level then Except.error Fault.verify_failed
    else
      let s2 := { s1 with m_in_irq := (s1.traps trap).prev_irq_level }
      match exit_trap_messages fuel s2 with
      | Except.error f => Except.error f
      | Except.ok s3 =>
        match exit_trap_deferred fuel s3 with
        | Except.error f => Except.error f
        | Except.ok s4 =>
          match exit_trap_pop trap s4 with
          | Except.error f => Except.error f
          | Except.ok s5 =>
            if s5.interrupts_enabled then Except.error Fault.verify_failed
            else
              let s6 := { s5 with m_in_critical := s5.m_in_critical - 1 }
              if s6.m_in_irq = 0 ∧ s6.m_in_critical = 0 then check_invoke_scheduler s6
              else Except.ok s6

/-- The number of calls of `Scheduler::invoke_async` in a trace. -/
def hook_count : List TrapEvent → Nat
  | [] => 0
  | TrapEvent.invoke_async :: es => hook_count es + 1
  | _ :: es => hook_count es

/-- Nothing for the drain of `exit_trap` to do on this processor: with SMP enabled, its
message queue is empty and no halt is requested. -/
def MessagesQuiet (s : Core) : Prop :=
  s.smp.s_smp_enabled = true →
    (s.smp.procs s.id).m_message_queue = none ∧ (s.smp.procs s.id).m_halt_requested = false

/-- The condition under which `exit_trap` calls the scheduler: the restored nesting depth
and the critical-section depth are zero, a reschedule was requested and the scheduler is
initialized. -/
def invokes_scheduler (trap : Nat) (s : Core) : Prop :=
  (s.traps trap).prev_irq_level = 0 ∧ s.m_in_critical = 0 ∧
    s.m_invoke_scheduler_async = true ∧ s.m_scheduler_initialized = true

instance (trap : Nat) (s : Core) : Decidable (invokes_scheduler trap s) := by
  unfold invokes_scheduler
  infer_instance

/-- What a returning `exit_trap` has done. -/
structure TrapExit (fuel trap : Nat) (s s1 : Core) : Prop where
  entered : s.interrupts_enabled = false
  level : (s.traps trap).prev_irq_level ≤ s.m_in_irq
  irq : s1.m_in_irq = (s.traps trap).prev_irq_level
  critical : s1.m_in_critical = s.m_in_critical
  interrupts : s1.interrupts_enabled = false
  initialized : s1.m_scheduler_initialized = s.m_scheduler_initialized
  id_eq : s1.id = s.id
  thread : s1.current_thread = s.current_thread
  traps : s1.traps = s.traps
  popped : ∀ t, s.current_thread = some t →
    (s1.threads t).current_trap = (s.traps trap).next_trap
  others : ∀ t, s.current_thread ≠ some t → s1.threads t = s.threads t
  deferred : deferred_call_execute_pending fuel
    { s.deferred with m_in_critical := s.m_in_critical + 1 } = Except.ok s1.deferred
  hook : hook_count s1.trace = hook_count s.trace + (if invokes_scheduler trap s then 1 else 0)
  flag : s1.m_invoke_scheduler_async
    = (if invokes_scheduler trap s then false else s.m_invoke_scheduler_async)
  quiet : MessagesQuiet s → MessagesQuiet s1

/-- What a returning `enter_trap` has done. -/
structure TrapEnter (trap : Nat) (raise_irq : Bool) (s s1 : Core) : Prop where
  recorded : (s1.traps trap).prev_irq_level = s.m_in_irq
  irq : s1.m_in_irq = if raise_irq = true then s.m_in_irq + 1 else s.m_in_irq
  critical : s1.m_in_critical = s.m_in_critical
  pushed : ∀ t, s.current_thread = some t →
    (s1.traps trap).next_trap = (s.threads t).current_trap ∧
      (s1.threads t).current_trap = some trap
  no_thread : s.current_thread = none → (s1.traps trap).next_trap = none ∧ s1.threads = s.threads
  others : ∀ t, s.current_thread ≠ some t → s1.threads t = s.threads t
  regs : ∀ t, (s1.traps t).regs = (s.traps t).regs
  frames : ∀ t, t ≠ trap → s1.traps t = s.traps t
  interrupts : s1.interrupts_enabled = s.interrupts_enabled
  id_eq : s1.id = s.id
  thread : s1.current_thread = s.current_thread
  flag : s1.m_invoke_scheduler_async = s.m_invoke_scheduler_async
  initialized : s1.m_scheduler_initialized = s.m_scheduler_initialized
  deferred : s1.deferred = s.deferred
  smp : s1.smp = s.smp
  hook : hook_count s1.trace = hook_count s.trace

/-- A processor inside two nested interrupt handlers: thread 0 was interrupted with frame
0 (nesting depth 0 before it) and the handler of that interrupt with frame 1 (depth 1
before it); one deferred call, with handler 7, is pending; a reschedule was requested. -/
def nested_demo_core : Core :=
  { id := 0, interrupts_enabled := false, m_in_irq := 2, m_in_critical := 0,
    m_invoke_scheduler_async := true, m_scheduler_initialized := true,
    current_thread := some 0,
    threads := fun _ => { current_trap := some 1 },
    traps := fun t =>
      { prev_irq_level := t, next_trap := if t = 0 then none else some (t - 1), regs := some 8 },
    deferred :=
      { m_in_critical := 0, pool_count := 1, entries := fun _ => { handler := some 7 },
        next_alloc := 1, m_pending_deferred_calls := some 0,
        m_free_deferred_call_pool_entry := none, trace := [] },
    smp := demo_system, trace := [] }

/-- A processor inside one interrupt handler: thread 0 was interrupted with frame 0;
nothing is pending; a reschedule was requested. -/
def irq_demo_core : Core :=
  { id := 0, interrupts_enabled := false, m_in_irq := 1, m_in_critical := 0,
    m_invoke_scheduler_async := true, m_scheduler_initialized := true,
    current_thread := some 0,
    threads := fun _ => { current_trap := some 0 },
    traps := fun _ => { prev_irq_level := 0, next_trap := none, regs := some 8 },
    deferred := deferred_call_pool_init 1 deferred_boot,
    smp := demo_system, trace := [] }

/-- A machine whose pool holds the messages 1 and 2, in this order; message 0 is held by a
sender. -/
def pool_demo_system : System :=
  { demo_system with
    s_message_pool := some 1,
    msgs := fun m => { next := if m = 1 then some 2 else none, refs := 1,
                       per_proc_entries := 2 * m } }

/-- A processor at interrupt-nesting depth `depth` that runs thread 0, whose previous mode
is `mode`; every trap frame has the saved code segment `cs`. -/
def thread_demo_core (depth cs : Nat) (mode : PreviousMode) : Core :=
  { irq_demo_core with
    m_in_irq := depth,
    threads := fun _ => { current_trap := none, previous_mode := mode },
    traps := fun _ => { prev_irq_level := 0, next_trap := none, regs := some cs } }

/-! ### User-memory access (`kernel/StdLib.cpp`) -/

/-- Calls of the fault-tolerant primitives. -/
inductive SafeEvent where
  | safe_memcpy (dest src n : Nat)
  | safe_memset (dest c n : Nat)
  | safe_atomic_fetch_add_relaxed (var val : Nat)
  | safe_atomic_exchange_relaxed (var val : Nat)
  | safe_atomic_load_relaxed (var : Nat)
  | safe_atomic_store_relaxed (var val : Nat)
  | safe_atomic_compare_exchange_relaxed (var expected val : Nat)
  | safe_atomic_fetch_and_relaxed (var val : Nat)
  | safe_atomic_fetch_and_not_relaxed (var val : Nat)
  | safe_atomic_fetch_or_relaxed (var val : Nat)
  | safe_atomic_fetch_xor_relaxed (var val : Nat)
deriving DecidableEq, Repr

/-- The memory, one byte per address, and the calls of the fault-tolerant primitives made
so far. -/
structure UserMemory where
  mem : Nat → Nat
  trace : List SafeEvent

/-- The fault-tolerant primitives `Kernel::safe_memcpy`, `safe_memset` and
`safe_atomic_*`. They are defined outside this source tree, so they are parameters: each
takes its arguments and the memory and gives its result and the memory afterwards. The
copy and the fill give the success flag and `fault_at`; an atomic gives an empty result
when the access faults. -/
structure SafeMem where
  safe_memcpy : Nat → Nat → Nat → (Nat → Nat) → Bool × Nat × (Nat → Nat)
  safe_memset : Nat → Nat → Nat → (Nat → Nat) → Bool × Nat × (Nat → Nat)
  safe_atomic_fetch_add_relaxed : Nat → Nat → (Nat → Nat) → Option Nat × (Nat → Nat)
  safe_atomic_exchange_relaxed : Nat → Nat → (Nat → Nat) → Option Nat × (Nat → Nat)
  safe_atomic_load_relaxed : Nat → (Nat → Nat) → Option Nat × (Nat → Nat)
  safe_atomic_store_relaxed : Nat → Nat → (Nat → Nat) → Bool × (Nat → Nat)
  safe_atomic_compare_exchange_relaxed :
    Nat → Nat → Nat → (Nat → Nat) → Option Bool × (Nat → Nat)
  safe_atomic_fetch_and_relaxed : Nat → Nat → (Nat → Nat) → Option Nat × (Nat → Nat)
  safe_atomic_fetch_and_not_relaxed : Nat → Nat → (Nat → Nat) → Option Nat × (Nat → Nat)
  safe_atomic_fetch_or_relaxed : Nat → Nat → (Nat → Nat) → Option Nat × (Nat → Nat)
  safe_atomic_fetch_xor_relaxed : Nat → Nat → (Nat → Nat) → Option Nat × (Nat → Nat)

/-- The state after a call of a primitive that left the memory `mem`. -/
def UserMemory.after (s : UserMemory) (e : SafeEvent) (mem : Nat → Nat) : UserMemory :=
  { mem := mem, trace := s.trace ++ [e] }

/-- `user_atomic_fetch_add_relaxed`. The `SmapDisabler` guard of this and of the functions
below only opens the access to user pages for the scope. -/
def user_atomic_fetch_add_relaxed (mm : MemoryManager) (sm : SafeMem) (var val : Nat)
    (s : UserMemory) : Option Nat × UserMemory :=
  if var &&& 3 ≠ 0 then (none, s)
  else
    let is_user := mm.is_user_range var 4
    if is_user = false then (none, s)
    else
      let r := sm.safe_atomic_fetch_add_relaxed var val s.mem
      (r.1, s.after (SafeEvent.safe_atomic_fetch_add_relaxed var val) r.2)

/-- `user_atomic_exchange_relaxed`. -/
def user_atomic_exchange_relaxed (mm : MemoryManager) (sm : SafeMem) (var val : Nat)
    (s : UserMemory) : Option Nat × UserMemory :=
  if var &&& 3 ≠ 0 then (none, s)
  else
    let is_user := mm.is_user_range var 4
    if is_user = false then (none, s)
    else
      let r := sm.safe_atomic_exchange_relaxed var val s.mem
      (r.1, s.after (SafeEvent.safe_atomic_exchange_relaxed var val) r.2)

/-- `user_atomic_load_relaxed`. -/
def user_atomic_load_relaxed (mm : MemoryManager) (sm : SafeMem) (var : Nat)
    (s : UserMemory) : Option Nat × UserMemory :=
  if var &&& 3 ≠ 0 then (none, s)
  else
    let is_user := mm.is_user_range var 4
    if is_user = false then (none, s)
    else
      let r := sm.safe_atomic_load_relaxed var s.mem
      (r.1, s.after (SafeEvent.safe_atomic_load_relaxed var) r.2)

/-- `user_atomic_store_relaxed`. -/
def user_atomic_store_relaxed (mm : MemoryManager) (sm : SafeMem) (var val : Nat)
    (s : UserMemory) : Bool × UserMemory :=
  if var &&& 3 ≠ 0 then (false, s)
  else
    let is_user := mm.is_user_range var 4
    if is_user = false then (false, s)
    else
      let r := sm.safe_atomic_store_relaxed var val s.mem
      (r.1, s.after (SafeEvent.safe_atomic_store_relaxed var val) r.2)

/-- `user_atomic_compare_exchange_relaxed`; `expected` is the address of the referenced
kernel variable. -/
def user_atomic_compare_exchange_relaxed (mm : MemoryManager) (sm : SafeMem)
    (var expected val : Nat) (s : UserMemory) : Except Fault (Option Bool × UserMemory) :=
  if var &&& 3 ≠ 0 then Except.ok (none, s)
  else if mm.is_user_range expected 4 then Except.error Fault.verify_failed
  else
    let is_user := mm.is_user_range var 4
    if is_user = false then Except.ok (none, s)
    else
      let r := sm.safe_atomic_compare_exchange_relaxed var expected val s.mem
      Except.ok (r.1, s.after (SafeEvent.safe_atomic_compare_exchange_relaxed var expected val) r.2)

/-- `user_atomic_fetch_and_relaxed`. -/
def user_atomic_fetch_and_relaxed (mm : MemoryManager) (sm : SafeMem) (var val : Nat)
    (s : UserMemory) : Option Nat × UserMemory :=
  if var &&& 3 ≠ 0 then (none, s)
  else
    let is_user := mm.is_user_range var 4
    if is_user = false then (none, s)
    else
      let r := sm.safe_atomic_fetch_and_relaxed var val s.mem
      (r.1, s.after (SafeEvent.safe_atomic_fetch_and_relaxed var val) r.2)

/-- `user_atomic_fetch_and_not_relaxed`. -/
def user_atomic_fetch_and_not_relaxed (mm : MemoryManager) (sm : SafeMem) (var val : Nat)
    (s : UserMemory) : Option Nat × UserMemory :=
  if var &&& 3 ≠ 0 then (none, s)
  else
    let is_user := mm.is_user_range var 4
    if is_user = false then (none, s)
    else
      let r := sm.safe_atomic_fetch_and_not_relaxed var val s.mem
      (r.1, s.after (SafeEvent.safe_atomic_fetch_and_not_relaxed var val) r.2)

/-- `user_atomic_fetch_or_relaxed`. -/
def user_atomic_fetch_or_relaxed (mm : MemoryManager) (sm : SafeMem) (var val : Nat)
    (s : UserMemory) : Option Nat × UserMemory :=
  if var &&& 3 ≠ 0 then (none, s)
  else
    let is_user := mm.is_user_range var 4
    if is_user = false then (none, s)
    else
      let r := sm.safe_atomic_fetch_or_relaxed var val s.mem
      (r.1, s.after (SafeEvent.safe_atomic_fetch_or_relaxed var val) r.2)

/-- `user_atomic_fetch_xor_relaxed`. -/
def user_atomic_fetch_xor_relaxed (mm : MemoryManager) (sm : SafeMem) (var val : Nat)
    (s : UserMemory) : Option Nat × UserMemory :=
  if var &&& 3 ≠ 0 then (none, s)
  else
    let is_user := mm.is_user_range var 4
    if is_user = false then (none, s)
    else
      let r := sm.safe_atomic_fetch_xor_relaxed var val s.mem
      (r.1, s.after (SafeEvent.safe_atomic_fetch_xor_relaxed var val) r.2)

/-- `copy_to_user`. `(FlatPtr)dest_ptr + n` wraps at the width of a pointer; the `dbgln`
of the failure path only logs. -/
def copy_to_user (mm : MemoryManager) (sm : SafeMem) (dest_ptr src_ptr n : Nat)
    (s : UserMemory) : Except Fault (Bool × UserMemory) :=
  let is_user := mm.is_user_range dest_ptr n
  if is_user = false then Except.ok (false, s)
  else if mm.is_user_range src_ptr n then Except.error Fault.verify_failed
  else
    let r := sm.safe_memcpy dest_ptr src_ptr n s.mem
    let s1 := s.after (SafeEvent.safe_memcpy dest_ptr src_ptr n) r.2.2
    if r.1 = false then
      let fault_at := r.2.1
      if dest_ptr ≤ fault_at ∧ fault_at ≤ (dest_ptr + n) % 2 ^ mm.size_bits then
        Except.ok (false, s1)
      else Except.error Fault.verify_failed
    else Except.ok (true, s1)

/-- `copy_from_user`. -/
def copy_from_user (mm : MemoryManager) (sm : SafeMem) (dest_ptr src_ptr n : Nat)
    (s : UserMemory) : Except Fault (Bool × UserMemory) :=
  let is_user := mm.is_user_range src_ptr n
  if is_user = false then Except.ok (false, s)
  else if mm.is_user_range dest_ptr n then Except.error Fault.verify_failed
  else
    let r := sm.safe_memcpy dest_ptr src_ptr n s.mem
    let s1 := s.after (SafeEvent.safe_memcpy dest_ptr src_ptr n) r.2.2
    if r.1 = false then
      let fault_at := r.2.1
      if src_ptr ≤ fault_at ∧ fault_at ≤ (src_ptr + n) % 2 ^ mm.size_bits then
        Except.ok (false, s1)
      else Except.error Fault.verify_failed
    else Except.ok (true, s1)

/-- `memset_user`. -/
def memset_user (mm : MemoryManager) (sm : SafeMem) (dest_ptr c n : Nat)
    (s : UserMemory) : Bool × UserMemory :=
  let is_user := mm.is_user_range dest_ptr n
  if is_user = false then (false, s)
  else
    let r := sm.safe_memset dest_ptr c n s.mem
    let s1 := s.after (SafeEvent.safe_memset dest_ptr c n) r.2.2
    if r.1 = false then (false, s1) else (true, s1)

/-- Primitives of a machine on which no access faults: the copy and the fill write the
`n` bytes, an atomic acts on the cell at `var`. -/
def flat_safe_mem : SafeMem :=
  { safe_memcpy := fun dest src n mem =>
      (true, 0, fun a => if dest ≤ a ∧ a < dest + n then mem (src + (a - dest)) else mem a),
    safe_memset := fun dest c n mem =>
      (true, 0, fun a => if dest ≤ a ∧ a < dest + n then c % 256 else mem a),
    safe_atomic_fetch_add_relaxed := fun var val mem =>
      (some (mem var), upd mem var ((mem var + val) % 2 ^ 32)),
    safe_atomic_exchange_relaxed := fun var val mem => (some (mem var), upd mem var val),
    safe_atomic_load_relaxed := fun var mem => (some (mem var), mem),
    safe_atomic_store_relaxed := fun var val mem => (true, upd mem var val),
    safe_atomic_compare_exchange_relaxed := fun var expected val mem =>
      if mem var = mem expected then (some true, upd mem var val)
      else (some false, upd mem expected (mem var)),
    safe_atomic_fetch_and_relaxed := fun var val mem =>
      (some (mem var), upd mem var (mem var &&& val)),
    safe_atomic_fetch_and_not_relaxed := fun var val mem =>
      (some (mem var), upd mem var (mem var &&& (2 ^ 32 - 1 - val))),
    safe_atomic_fetch_or_relaxed := fun var val mem =>
      (some (mem var), upd mem var (mem var ||| val)),
    safe_atomic_fetch_xor_relaxed := fun var val mem =>
      (some (mem var), upd mem var (mem var ^^^ val)) }

/-- A memory of zero bytes in which no primitive has been called. -/
def zero_memory : UserMemory := { mem := fun _ => 0, trace := [] }

/-! ### The descriptor table of a processor (`write_raw_gdt_entry`, `get_gdt_entry`) -/

/-- `__builtin_popcountl` on a 32-bit value: the number of bits that are set. -/
def popcount (x : Nat) : Nat :=
  (List.range 32).countP (fun i => x.testBit i)

/-- `__builtin_ffsl` on a 32-bit value: one plus the index of the least significant bit
that is set, and zero when no bit is set. -/
def ffs (x : Nat) : Nat :=
  match (List.range 32).find? (fun i => x.testBit i) with
  | some i => i + 1
  | none => 0

/-- The complement `~x` of a `u32`. -/
def u32_not (x : Nat) : Nat := (2 ^ 32 - 1) ^^^ (x % 2 ^ 32)

/-- The indices of the bits that are set in a 32-bit value, lowest first. -/
def set_bits (x : Nat) : List Nat :=
  (List.range 32).filter (fun i => x.testBit i)

/-- The state that `smp_wake_n_idle_processors` works on: the interrupt flag,
`s_smp_enabled`, `Processor::count()`, the id of the calling processor, the atomic
`s_idle_cpu_mask`, and the processors that `APIC::send_ipi` was called for, in order. -/
structure IdleState where
  interrupts_enabled : Bool
  s_smp_enabled : Bool
  count : Nat
  current_id : Nat
  s_idle_cpu_mask : Nat
  ipis : List Nat

/-- The first `for` loop of the body: the `idle_count` lowest set bits of `idle_mask` are
moved into `found_mask`. -/
def collect_idle : Nat → Nat → Nat → Nat
  | 0, _, found_mask => found_mask
  | n + 1, idle_mask, found_mask =>
    let cpu := u32_sub (ffs idle_mask) 1
    collect_idle n (idle_mask &&& u32_not ((1 <<< cpu) % 2 ^ 32))
      (found_mask ||| (1 <<< cpu) % 2 ^ 32)

/-- The second `for` loop of the body: an IPI for each of the `idle_count` lowest set bits
of `idle_mask`; `did_wake_count` is carried along. -/
def wake_found : Nat → Nat → Nat → IdleState → Nat × IdleState
  | 0, _, did_wake_count, s => (did_wake_count, s)
  | n + 1, idle_mask, did_wake_count, s =>
    let cpu := u32_sub (ffs idle_mask) 1
    wake_found n (idle_mask &&& u32_not ((1 <<< cpu) % 2 ^ 32))
      ((did_wake_count + 1) % 2 ^ 32) { s with ipis := s.ipis ++ [cpu] }

/-- The `while (did_wake_count < wake_count)` loop. -/
def wake_loop (wake_count current_id : Nat) : Nat → Nat → IdleState → Except Fault (Nat × IdleState)
  | 0, did_wake_count, s =>
    if did_wake_count < wake_count then Except.error Fault.spinning
    else Except.ok (did_wake_count, s)
  | fuel + 1, did_wake_count, s =>
    if did_wake_count < wake_count then
      let idle_mask := s.s_idle_cpu_mask &&& u32_not ((1 <<< current_id) % 2 ^ 32)
      let idle_count := popcount idle_mask
      if idle_count = 0 then Except.ok (did_wake_count, s)
      else
        let found_mask := collect_idle idle_count idle_mask 0
        let s1 := { s with s_idle_cpu_mask := s.s_idle_cpu_mask &&& u32_not found_mask }
        let idle_mask1 := s.s_idle_cpu_mask &&& found_mask
        if idle_mask1 = 0 then wake_loop wake_count current_id fuel did_wake_count s1
        else
          let r := wake_found (popcount idle_mask1) idle_mask1 did_wake_count s1
          wake_loop wake_count current_id fuel r.1 r.2
    else Except.ok (did_wake_count, s)

/-- `Processor::smp_wake_n_idle_processors`; the outer loop may take up to `fuel`
iterations. -/
def smp_wake_n_idle_processors (fuel wake_count : Nat) (s : IdleState) :
    Except Fault (Nat × IdleState) :=
  if s.interrupts_enabled then Except.error Fault.verify_failed
  else if ¬ (wake_count > 0) then Except.error Fault.verify_failed
  else if s.s_smp_enabled = false then Except.ok (0, s)
  else
    let clamped : Except Fault Nat :=
      if wake_count ≥ s.count then
        if u32_sub s.count 1 > 0 then Except.ok (u32_sub s.count 1)
        else Except.error Fault.verify_failed
      else Except.ok wake_count
    match clamped with
    | Except.error f => Except.error f
    | Except.ok wake_count1 => wake_loop wake_count1 s.current_id fuel 0 s

/-- Four processors with SMP enabled; processor 0 is the caller and the processors 1, 2
and 3 are idle. -/
def wake_demo : IdleState :=
  { interrupts_enabled := false, s_smp_enabled := true, count := 4, current_id := 0,
    s_idle_cpu_mask := 0b1110, ipis := [] }

/-! ### String and memory comparison (`kernel/StdLib.cpp`) -/

/-- `strnlen`. The memory holds one byte per address. -/
def strnlen (mem : Nat → Nat) : Nat → Nat → Nat
  | _, 0 => 0
  | str, maxlen + 1 => if mem str ≠ 0 then strnlen mem (str + 1) maxlen + 1 else 0

/-- `strcmp`; the loop may take up to `fuel` iterations. The bytes are compared as
unsigned values in the last line. -/
def strcmp (mem : Nat → Nat) : Nat → Nat → Nat → Except Fault Int
  | 0, _, _ => Except.error Fault.spinning
  | fuel + 1, s1, s2 =>
    if mem s1 = mem s2 then
      if mem s1 = 0 then Except.ok 0
      else strcmp mem fuel (s1 + 1) (s2 + 1)
    else Except.ok (if mem s1 < mem s2 then -1 else 1)

/-- `memcmp`. -/
def memcmp (mem : Nat → Nat) : Nat → Nat → Nat → Int
  | _, _, 0 => 0
  | s1, s2, n + 1 =>
    if mem s1 ≠ mem s2 then (if mem s1 < mem s2 then -1 else 1)
    else memcmp mem (s1 + 1) (s2 + 1) n

/-- `strncmp`. -/
def strncmp (mem : Nat → Nat) : Nat → Nat → Nat → Int
  | _, _, 0 => 0
  | s1, s2, n + 1 =>
    if mem s1 ≠ mem s2 then (mem s1 : Int) - (mem s2 : Int)
    else if mem s1 = 0 then 0
    else strncmp mem (s1 + 1) (s2 + 1) n

/-- The two nested `do .. while` loops of `strstr`: `haystack` is advanced to just behind
the next byte equal to `nch` after which `needle` (the rest of the needle, `len` bytes)
follows; null when the end of the haystack is reached first. -/
def strstr_scan (mem : Nat → Nat) (nch needle len : Nat) : Nat → Nat → Except Fault (Option Nat)
  | 0, _ => Except.error Fault.spinning
  | fuel + 1, haystack =>
    let hch := mem haystack
    if hch = 0 then Except.ok none
    else if hch ≠ nch then strstr_scan mem nch needle len fuel (haystack + 1)
    else if strncmp mem (haystack + 1) needle len ≠ 0 then
      strstr_scan mem nch needle len fuel (haystack + 1)
    else Except.ok (some (haystack + 1))

/-- `strstr`. `strlen` is not defined in this source tree, so it is a parameter; the
loops may take up to `fuel` iterations. -/
def strstr (mem : Nat → Nat) (strlen : Nat → Nat) (fuel haystack needle : Nat) :
    Except Fault (Option Nat) :=
  let nch := mem needle
  if nch ≠ 0 then
    let len := strlen (needle + 1)
    match strstr_scan mem nch (needle + 1) len fuel haystack with
    | Except.error f => Except.error f
    | Except.ok none => Except.ok none
    | Except.ok (some haystack1) => Except.ok (some (haystack1 - 1))
  else Except.ok (some haystack)

/-- The NUL-terminated string at `p` consists of the bytes `bs` (none of them zero),
followed by the terminating zero byte. -/
def CStr (mem : Nat → Nat) : Nat → List Nat → Prop
  | p, [] => mem p = 0
  | p, b :: bs => mem p = b ∧ b ≠ 0 ∧ CStr mem (p + 1) bs

/-- The `n` bytes at `p`. -/
def read_bytes (mem : Nat → Nat) : Nat → Nat → List Nat
  | _, 0 => []
  | p, n + 1 => mem p :: read_bytes mem (p + 1) n

/-- The three-way comparison of two byte strings in the lexicographic order on unsigned
bytes, as the specification words it: 0 for equal strings, -1 when the first precedes
the second, 1 when it follows. -/
def lex_cmp : List Nat → List Nat → Int
  | [], [] => 0
  | [], _ :: _ => -1
  | _ :: _, [] => 1
  | x :: xs, y :: ys => if x = y then lex_cmp xs ys else if x < y then -1 else 1

/-- The string `needle` occurs in `hay` at offset `k`. -/
def occurs_at (needle hay : List Nat) (k : Nat) : Prop :=
  k ≤ hay.length ∧ (hay.drop k).take needle.length = needle

/-- A memory that holds the bytes `bs` from address 0 on and zero bytes behind them. -/
def memory_of (bs : List Nat) : Nat → Nat := fun a => bs.getD a 0

/-! ## Part II: lemmas and theorems -/

section basic

variable {α : Type}

@[simp] lemma upd_same (f : Nat → α) (i : Nat) (v : α) : upd f i v i = v := by
  simp [upd]

@[simp] lemma upd_other (f : Nat → α) {i j : Nat} (v : α) (h : j ≠ i) : upd f i v j = f j := by
  simp [upd, h]

lemma upd_upd (f : Nat → α) (i : Nat) (v w : α) : upd (upd f i v) i w = upd f i w := by
  funext j
  by_cases h : j = i <;> simp [upd, h]

end basic

section chains

lemma IsList.frame {next next1 : Nat → Option Nat} {head : Option Nat} {xs : List Nat}
    (h : IsList next head xs) (hf : ∀ x ∈ xs, next1 x = next x) : IsList next1 head xs := by
  induction xs generalizing head with
  | nil => exact h
  | cons x xs ih =>
    obtain ⟨h1, h2⟩ := h
    refine ⟨h1, ?_⟩
    rw [hf x (List.mem_cons_self x xs)]
    exact ih h2 (fun y hy => hf y (List.mem_cons_of_mem x hy))

lemma IsList.unique {next : Nat → Option Nat} {head : Option Nat} {xs ys : List Nat}
    (hx : IsList next head xs) (hy : IsList next head ys) : xs = ys := by
  induction xs generalizing head ys with
  | nil =>
    cases ys with
    | nil => rfl
    | cons y ys =>
      have h1 : head = none := hx
      have h2 : head = some y := hy.1
      rw [h1] at h2
      cases h2
  | cons x xs ih =>
    cases ys with
    | nil =>
      have h1 : head = none := hy
      have h2 : head = some x := hx.1
      rw [h1] at h2
      cases h2
    | cons y ys =>
      obtain ⟨hx1, hx2⟩ := hx
      obtain ⟨hy1, hy2⟩ := hy
      rw [hx1] at hy1
      cases hy1
      rw [ih hx2 hy2]

lemma IsList.suffix {next : Nat → Option Nat} {head : Option Nat} {xs : List Nat} {x : Nat}
    (h : IsList next head xs) (hx : x ∈ xs) :
    ∃ ys, ys.length < xs.length ∧ IsList next (next x) ys := by
  induction xs generalizing head with
  | nil => cases hx
  | cons y ys ih =>
    obtain ⟨_, h2⟩ := h
    rcases List.mem_cons.1 hx with rfl | hmem
    · exact ⟨ys, by simp, h2⟩
    · obtain ⟨zs, hlen, hz⟩ := ih h2 hmem
      exact ⟨zs, by simp; omega, hz⟩

lemma IsList.nodup {next : Nat → Option Nat} {head : Option Nat} {xs : List Nat}
    (h : IsList next head xs) : xs.Nodup := by
  induction xs generalizing head with
  | nil => exact List.nodup_nil
  | cons x xs ih =>
    obtain ⟨_, h2⟩ := h
    refine List.nodup_cons.2 ⟨?_, ih h2⟩
    intro hx
    obtain ⟨ys, hlen, hy⟩ := h2.suffix hx
    have := h2.unique hy
    rw [this] at hlen
    exact absurd hlen (lt_irrefl _)

lemma IsList.nil_iff {next : Nat → Option Nat} {xs : List Nat} :
    IsList next none xs ↔ xs = [] := by
  cases xs with
  | nil => simp [IsList]
  | cons x xs => simp [IsList]

/-- The in-place reversal terminates on every well-formed chain and returns the reversed
chain in front of the accumulator; only the `next` fields of the visited nodes change. -/
lemma reverse_list_spec (L : List Nat) :
    ∀ (fuel : Nat) (head rev : Option Nat) (R : List Nat) (entries : Nat → ProcessorMessageEntry),
      IsList (fun e => (entries e).next) head L →
      IsList (fun e => (entries e).next) rev R →
      (∀ x ∈ L, x ∉ R) → L.length ≤ fuel →
      ∃ entries1 rev1, reverse_list fuel head rev entries = Except.ok (entries1, rev1) ∧
        IsList (fun e => (entries1 e).next) rev1 (L.reverse ++ R) ∧
        (∀ e, e ∉ L → entries1 e = entries e) ∧
        (∀ e, (entries1 e).msg = (entries e).msg) := by
  induction L with
  | nil =>
    intro fuel head rev R entries hL hR _ _
    have hh : head = none := hL
    subst hh
    refine ⟨entries, rev, ?_, by simpa using hR, fun _ _ => rfl, fun _ => rfl⟩
    cases fuel <;> rfl
  | cons x xs ih =>
    intro fuel head rev R entries hL hR hdisj hfuel
    obtain ⟨hh, hxs⟩ := hL
    subst hh
    have hfull : IsList (fun e => (entries e).next) (some x) (x :: xs) := ⟨rfl, hxs⟩
    have hnd : (x :: xs).Nodup := hfull.nodup
    have hx_xs : x ∉ xs := (List.nodup_cons.1 hnd).1
    have hx_R : x ∉ R := hdisj x (List.mem_cons_self x xs)
    cases fuel with
    | zero => simp at hfuel
    | succ fuel =>
      have hxs1 : IsList (fun e => ((upd entries x { entries x with next := rev }) e).next)
          (entries x).next xs := by
        refine hxs.frame (fun y hy => ?_)
        have : y ≠ x := fun h => hx_xs (h ▸ hy)
        simp [upd, this]
      have hR1 : IsList (fun e => ((upd entries x { entries x with next := rev }) e).next)
          (some x) (x :: R) := by
        refine ⟨rfl, ?_⟩
        simp only [upd_same]
        refine hR.frame (fun y hy => ?_)
        have : y ≠ x := fun h => hx_R (h ▸ hy)
        simp [upd, this]
      have hdisj1 : ∀ y ∈ xs, y ∉ x :: R := by
        intro y hy hmem
        rcases List.mem_cons.1 hmem with rfl | hmem
        · exact hx_xs hy
        · exact hdisj y (List.mem_cons_of_mem x hy) hmem
      obtain ⟨entries1, rev1, hrun, hlist, hframe, hmsg⟩ :=
        ih fuel (entries x).next (some x) (x :: R) _ hxs1 hR1 hdisj1
          (by simp at hfuel; omega)
      refine ⟨entries1, rev1, ?_, ?_, ?_, ?_⟩
      · simpa [reverse_list] using hrun
      · simpa using hlist
      · intro e he
        have hex : e ≠ x := fun h => he (h ▸ List.mem_cons_self x xs)
        have hexs : e ∉ xs := fun h => he (List.mem_cons_of_mem x h)
        rw [hframe e hexs]
        simp [upd, hex]
      · intro e
        rw [hmsg e]
        by_cases hex : e = x
        · subst hex; simp
        · simp [upd, hex]

end chains

section processing

lemma SameCores.same_refl (s : System) : SameCores s s := ⟨rfl, rfl, rfl, rfl, rfl, rfl⟩

lemma SameCores.trans {s s1 s2 : System} (h1 : SameCores s s1) (h2 : SameCores s1 s2) :
    SameCores s s2 := by
  unfold SameCores at *
  refine ⟨h2.1.trans h1.1, h2.2.1.trans h1.2.1, h2.2.2.1.trans h1.2.2.1, ?_, ?_, ?_⟩
  · exact h2.2.2.2.1.trans h1.2.2.2.1
  · exact h2.2.2.2.2.1.trans h1.2.2.2.2.1
  · exact h2.2.2.2.2.2.trans h1.2.2.2.2.2

/-- Closed form of `smp_return_to_pool`: the message becomes the head of the free list,
linked to the previous head. -/
lemma smp_return_to_pool_eq (msg : Nat) (s : System) :
    smp_return_to_pool msg s = Except.ok
      { s with msgs := upd s.msgs msg { s.msgs msg with next := s.s_message_pool },
               s_message_pool := some msg,
               trace := s.trace ++ [Event.return_to_pool msg] } := by
  cases hp : s.s_message_pool with
  | none =>
    simp [smp_return_to_pool, smp_return_to_pool_loop, compare_exchange_strong, emit, hp]
  | some h =>
    simp [smp_return_to_pool, smp_return_to_pool_loop, compare_exchange_strong, emit, hp,
      upd_upd]

/-- The `switch` only appends to the trace. -/
lemma process_message_ok {cpu msg : Nat} {s s1 : System}
    (h : process_message cpu msg s = Except.ok s1) :
    ∃ evs, s1 = { s with trace := s.trace ++ evs } ∧
      ∀ e ∈ evs, e = Event.invoke_callback cpu msg (s.msgs msg).callback ∨
        e = Event.flush_tlb_local cpu (s.msgs msg).flush_tlb.ptr (s.msgs msg).flush_tlb.page_count := by
  unfold process_message at h
  split at h
  · cases h
    exact ⟨[_], rfl, by simp⟩
  · simp only [flush_tlb_local, emit] at h
    split at h
    · split at h
      · split at h
        · cases h
          exact ⟨[], by simp, by simp⟩
        · cases h
          exact ⟨[_], rfl, by simp⟩
      · cases h
    · cases h
      exact ⟨[_], rfl, by simp⟩

lemma process_message_same {cpu msg : Nat} {s s1 : System}
    (h : process_message cpu msg s = Except.ok s1) :
    SameCores s s1 ∧ s1.msgs = s.msgs ∧ s1.s_message_pool = s.s_message_pool := by
  obtain ⟨evs, rfl, _⟩ := process_message_ok h
  exact ⟨SameCores.same_refl _, rfl, rfl⟩

lemma smp_cleanup_message_same (msg : Nat) (s : System) :
    SameCores s (smp_cleanup_message msg s) := by
  unfold smp_cleanup_message
  split
  · exact ⟨rfl, rfl, rfl, rfl, rfl, rfl⟩
  · exact SameCores.same_refl s

lemma release_message_same {cpu msg : Nat} {s s1 : System}
    (h : release_message cpu msg s = Except.ok s1) : SameCores s s1 := by
  unfold release_message at h
  simp only at h
  split at h
  · cases h
  · split at h
    · rw [smp_return_to_pool_eq] at h
      cases h
      obtain ⟨c1, c2, c3, c4, c5, c6⟩ := smp_cleanup_message_same msg
        (emit (Event.refs_fetch_sub cpu msg (s.msgs msg).refs)
          { s with msgs := upd s.msgs msg { s.msgs msg with refs := u32_sub (s.msgs msg).refs 1 } })
      exact ⟨c1, c2, c3, c4, c5, c6⟩
    · cases h
      exact ⟨rfl, rfl, rfl, rfl, rfl, rfl⟩

lemma process_one_same {cpu msg : Nat} {s s1 : System}
    (h : process_one cpu msg s = Except.ok s1) : SameCores s s1 := by
  unfold process_one at h
  cases h1 : process_message cpu msg s with
  | error f => simp [h1] at h
  | ok t1 =>
    cases h2 : release_message cpu msg t1 with
    | error f => simp [h1, h2] at h
    | ok t2 =>
      simp only [h1, h2] at h
      split at h
      · cases h
      · cases h
        exact SameCores.trans (process_message_same h1).1 (release_message_same h2)

lemma process_in_order_same {cpu : Nat} (ms : List Nat) :
    ∀ {s s1 : System}, process_in_order cpu ms s = Except.ok s1 → SameCores s s1 := by
  induction ms with
  | nil =>
    intro s s1 h
    cases h
    exact SameCores.same_refl s
  | cons m ms ih =>
    intro s s1 h
    unfold process_in_order at h
    cases h1 : process_one cpu m s with
    | error f => simp [h1] at h
    | ok t1 =>
      simp only [h1] at h
      exact SameCores.trans (process_one_same h1) (ih h)

/-- Walking a well-formed chain, the drain loop processes the messages of its entries in
chain order, each one completely before the next. -/
lemma process_pending_loop_eq (cpu : Nat) (L : List Nat) :
    ∀ (fuel : Nat) (cur : Option Nat) (s : System),
      IsList (fun e => (s.entries e).next) cur L → L.length ≤ fuel →
      process_pending_loop cpu fuel cur s
        = process_in_order cpu (L.map (fun e => (s.entries e).msg)) s := by
  induction L with
  | nil =>
    intro fuel cur s hL _
    have hc : cur = none := hL
    subst hc
    cases fuel <;> rfl
  | cons x xs ih =>
    intro fuel cur s hL hfuel
    obtain ⟨hc, hxs⟩ := hL
    subst hc
    cases fuel with
    | zero => simp at hfuel
    | succ fuel =>
      simp only [process_pending_loop, List.map_cons, process_in_order, process_one]
      cases h1 : process_message cpu (s.entries x).msg s with
      | error f => rfl
      | ok t1 =>
        simp only []
        cases h2 : release_message cpu (s.entries x).msg t1 with
        | error f => rfl
        | ok t2 =>
          simp only []
          have hs : SameCores s t2 :=
            SameCores.trans (process_message_same h1).1 (release_message_same h2)
          by_cases hh : (t2.procs cpu).m_halt_requested = true
          · simp [hh]
          · simp only [hh]
            have hxs2 : IsList (fun e => (t2.entries e).next) (s.entries x).next xs := by
              rw [hs.1]; exact hxs
            have := ih fuel (s.entries x).next t2 hxs2 (by simp at hfuel; omega)
            simp only [Bool.false_eq_true, if_false]
            rw [this, hs.1]

/-- Closed form of `smp_enqueue_message`: the entry is linked in front of the previous
head of the queue, and the result tells whether the queue was empty. -/
lemma smp_enqueue_message_eq (cpu msg : Nat) (s : System)
    (hmsg : (s.entries ((s.msgs msg).per_proc_entries + cpu)).msg = msg) :
    smp_enqueue_message cpu msg s = Except.ok
      (decide ((s.procs cpu).m_message_queue = none),
       { s with
         entries := upd s.entries ((s.msgs msg).per_proc_entries + cpu)
           { s.entries ((s.msgs msg).per_proc_entries + cpu) with
             next := (s.procs cpu).m_message_queue },
         procs := upd s.procs cpu
           { s.procs cpu with m_message_queue := some ((s.msgs msg).per_proc_entries + cpu) } }) := by
  unfold smp_enqueue_message
  rw [if_neg (not_not.2 hmsg)]
  cases hq : (s.procs cpu).m_message_queue with
  | none =>
    simp [smp_enqueue_message_loop, compare_exchange_strong, hq]
  | some h =>
    simp [smp_enqueue_message_loop, compare_exchange_strong, hq, upd_upd]

lemma enter_leave_procs (procs : Nat → Processor) (cpu : Nat) :
    upd (upd procs cpu { procs cpu with m_in_critical := (procs cpu).m_in_critical + 1 }) cpu
      { procs cpu with m_in_critical := (procs cpu).m_in_critical + 1 - 1 } = procs := by
  funext j
  by_cases hj : j = cpu
  · subst hj; simp
  · simp [upd, hj]

/-- A drain of an empty queue does nothing (unless a halt was requested). -/
lemma smp_process_pending_messages_empty (fuel cpu : Nat) (s : System)
    (hen : s.s_smp_enabled = true) (hq : (s.procs cpu).m_message_queue = none) :
    smp_process_pending_messages fuel cpu s =
      if (s.procs cpu).m_halt_requested then Except.error Fault.halted
      else Except.ok (false, s) := by
  unfold smp_process_pending_messages
  rw [if_neg (by simp [hen])]
  simp only [enter_critical, upd_same, hq, leave_critical, Nat.add_one_ne_zero, if_false]
  cases hh : (s.procs cpu).m_halt_requested
  · simp only [Bool.false_eq_true, if_false]
    have := enter_leave_procs s.procs cpu
    simp only [] at this
    rw [hq, hh] at this
    rw [this]
  · rfl

/-- A drain of a non-empty, well-formed queue takes the whole chain, reverses it and
processes the messages of its entries in arrival order (the reverse of the chain order),
each one completely before the next. -/
lemma smp_process_pending_messages_eq (fuel cpu : Nat) (s : System) (L : List Nat)
    (hen : s.s_smp_enabled = true)
    (hL : IsList (fun e => (s.entries e).next) (s.procs cpu).m_message_queue L)
    (hne : L ≠ []) (hfuel : L.length ≤ fuel) :
    ∃ entries1, (∀ e, e ∉ L → entries1 e = s.entries e) ∧
      (∀ e, (entries1 e).msg = (s.entries e).msg) ∧
      smp_process_pending_messages fuel cpu s =
        match process_in_order cpu (L.reverse.map (fun e => (s.entries e).msg))
          { s with
            procs := upd s.procs cpu
              { s.procs cpu with
                m_in_critical := (s.procs cpu).m_in_critical + 1, m_message_queue := none },
            entries := entries1 } with
        | Except.error f => Except.error f
        | Except.ok s2 =>
          Except.ok (true, { s2 with
            procs := upd s.procs cpu { s.procs cpu with m_message_queue := none } }) := by
  cases L with
  | nil => exact absurd rfl hne
  | cons x xs =>
    have hq : (s.procs cpu).m_message_queue = some x := hL.1
    obtain ⟨entries1, rev1, hrun, hlist, hframe, hmsg⟩ :=
      reverse_list_spec (x :: xs) fuel (some x) none [] s.entries (hq ▸ hL) rfl
        (fun _ _ => List.not_mem_nil _) hfuel
    refine ⟨entries1, hframe, hmsg, ?_⟩
    have hmap : (x :: xs).reverse.map (fun e => (entries1 e).msg)
        = (x :: xs).reverse.map (fun e => (s.entries e).msg) :=
      List.map_congr_left (fun e _ => hmsg e)
    unfold smp_process_pending_messages
    rw [if_neg (by simp [hen])]
    simp only [enter_critical, upd_same, hq, hrun, upd_upd]
    rw [process_pending_loop_eq cpu ((x :: xs).reverse ++ []) fuel rev1 _ hlist
      (by simpa using hfuel)]
    simp only [List.append_nil, hmap]
    cases hp : process_in_order cpu ((x :: xs).reverse.map (fun e => (s.entries e).msg))
        { s with
          procs := upd s.procs cpu
            { s.procs cpu with
              m_in_critical := (s.procs cpu).m_in_critical + 1, m_message_queue := none },
          entries := entries1 } with
    | error f => rfl
    | ok s2 =>
      have hs := process_in_order_same _ hp
      simp only [leave_critical, hs.2.1, upd_same, Nat.add_one_ne_zero, if_false, upd_upd,
        Nat.add_sub_cancel]

lemma decremented_by_append (cpu : Nat) (xs ys : List Event) :
    decremented_by cpu (xs ++ ys) = decremented_by cpu xs ++ decremented_by cpu ys := by
  induction xs with
  | nil => rfl
  | cons e es ih =>
    cases e with
    | refs_fetch_sub c m r =>
      by_cases hc : c = cpu <;> simp [decremented_by, hc, ih]
    | _ => simpa [decremented_by] using ih

lemma flushes_on_append (cpu : Nat) (xs ys : List Event) :
    flushes_on cpu (xs ++ ys) = flushes_on cpu xs ++ flushes_on cpu ys := by
  induction xs with
  | nil => rfl
  | cons e es ih =>
    cases e with
    | flush_tlb_local c p n =>
      by_cases hc : c = cpu <;> simp [flushes_on, hc, ih]
    | _ => simpa [flushes_on] using ih

/-- What one pass through the loop body does: only the record of the processed message
and the pool head change, and the trace gains one block that holds exactly one decrement,
that of the processed message. -/
lemma process_one_ok {cpu m : Nat} {s s1 : System} (h : process_one cpu m s = Except.ok s1) :
    SameCores s s1 ∧ (∀ m1, m1 ≠ m → s1.msgs m1 = s.msgs m1) ∧
      (s1.msgs m).refs = u32_sub (s.msgs m).refs 1 ∧ (s.msgs m).refs ≠ 0 ∧
      ∃ block, s1.trace = s.trace ++ block ∧
        (∀ c1, decremented_by c1 block = if c1 = cpu then [m] else []) ∧
        (∀ c1, c1 ≠ cpu → flushes_on c1 block = []) := by
  refine ⟨process_one_same h, ?_⟩
  unfold process_one at h
  cases h1 : process_message cpu m s with
  | error f => simp [h1] at h
  | ok t1 =>
    obtain ⟨evs, rfl, hevs⟩ := process_message_ok h1
    have hdec : ∀ c1, decremented_by c1 evs = [] := by
      intro c1
      clear h h1
      induction evs with
      | nil => rfl
      | cons e es ih =>
        have he := hevs e (List.mem_cons_self e es)
        have ih1 := ih (fun e1 he1 => hevs e1 (List.mem_cons_of_mem e he1))
        rcases he with rfl | rfl <;> simpa [decremented_by] using ih1
    have hfl : ∀ c1, c1 ≠ cpu → flushes_on c1 evs = [] := by
      intro c1 hc1
      have hc2 : ¬ cpu = c1 := fun h => hc1 h.symm
      clear h h1 hdec
      induction evs with
      | nil => rfl
      | cons e es ih =>
        have he := hevs e (List.mem_cons_self e es)
        have ih1 := ih (fun e1 he1 => hevs e1 (List.mem_cons_of_mem e he1))
        rcases he with rfl | rfl <;> simpa [flushes_on, hc2] using ih1
    simp only [h1] at h
    cases h2 : release_message cpu m { s with trace := s.trace ++ evs } with
    | error f => simp [h2] at h
    | ok t2 =>
      simp only [h2] at h
      split at h
      · cases h
      · cases h
        unfold release_message at h2
        simp only at h2
        split at h2
        · cases h2
        · rename_i hrefs
          split at h2
          · rw [smp_return_to_pool_eq] at h2
            cases h2
            unfold smp_cleanup_message
            simp only [emit, upd_same]
            split
            · refine ⟨fun m1 hm1 => by simp [upd, hm1], by simp, hrefs, ?_⟩
              refine ⟨evs ++ [Event.refs_fetch_sub cpu m (s.msgs m).refs,
                Event.cleanup_callback m, Event.return_to_pool m], by simp, fun c1 => ?_,
                fun c1 hc1 => by simp [flushes_on_append, hfl c1 hc1, flushes_on]⟩
              by_cases hc1 : c1 = cpu
              · simp [decremented_by_append, hdec, decremented_by, hc1]
              · have hc2 : ¬ cpu = c1 := fun h => hc1 h.symm
                simp [decremented_by_append, hdec, decremented_by, hc1, hc2]
            · refine ⟨fun m1 hm1 => by simp [upd, hm1], by simp, hrefs, ?_⟩
              refine ⟨evs ++ [Event.refs_fetch_sub cpu m (s.msgs m).refs,
                Event.return_to_pool m], by simp, fun c1 => ?_,
                fun c1 hc1 => by simp [flushes_on_append, hfl c1 hc1, flushes_on]⟩
              by_cases hc1 : c1 = cpu
              · simp [decremented_by_append, hdec, decremented_by, hc1]
              · have hc2 : ¬ cpu = c1 := fun h => hc1 h.symm
                simp [decremented_by_append, hdec, decremented_by, hc1, hc2]
          · cases h2
            refine ⟨fun m1 hm1 => by simp [emit, upd, hm1], by simp [emit], hrefs, ?_⟩
            refine ⟨evs ++ [Event.refs_fetch_sub cpu m (s.msgs m).refs], by simp [emit],
              fun c1 => ?_, fun c1 hc1 => by simp [flushes_on_append, hfl c1 hc1, flushes_on]⟩
            by_cases hc1 : c1 = cpu
            · simp [decremented_by_append, hdec, decremented_by, hc1]
            · have hc2 : ¬ cpu = c1 := fun h => hc1 h.symm
              simp [decremented_by_append, hdec, decremented_by, hc1, hc2]

/-- The full effect of one pass through the loop body on the message heap, the pool head
and the trace. The message is returned to the pool exactly when the count goes from 1 to
0 and the message is asynchronous. -/
lemma process_one_effect {cpu m : Nat} {s s1 : System} (h : process_one cpu m s = Except.ok s1) :
    (∀ m1, m1 ≠ m → s1.msgs m1 = s.msgs m1) ∧
      (s1.msgs m).refs = u32_sub (s.msgs m).refs 1 ∧ (s.msgs m).refs ≠ 0 ∧
      (s1.msgs m).async = (s.msgs m).async ∧ (s1.msgs m).type = (s.msgs m).type ∧
      (s1.msgs m).flush_tlb = (s.msgs m).flush_tlb ∧
      (s1.msgs m).per_proc_entries = (s.msgs m).per_proc_entries ∧
      s1.s_message_pool =
        (if (s.msgs m).refs = 1 ∧ (s.msgs m).async = true then some m else s.s_message_pool) ∧
      (s1.msgs m).next =
        (if (s.msgs m).refs = 1 ∧ (s.msgs m).async = true then s.s_message_pool
         else (s.msgs m).next) ∧
      ∃ mid, (∀ e ∈ mid, is_get e = false ∧ is_return e = false) ∧
        s1.trace = s.trace ++ mid ++
          (if (s.msgs m).refs = 1 ∧ (s.msgs m).async = true then [Event.return_to_pool m]
           else []) := by
  unfold process_one at h
  cases h1 : process_message cpu m s with
  | error f => simp [h1] at h
  | ok t1 =>
    obtain ⟨evs, rfl, hevs⟩ := process_message_ok h1
    have hquiet : ∀ e ∈ evs, is_get e = false ∧ is_return e = false := by
      intro e he
      rcases hevs e he with rfl | rfl <;> exact ⟨rfl, rfl⟩
    simp only [h1] at h
    cases h2 : release_message cpu m { s with trace := s.trace ++ evs } with
    | error f => simp [h2] at h
    | ok t2 =>
      simp only [h2] at h
      split at h
      · cases h
      · cases h
        unfold release_message at h2
        simp only at h2
        split at h2
        · cases h2
        · rename_i hrefs
          split at h2
          · rename_i hret
            rw [smp_return_to_pool_eq] at h2
            cases h2
            unfold smp_cleanup_message
            simp only [emit, upd_same]
            rw [if_pos hret, if_pos hret, if_pos hret]
            split
            · refine ⟨fun m1 hm1 => by simp [upd, hm1], by simp, hrefs, by simp, by simp,
                by simp, by simp, rfl, by simp, ?_⟩
              refine ⟨evs ++ [Event.refs_fetch_sub cpu m (s.msgs m).refs,
                Event.cleanup_callback m], ?_, by simp⟩
              intro e he
              rcases List.mem_append.1 he with he | he
              · exact hquiet e he
              · simp only [List.mem_cons, List.mem_singleton, List.not_mem_nil, or_false] at he
                rcases he with rfl | rfl <;> exact ⟨rfl, rfl⟩
            · refine ⟨fun m1 hm1 => by simp [upd, hm1], by simp, hrefs, by simp, by simp,
                by simp, by simp, rfl, by simp, ?_⟩
              refine ⟨evs ++ [Event.refs_fetch_sub cpu m (s.msgs m).refs], ?_, by simp⟩
              intro e he
              rcases List.mem_append.1 he with he | he
              · exact hquiet e he
              · simp only [List.mem_singleton] at he
                subst he
                exact ⟨rfl, rfl⟩
          · rename_i hret
            cases h2
            rw [if_neg hret, if_neg hret, if_neg hret]
            refine ⟨fun m1 hm1 => by simp [emit, upd, hm1], by simp [emit], hrefs,
              by simp [emit], by simp [emit], by simp [emit], by simp [emit], rfl,
              by simp [emit], ?_⟩
            refine ⟨evs ++ [Event.refs_fetch_sub cpu m (s.msgs m).refs], ?_, by simp [emit]⟩
            intro e he
            rcases List.mem_append.1 he with he | he
            · exact hquiet e he
            · simp only [List.mem_singleton] at he
              subst he
              exact ⟨rfl, rfl⟩

/-- A deliverable message is processed to the end when no halt is requested. -/
lemma process_one_total {cpu m : Nat} {s : System} (hd : Deliverable s m)
    (hh : (s.procs cpu).m_halt_requested = false) :
    ∃ s1, process_one cpu m s = Except.ok s1 := by
  obtain ⟨hrefs, hrange⟩ := hd
  have h1 : ∃ t1, process_message cpu m s = Except.ok t1 := by
    unfold process_message
    split
    · exact ⟨_, rfl⟩
    · rename_i hty
      simp only
      split
      · rename_i hua
        rw [if_pos (hrange hty hua)]
        split <;> exact ⟨_, rfl⟩
      · exact ⟨_, rfl⟩
  obtain ⟨t1, ht1⟩ := h1
  obtain ⟨hs1, hm1, _⟩ := process_message_same ht1
  have h2 : ∃ t2, release_message cpu m t1 = Except.ok t2 := by
    unfold release_message
    simp only
    rw [if_neg (by rw [hm1]; exact hrefs)]
    split
    · rw [smp_return_to_pool_eq]; exact ⟨_, rfl⟩
    · exact ⟨_, rfl⟩
  obtain ⟨t2, ht2⟩ := h2
  have hs2 := release_message_same ht2
  refine ⟨t2, ?_⟩
  unfold process_one
  simp only [ht1, ht2]
  rw [if_neg]
  rw [hs2.2.1, hs1.2.1, hh]
  simp

lemma Deliverable.of_same_msg {s s1 : System} {m : Nat} (hd : Deliverable s m)
    (hm : s1.msgs m = s.msgs m) (hmm : s1.mm = s.mm) : Deliverable s1 m := by
  unfold Deliverable at *
  rw [hm, hmm]
  exact hd

/-- Pairwise distinct deliverable messages are all processed, in list order, and the
decrements recorded in the trace are theirs, in that order. -/
lemma process_in_order_total (cpu : Nat) (ms : List Nat) :
    ∀ (s : System), ms.Nodup → (∀ m ∈ ms, Deliverable s m) →
      (s.procs cpu).m_halt_requested = false →
      ∃ s1 new, process_in_order cpu ms s = Except.ok s1 ∧ s1.trace = s.trace ++ new ∧
        decremented_by cpu new = ms := by
  induction ms with
  | nil =>
    intro s _ _ _
    exact ⟨s, [], rfl, by simp, rfl⟩
  | cons m ms ih =>
    intro s hnd hd hh
    obtain ⟨hm, hnd1⟩ := List.nodup_cons.1 hnd
    obtain ⟨t1, ht1⟩ := process_one_total (hd m (List.mem_cons_self m ms)) hh
    obtain ⟨hs, hother, _, _, block, hblock, hdec, _⟩ := process_one_ok ht1
    have hd1 : ∀ m1 ∈ ms, Deliverable t1 m1 := by
      intro m1 hm1
      have hne : m1 ≠ m := fun h => hm (h ▸ hm1)
      exact (hd m1 (List.mem_cons_of_mem m hm1)).of_same_msg (hother m1 hne) hs.2.2.2.1
    obtain ⟨s1, new, hrun, htr, hdec1⟩ := ih t1 hnd1 hd1 (by rw [hs.2.1]; exact hh)
    refine ⟨s1, block ++ new, ?_, ?_, ?_⟩
    · simp only [process_in_order, ht1]
      exact hrun
    · rw [htr, hblock, List.append_assoc]
    · rw [decremented_by_append, hdec cpu, hdec1, if_pos rfl]
      rfl

/-- `smp_enqueue_message` by its effect on the fields of the machine. -/
lemma smp_enqueue_message_spec (cpu msg : Nat) (s : System)
    (hmsg : (s.entries ((s.msgs msg).per_proc_entries + cpu)).msg = msg) :
    ∃ s1, smp_enqueue_message cpu msg s
        = Except.ok (decide ((s.procs cpu).m_message_queue = none), s1) ∧
      s1.entries = upd s.entries ((s.msgs msg).per_proc_entries + cpu)
        { next := (s.procs cpu).m_message_queue, msg := msg } ∧
      s1.procs = upd s.procs cpu
        { s.procs cpu with m_message_queue := some ((s.msgs msg).per_proc_entries + cpu) } ∧
      s1.msgs = s.msgs ∧ s1.trace = s.trace ∧ s1.s_message_pool = s.s_message_pool ∧
      s1.mm = s.mm ∧ s1.s_smp_enabled = s.s_smp_enabled ∧ s1.count = s.count ∧
      s1.pause_schedule = s.pause_schedule := by
  refine ⟨_, smp_enqueue_message_eq cpu msg s hmsg, ?_, rfl, rfl, rfl, rfl, rfl, rfl, rfl, rfl⟩
  simp only [hmsg]

/-- Enqueueing pairwise distinct messages, none of them already queued, builds the chain
of their entries in reverse order of arrival in front of the old chain, and touches
nothing but the links of those entries and the queue head. -/
lemma enqueue_all_spec (cpu : Nat) (ms : List Nat) :
    ∀ (s : System) (L0 : List Nat),
      IsList (fun e => (s.entries e).next) (s.procs cpu).m_message_queue L0 →
      (L0.map (fun e => (s.entries e).msg) ++ ms).Nodup →
      (∀ m ∈ ms, (s.entries ((s.msgs m).per_proc_entries + cpu)).msg = m) →
      ∃ s1 L1, enqueue_all cpu ms s = Except.ok s1 ∧
        IsList (fun e => (s1.entries e).next) (s1.procs cpu).m_message_queue L1 ∧
        L1.map (fun e => (s1.entries e).msg) = ms.reverse ++ L0.map (fun e => (s.entries e).msg) ∧
        L1.length = L0.length + ms.length ∧
        s1.msgs = s.msgs ∧ s1.trace = s.trace ∧ s1.s_message_pool = s.s_message_pool ∧
        s1.mm = s.mm ∧ s1.s_smp_enabled = s.s_smp_enabled ∧
        (∀ c, (s1.procs c).m_halt_requested = (s.procs c).m_halt_requested) ∧
        (∀ c, (s1.procs c).cr3 = (s.procs c).cr3) := by
  induction ms with
  | nil =>
    intro s L0 hq _ _
    exact ⟨s, L0, rfl, hq, by simp, by simp, rfl, rfl, rfl, rfl, rfl, fun _ => rfl, fun _ => rfl⟩
  | cons m ms ih =>
    intro s L0 hq hnd hentry
    have hm := hentry m (List.mem_cons_self m ms)
    have hnotin : (s.msgs m).per_proc_entries + cpu ∉ L0 := by
      intro hin
      have : m ∈ L0.map (fun e => (s.entries e).msg) := List.mem_map.2 ⟨_, hin, hm⟩
      have hdis := (List.nodup_append.1 hnd).2.2
      exact hdis this (List.mem_cons_self m ms)
    obtain ⟨t, ht, hte, htp, htm, g2, g3, g4, g5, _, _⟩ := smp_enqueue_message_spec cpu m s hm
    have hmsgs : ∀ e, (t.entries e).msg = (s.entries e).msg := by
      intro e
      rw [hte]
      by_cases he : e = (s.msgs m).per_proc_entries + cpu
      · subst he; simp [hm]
      · simp [upd, he]
    have hq1 : IsList (fun e => (t.entries e).next) (t.procs cpu).m_message_queue
        (((s.msgs m).per_proc_entries + cpu) :: L0) := by
      refine ⟨by rw [htp]; simp, ?_⟩
      simp only [hte, upd_same]
      refine hq.frame (fun y hy => ?_)
      have : y ≠ (s.msgs m).per_proc_entries + cpu := fun h => hnotin (h ▸ hy)
      simp [upd, this]
    have hnd1 : ((((s.msgs m).per_proc_entries + cpu) :: L0).map (fun e => (t.entries e).msg)
        ++ ms).Nodup := by
      simp only [List.map_cons, hmsgs, hm]
      have hperm : (m :: (L0.map (fun e => (s.entries e).msg) ++ ms)).Perm
          (L0.map (fun e => (s.entries e).msg) ++ m :: ms) :=
        (List.perm_middle).symm
      exact hperm.symm.nodup_iff.1 hnd
    have hentry1 : ∀ m1 ∈ ms, (t.entries ((t.msgs m1).per_proc_entries + cpu)).msg = m1 := by
      intro m1 hm1
      rw [hmsgs, htm]
      exact hentry m1 (List.mem_cons_of_mem m hm1)
    obtain ⟨s1, L1, hrun, hL1, hmap, hlen, h1, h2, h3, h4, h5, h6, h7⟩ :=
      ih t _ hq1 hnd1 hentry1
    refine ⟨s1, L1, ?_, hL1, ?_, ?_, h1.trans htm, h2.trans g2, h3.trans g3, h4.trans g4,
      h5.trans g5, ?_, ?_⟩
    · rw [enqueue_all, ht]
      exact hrun
    · rw [hmap]
      simp only [List.map_cons, hmsgs, hm, List.reverse_cons, List.append_assoc,
        List.singleton_append]
    · rw [hlen]
      simp only [List.length_cons]
      omega
    · intro c
      rw [h6 c, htp]
      by_cases hc : c = cpu
      · subst hc; simp
      · simp [upd, hc]
    · intro c
      rw [h7 c, htp]
      by_cases hc : c = cpu
      · subst hc; simp
      · simp [upd, hc]

end processing

section accounting

lemma length_le_of_nodup_lt {l : List Nat} {n : Nat} (hnd : l.Nodup) (hlt : ∀ x ∈ l, x < n) :
    l.length ≤ n := by
  have hsub : l ⊆ List.range n := fun x hx => List.mem_range.2 (hlt x hx)
  have := (List.subperm_of_subset hnd hsub).length_le
  simpa using this

lemma acquired_append (xs ys : List Event) : acquired (xs ++ ys) = acquired xs + acquired ys := by
  simp [acquired, List.countP_append]

lemma returned_append (xs ys : List Event) : returned (xs ++ ys) = returned xs + returned ys := by
  simp [returned, List.countP_append]

lemma acquired_quiet {xs : List Event} (h : ∀ e ∈ xs, is_get e = false ∧ is_return e = false) :
    acquired xs = 0 := by
  simp only [acquired, List.countP_eq_zero]
  intro e he
  simp [(h e he).1]

lemma returned_quiet {xs : List Event} (h : ∀ e ∈ xs, is_get e = false ∧ is_return e = false) :
    returned xs = 0 := by
  simp only [returned, List.countP_eq_zero]
  intro e he
  simp [(h e he).2]

lemma count_get_quiet {xs : List Event} (h : ∀ e ∈ xs, is_get e = false ∧ is_return e = false)
    (m : Nat) : xs.count (Event.get_from_pool m) = 0 := by
  rw [List.count_eq_zero]
  intro hm
  have := (h _ hm).1
  simp [is_get] at this

lemma count_return_quiet {xs : List Event}
    (h : ∀ e ∈ xs, is_get e = false ∧ is_return e = false) (m : Nat) :
    xs.count (Event.return_to_pool m) = 0 := by
  rw [List.count_eq_zero]
  intro hm
  have := (h _ hm).2
  simp [is_return] at this

lemma BalancedAt.of_same_counts {cap : Nat} {tr tr1 : List Event} (h : BalancedAt cap tr)
    (ha : acquired tr1 = acquired tr) (hr : returned tr1 = returned tr)
    (hg : ∀ m, tr1.count (Event.get_from_pool m) = tr.count (Event.get_from_pool m))
    (hrm : ∀ m, tr1.count (Event.return_to_pool m) = tr.count (Event.return_to_pool m)) :
    BalancedAt cap tr1 := by
  unfold BalancedAt at *
  rw [ha, hr]
  refine ⟨h.1, h.2.1, fun m => ?_⟩
  rw [hg, hrm]
  exact h.2.2 m

lemma Balanced.last {cap : Nat} {tr : List Event} (h : Balanced cap tr) : BalancedAt cap tr := by
  have := h tr.length
  simpa using this

/-- Extending a balanced trace by one event keeps it balanced if the condition holds at
the new end. -/
lemma Balanced.snoc {cap : Nat} {tr : List Event} {e : Event} (h : Balanced cap tr)
    (hl : BalancedAt cap (tr ++ [e])) : Balanced cap (tr ++ [e]) := by
  intro k
  by_cases hk : k ≤ tr.length
  · rw [List.take_append_of_le_length hk]
    exact h k
  · rw [List.take_of_length_le (by simp; omega)]
    exact hl

/-- Events other than pool traffic keep a trace balanced. -/
lemma Balanced.append_quiet {cap : Nat} {tr : List Event} (h : Balanced cap tr) :
    ∀ (xs : List Event), (∀ e ∈ xs, is_get e = false ∧ is_return e = false) →
      Balanced cap (tr ++ xs) := by
  intro xs
  induction xs using List.reverseRecOn with
  | nil => intro _; simpa using h
  | append_singleton xs e ih =>
    intro hq
    have hxs : ∀ e1 ∈ xs, is_get e1 = false ∧ is_return e1 = false :=
      fun e1 he1 => hq e1 (List.mem_append_left _ he1)
    have hall := hq
    rw [← List.append_assoc]
    refine (ih hxs).snoc ?_
    rw [List.append_assoc]
    refine h.last.of_same_counts ?_ ?_ ?_ ?_
    · rw [acquired_append, acquired_quiet hall]; rfl
    · rw [returned_append, returned_quiet hall]; rfl
    · intro m; rw [List.count_append, count_get_quiet hall]; rfl
    · intro m; rw [List.count_append, count_return_quiet hall]; rfl

/-- The accounting equations of the invariant give the balance condition at the end of
the trace. -/
lemma balancedAt_of_counts {cap : Nat} {tr : List Event} {F : List Nat}
    (hm : ∀ m, ∃ d, d ≤ 1 ∧
      tr.count (Event.get_from_pool m) = tr.count (Event.return_to_pool m) + d)
    (ht : acquired tr + F.length = returned tr + cap) (hF : F.length ≤ cap) :
    BalancedAt cap tr := by
  refine ⟨by omega, by omega, fun m => ?_⟩
  obtain ⟨d, hd, he⟩ := hm m
  omega

lemma any_congr_mem {l : List Nat} {p q : Nat → Bool} (h : ∀ x ∈ l, p x = q x) :
    l.any p = l.any q := by
  induction l with
  | nil => rfl
  | cons x xs ih =>
    rw [List.any_cons, List.any_cons, h x (List.mem_cons_self x xs),
      ih (fun y hy => h y (List.mem_cons_of_mem x hy))]

lemma countP_range_succ (p : Nat → Bool) (n : Nat) :
    (List.range (n + 1)).countP p = (List.range n).countP p + (if p n = true then 1 else 0) := by
  rw [List.range_succ, List.countP_append]
  by_cases h : p n = true <;> simp [h]

lemma countP_range_congr (p q : Nat → Bool) (n : Nat) (h : ∀ c, c < n → p c = q c) :
    (List.range n).countP p = (List.range n).countP q := by
  induction n with
  | zero => rfl
  | succ n ih =>
    rw [countP_range_succ, countP_range_succ, ih (fun c hc => h c (by omega)), h n (by omega)]

lemma countP_range_le (p : Nat → Bool) (n : Nat) : (List.range n).countP p ≤ n := by
  have := List.countP_le_length p (l := List.range n)
  simpa using this

/-- Two predicates that differ at the single index `c`, where the first holds and the
second does not, have counts over `range n` that differ by one. -/
lemma countP_range_flip (p q : Nat → Bool) (n c : Nat) (hc : c < n) (hp : p c = true)
    (hq : q c = false) (h : ∀ c1, c1 ≠ c → q c1 = p c1) :
    (List.range n).countP q + 1 = (List.range n).countP p := by
  induction n with
  | zero => omega
  | succ n ih =>
    rw [countP_range_succ, countP_range_succ]
    by_cases hcn : c = n
    · subst hcn
      rw [countP_range_congr q p c (fun c1 hc1 => h c1 (by omega)), hp, hq]
      simp
    · rw [h n (fun hn => hcn hn.symm)]
      have := ih (by omega)
      omega

lemma countP_range_add (p q r : Nat → Bool) (n : Nat)
    (h : ∀ c, c < n → (if r c = true then 1 else 0)
      = (if p c = true then 1 else 0) + (if q c = true then 1 else 0)) :
    (List.range n).countP r = (List.range n).countP p + (List.range n).countP q := by
  induction n with
  | zero => rfl
  | succ n ih =>
    rw [countP_range_succ, countP_range_succ, countP_range_succ, ih (fun c hc => h c (by omega)),
      h n (by omega)]
    omega

lemma holders_le (N : Nat) (Q : Nat → List Nat) (m : Nat) : holders N Q m ≤ N :=
  countP_range_le _ N

lemma holders_pos {N : Nat} {Q : Nat → List Nat} {m c : Nat} (hc : c < N) (hm : m ∈ Q c) :
    0 < holders N Q m := by
  unfold holders
  rw [List.countP_pos_iff]
  exact ⟨c, List.mem_range.2 hc, by simpa using hm⟩

lemma holders_congr {N : Nat} {Q Q1 : Nat → List Nat} {m : Nat}
    (h : ∀ c, c < N → (m ∈ Q1 c ↔ m ∈ Q c)) : holders N Q1 m = holders N Q m := by
  unfold holders
  refine countP_range_congr _ _ N (fun c hc => ?_)
  simp only [decide_eq_decide]
  exact h c hc

lemma holders_remove {N : Nat} {Q : Nat → List Nat} {m c : Nat} {L : List Nat} (hc : c < N)
    (hm : m ∈ Q c) (hL : m ∉ L) : holders N (upd Q c L) m + 1 = holders N Q m := by
  unfold holders
  refine countP_range_flip _ _ N c hc (by simpa using hm) (by simpa using hL) (fun c1 hc1 => ?_)
  simp [upd, hc1]

lemma holders_zero {N : Nat} {Q : Nat → List Nat} {m : Nat} (h : holders N Q m = 0) :
    ∀ c, c < N → m ∉ Q c := by
  intro c hc hm
  have := holders_pos hc hm
  omega

lemma u32_sub_one {r : Nat} (h0 : r ≠ 0) (hlt : r < 2 ^ 32) : u32_sub r 1 = r - 1 := by
  unfold u32_sub
  have h1 : (1 : Nat) % 2 ^ 32 = 1 := by norm_num
  rw [h1]
  have h2 : r + 2 ^ 32 - 1 = (r - 1) + 2 ^ 32 := by omega
  rw [h2, Nat.add_mod_right, Nat.mod_eq_of_lt (by omega)]

end accounting

section invariants

lemma MsgInv.free_length_le {N : Nat} {s : System} {Q : Nat → List Nat} {H F : List Nat}
    (mi : MsgInv N s Q H F) : F.length ≤ 100 * N :=
  length_le_of_nodup_lt mi.pool.nodup mi.free_lt

lemma MsgInv.refs_bounds {N : Nat} {s : System} {Q : Nat → List Nat} {H F : List Nat}
    (mi : MsgInv N s Q H F) {c m : Nat} (hm : m ∈ Q c) :
    (s.msgs m).refs ≠ 0 ∧ (s.msgs m).refs < 2 ^ 32 := by
  have h1 := mi.refs c m hm
  have h2 := holders_pos (mi.queue_lt c m hm).2 hm
  have h3 := holders_le N Q m
  have h4 := mi.N_lt
  constructor <;> omega

/-- One pass through the loop body keeps the invariant: the processed message leaves the
queue of the draining core, and joins the free list exactly when it is returned. -/
lemma MsgInv.step_process_one {N : Nat} {s s1 : System} {Q : Nat → List Nat} {H F L : List Nat}
    {c m : Nat} (mi : MsgInv N s Q H F) (hQ : Q c = m :: L)
    (h : process_one c m s = Except.ok s1) :
    MsgInv N s1 (upd Q c L) H
      (if (s.msgs m).refs = 1 ∧ (s.msgs m).async = true then m :: F else F) := by
  have hsame := process_one_same h
  obtain ⟨hother, hrefs1, _, hasync, _, _, hpp, hpool, hnext, mid, hquiet, htrace⟩ :=
    process_one_effect h
  have hmQ : m ∈ Q c := by rw [hQ]; exact List.mem_cons_self m L
  have hcN : c < N := (mi.queue_lt c m hmQ).2
  have hmN : m < 100 * N := (mi.queue_lt c m hmQ).1
  have hnd : (m :: L).Nodup := hQ ▸ mi.queue_nodup c
  have hmL : m ∉ L := (List.nodup_cons.1 hnd).1
  have hmF : m ∉ F := fun hf => (mi.free_excl m hf).2 c hmQ
  obtain ⟨hr0, hr32⟩ := mi.refs_bounds hmQ
  have hrefs2 : (s1.msgs m).refs = holders N (upd Q c L) m := by
    rw [hrefs1, u32_sub_one hr0 hr32, mi.refs c m hmQ]
    have := holders_remove hcN hmQ hmL
    omega
  have hsub : ∀ c1 m1, m1 ∈ upd Q c L c1 → m1 ∈ Q c1 := by
    intro c1 m1 hm1
    by_cases hc1 : c1 = c
    · subst hc1
      rw [upd_same] at hm1
      rw [hQ]
      exact List.mem_cons_of_mem m hm1
    · rwa [upd_other _ _ hc1] at hm1
  have hiff : ∀ c1 m1, m1 ≠ m → (m1 ∈ upd Q c L c1 ↔ m1 ∈ Q c1) := by
    intro c1 m1 hne
    refine ⟨hsub c1 m1, fun hm1 => ?_⟩
    by_cases hc1 : c1 = c
    · subst hc1
      rw [upd_same]
      rw [hQ] at hm1
      exact (List.mem_cons.1 hm1).resolve_left hne
    · rwa [upd_other _ _ hc1]
  have hframe : ∀ x ∈ F, (s1.msgs x).next = (s.msgs x).next := by
    intro x hx
    rw [hother x (fun hxm => hmF (hxm ▸ hx))]
  have hbal_mid : Balanced (100 * N) (s.trace ++ mid) := mi.balanced.append_quiet mid hquiet
  have hqn : ∀ c1, (upd Q c L c1).Nodup := by
    intro c1
    by_cases hc1 : c1 = c
    · subst hc1
      rw [upd_same]
      exact (List.nodup_cons.1 hnd).2
    · rw [upd_other _ _ hc1]
      exact mi.queue_nodup c1
  have hql : ∀ c1 m1, m1 ∈ upd Q c L c1 → m1 < 100 * N ∧ c1 < N :=
    fun c1 m1 hm1 => mi.queue_lt c1 m1 (hsub c1 m1 hm1)
  have hrefs_all : ∀ c1 m1, m1 ∈ upd Q c L c1 → (s1.msgs m1).refs = holders N (upd Q c L) m1 := by
    intro c1 m1 hm1
    by_cases hne : m1 = m
    · subst hne; exact hrefs2
    · rw [hother m1 hne, mi.refs c1 m1 (hsub c1 m1 hm1)]
      exact (holders_congr (fun c2 _ => hiff c2 m1 hne)).symm
  have hasync_all : ∀ c1 m1, m1 ∈ upd Q c L c1 → ((s1.msgs m1).async = true ↔ m1 ∉ H) := by
    intro c1 m1 hm1
    have := mi.async c1 m1 (hsub c1 m1 hm1)
    by_cases hne : m1 = m
    · subst hne; rwa [hasync]
    · rwa [hother m1 hne]
  have hpp_all : ∀ m1, m1 < 100 * N → (s1.msgs m1).per_proc_entries = m1 * N := by
    intro m1 hm1
    by_cases hne : m1 = m
    · subst hne; rw [hpp]; exact mi.per_proc m1 hm1
    · rw [hother m1 hne]; exact mi.per_proc m1 hm1
  by_cases hret : (s.msgs m).refs = 1 ∧ (s.msgs m).async = true
  · rw [if_pos hret] at hpool hnext htrace ⊢
    have hzero : holders N (upd Q c L) m = 0 := by
      rw [← hrefs2, hrefs1, u32_sub_one hr0 hr32, hret.1]
    have hmH : m ∉ H := (mi.async c m hmQ).1 hret.2
    have hpool1 : IsList (fun x => (s1.msgs x).next) s1.s_message_pool (m :: F) := by
      refine ⟨hpool, ?_⟩
      simp only [hnext]
      exact mi.pool.frame hframe
    have hfl : ∀ x, x ∈ m :: F → x < 100 * N := by
      intro x hx
      rcases List.mem_cons.1 hx with rfl | hx
      · exact hmN
      · exact mi.free_lt x hx
    have htm : ∀ m1, s1.trace.count (Event.get_from_pool m1)
        = s1.trace.count (Event.return_to_pool m1)
          + (if m1 ∈ m :: F ∨ 100 * N ≤ m1 then 0 else 1) := by
      intro m1
      rw [htrace]
      simp only [List.count_append, count_get_quiet hquiet, count_return_quiet hquiet,
        mi.trace_msg m1]
      by_cases hne : m1 = m
      · subst hne
        simp [hmF, Nat.not_le.2 hmN]
      · have hne1 : ¬ (m = m1) := fun h => hne h.symm
        simp [List.count_singleton, hne, hne1]
    have htt : acquired s1.trace + (m :: F).length = returned s1.trace + 100 * N := by
      rw [htrace]
      simp only [acquired_append, returned_append, acquired_quiet hquiet, returned_quiet hquiet,
        List.length_cons]
      have h1 : acquired [Event.return_to_pool m] = 0 := rfl
      have h2 : returned [Event.return_to_pool m] = 1 := rfl
      have := mi.trace_total
      rw [h1, h2]
      omega
    refine ⟨hsame.2.2.1.trans mi.count_eq, mi.N_lt, hsame.2.2.2.2.1.trans mi.enabled, hpp_all,
      hpool1, hqn, hql, mi.held_lt, hfl, ?_, ?_, hrefs_all, hasync_all, htm, htt, ?_⟩
    · intro m1 hm1
      by_cases hne : m1 = m
      · exact Or.inl (hne ▸ List.mem_cons_self m F)
      · rcases mi.cover m1 hm1 with hf | hh | ⟨c1, hq⟩
        · exact Or.inl (List.mem_cons_of_mem m hf)
        · exact Or.inr (Or.inl hh)
        · exact Or.inr (Or.inr ⟨c1, (hiff c1 m1 hne).2 hq⟩)
    · intro m1 hm1
      rcases List.mem_cons.1 hm1 with rfl | hf
      · refine ⟨hmH, fun c1 hq => ?_⟩
        exact holders_zero hzero c1 (hql c1 m1 hq).2 hq
      · exact ⟨(mi.free_excl m1 hf).1, fun c1 hq => (mi.free_excl m1 hf).2 c1 (hsub c1 m1 hq)⟩
    · rw [htrace]
      refine hbal_mid.snoc ?_
      rw [← htrace]
      refine balancedAt_of_counts (F := m :: F) (fun m1 => ⟨_, ?_, htm m1⟩) htt
        (length_le_of_nodup_lt hpool1.nodup hfl)
      split <;> omega
  · rw [if_neg hret] at hpool hnext htrace ⊢
    have htr : s1.trace = s.trace ++ mid := by simpa using htrace
    refine ⟨hsame.2.2.1.trans mi.count_eq, mi.N_lt, hsame.2.2.2.2.1.trans mi.enabled, hpp_all,
      ?_, hqn, hql, mi.held_lt, mi.free_lt, ?_, ?_, hrefs_all, hasync_all, ?_, ?_, ?_⟩
    · rw [hpool]
      exact mi.pool.frame hframe
    · intro m1 hm1
      rcases mi.cover m1 hm1 with hf | hh | ⟨c1, hq⟩
      · exact Or.inl hf
      · exact Or.inr (Or.inl hh)
      · by_cases hne : m1 = m
        · subst hne
          by_cases ha : (s.msgs m1).async = true
          · have h1 : (s.msgs m1).refs ≠ 1 := fun h1 => hret ⟨h1, ha⟩
            have h2 : 0 < holders N (upd Q c L) m1 := by
              rw [← hrefs2, hrefs1, u32_sub_one hr0 hr32]
              omega
            unfold holders at h2
            rw [List.countP_pos_iff] at h2
            obtain ⟨c2, _, hc2⟩ := h2
            exact Or.inr (Or.inr ⟨c2, by simpa using hc2⟩)
          · have : ¬ m1 ∉ H := fun hn => ha ((mi.async c m1 hmQ).2 hn)
            exact Or.inr (Or.inl (not_not.1 this))
        · exact Or.inr (Or.inr ⟨c1, (hiff c1 m1 hne).2 hq⟩)
    · intro m1 hf
      exact ⟨(mi.free_excl m1 hf).1, fun c1 hq => (mi.free_excl m1 hf).2 c1 (hsub c1 m1 hq)⟩
    · intro m1
      rw [htr]
      simp only [List.count_append, count_get_quiet hquiet, count_return_quiet hquiet,
        mi.trace_msg m1, Nat.add_zero]
    · rw [htr]
      simp only [acquired_append, returned_append, acquired_quiet hquiet, returned_quiet hquiet,
        Nat.add_zero]
      exact mi.trace_total
    · rw [htr]
      exact hbal_mid

/-- Processing pairwise distinct messages in order: effect on the message heap and the
trace, whatever the state of the machine. -/
lemma process_in_order_effect (c : Nat) (ms : List Nat) :
    ∀ (s s1 : System), ms.Nodup → process_in_order c ms s = Except.ok s1 →
      (∀ m, m ∉ ms → s1.msgs m = s.msgs m) ∧
      (∀ m, m ∈ ms → (s1.msgs m).refs = u32_sub (s.msgs m).refs 1 ∧ (s.msgs m).refs ≠ 0) ∧
      (∀ m, (s1.msgs m).async = (s.msgs m).async ∧ (s1.msgs m).type = (s.msgs m).type ∧
        (s1.msgs m).flush_tlb = (s.msgs m).flush_tlb ∧
        (s1.msgs m).per_proc_entries = (s.msgs m).per_proc_entries) ∧
      ∃ new, s1.trace = s.trace ++ new ∧
        (∀ c1, decremented_by c1 new = if c1 = c then ms else []) ∧
        (∀ c1, c1 ≠ c → flushes_on c1 new = []) := by
  induction ms with
  | nil =>
    intro s s1 _ h
    cases h
    exact ⟨fun _ _ => rfl, fun _ hm => absurd hm (List.not_mem_nil _),
      fun _ => ⟨rfl, rfl, rfl, rfl⟩, [], by simp, fun c1 => by simp [decremented_by],
      fun _ _ => rfl⟩
  | cons m ms ih =>
    intro s s1 hnd h
    obtain ⟨hm, hnd1⟩ := List.nodup_cons.1 hnd
    unfold process_in_order at h
    cases h1 : process_one c m s with
    | error f => simp [h1] at h
    | ok t1 =>
      simp only [h1] at h
      obtain ⟨_, _, _, _, block, hblock, hdec, hflb⟩ := process_one_ok h1
      obtain ⟨hother, hrefs, hrefs0, hasync, htype, hflush, hpp, _⟩ := process_one_effect h1
      obtain ⟨iother, irefs, ipay, new, hnew, hdec1, hfl1⟩ := ih t1 s1 hnd1 h
      refine ⟨?_, ?_, ?_, block ++ new, ?_, ?_, ?_⟩
      · intro m1 hm1
        have hne : m1 ≠ m := fun h => hm1 (h ▸ List.mem_cons_self m ms)
        rw [iother m1 (fun h => hm1 (List.mem_cons_of_mem m h)), hother m1 hne]
      · intro m1 hm1
        rcases List.mem_cons.1 hm1 with rfl | hm1
        · rw [iother m1 hm]
          exact ⟨hrefs, hrefs0⟩
        · have hne : m1 ≠ m := fun h => hm (h ▸ hm1)
          have := irefs m1 hm1
          rwa [hother m1 hne] at this
      · intro m1
        by_cases hne : m1 = m
        · subst hne
          obtain ⟨p1, p2, p3, p4⟩ := ipay m1
          exact ⟨p1.trans hasync, p2.trans htype, p3.trans hflush, p4.trans hpp⟩
        · have := ipay m1
          rwa [hother m1 hne] at this
      · rw [hnew, hblock, List.append_assoc]
      · intro c1
        rw [decremented_by_append, hdec c1, hdec1 c1]
        by_cases hc1 : c1 = c <;> simp [hc1]
      · intro c1 hc1
        rw [flushes_on_append, hflb c1 hc1, hfl1 c1 hc1]
        rfl

/-- The invariant does not look at the processor table or the delivery entries, nor at
the order of the messages within a queue. -/
lemma MsgInv.transfer_msgs {N : Nat} {s s1 : System} {Q Q1 : Nat → List Nat} {H F : List Nat}
    (mi : MsgInv N s Q H F) (h1 : s1.msgs = s.msgs)
    (h2 : s1.s_message_pool = s.s_message_pool) (h3 : s1.trace = s.trace)
    (h4 : s1.count = s.count) (h5 : s1.s_smp_enabled = s.s_smp_enabled)
    (hmem : ∀ c m, m ∈ Q1 c ↔ m ∈ Q c) (hnd : ∀ c, (Q1 c).Nodup) : MsgInv N s1 Q1 H F := by
  have hh : ∀ m, holders N Q1 m = holders N Q m := fun m => holders_congr (fun c _ => hmem c m)
  refine ⟨h4.trans mi.count_eq, mi.N_lt, h5.trans mi.enabled, ?_, ?_, hnd, ?_, mi.held_lt,
    mi.free_lt, ?_, ?_, ?_, ?_, ?_, ?_, ?_⟩
  · rw [h1]; exact mi.per_proc
  · rw [h1, h2]; exact mi.pool
  · exact fun c m hm => mi.queue_lt c m ((hmem c m).1 hm)
  · intro m hm
    rcases mi.cover m hm with hf | hh1 | ⟨c, hq⟩
    · exact Or.inl hf
    · exact Or.inr (Or.inl hh1)
    · exact Or.inr (Or.inr ⟨c, (hmem c m).2 hq⟩)
  · exact fun m hf => ⟨(mi.free_excl m hf).1, fun c hq => (mi.free_excl m hf).2 c ((hmem c m).1 hq)⟩
  · intro c m hm
    rw [h1, hh]
    exact mi.refs c m ((hmem c m).1 hm)
  · intro c m hm
    rw [h1]
    exact mi.async c m ((hmem c m).1 hm)
  · rw [h3]; exact mi.trace_msg
  · rw [h3]; exact mi.trace_total
  · rw [h3]; exact mi.balanced

/-- Processing the whole queue of a core keeps the invariant, with that queue emptied. -/
lemma MsgInv.step_process_in_order {N c : Nat} {H : List Nat} (ms : List Nat) :
    ∀ (s s1 : System) (Q : Nat → List Nat) (F : List Nat), MsgInv N s Q H F → Q c = ms →
      process_in_order c ms s = Except.ok s1 → ∃ F1, MsgInv N s1 (upd Q c []) H F1 := by
  induction ms with
  | nil =>
    intro s s1 Q F mi hQ h
    cases h
    have : upd Q c [] = Q := by
      funext c1
      by_cases hc1 : c1 = c
      · subst hc1; rw [upd_same, hQ]
      · rw [upd_other _ _ hc1]
    rw [this]
    exact ⟨F, mi⟩
  | cons m ms ih =>
    intro s s1 Q F mi hQ h
    unfold Kernel.process_in_order at h
    cases h1 : Kernel.process_one c m s with
    | error f => simp [h1] at h
    | ok t1 =>
      simp only [h1] at h
      have mi1 := mi.step_process_one hQ h1
      obtain ⟨F1, mi2⟩ := ih t1 s1 (upd Q c ms) _ mi1 (upd_same Q c ms) h
      rw [upd_upd] at mi2
      exact ⟨F1, mi2⟩

lemma entry_index_inj {N m1 c1 m2 c2 : Nat} (h1 : c1 < N) (h2 : c2 < N)
    (h : m1 * N + c1 = m2 * N + c2) : m1 = m2 ∧ c1 = c2 := by
  have hc : c1 = c2 := by
    have := congrArg (fun x => x % N) h
    simp only [Nat.mul_add_mod_of_lt h1, Nat.mul_add_mod_of_lt h2] at this
    exact this
  subst hc
  have hN : 0 < N := by omega
  have : m1 * N = m2 * N := by omega
  exact ⟨Nat.eq_of_mul_eq_mul_right hN this, rfl⟩

lemma upd_self_nil {Q : Nat → List Nat} {c : Nat} (h : Q c = []) : upd Q c [] = Q := by
  funext c1
  by_cases hc1 : c1 = c
  · subst hc1; rw [upd_same, h]
  · rw [upd_other _ _ hc1]

lemma Drained.nothing (c : Nat) (s : System) : Drained c [] s s :=
  ⟨rfl, rfl, rfl, rfl, fun _ => ⟨rfl, rfl, rfl⟩, fun _ _ => rfl,
    fun _ hm => absurd hm (List.not_mem_nil _), fun _ => ⟨rfl, rfl, rfl, rfl⟩,
    [], by simp, fun c1 => by simp [decremented_by], fun _ _ => rfl⟩

/-- The messages of the entries of a well-formed queue, read through `entry_msg`. -/
lemma ChainInv.msgs_of_queue {N : Nat} {s : System} {Q : Nat → List Nat} {H F : List Nat}
    (ci : ChainInv N s Q) (mi : MsgInv N s Q H F) (c : Nat) :
    ((Q c).map (fun m => m * N + c)).reverse.map (fun e => (s.entries e).msg) = (Q c).reverse := by
  rw [← List.map_reverse, List.map_map]
  have : ∀ m ∈ (Q c).reverse, ((fun e => (s.entries e).msg) ∘ (fun m => m * N + c)) m = id m := by
    intro m hm
    have hq := mi.queue_lt c m (List.mem_reverse.1 hm)
    exact ci.entry_msg m c hq.1 hq.2
  rw [List.map_congr_left this, List.map_id]

/-- A drain that returns keeps both invariants, with the queue of the draining core
emptied, and its effect is `Drained`. -/
lemma drain_spec {N : Nat} {s : System} {Q : Nat → List Nat} {H F : List Nat}
    (ci : ChainInv N s Q) (mi : MsgInv N s Q H F) {c fuel : Nat} (hc : c < N)
    (hfuel : 100 * N ≤ fuel) {b : Bool} {s1 : System}
    (h : smp_process_pending_messages fuel c s = Except.ok (b, s1)) :
    ChainInv N s1 (upd Q c []) ∧ (∃ F1, MsgInv N s1 (upd Q c []) H F1) ∧
      Drained c (Q c) s s1 := by
  have hchain := ci.queue c hc
  by_cases hQ : Q c = []
  · rw [hQ] at hchain
    have hq : (s.procs c).m_message_queue = none := hchain
    rw [smp_process_pending_messages_empty fuel c s mi.enabled hq] at h
    split at h
    · cases h
    · cases h
      rw [upd_self_nil hQ, hQ]
      exact ⟨ci, ⟨F, mi⟩, Drained.nothing c s⟩
  · have hlen : ((Q c).map (fun m => m * N + c)).length ≤ fuel := by
      rw [List.length_map]
      have := length_le_of_nodup_lt (mi.queue_nodup c) (fun m hm => (mi.queue_lt c m hm).1)
      omega
    obtain ⟨entries1, hframe, hmsg, heq⟩ := smp_process_pending_messages_eq fuel c s
      ((Q c).map (fun m => m * N + c)) mi.enabled hchain (by simpa using hQ) hlen
    rw [ci.msgs_of_queue mi c] at heq
    rw [heq] at h
    cases hp : process_in_order c (Q c).reverse
        { s with
          procs := upd s.procs c
            { s.procs c with
              m_in_critical := (s.procs c).m_in_critical + 1, m_message_queue := none },
          entries := entries1 } with
    | error f => simp [hp] at h
    | ok t2 =>
      simp only [hp] at h
      cases h
      have hsame := process_in_order_same _ hp
      have hnd : (Q c).reverse.Nodup := List.nodup_reverse.2 (mi.queue_nodup c)
      obtain ⟨eother, erefs, epay, new, hnew, hdec, hflu⟩ := process_in_order_effect c _ _ _ hnd hp
      have mi0 : MsgInv N
          { s with
            procs := upd s.procs c
              { s.procs c with
                m_in_critical := (s.procs c).m_in_critical + 1, m_message_queue := none },
            entries := entries1 } (upd Q c (Q c).reverse) H F := by
        refine mi.transfer_msgs rfl rfl rfl rfl rfl ?_ ?_
        · intro c1 m
          by_cases hc1 : c1 = c
          · subst hc1; simp
          · simp [upd, hc1]
        · intro c1
          by_cases hc1 : c1 = c
          · subst hc1; rw [upd_same]; exact hnd
          · rw [upd_other _ _ hc1]; exact mi.queue_nodup c1
      obtain ⟨F1, mi2⟩ := MsgInv.step_process_in_order _ _ _ _ _ mi0 (upd_same Q c _) hp
      rw [upd_upd] at mi2
      refine ⟨⟨?_, ?_⟩, ⟨F1, mi2.transfer_msgs rfl rfl rfl rfl rfl (fun _ _ => Iff.rfl)
        mi2.queue_nodup⟩, ?_⟩
      · intro c1 hc1
        by_cases hcc : c1 = c
        · subst hcc
          simp [IsList]
        · simp only [upd_other _ _ hcc]
          rw [hsame.1]
          refine (ci.queue c1 hc1).frame (fun e he => ?_)
          simp only
          rw [hframe e]
          intro hin
          obtain ⟨m1, _, hm1⟩ := List.mem_map.1 he
          obtain ⟨m2, _, hm2⟩ := List.mem_map.1 hin
          exact hcc (entry_index_inj hc1 hc (hm1.trans hm2.symm)).2
      · intro m c1 hm hc1
        simp only
        rw [hsame.1, hmsg]
        exact ci.entry_msg m c1 hm hc1
      · refine ⟨hsame.2.2.1, hsame.2.2.2.1, hsame.2.2.2.2.1, hsame.2.2.2.2.2, ?_, ?_, ?_, epay,
          new, hnew, ?_, fun c1 hc1 => hflu c1 (hc1.resolve_right hQ)⟩
        · intro c1
          by_cases hcc : c1 = c
          · subst hcc; simp
          · simp [upd, hcc]
        · intro m hm
          simp only
          rw [eother m (fun h => hm (List.mem_reverse.1 h))]
        · intro m hm
          obtain ⟨h1, h2⟩ := erefs m (List.mem_reverse.2 hm)
          obtain ⟨hr0, hr32⟩ := mi.refs_bounds hm
          exact ⟨by simp only; rw [h1]; exact u32_sub_one hr0 hr32, hr0⟩
        · intro c1
          rw [hdec c1]

/-- A drain returns when no halt is requested on the draining core and the flush
messages of its queue have valid ranges. -/
lemma drain_total {N : Nat} {s : System} {Q : Nat → List Nat} {H F : List Nat}
    (ci : ChainInv N s Q) (mi : MsgInv N s Q H F) {c fuel : Nat} (hc : c < N)
    (hfuel : 100 * N ≤ fuel) (hhalt : (s.procs c).m_halt_requested = false)
    (hvalid : ∀ m, m ∈ Q c → FlushValid s m) :
    ∃ b s1, smp_process_pending_messages fuel c s = Except.ok (b, s1) := by
  have hchain := ci.queue c hc
  by_cases hQ : Q c = []
  · rw [hQ] at hchain
    have hq : (s.procs c).m_message_queue = none := hchain
    rw [smp_process_pending_messages_empty fuel c s mi.enabled hq, hhalt]
    exact ⟨false, s, rfl⟩
  · have hlen : ((Q c).map (fun m => m * N + c)).length ≤ fuel := by
      rw [List.length_map]
      have := length_le_of_nodup_lt (mi.queue_nodup c) (fun m hm => (mi.queue_lt c m hm).1)
      omega
    obtain ⟨entries1, _, _, heq⟩ := smp_process_pending_messages_eq fuel c s
      ((Q c).map (fun m => m * N + c)) mi.enabled hchain (by simpa using hQ) hlen
    rw [ci.msgs_of_queue mi c] at heq
    obtain ⟨t2, _, hp, _⟩ := process_in_order_total c (Q c).reverse
      { s with
        procs := upd s.procs c
          { s.procs c with
            m_in_critical := (s.procs c).m_in_critical + 1, m_message_queue := none },
        entries := entries1 }
      (List.nodup_reverse.2 (mi.queue_nodup c))
      (fun m hm => ⟨(mi.refs_bounds (List.mem_reverse.1 hm)).1, hvalid m (List.mem_reverse.1 hm)⟩)
      (by simp only [upd_same]; exact hhalt)
    rw [hp] at heq
    exact ⟨true, _, heq⟩

lemma FlushValid.transfer_valid {s s1 : System} {m : Nat} (h : FlushValid s m) (hmm : s1.mm = s.mm)
    (hty : (s1.msgs m).type = (s.msgs m).type)
    (hfl : (s1.msgs m).flush_tlb = (s.msgs m).flush_tlb) : FlushValid s1 m := by
  unfold FlushValid at *
  rw [hmm, hty, hfl]
  exact h

lemma emptied_cons_lt {N : Nat} {Q : Nat → List Nat} {c : Nat} {rest : List Nat} (_hc : c < N) :
    emptied N (upd Q c []) rest = emptied N Q (c :: rest) := by
  funext c1
  unfold emptied
  by_cases hc1 : c1 = c
  · subst hc1
    by_cases h1 : c1 ∈ rest ∧ c1 < N <;> simp [h1, _hc]
  · simp [upd, hc1]

lemma emptied_cons_ge {N : Nat} {Q : Nat → List Nat} {c : Nat} {rest : List Nat} (hc : ¬ c < N) :
    emptied N Q rest = emptied N Q (c :: rest) := by
  funext c1
  unfold emptied
  by_cases hc1 : c1 = c
  · subst hc1
    simp [hc]
  · simp [hc1]

/-- A run of IPI handlers that returns keeps both invariants, empties the queues of the
cores that ran, and has the effect `DrainedAll`. -/
lemma run_ipi_handlers_spec {N fuel : Nat} {H : List Nat} (hfuel : 100 * N ≤ fuel)
    (order : List Nat) :
    ∀ (s s1 : System) (Q : Nat → List Nat) (F : List Nat), ChainInv N s Q → MsgInv N s Q H F →
      run_ipi_handlers fuel order s = Except.ok s1 →
      ChainInv N s1 (emptied N Q order) ∧ (∃ F1, MsgInv N s1 (emptied N Q order) H F1) ∧
        DrainedAll N order Q s s1 := by
  induction order with
  | nil =>
    intro s s1 Q F ci mi h
    cases h
    have : emptied N Q [] = Q := by
      funext c1
      simp [emptied]
    rw [this]
    exact ⟨ci, ⟨F, mi⟩, rfl, rfl, rfl, rfl, fun _ => ⟨rfl, rfl, rfl⟩, fun m => by simp,
      fun _ => ⟨rfl, rfl, rfl, rfl⟩, [], by simp, fun c1 => by simp [decremented_by],
      fun _ _ => rfl⟩
  | cons c rest ih =>
    intro s s1 Q F ci mi h
    unfold run_ipi_handlers at h
    by_cases hc : c < N
    · rw [if_pos (by rw [mi.count_eq]; exact hc)] at h
      cases hd : smp_process_pending_messages fuel c s with
      | error f => simp [hd] at h
      | ok r =>
        obtain ⟨b, t⟩ := r
        simp only [hd] at h
        obtain ⟨ci1, ⟨F1, mi1⟩, dr⟩ := drain_spec ci mi hc hfuel hd
        obtain ⟨ci2, hmi2, da⟩ := ih t s1 (upd Q c []) F1 ci1 mi1 h
        rw [emptied_cons_lt hc] at ci2 hmi2
        refine ⟨ci2, hmi2, da.count_eq.trans dr.count_eq, da.mm_eq.trans dr.mm_eq,
          da.enabled_eq.trans dr.enabled_eq, da.schedule_eq.trans dr.schedule_eq, ?_, ?_, ?_, ?_⟩
        · intro c1
          obtain ⟨a1, a2, a3⟩ := da.procs_eq c1
          obtain ⟨b1, b2, b3⟩ := dr.procs_eq c1
          exact ⟨a1.trans b1, a2.trans b2, a3.trans b3⟩
        · intro m
          rw [da.refs m]
          by_cases hm : m ∈ Q c
          · rw [(dr.refs_queued m hm).1]
            have := countP_range_flip
              (fun c1 => decide (c1 ∈ c :: rest ∧ m ∈ Q c1))
              (fun c1 => decide (c1 ∈ rest ∧ m ∈ upd Q c [] c1)) N c hc
              (by simp [hm]) (by simp) (fun c1 hc1 => by simp [upd, hc1])
            omega
          · rw [dr.refs_other m hm]
            have := countP_range_congr
              (fun c1 => decide (c1 ∈ c :: rest ∧ m ∈ Q c1))
              (fun c1 => decide (c1 ∈ rest ∧ m ∈ upd Q c [] c1)) N
              (fun c1 _ => by
                by_cases hc1 : c1 = c
                · subst hc1; simp [hm]
                · simp [upd, hc1])
            omega
        · intro m
          obtain ⟨a1, a2, a3, a4⟩ := da.payload m
          obtain ⟨b1, b2, b3, b4⟩ := dr.payload m
          exact ⟨a1.trans b1, a2.trans b2, a3.trans b3, a4.trans b4⟩
        · obtain ⟨new1, hn1, hd1, hf1⟩ := dr.trace
          obtain ⟨new2, hn2, hd2, hf2⟩ := da.trace
          refine ⟨new1 ++ new2, by rw [hn2, hn1, List.append_assoc], fun c1 => ?_,
            fun c1 hc1 => ?_⟩
          · rw [decremented_by_append, hd1 c1, hd2 c1]
            by_cases hcc : c1 = c
            · subst hcc
              simp [hc]
            · simp [upd, hcc]
          · rw [flushes_on_append]
            have h1 : flushes_on c1 new1 = [] := by
              by_cases hcc : c1 = c
              · subst hcc
                refine hf1 c1 (Or.inr ?_)
                rcases hc1 with h | h | h
                · exact absurd (List.mem_cons_self c1 rest) h
                · exact absurd hc h
                · exact h
              · exact hf1 c1 (Or.inl hcc)
            have h2 : flushes_on c1 new2 = [] := by
              refine hf2 c1 ?_
              by_cases hcc : c1 = c
              · subst hcc
                exact Or.inr (Or.inr (upd_same Q c1 []))
              · rcases hc1 with h | h | h
                · exact Or.inl (fun hin => h (List.mem_cons_of_mem c hin))
                · exact Or.inr (Or.inl h)
                · exact Or.inr (Or.inr (by rw [upd_other _ _ hcc]; exact h))
            rw [h1, h2]
            rfl
    · rw [if_neg (by rw [mi.count_eq]; exact hc)] at h
      obtain ⟨ci2, hmi2, da⟩ := ih s s1 Q F ci mi h
      rw [emptied_cons_ge hc] at ci2 hmi2
      refine ⟨ci2, hmi2, da.count_eq, da.mm_eq, da.enabled_eq, da.schedule_eq, da.procs_eq, ?_,
        da.payload, ?_⟩
      · intro m
        rw [da.refs m]
        have := countP_range_congr
          (fun c1 => decide (c1 ∈ c :: rest ∧ m ∈ Q c1))
          (fun c1 => decide (c1 ∈ rest ∧ m ∈ Q c1)) N
          (fun c1 hc1 => by
            have : c1 ≠ c := fun h => hc (h ▸ hc1)
            simp [this])
        omega
      · obtain ⟨new2, hn2, hd2, hf2⟩ := da.trace
        refine ⟨new2, hn2, fun c1 => ?_, fun c1 hc1 => ?_⟩
        · rw [hd2 c1]
          by_cases hcc : c1 = c
          · subst hcc
            simp [hc]
          · simp [hcc]
        · refine hf2 c1 ?_
          rcases hc1 with h | h | h
          · by_cases hcc : c1 = c
            · subst hcc
              exact Or.inr (Or.inl hc)
            · exact Or.inl (fun hin => h (List.mem_cons.2 (Or.inr hin)))
          · exact Or.inr (Or.inl h)
          · exact Or.inr (Or.inr h)

/-- A run of IPI handlers returns when no halt is requested and all queued flush
messages have valid ranges. -/
lemma run_ipi_handlers_total {N fuel : Nat} {H : List Nat} (hfuel : 100 * N ≤ fuel)
    (order : List Nat) :
    ∀ (s : System) (Q : Nat → List Nat) (F : List Nat), ChainInv N s Q → MsgInv N s Q H F →
      (∀ c, (s.procs c).m_halt_requested = false) → (∀ c m, m ∈ Q c → FlushValid s m) →
      ∃ s1, run_ipi_handlers fuel order s = Except.ok s1 := by
  induction order with
  | nil =>
    intro s _ _ _ _ _ _
    exact ⟨s, rfl⟩
  | cons c rest ih =>
    intro s Q F ci mi hhalt hvalid
    unfold run_ipi_handlers
    by_cases hc : c < N
    · rw [if_pos (by rw [mi.count_eq]; exact hc)]
      obtain ⟨b, t, hd⟩ := drain_total ci mi hc hfuel (hhalt c) (hvalid c)
      obtain ⟨ci1, ⟨F1, mi1⟩, dr⟩ := drain_spec ci mi hc hfuel hd
      simp only [hd]
      refine ih t (upd Q c []) F1 ci1 mi1 (fun c1 => ?_) (fun c1 m hm => ?_)
      · rw [(dr.procs_eq c1).1]; exact hhalt c1
      · have hm1 : m ∈ Q c1 := by
          by_cases hc1 : c1 = c
          · subst hc1; simp at hm
          · simpa [upd, hc1] using hm
        exact (hvalid c1 m hm1).transfer_valid dr.mm_eq (dr.payload m).2.1 (dr.payload m).2.2.1
    · rw [if_neg (by rw [mi.count_eq]; exact hc)]
      exact ih s Q F ci mi hhalt hvalid

/-- Frame of a send: the per-core flags and everything but the queues and the entries
are what they were. -/
lemma ChainInv.enqueue {N : Nat} {s : System} {Q : Nat → List Nat} (ci : ChainInv N s Q)
    {c msg : Nat} (hc : c < N) (hm : msg < 100 * N)
    (hpp : (s.msgs msg).per_proc_entries = msg * N) (hfresh : msg ∉ Q c) :
    ∃ s1, smp_enqueue_message c msg s
        = Except.ok (decide ((s.procs c).m_message_queue = none), s1) ∧
      ChainInv N s1 (upd Q c (msg :: Q c)) ∧
      (s1.procs c).m_message_queue = some (msg * N + c) ∧
      (s1.entries (msg * N + c)).next = (s.procs c).m_message_queue ∧
      s1.msgs = s.msgs ∧ s1.trace = s.trace ∧ s1.s_message_pool = s.s_message_pool ∧
      s1.mm = s.mm ∧ s1.s_smp_enabled = s.s_smp_enabled ∧ s1.count = s.count ∧
      s1.pause_schedule = s.pause_schedule ∧
      (∀ c1, (s1.procs c1).m_halt_requested = (s.procs c1).m_halt_requested ∧
        (s1.procs c1).cr3 = (s.procs c1).cr3 ∧
        (s1.procs c1).m_in_critical = (s.procs c1).m_in_critical) ∧
      (∀ c1, c1 ≠ c → (s1.procs c1).m_message_queue = (s.procs c1).m_message_queue) := by
  have hmsg : (s.entries ((s.msgs msg).per_proc_entries + c)).msg = msg := by
    rw [hpp]; exact ci.entry_msg msg c hm hc
  obtain ⟨s1, hrun, he, hp, g1, g2, g3, g4, g5, g6, g7⟩ := smp_enqueue_message_spec c msg s hmsg
  rw [hpp] at he hp
  have hnotin : ∀ c1, c1 < N → c1 ≠ c ∨ msg ∉ Q c1 →
      msg * N + c ∉ (Q c1).map (fun m => m * N + c1) := by
    intro c1 hc1 hor hin
    obtain ⟨m1, hm1, heq⟩ := List.mem_map.1 hin
    obtain ⟨h1, h2⟩ := entry_index_inj hc1 hc heq
    rcases hor with h | h
    · exact h h2
    · exact h (h1 ▸ hm1)
  refine ⟨s1, hrun, ⟨?_, ?_⟩, by rw [hp]; simp, by rw [he]; simp, g1, g2, g3, g4, g5, g6, g7,
    ?_, ?_⟩
  · intro c1 hc1
    by_cases hcc : c1 = c
    · subst hcc
      rw [upd_same, hp, he]
      refine ⟨by simp, ?_⟩
      simp only [upd_same]
      refine (ci.queue c1 hc1).frame (fun e hin => ?_)
      have : e ≠ msg * N + c1 := fun h => hnotin c1 hc1 (Or.inr hfresh) (h ▸ hin)
      simp [upd, this]
    · rw [upd_other _ _ hcc, hp, he, upd_other _ _ hcc]
      refine (ci.queue c1 hc1).frame (fun e hin => ?_)
      have : e ≠ msg * N + c := fun h => hnotin c1 hc1 (Or.inl hcc) (h ▸ hin)
      simp [upd, this]
  · intro m c1 hm1 hc1
    rw [he]
    by_cases heq : m * N + c1 = msg * N + c
    · rw [heq, upd_same]
      exact (entry_index_inj hc1 hc heq).1.symm
    · rw [upd_other _ _ heq]
      exact ci.entry_msg m c1 hm1 hc1
  · intro c1
    rw [hp]
    by_cases hcc : c1 = c
    · subst hcc; simp
    · simp [upd, hcc]
  · intro c1 hcc
    rw [hp, upd_other _ _ hcc]

/-- The `for_each` of a broadcast over pairwise distinct cores `cs`: every core of `cs`
other than the sender gets the entry of `msg` in front of its queue; `need_broadcast`
becomes true exactly if one of those queues was empty. -/
lemma smp_broadcast_enqueue_spec {N sender msg : Nat} (hm : msg < 100 * N) (cs : List Nat) :
    ∀ (s : System) (Q : Nat → List Nat) (nb : Bool), ChainInv N s Q →
      (s.msgs msg).per_proc_entries = msg * N → (∀ c ∈ cs, c < N) → cs.Nodup →
      (∀ c ∈ cs, msg ∉ Q c) →
      ∃ s1, smp_broadcast_enqueue sender msg cs nb s
          = Except.ok (nb || cs.any (fun c => decide (c ≠ sender ∧
              (s.procs c).m_message_queue = none)), s1) ∧
        ChainInv N s1 (broadcast_queues cs sender msg Q) ∧
        s1.msgs = s.msgs ∧ s1.trace = s.trace ∧ s1.s_message_pool = s.s_message_pool ∧
        s1.mm = s.mm ∧ s1.s_smp_enabled = s.s_smp_enabled ∧ s1.count = s.count ∧
        s1.pause_schedule = s.pause_schedule ∧
        (∀ c1, (s1.procs c1).m_halt_requested = (s.procs c1).m_halt_requested ∧
          (s1.procs c1).cr3 = (s.procs c1).cr3 ∧
          (s1.procs c1).m_in_critical = (s.procs c1).m_in_critical) ∧
        (∀ c1, c1 ∉ cs ∨ c1 = sender →
          (s1.procs c1).m_message_queue = (s.procs c1).m_message_queue) := by
  induction cs with
  | nil =>
    intro s Q nb ci _ _ _ _
    have : broadcast_queues [] sender msg Q = Q := by
      funext c1
      simp [broadcast_queues]
    rw [this]
    exact ⟨s, by simp [smp_broadcast_enqueue], ci, rfl, rfl, rfl, rfl, rfl, rfl, rfl,
      fun _ => ⟨rfl, rfl, rfl⟩, fun _ _ => rfl⟩
  | cons c rest ih =>
    intro s Q nb ci hpp hlt hnd hfresh
    obtain ⟨hc_rest, hnd1⟩ := List.nodup_cons.1 hnd
    have hlt1 : ∀ c1 ∈ rest, c1 < N := fun c1 h => hlt c1 (List.mem_cons_of_mem c h)
    by_cases hcs : c = sender
    · obtain ⟨s1, hrun, ci1, g⟩ := ih s Q nb ci hpp hlt1 hnd1
        (fun c1 h => hfresh c1 (List.mem_cons_of_mem c h))
      have hq : broadcast_queues (c :: rest) sender msg Q = broadcast_queues rest sender msg Q := by
        funext c1
        unfold broadcast_queues
        by_cases hc1 : c1 = c
        · subst hc1; simp [hcs]
        · simp [hc1]
      refine ⟨s1, ?_, hq ▸ ci1, g.1, g.2.1, g.2.2.1, g.2.2.2.1, g.2.2.2.2.1, g.2.2.2.2.2.1,
        g.2.2.2.2.2.2.1, g.2.2.2.2.2.2.2.1, ?_⟩
      · unfold smp_broadcast_enqueue
        rw [if_neg (not_not.2 hcs), hrun]
        simp [hcs]
      · intro c1 hc1
        refine g.2.2.2.2.2.2.2.2 c1 ?_
        rcases hc1 with h | h
        · exact Or.inl (fun hin => h (List.mem_cons_of_mem c hin))
        · exact Or.inr h
    · obtain ⟨t, hrun, cit, _, _, f1, f2, f3, f4, f5, f6, f7, f8, f9⟩ :=
        ci.enqueue (hlt c (List.mem_cons_self c rest)) hm hpp (hfresh c (List.mem_cons_self c rest))
      obtain ⟨s1, hrun1, ci1, g1, g2, g3, g4, g5, g6, g7, g8, g9⟩ :=
        ih t (upd Q c (msg :: Q c))
          (decide ((s.procs c).m_message_queue = none) || nb) cit (by rw [f1]; exact hpp) hlt1 hnd1
          (fun c1 h => by
            have hne : c1 ≠ c := fun heq => hc_rest (heq ▸ h)
            rw [upd_other _ _ hne]
            exact hfresh c1 (List.mem_cons_of_mem c h))
      have hq : broadcast_queues (c :: rest) sender msg Q
          = broadcast_queues rest sender msg (upd Q c (msg :: Q c)) := by
        funext c1
        unfold broadcast_queues
        by_cases hc1 : c1 = c
        · subst hc1; simp [hcs, hc_rest]
        · simp [upd, hc1]
      have hany : rest.any (fun c1 => decide (c1 ≠ sender ∧ (t.procs c1).m_message_queue = none))
          = rest.any (fun c1 => decide (c1 ≠ sender ∧ (s.procs c1).m_message_queue = none)) := by
        refine any_congr_mem (fun c1 h => ?_)
        have hne : c1 ≠ c := fun heq => hc_rest (heq ▸ h)
        rw [f9 c1 hne]
      refine ⟨s1, ?_, hq ▸ ci1, g1.trans f1, g2.trans f2, g3.trans f3, g4.trans f4, g5.trans f5,
        g6.trans f6, g7.trans f7, ?_, ?_⟩
      · unfold smp_broadcast_enqueue
        rw [if_pos hcs, hrun]
        simp only [hrun1, hany, List.any_cons]
        congr 2
        by_cases hq0 : (s.procs c).m_message_queue = none <;> simp [hq0, hcs, Bool.or_comm]
      · intro c1
        obtain ⟨a1, a2, a3⟩ := g8 c1
        obtain ⟨b1, b2, b3⟩ := f8 c1
        exact ⟨a1.trans b1, a2.trans b2, a3.trans b3⟩
      · intro c1 hc1
        have hne : c1 ≠ c := by
          rcases hc1 with h | h
          · exact fun heq => h (heq ▸ List.mem_cons_self c rest)
          · exact fun heq => hcs (heq ▸ h)
        rw [g9 c1 (hc1.imp_left (fun h hin => h (List.mem_cons_of_mem c hin))), f9 c1 hne]

lemma countP_range_true (N : Nat) : (List.range N).countP (fun _ => true) = N := by
  have : (List.range N).countP (fun _ => true) = (List.range N).length :=
    List.countP_eq_length.2 (fun _ _ => rfl)
  rw [this, List.length_range]

lemma holders_broadcast {N sender msg : Nat} {Q : Nat → List Nat} (hs : sender < N)
    (hfresh : ∀ c, msg ∉ Q c) :
    holders N (broadcast_queues (List.range N) sender msg Q) msg + 1 = N := by
  unfold holders
  rw [countP_range_congr _ (fun c => decide (c ≠ sender)) N (fun c hc => by
    by_cases hcs : c = sender <;> simp [broadcast_queues, hc, hfresh, hcs])]
  have := countP_range_flip (fun _ => true) (fun c => decide (c ≠ sender)) N sender hs rfl
    (by simp) (fun c1 hc1 => by simp [hc1])
  rw [countP_range_true] at this
  exact this

/-- `smp_broadcast_message` on a held, not yet queued message: the reference count
becomes `N - 1`, the message sits in front of the queue of every other core, and both
invariants hold again. -/
lemma smp_broadcast_message_spec {N : Nat} {s : System} {Q : Nat → List Nat} {H F : List Nat}
    (ci : ChainInv N s Q) (mi : MsgInv N s Q H F) {sender msg : Nat} (hN : 2 ≤ N)
    (hs : sender < N) (hheld : msg ∈ H) (hfresh : ∀ c, msg ∉ Q c) :
    ∃ s1, smp_broadcast_message sender msg s = Except.ok s1 ∧
      ChainInv N s1 (broadcast_queues (List.range N) sender msg Q) ∧
      MsgInv N s1 (broadcast_queues (List.range N) sender msg Q)
        (held_after_send (s.msgs msg).async msg H) F ∧
      (s1.msgs msg).refs = N - 1 ∧
      (∀ m, m ≠ msg → s1.msgs m = s.msgs m) ∧
      ((s1.msgs msg).async = (s.msgs msg).async ∧ (s1.msgs msg).type = (s.msgs msg).type ∧
        (s1.msgs msg).flush_tlb = (s.msgs msg).flush_tlb ∧
        (s1.msgs msg).callback = (s.msgs msg).callback) ∧
      s1.mm = s.mm ∧ s1.pause_schedule = s.pause_schedule ∧
      (∀ c1, (s1.procs c1).m_halt_requested = (s.procs c1).m_halt_requested ∧
        (s1.procs c1).cr3 = (s.procs c1).cr3 ∧
        (s1.procs c1).m_in_critical = (s.procs c1).m_in_critical) ∧
      s1.trace = s.trace ++
        (if (List.range N).any (fun c => decide (c ≠ sender ∧
            (s.procs c).m_message_queue = none)) then [Event.broadcast_ipi] else []) := by
  have hcount := mi.count_eq
  subst hcount
  have hmN : msg < 100 * s.count := mi.held_lt msg hheld
  have hmF : msg ∉ F := fun hf => (mi.free_excl msg hf).1 hheld
  have hrefsN : u32_sub s.count 1 = s.count - 1 := u32_sub_one (by omega) mi.N_lt
  have ci0 : ChainInv s.count
      { s with msgs := upd s.msgs msg { s.msgs msg with refs := u32_sub s.count 1 } } Q :=
    ⟨ci.queue, ci.entry_msg⟩
  obtain ⟨s2, hrun, ci2, g1, g2, g3, g4, g5, g6, g7, g8, _⟩ :=
    smp_broadcast_enqueue_spec hmN (List.range s.count) _ Q false ci0
      (by simp only [upd_same]; exact mi.per_proc msg hmN)
      (fun c hc => List.mem_range.1 hc) (List.nodup_range s.count) (fun c _ => hfresh c)
  have hmsgs : ∀ m, s2.msgs m
      = if m = msg then { s.msgs msg with refs := s.count - 1 } else s.msgs m := by
    intro m
    rw [g1]
    by_cases hmm : m = msg
    · subst hmm; simp [hrefsN]
    · simp [upd, hmm]
  have hQsub : ∀ c m, m ≠ msg →
      (m ∈ broadcast_queues (List.range s.count) sender msg Q c ↔ m ∈ Q c) := by
    intro c m hne
    unfold broadcast_queues
    split
    · simp [hne]
    · rfl
  have hQmem : ∀ c m, m ∈ broadcast_queues (List.range s.count) sender msg Q c →
      m = msg ∨ m ∈ Q c := by
    intro c m hmem
    by_cases hne : m = msg
    · exact Or.inl hne
    · exact Or.inr ((hQsub c m hne).1 hmem)
  have hQlt : ∀ c, msg ∈ broadcast_queues (List.range s.count) sender msg Q c → c < s.count := by
    intro c hmem
    unfold broadcast_queues at hmem
    split at hmem
    · rename_i h; exact List.mem_range.1 h.1
    · exact absurd hmem (hfresh c)
  have hholders : holders s.count (broadcast_queues (List.range s.count) sender msg Q) msg + 1
      = s.count := holders_broadcast hs hfresh
  have mi2 : MsgInv s.count s2 (broadcast_queues (List.range s.count) sender msg Q)
      (held_after_send (s.msgs msg).async msg H) F := by
    refine ⟨g6, mi.N_lt, g5.trans mi.enabled, ?_, ?_, ?_, ?_, ?_, mi.free_lt,
      ?_, ?_, ?_, ?_, ?_, ?_, ?_⟩
    · intro m hm
      rw [hmsgs m]
      split
      · rename_i h; subst h; exact mi.per_proc m hm
      · exact mi.per_proc m hm
    · rw [g3]
      refine mi.pool.frame (fun x hx => ?_)
      have hxm : ¬ x = msg := fun h => hmF (h ▸ hx)
      show (s2.msgs x).next = (s.msgs x).next
      rw [hmsgs x, if_neg hxm]
    · intro c
      unfold broadcast_queues
      split
      · exact List.nodup_cons.2 ⟨hfresh c, mi.queue_nodup c⟩
      · exact mi.queue_nodup c
    · intro c m hmem
      rcases hQmem c m hmem with rfl | h
      · exact ⟨hmN, hQlt c hmem⟩
      · exact mi.queue_lt c m h
    · intro m hm
      unfold held_after_send at hm
      split at hm
      · exact mi.held_lt m (List.mem_filter.1 hm).1
      · exact mi.held_lt m hm
    · intro m hm
      by_cases hne : m = msg
      · subst hne
        have hother : ∃ c, c < s.count ∧ c ≠ sender := by
          by_cases h0 : sender = 0
          · exact ⟨1, by omega, by omega⟩
          · exact ⟨0, by omega, fun h => h0 h.symm⟩
        obtain ⟨c, hc, hcs⟩ := hother
        exact Or.inr (Or.inr ⟨c, by simp [broadcast_queues, hc, hcs]⟩)
      · rcases mi.cover m hm with hf | hh | ⟨c, hq⟩
        · exact Or.inl hf
        · refine Or.inr (Or.inl ?_)
          unfold held_after_send
          split
          · exact List.mem_filter.2 ⟨hh, by simpa using hne⟩
          · exact hh
        · exact Or.inr (Or.inr ⟨c, (hQsub c m hne).2 hq⟩)
    · intro m hf
      have hmH := (mi.free_excl m hf).1
      have hne : m ≠ msg := fun h => hmH (h ▸ hheld)
      refine ⟨fun hh => hmH ?_, fun c hq => (mi.free_excl m hf).2 c ((hQsub c m hne).1 hq)⟩
      unfold held_after_send at hh
      split at hh
      · exact (List.mem_filter.1 hh).1
      · exact hh
    · intro c m hmem
      rw [hmsgs m]
      by_cases hne : m = msg
      · subst hne
        rw [if_pos rfl]
        simp only
        omega
      · rw [if_neg hne, mi.refs c m ((hQsub c m hne).1 hmem)]
        exact (holders_congr (fun c1 _ => hQsub c1 m hne)).symm
    · intro c m hmem
      rw [hmsgs m]
      by_cases hne : m = msg
      · subst hne
        rw [if_pos rfl]
        unfold held_after_send
        cases ha : (s.msgs m).async
        · simp [hheld]
        · simp
      · rw [if_neg hne]
        have := mi.async c m ((hQsub c m hne).1 hmem)
        rw [this]
        unfold held_after_send
        split
        · simp [List.mem_filter, hne]
        · rfl
    · rw [g2]; exact mi.trace_msg
    · rw [g2]; exact mi.trace_total
    · rw [g2]; exact mi.balanced
  have hquiet : ∀ e ∈ [Event.broadcast_ipi], is_get e = false ∧ is_return e = false := by
    intro e he
    simp only [List.mem_singleton] at he
    subst he
    exact ⟨rfl, rfl⟩
  have hrefs0 : ¬ (u32_sub s.count 1 = 0) := by
    rw [hrefsN]; omega
  unfold smp_broadcast_message
  simp only [upd_same]
  rw [if_neg hrefs0, hrun]
  simp only [Bool.false_or]
  cases hany : (List.range s.count).any (fun c => decide (c ≠ sender ∧
      (s.procs c).m_message_queue = none))
  · simp only [Bool.false_eq_true, if_false]
    refine ⟨s2, rfl, ci2, mi2, by rw [hmsgs]; simp, fun m hm => by rw [hmsgs, if_neg hm],
      by rw [hmsgs]; simp, g4, g7, g8, by rw [g2]; simp⟩
  · simp only [if_true]
    refine ⟨emit Event.broadcast_ipi s2, rfl, ⟨ci2.queue, ci2.entry_msg⟩, ?_,
      by simp only [emit]; rw [hmsgs]; simp,
      fun m hm => by simp only [emit]; rw [hmsgs, if_neg hm],
      by simp only [emit]; rw [hmsgs]; simp, g4, g7, g8, by simp [emit, g2]⟩
    have hb := mi2.balanced.append_quiet _ hquiet
    exact ⟨mi2.count_eq, mi2.N_lt, mi2.enabled, mi2.per_proc, mi2.pool, mi2.queue_nodup,
      mi2.queue_lt, mi2.held_lt, mi2.free_lt, mi2.cover, mi2.free_excl, mi2.refs, mi2.async,
      fun m => by
        simp only [emit, List.count_append, count_get_quiet hquiet, count_return_quiet hquiet]
        exact mi2.trace_msg m,
      by
        simp only [emit, acquired_append, returned_append, acquired_quiet hquiet,
          returned_quiet hquiet]
        exact mi2.trace_total,
      hb⟩

lemma ChainInv.transfer_chain {N : Nat} {s s1 : System} {Q : Nat → List Nat} (ci : ChainInv N s Q)
    (he : s1.entries = s.entries) (hp : s1.procs = s.procs) : ChainInv N s1 Q := by
  refine ⟨?_, ?_⟩
  · rw [he, hp]; exact ci.queue
  · rw [he]; exact ci.entry_msg

/-- With a message on the free list, `smp_get_from_pool` pops the head of the list at
once: the message becomes held by the caller. -/
lemma smp_get_from_pool_spec {N : Nat} {s : System} {Q : Nat → List Nat} {H F : List Nat}
    {m : Nat} (mi : MsgInv N s Q H (m :: F)) (dfuel cpu fuel : Nat) :
    ∃ s1, smp_get_from_pool dfuel cpu (fuel + 1) s = Except.ok (m, s1) ∧
      MsgInv N s1 Q (m :: H) F ∧ (∀ c, m ∉ Q c) ∧
      s1.entries = s.entries ∧ s1.procs = s.procs ∧ s1.msgs = s.msgs ∧ s1.mm = s.mm ∧
      s1.pause_schedule = s.pause_schedule ∧
      s1.trace = s.trace ++ [Event.get_from_pool m] := by
  obtain ⟨hhead, htail⟩ := mi.pool
  have hmF : m ∈ m :: F := List.mem_cons_self m F
  have hnd := mi.pool.nodup
  have hmN := mi.free_lt m hmF
  have hmq : ∀ c, m ∉ Q c := (mi.free_excl m hmF).2
  refine ⟨emit (Event.get_from_pool m) { s with s_message_pool := (s.msgs m).next }, ?_, ?_, hmq,
    rfl, rfl, rfl, rfl, rfl, rfl⟩
  · unfold smp_get_from_pool
    simp [hhead, compare_exchange_strong]
  · have htm : ∀ m1, (s.trace ++ [Event.get_from_pool m]).count (Event.get_from_pool m1)
        = (s.trace ++ [Event.get_from_pool m]).count (Event.return_to_pool m1)
          + (if m1 ∈ F ∨ 100 * N ≤ m1 then 0 else 1) := by
      intro m1
      simp only [List.count_append, mi.trace_msg m1]
      by_cases hne : m1 = m
      · subst hne
        have h1 : m1 ∉ F := (List.nodup_cons.1 hnd).1
        simp [h1, Nat.not_le.2 hmN]
      · have hne1 : ¬ (m = m1) := fun h => hne h.symm
        simp [List.count_singleton, hne, hne1]
    have htt : acquired (s.trace ++ [Event.get_from_pool m]) + F.length
        = returned (s.trace ++ [Event.get_from_pool m]) + 100 * N := by
      have h1 : acquired [Event.get_from_pool m] = 1 := rfl
      have h2 : returned [Event.get_from_pool m] = 0 := rfl
      have := mi.trace_total
      rw [acquired_append, returned_append, h1, h2]
      simp only [List.length_cons] at this
      omega
    have hfl : ∀ x, x ∈ F → x < 100 * N := fun x hx => mi.free_lt x (List.mem_cons_of_mem m hx)
    refine ⟨mi.count_eq, mi.N_lt, mi.enabled, mi.per_proc, htail, mi.queue_nodup, mi.queue_lt,
      ?_, hfl, ?_, ?_, mi.refs, ?_, htm, htt, ?_⟩
    · intro x hx
      rcases List.mem_cons.1 hx with rfl | hx
      · exact hmN
      · exact mi.held_lt x hx
    · intro x hx
      rcases mi.cover x hx with hf | hh | hq
      · rcases List.mem_cons.1 hf with rfl | hf
        · exact Or.inr (Or.inl (List.mem_cons_self x H))
        · exact Or.inl hf
      · exact Or.inr (Or.inl (List.mem_cons_of_mem m hh))
      · exact Or.inr (Or.inr hq)
    · intro x hx
      have hx1 := mi.free_excl x (List.mem_cons_of_mem m hx)
      refine ⟨fun hh => ?_, hx1.2⟩
      rcases List.mem_cons.1 hh with rfl | hh
      · exact (List.nodup_cons.1 hnd).1 hx
      · exact hx1.1 hh
    · intro c x hx
      have hne : x ≠ m := fun h => hmq c (h ▸ hx)
      have := mi.async c x hx
      show (s.msgs x).async = true ↔ x ∉ m :: H
      rw [this]
      simp [hne]
    · refine mi.balanced.snoc ?_
      exact balancedAt_of_counts (F := F) (fun m1 => ⟨_, by split <;> omega, htm m1⟩) htt
        (length_le_of_nodup_lt (List.nodup_cons.1 hnd).2 hfl)

/-- Changes that the invariant does not see: the records of messages that are neither
free nor queued (apart from `per_proc_entries`), and events other than pool traffic. -/
lemma MsgInv.update {N : Nat} {s s1 : System} {Q : Nat → List Nat} {H F : List Nat}
    (mi : MsgInv N s Q H F) (hcount : s1.count = s.count)
    (hen : s1.s_smp_enabled = s.s_smp_enabled)
    (hpool : s1.s_message_pool = s.s_message_pool)
    (hmsgs : ∀ m, (m ∈ F ∨ ∃ c, m ∈ Q c) → s1.msgs m = s.msgs m)
    (hpp : ∀ m, (s1.msgs m).per_proc_entries = (s.msgs m).per_proc_entries)
    (htr : ∃ evs, s1.trace = s.trace ++ evs ∧ ∀ e ∈ evs, is_get e = false ∧ is_return e = false) :
    MsgInv N s1 Q H F := by
  obtain ⟨evs, hevs, hquiet⟩ := htr
  refine ⟨hcount.trans mi.count_eq, mi.N_lt, hen.trans mi.enabled, ?_, ?_, mi.queue_nodup,
    mi.queue_lt, mi.held_lt, mi.free_lt, mi.cover, mi.free_excl, ?_, ?_, ?_, ?_, ?_⟩
  · intro m hm
    rw [hpp m]
    exact mi.per_proc m hm
  · rw [hpool]
    refine mi.pool.frame (fun x hx => ?_)
    show (s1.msgs x).next = (s.msgs x).next
    rw [hmsgs x (Or.inl hx)]
  · intro c m hm
    rw [hmsgs m (Or.inr ⟨c, hm⟩)]
    exact mi.refs c m hm
  · intro c m hm
    rw [hmsgs m (Or.inr ⟨c, hm⟩)]
    exact mi.async c m hm
  · intro m
    rw [hevs]
    simp only [List.count_append, count_get_quiet hquiet, count_return_quiet hquiet,
      Nat.add_zero]
    exact mi.trace_msg m
  · rw [hevs]
    simp only [acquired_append, returned_append, acquired_quiet hquiet, returned_quiet hquiet,
      Nat.add_zero]
    exact mi.trace_total
  · rw [hevs]
    exact mi.balanced.append_quiet evs hquiet

lemma holders_single {N cpu m : Nat} {Q : Nat → List Nat} (hc : cpu < N)
    (hfresh : ∀ c, m ∉ Q c) : holders N (upd Q cpu (m :: Q cpu)) m = 1 := by
  unfold holders
  have := countP_range_flip (fun c => decide (m ∈ upd Q cpu (m :: Q cpu) c)) (fun _ => false)
    N cpu hc (by simp) rfl (fun c1 hc1 => by simp [upd, hc1, hfresh])
  have hz : (List.range N).countP (fun _ => false) = 0 :=
    List.countP_eq_zero.2 (fun _ _ => by simp)
  omega

/-- The invariant after a unicast send of the held message `m` to core `cpu`: the count
is 1, the message is in front of the queue of `cpu`, and it stays held exactly if the
send is synchronous. -/
lemma MsgInv.send_unicast {N : Nat} {s s1 : System} {Q : Nat → List Nat} {H F : List Nat}
    (mi : MsgInv N s Q H F) {m cpu : Nat} {a : Bool} (hheld : m ∈ H) (hfresh : ∀ c, m ∉ Q c)
    (hc : cpu < N) (hcount : s1.count = s.count) (hen : s1.s_smp_enabled = s.s_smp_enabled)
    (hpool : s1.s_message_pool = s.s_message_pool)
    (hother : ∀ m1, m1 ≠ m → s1.msgs m1 = s.msgs m1)
    (hrefs : (s1.msgs m).refs = 1) (hasync : (s1.msgs m).async = a)
    (hpp : (s1.msgs m).per_proc_entries = (s.msgs m).per_proc_entries)
    (htr : ∃ evs, s1.trace = s.trace ++ evs ∧ ∀ e ∈ evs, is_get e = false ∧ is_return e = false) :
    MsgInv N s1 (upd Q cpu (m :: Q cpu)) (held_after_send a m H) F := by
  obtain ⟨evs, hevs, hquiet⟩ := htr
  have hmF : m ∉ F := fun hf => (mi.free_excl m hf).1 hheld
  have hmN := mi.held_lt m hheld
  have hiff : ∀ c m1, m1 ≠ m → (m1 ∈ upd Q cpu (m :: Q cpu) c ↔ m1 ∈ Q c) := by
    intro c m1 hne
    by_cases hcc : c = cpu
    · subst hcc; simp [hne]
    · simp [upd, hcc]
  have hmem : ∀ c m1, m1 ∈ upd Q cpu (m :: Q cpu) c → (m1 = m ∧ c = cpu) ∨ (m1 ≠ m ∧ m1 ∈ Q c) := by
    intro c m1 h
    by_cases hne : m1 = m
    · subst hne
      by_cases hcc : c = cpu
      · exact Or.inl ⟨rfl, hcc⟩
      · rw [upd_other _ _ hcc] at h
        exact absurd h (hfresh c)
    · exact Or.inr ⟨hne, (hiff c m1 hne).1 h⟩
  have hheld_iff : ∀ m1, m1 ≠ m → (m1 ∈ held_after_send a m H ↔ m1 ∈ H) := by
    intro m1 hne
    unfold held_after_send
    cases a
    · simp
    · simp [List.mem_filter, hne]
  refine ⟨hcount.trans mi.count_eq, mi.N_lt, hen.trans mi.enabled, ?_, ?_, ?_, ?_, ?_,
    mi.free_lt, ?_, ?_, ?_, ?_, ?_, ?_, ?_⟩
  · intro m1 hm1
    by_cases hne : m1 = m
    · subst hne; rw [hpp]; exact mi.per_proc m1 hm1
    · rw [hother m1 hne]; exact mi.per_proc m1 hm1
  · rw [hpool]
    refine mi.pool.frame (fun x hx => ?_)
    show (s1.msgs x).next = (s.msgs x).next
    rw [hother x (fun h => hmF (h ▸ hx))]
  · intro c
    by_cases hcc : c = cpu
    · subst hcc
      rw [upd_same]
      exact List.nodup_cons.2 ⟨hfresh c, mi.queue_nodup c⟩
    · rw [upd_other _ _ hcc]
      exact mi.queue_nodup c
  · intro c m1 h
    rcases hmem c m1 h with ⟨rfl, rfl⟩ | ⟨_, hq⟩
    · exact ⟨hmN, hc⟩
    · exact mi.queue_lt c m1 hq
  · intro m1 h
    by_cases hne : m1 = m
    · subst hne; exact hmN
    · exact mi.held_lt m1 ((hheld_iff m1 hne).1 h)
  · intro m1 hm1
    by_cases hne : m1 = m
    · subst hne
      exact Or.inr (Or.inr ⟨cpu, by simp⟩)
    · rcases mi.cover m1 hm1 with hf | hh | ⟨c, hq⟩
      · exact Or.inl hf
      · exact Or.inr (Or.inl ((hheld_iff m1 hne).2 hh))
      · exact Or.inr (Or.inr ⟨c, (hiff c m1 hne).2 hq⟩)
  · intro m1 hf
    have hne : m1 ≠ m := fun h => hmF (h ▸ hf)
    exact ⟨fun hh => (mi.free_excl m1 hf).1 ((hheld_iff m1 hne).1 hh),
      fun c hq => (mi.free_excl m1 hf).2 c ((hiff c m1 hne).1 hq)⟩
  · intro c m1 h
    rcases hmem c m1 h with ⟨rfl, rfl⟩ | ⟨hne, hq⟩
    · rw [hrefs, holders_single hc hfresh]
    · rw [hother m1 hne, mi.refs c m1 hq]
      exact (holders_congr (fun c1 _ => hiff c1 m1 hne)).symm
  · intro c m1 h
    rcases hmem c m1 h with ⟨rfl, rfl⟩ | ⟨hne, hq⟩
    · rw [hasync]
      unfold held_after_send
      cases a
      · simp [hheld]
      · simp
    · rw [hother m1 hne, mi.async c m1 hq]
      exact not_congr (hheld_iff m1 hne).symm
  · intro m1
    rw [hevs]
    simp only [List.count_append, count_get_quiet hquiet, count_return_quiet hquiet,
      Nat.add_zero]
    exact mi.trace_msg m1
  · rw [hevs]
    simp only [acquired_append, returned_append, acquired_quiet hquiet, returned_quiet hquiet,
      Nat.add_zero]
    exact mi.trace_total
  · rw [hevs]
    exact mi.balanced.append_quiet evs hquiet

/-- The invariant after the sender has returned its held message `m`, which is no longer
queued anywhere, to the pool. -/
lemma MsgInv.return_held {N : Nat} {s s1 : System} {Q : Nat → List Nat} {H F : List Nat}
    (mi : MsgInv N s Q H F) {m : Nat} (hheld : m ∈ H) (hfresh : ∀ c, m ∉ Q c)
    (hcount : s1.count = s.count) (hen : s1.s_smp_enabled = s.s_smp_enabled)
    (hpool : s1.s_message_pool = some m)
    (hother : ∀ m1, m1 ≠ m → s1.msgs m1 = s.msgs m1)
    (hnext : (s1.msgs m).next = s.s_message_pool)
    (hpp : (s1.msgs m).per_proc_entries = (s.msgs m).per_proc_entries)
    (htr : s1.trace = s.trace ++ [Event.return_to_pool m]) :
    MsgInv N s1 Q (H.filter (fun x => decide (x ≠ m))) (m :: F) := by
  have hmF : m ∉ F := fun hf => (mi.free_excl m hf).1 hheld
  have hmN := mi.held_lt m hheld
  have hpool1 : IsList (fun x => (s1.msgs x).next) s1.s_message_pool (m :: F) := by
    refine ⟨hpool, ?_⟩
    simp only [hnext]
    refine mi.pool.frame (fun x hx => ?_)
    show (s1.msgs x).next = (s.msgs x).next
    rw [hother x (fun h => hmF (h ▸ hx))]
  have hfl : ∀ x, x ∈ m :: F → x < 100 * N := by
    intro x hx
    rcases List.mem_cons.1 hx with rfl | hx
    · exact hmN
    · exact mi.free_lt x hx
  have htm : ∀ m1, s1.trace.count (Event.get_from_pool m1)
      = s1.trace.count (Event.return_to_pool m1)
        + (if m1 ∈ m :: F ∨ 100 * N ≤ m1 then 0 else 1) := by
    intro m1
    rw [htr]
    simp only [List.count_append, mi.trace_msg m1]
    by_cases hne : m1 = m
    · subst hne
      simp [hmF, Nat.not_le.2 hmN]
    · have hne1 : ¬ (m = m1) := fun h => hne h.symm
      simp [List.count_singleton, hne, hne1]
  have htt : acquired s1.trace + (m :: F).length = returned s1.trace + 100 * N := by
    rw [htr]
    have h1 : acquired [Event.return_to_pool m] = 0 := rfl
    have h2 : returned [Event.return_to_pool m] = 1 := rfl
    have := mi.trace_total
    simp only [acquired_append, returned_append, h1, h2, List.length_cons]
    omega
  have hqne : ∀ c m1, m1 ∈ Q c → m1 ≠ m := fun c m1 hq h => hfresh c (h ▸ hq)
  refine ⟨hcount.trans mi.count_eq, mi.N_lt, hen.trans mi.enabled, ?_, hpool1, mi.queue_nodup,
    mi.queue_lt, ?_, hfl, ?_, ?_, ?_, ?_, htm, htt, ?_⟩
  · intro m1 hm1
    by_cases hne : m1 = m
    · subst hne; rw [hpp]; exact mi.per_proc m1 hm1
    · rw [hother m1 hne]; exact mi.per_proc m1 hm1
  · intro m1 h
    exact mi.held_lt m1 (List.mem_filter.1 h).1
  · intro m1 hm1
    by_cases hne : m1 = m
    · exact Or.inl (hne ▸ List.mem_cons_self m F)
    · rcases mi.cover m1 hm1 with hf | hh | hq
      · exact Or.inl (List.mem_cons_of_mem m hf)
      · exact Or.inr (Or.inl (List.mem_filter.2 ⟨hh, by simpa using hne⟩))
      · exact Or.inr (Or.inr hq)
  · intro m1 hf
    rcases List.mem_cons.1 hf with rfl | hf
    · exact ⟨fun h => by simpa using (List.mem_filter.1 h).2, hfresh⟩
    · exact ⟨fun h => (mi.free_excl m1 hf).1 (List.mem_filter.1 h).1, (mi.free_excl m1 hf).2⟩
  · intro c m1 hq
    rw [hother m1 (hqne c m1 hq)]
    exact mi.refs c m1 hq
  · intro c m1 hq
    rw [hother m1 (hqne c m1 hq), mi.async c m1 hq]
    simp [List.mem_filter, hqne c m1 hq]
  · rw [htr]
    refine mi.balanced.snoc ?_
    rw [← htr]
    exact balancedAt_of_counts (F := m :: F) (fun m1 => ⟨_, by split <;> omega, htm m1⟩) htt
      (length_le_of_nodup_lt hpool1.nodup hfl)

section progress

/-- Processing a callback message flushes nothing, on any core. -/
lemma process_one_no_flush {cpu m : Nat} {s s1 : System}
    (h : process_one cpu m s = Except.ok s1) (ht : (s.msgs m).type = MessageType.Callback) :
    ∃ block, s1.trace = s.trace ++ block ∧ ∀ c1, flushes_on c1 block = [] := by
  unfold process_one at h
  have h1 : process_message cpu m s
      = Except.ok (emit (Event.invoke_callback cpu m (s.msgs m).callback) s) := by
    unfold process_message
    rw [ht]
  simp only [h1] at h
  cases h2 : release_message cpu m (emit (Event.invoke_callback cpu m (s.msgs m).callback) s) with
  | error f => simp [h2] at h
  | ok t2 =>
    simp only [h2] at h
    split at h
    · cases h
    · cases h
      unfold release_message at h2
      simp only at h2
      split at h2
      · cases h2
      · split at h2
        · rw [smp_return_to_pool_eq] at h2
          cases h2
          unfold smp_cleanup_message
          simp only [emit, upd_same]
          split
          · exact ⟨[Event.invoke_callback cpu m (s.msgs m).callback,
              Event.refs_fetch_sub cpu m (s.msgs m).refs,
              Event.cleanup_callback m, Event.return_to_pool m], by simp, fun c1 => rfl⟩
          · exact ⟨[Event.invoke_callback cpu m (s.msgs m).callback,
              Event.refs_fetch_sub cpu m (s.msgs m).refs,
              Event.return_to_pool m], by simp, fun c1 => rfl⟩
        · cases h2
          exact ⟨[Event.invoke_callback cpu m (s.msgs m).callback,
            Event.refs_fetch_sub cpu m (s.msgs m).refs], by simp [emit], fun c1 => rfl⟩

/-- Processing callback messages only flushes nothing. -/
lemma process_in_order_no_flush (c : Nat) (ms : List Nat) :
    ∀ (s s1 : System), process_in_order c ms s = Except.ok s1 →
      (∀ m, m ∈ ms → (s.msgs m).type = MessageType.Callback) →
      ∃ new, s1.trace = s.trace ++ new ∧ ∀ c1, flushes_on c1 new = [] := by
  induction ms with
  | nil =>
    intro s s1 h _
    cases h
    exact ⟨[], by simp, fun _ => rfl⟩
  | cons m ms ih =>
    intro s s1 h ht
    unfold process_in_order at h
    cases h1 : process_one c m s with
    | error f => simp [h1] at h
    | ok t1 =>
      simp only [h1] at h
      obtain ⟨block, hblock, hfb⟩ := process_one_no_flush h1 (ht m (List.mem_cons_self m ms))
      obtain ⟨hother, _, _, _, htype, _⟩ := process_one_effect h1
      have ht1 : ∀ m1, m1 ∈ ms → (t1.msgs m1).type = MessageType.Callback := by
        intro m1 hm1
        by_cases hne : m1 = m
        · subst hne
          rw [htype]
          exact ht m1 (List.mem_cons_self m1 ms)
        · rw [hother m1 hne]
          exact ht m1 (List.mem_cons_of_mem m hm1)
      obtain ⟨new, hnew, hfn⟩ := ih t1 s1 h ht1
      refine ⟨block ++ new, by rw [hnew, hblock, List.append_assoc], fun c1 => ?_⟩
      rw [flushes_on_append, hfb c1, hfn c1]
      rfl

/-- A drain of a queue that holds callback messages only flushes nothing. -/
lemma drain_no_flush {N : Nat} {s : System} {Q : Nat → List Nat} {H F : List Nat}
    (ci : ChainInv N s Q) (mi : MsgInv N s Q H F) {c fuel : Nat} (hc : c < N)
    (hfuel : 100 * N ≤ fuel) {b : Bool} {s1 : System}
    (h : smp_process_pending_messages fuel c s = Except.ok (b, s1))
    (ht : ∀ m, m ∈ Q c → (s.msgs m).type = MessageType.Callback) :
    ∃ new, s1.trace = s.trace ++ new ∧ ∀ c1, flushes_on c1 new = [] := by
  have hchain := ci.queue c hc
  by_cases hQ : Q c = []
  · rw [hQ] at hchain
    have hq : (s.procs c).m_message_queue = none := hchain
    rw [smp_process_pending_messages_empty fuel c s mi.enabled hq] at h
    split at h
    · cases h
    · cases h
      exact ⟨[], by simp, fun _ => rfl⟩
  · have hlen : ((Q c).map (fun m => m * N + c)).length ≤ fuel := by
      rw [List.length_map]
      have := length_le_of_nodup_lt (mi.queue_nodup c) (fun m hm => (mi.queue_lt c m hm).1)
      omega
    obtain ⟨entries1, hframe, hmsg, heq⟩ := smp_process_pending_messages_eq fuel c s
      ((Q c).map (fun m => m * N + c)) mi.enabled hchain (by simpa using hQ) hlen
    rw [ci.msgs_of_queue mi c] at heq
    rw [heq] at h
    cases hp : process_in_order c (Q c).reverse
        { s with
          procs := upd s.procs c
            { s.procs c with
              m_in_critical := (s.procs c).m_in_critical + 1, m_message_queue := none },
          entries := entries1 } with
    | error f => simp [hp] at h
    | ok t2 =>
      simp only [hp] at h
      cases h
      obtain ⟨new, hnew, hfn⟩ := process_in_order_no_flush c _ _ _ hp
        (fun m hm => ht m (List.mem_reverse.1 hm))
      exact ⟨new, hnew, hfn⟩

/-- A core whose queue holds callback messages only flushes nothing while IPI handlers
run. -/
lemma run_ipi_handlers_no_flush {N fuel : Nat} {H : List Nat} (hfuel : 100 * N ≤ fuel)
    (order : List Nat) :
    ∀ (s s1 : System) (Q : Nat → List Nat) (F : List Nat), ChainInv N s Q → MsgInv N s Q H F →
      run_ipi_handlers fuel order s = Except.ok s1 →
      ∀ c, (∀ m, m ∈ Q c → (s.msgs m).type = MessageType.Callback) →
        ∃ new, s1.trace = s.trace ++ new ∧ flushes_on c new = [] := by
  induction order with
  | nil =>
    intro s s1 Q F _ _ h c _
    cases h
    exact ⟨[], by simp, rfl⟩
  | cons c0 rest ih =>
    intro s s1 Q F ci mi h c ht
    unfold run_ipi_handlers at h
    by_cases hc : c0 < N
    · rw [if_pos (by rw [mi.count_eq]; exact hc)] at h
      cases hd : smp_process_pending_messages fuel c0 s with
      | error f => simp [hd] at h
      | ok r =>
        obtain ⟨b, t⟩ := r
        simp only [hd] at h
        obtain ⟨ci1, ⟨F1, mi1⟩, dr⟩ := drain_spec ci mi hc hfuel hd
        have h1 : ∃ new1, t.trace = s.trace ++ new1 ∧ flushes_on c new1 = [] := by
          by_cases hcc : c = c0
          · subst hcc
            obtain ⟨new1, hn1, hf1⟩ := drain_no_flush ci mi hc hfuel hd ht
            exact ⟨new1, hn1, hf1 c⟩
          · obtain ⟨new1, hn1, _, hf1⟩ := dr.trace
            exact ⟨new1, hn1, hf1 c (Or.inl hcc)⟩
        obtain ⟨new1, hn1, hf1⟩ := h1
        have ht1 : ∀ m, m ∈ upd Q c0 [] c → (t.msgs m).type = MessageType.Callback := by
          intro m hm
          rw [(dr.payload m).2.1]
          refine ht m ?_
          by_cases hcc : c = c0
          · subst hcc
            rw [upd_same] at hm
            exact absurd hm (List.not_mem_nil _)
          · rwa [upd_other _ _ hcc] at hm
        obtain ⟨new2, hn2, hf2⟩ := ih t s1 (upd Q c0 []) F1 ci1 mi1 h c ht1
        refine ⟨new1 ++ new2, by rw [hn2, hn1, List.append_assoc], ?_⟩
        rw [flushes_on_append, hf1, hf2]
        rfl
    · rw [if_neg (by rw [mi.count_eq]; exact hc)] at h
      exact ih s s1 Q F ci mi h c ht

lemma count_of_nodup {l : List Nat} (hnd : l.Nodup) (m : Nat) :
    l.count m = if m ∈ l then 1 else 0 := by
  by_cases hm : m ∈ l
  · rw [if_pos hm]
    exact List.count_eq_one_of_mem hnd hm
  · rw [if_neg hm]
    exact List.count_eq_zero_of_not_mem hm

lemma Progress.none (Q : Nat → List Nat) (s : System) : Progress Q s Q s :=
  ⟨rfl, fun _ => ⟨rfl, rfl, rfl⟩, fun _ => ⟨rfl, rfl, rfl, rfl⟩, fun _ _ h => h,
    [], by simp, fun _ _ => rfl, fun c m => by simp [decremented_by]⟩

lemma Progress.then {Q Q1 Q2 : Nat → List Nat} {s s1 s2 : System} (h1 : Progress Q s Q1 s1)
    (h2 : Progress Q1 s1 Q2 s2) : Progress Q s Q2 s2 := by
  obtain ⟨new1, hn1, hf1, hc1⟩ := h1.trace
  obtain ⟨new2, hn2, hf2, hc2⟩ := h2.trace
  refine ⟨h2.mm_eq.trans h1.mm_eq, ?_, ?_, fun c m hm => h1.shrink c m (h2.shrink c m hm),
    new1 ++ new2, by rw [hn2, hn1, List.append_assoc], ?_, ?_⟩
  · intro c1
    obtain ⟨a1, a2, a3⟩ := h2.procs_eq c1
    obtain ⟨b1, b2, b3⟩ := h1.procs_eq c1
    exact ⟨a1.trans b1, a2.trans b2, a3.trans b3⟩
  · intro m
    obtain ⟨a1, a2, a3, a4⟩ := h2.payload m
    obtain ⟨b1, b2, b3, b4⟩ := h1.payload m
    exact ⟨a1.trans b1, a2.trans b2, a3.trans b3, a4.trans b4⟩
  · intro c hc
    have hQ1 : ∀ m, m ∈ Q1 c → (s1.msgs m).type = MessageType.Callback := by
      intro m hm
      rw [(h1.payload m).2.1]
      exact hc m (h1.shrink c m hm)
    rw [flushes_on_append, hf1 c hc, hf2 c hQ1]
    rfl
  · intro c m
    rw [decremented_by_append, List.count_append]
    have e1 := hc1 c m
    have e2 := hc2 c m
    omega

/-- Changing only the pause schedule changes nothing the invariants look at. -/
lemma Progress.of_fields {Q : Nat → List Nat} {s s1 : System} (h1 : s1.msgs = s.msgs)
    (h2 : s1.procs = s.procs) (h3 : s1.trace = s.trace) (h4 : s1.mm = s.mm) :
    Progress Q s Q s1 :=
  ⟨h4, fun _ => by rw [h2]; exact ⟨rfl, rfl, rfl⟩, fun _ => by rw [h1]; exact ⟨rfl, rfl, rfl, rfl⟩,
    fun _ _ h => h, [], by simp [h3], fun _ _ => rfl, fun c m => by simp [decremented_by]⟩

lemma DrainedAll.progress {N : Nat} {order : List Nat} {Q : Nat → List Nat} {s s1 : System}
    (da : DrainedAll N order Q s s1) (hnd : ∀ c, (Q c).Nodup)
    (hnf : ∀ c, (∀ m, m ∈ Q c → (s.msgs m).type = MessageType.Callback) →
      ∃ new, s1.trace = s.trace ++ new ∧ flushes_on c new = []) :
    Progress Q s (emptied N Q order) s1 := by
  obtain ⟨new, hn, hd, _⟩ := da.trace
  have hflush : ∀ c, (∀ m, m ∈ Q c → (s.msgs m).type = MessageType.Callback) →
      flushes_on c new = [] := by
    intro c hc
    obtain ⟨new1, hn1, hf1⟩ := hnf c hc
    rw [hn] at hn1
    rw [List.append_cancel_left hn1]
    exact hf1
  refine ⟨da.mm_eq, da.procs_eq, da.payload, ?_, new, hn, hflush, ?_⟩
  · intro c m hm
    unfold emptied at hm
    split at hm
    · exact absurd hm (List.not_mem_nil _)
    · exact hm
  · intro c m
    rw [hd c]
    unfold emptied
    by_cases hco : c ∈ order ∧ c < N
    · rw [if_pos hco, if_pos hco, List.count_reverse, count_of_nodup (hnd c)]
      simp
    · rw [if_neg hco, if_neg hco]
      simp

/-- A drain of an existing core is a run of the IPI handlers of that one core. -/
lemma run_ipi_handlers_single {fuel c : Nat} {s s1 : System} {b : Bool} (hc : c < s.count)
    (h : smp_process_pending_messages fuel c s = Except.ok (b, s1)) :
    run_ipi_handlers fuel [c] s = Except.ok s1 := by
  simp [run_ipi_handlers, hc, h]

/-- A drain that returns keeps the invariants and is progress. -/
lemma drain_progress {N : Nat} {s : System} {Q : Nat → List Nat} {H F : List Nat}
    (ci : ChainInv N s Q) (mi : MsgInv N s Q H F) {c fuel : Nat} (hc : c < N)
    (hfuel : 100 * N ≤ fuel) {b : Bool} {s1 : System}
    (h : smp_process_pending_messages fuel c s = Except.ok (b, s1)) :
    ∃ Q1 F1, ChainInv N s1 Q1 ∧ MsgInv N s1 Q1 H F1 ∧ Progress Q s Q1 s1 := by
  have hrun := run_ipi_handlers_single (by rw [mi.count_eq]; exact hc) h
  obtain ⟨ci1, ⟨F1, mi1⟩, da⟩ := run_ipi_handlers_spec hfuel [c] s s1 Q F ci mi hrun
  exact ⟨_, F1, ci1, mi1, da.progress mi.queue_nodup
    (run_ipi_handlers_no_flush hfuel [c] s s1 Q F ci mi hrun)⟩

/-- A `pause` that returns keeps the invariants and is progress. -/
lemma pause_progress {N : Nat} {s : System} {Q : Nat → List Nat} {H F : List Nat}
    (ci : ChainInv N s Q) (mi : MsgInv N s Q H F) {fuel : Nat} (hfuel : 100 * N ≤ fuel)
    {s1 : System} (h : pause fuel s = Except.ok s1) :
    ∃ Q1 F1, ChainInv N s1 Q1 ∧ MsgInv N s1 Q1 H F1 ∧ Progress Q s Q1 s1 := by
  unfold pause at h
  cases hsch : s.pause_schedule with
  | nil =>
    rw [hsch] at h
    cases h
    exact ⟨Q, F, ci, mi, Progress.none Q s⟩
  | cons others rest =>
    rw [hsch] at h
    simp only at h
    have ci0 : ChainInv N { s with pause_schedule := rest } Q := ci.transfer_chain rfl rfl
    have mi0 : MsgInv N { s with pause_schedule := rest } Q H F :=
      mi.transfer_msgs rfl rfl rfl rfl rfl (fun _ _ => Iff.rfl) mi.queue_nodup
    obtain ⟨ci1, ⟨F1, mi1⟩, da⟩ := run_ipi_handlers_spec hfuel others _ s1 Q F ci0 mi0 h
    have hp0 : Progress Q s Q { s with pause_schedule := rest } :=
      Progress.of_fields rfl rfl rfl rfl
    exact ⟨_, F1, ci1, mi1, hp0.then (da.progress mi.queue_nodup
      (run_ipi_handlers_no_flush hfuel others _ s1 Q F ci0 mi0 h))⟩

/-- The wait loop, when it returns: the invariants hold, only drains have run, and the
reference count of the awaited message is zero. -/
lemma wait_refs_zero_spec {N dfuel cur msg : Nat} {H : List Nat} (hcur : cur < N)
    (hfuel : 100 * N ≤ dfuel) (fuel : Nat) :
    ∀ (s s1 : System) (Q : Nat → List Nat) (F : List Nat), ChainInv N s Q → MsgInv N s Q H F →
      wait_refs_zero dfuel cur msg fuel s = Except.ok s1 →
      ∃ Q1 F1, ChainInv N s1 Q1 ∧ MsgInv N s1 Q1 H F1 ∧ Progress Q s Q1 s1 ∧
        (s1.msgs msg).refs = 0 := by
  induction fuel with
  | zero =>
    intro s s1 Q F _ _ h
    simp [wait_refs_zero] at h
  | succ fuel ih =>
    intro s s1 Q F ci mi h
    unfold wait_refs_zero at h
    by_cases hrefs : (s.msgs msg).refs = 0
    · rw [if_neg (not_not.2 hrefs)] at h
      cases h
      exact ⟨Q, F, ci, mi, Progress.none Q s, hrefs⟩
    · rw [if_pos hrefs] at h
      cases hp : pause dfuel s with
      | error f => simp [hp] at h
      | ok t1 =>
        simp only [hp] at h
        obtain ⟨Q1, F1, ci1, mi1, pr1⟩ := pause_progress ci mi hfuel hp
        cases hd : smp_process_pending_messages dfuel cur t1 with
        | error f => simp [hd] at h
        | ok r =>
          obtain ⟨b, t2⟩ := r
          simp only [hd] at h
          obtain ⟨Q2, F2, ci2, mi2, pr2⟩ := drain_progress ci1 mi1 hcur hfuel hd
          obtain ⟨Q3, F3, ci3, mi3, pr3, hz⟩ := ih t2 s1 Q2 F2 ci2 mi2 h
          exact ⟨Q3, F3, ci3, mi3, (pr1.then pr2).then pr3, hz⟩

/-- `smp_get_from_pool`, when it returns: up to the state `s0` only drains have run, and
then the head `m` of the free list has been popped and is held by the caller. -/
lemma smp_get_from_pool_progress {N dfuel cpu : Nat} {H : List Nat} (hcpu : cpu < N)
    (hfuel : 100 * N ≤ dfuel) (fuel : Nat) :
    ∀ (s s1 : System) (Q : Nat → List Nat) (F : List Nat) (m : Nat), ChainInv N s Q →
      MsgInv N s Q H F → smp_get_from_pool dfuel cpu fuel s = Except.ok (m, s1) →
      ∃ s0 Q1 F1, Progress Q s Q1 s0 ∧ ChainInv N s1 Q1 ∧ MsgInv N s1 Q1 (m :: H) F1 ∧
        (∀ c, m ∉ Q1 c) ∧ s1.entries = s0.entries ∧ s1.procs = s0.procs ∧ s1.msgs = s0.msgs ∧
        s1.mm = s0.mm ∧ s1.trace = s0.trace ++ [Event.get_from_pool m] := by
  induction fuel with
  | zero =>
    intro s s1 Q F m _ _ h
    simp [smp_get_from_pool] at h
  | succ fuel ih =>
    intro s s1 Q F m ci mi h
    cases F with
    | cons x F1 =>
      obtain ⟨t, hrun, mi1, hfresh, he, hp, hm, hmm, _, htr⟩ :=
        smp_get_from_pool_spec mi dfuel cpu fuel
      rw [hrun] at h
      cases h
      exact ⟨s, Q, F1, Progress.none Q s, ci.transfer_chain he hp, mi1, hfresh, he, hp, hm, hmm, htr⟩
    | nil =>
      have hpool : s.s_message_pool = none := mi.pool
      unfold smp_get_from_pool at h
      simp only [hpool] at h
      cases hd : smp_process_pending_messages dfuel cpu s with
      | error f => simp [hd] at h
      | ok r =>
        obtain ⟨b, t1⟩ := r
        simp only [hd] at h
        obtain ⟨Q1, F1, ci1, mi1, pr1⟩ := drain_progress ci mi hcpu hfuel hd
        cases b with
        | true =>
          simp only [if_true] at h
          obtain ⟨s0, Q2, F2, pr2, rest⟩ := ih t1 s1 Q1 F1 m ci1 mi1 h
          exact ⟨s0, Q2, F2, pr1.then pr2, rest⟩
        | false =>
          simp only [Bool.false_eq_true, if_false] at h
          cases hp : pause dfuel t1 with
          | error f => simp [hp] at h
          | ok t2 =>
            simp only [hp] at h
            obtain ⟨Q2, F2, ci2, mi2, pr2⟩ := pause_progress ci1 mi1 hfuel hp
            obtain ⟨s0, Q3, F3, pr3, rest⟩ := ih t2 s1 Q2 F2 m ci2 mi2 h
            exact ⟨s0, Q3, F3, (pr1.then pr2).then pr3, rest⟩

end progress

section enable

lemma smp_enable_entries_spec (msg base : Nat) (ks : List Nat) :
    ∀ (hp : (Nat → ProcessorMessage) × (Nat → ProcessorMessageEntry)) (e : Nat),
      (smp_enable_entries msg base ks hp).1 = hp.1 ∧
      (((smp_enable_entries msg base ks hp).2) e).next = (hp.2 e).next ∧
      (((smp_enable_entries msg base ks hp).2) e).msg
        = if ∃ k ∈ ks, e = base + k then msg else (hp.2 e).msg := by
  induction ks with
  | nil =>
    intro hp e
    simp [smp_enable_entries]
  | cons k ks ih =>
    intro hp e
    have h := ih (hp.1, upd hp.2 (base + k) { hp.2 (base + k) with msg := msg }) e
    unfold smp_enable_entries at h ⊢
    rw [List.foldl_cons]
    refine ⟨h.1, ?_, ?_⟩
    · rw [h.2.1]
      by_cases he : e = base + k
      · subst he; simp
      · simp [upd, he]
    · rw [h.2.2]
      by_cases hex : ∃ k1 ∈ ks, e = base + k1
      · have : ∃ k1 ∈ k :: ks, e = base + k1 := by
          obtain ⟨k1, hk1, h1⟩ := hex
          exact ⟨k1, List.mem_cons_of_mem k hk1, h1⟩
        rw [if_pos hex, if_pos this]
      · rw [if_neg hex]
        by_cases he : e = base + k
        · subst he
          rw [if_pos ⟨k, List.mem_cons_self k ks, rfl⟩]
          simp
        · have : ¬ ∃ k1 ∈ k :: ks, e = base + k1 := by
            rintro ⟨k1, hk1, h1⟩
            rcases List.mem_cons.1 hk1 with rfl | hk1
            · exact he h1
            · exact hex ⟨k1, hk1, h1⟩
          rw [if_neg this]
          simp [upd, he]

/-- What the construction loop of `smp_enable` leaves in the two arrays. -/
lemma smp_enable_loop_spec (P cnt : Nat) (is : List Nat) :
    ∀ (h : (Nat → ProcessorMessage) × (Nat → ProcessorMessageEntry)),
      (∀ i, i ∈ is →
        ((smp_enable_loop P cnt is h).1 i).next = (if i + 1 < P then some (i + 1) else none) ∧
        ((smp_enable_loop P cnt is h).1 i).per_proc_entries = i * cnt) ∧
      (∀ i k, i ∈ is → k < cnt → ((smp_enable_loop P cnt is h).2 (i * cnt + k)).msg = i) ∧
      (∀ e, ((smp_enable_loop P cnt is h).2 e).next = (h.2 e).next) := by
  induction is using List.reverseRecOn with
  | nil =>
    intro h
    exact ⟨fun i hi => absurd hi (List.not_mem_nil _), fun i k hi => absurd hi (List.not_mem_nil _),
      fun e => rfl⟩
  | append_singleton is i0 ih =>
    intro h
    obtain ⟨ih1, ih2, ih3⟩ := ih h
    have hstep : smp_enable_loop P cnt (is ++ [i0]) h =
        smp_enable_entries i0 (i0 * cnt) (List.range cnt)
          (upd (smp_enable_loop P cnt is h).1 i0
            { (smp_enable_loop P cnt is h).1 i0 with
              next := if i0 + 1 < P then some (i0 + 1) else none
              per_proc_entries := i0 * cnt },
           (smp_enable_loop P cnt is h).2) := by
      unfold smp_enable_loop
      rw [List.foldl_append]
      rfl
    rw [hstep]
    refine ⟨?_, ?_, ?_⟩
    · intro i hi
      rw [(smp_enable_entries_spec i0 (i0 * cnt) (List.range cnt) _ 0).1]
      by_cases hii : i = i0
      · subst hii; simp
      · have hi1 : i ∈ is := by
          rcases List.mem_append.1 hi with h1 | h1
          · exact h1
          · exact absurd (List.mem_singleton.1 h1) hii
        simp only [upd_other _ _ hii]
        exact ih1 i hi1
    · intro i k hi hk
      rw [(smp_enable_entries_spec i0 (i0 * cnt) (List.range cnt) _ _).2.2]
      by_cases hex : ∃ k1 ∈ List.range cnt, i * cnt + k = i0 * cnt + k1
      · rw [if_pos hex]
        obtain ⟨k1, hk1, heq⟩ := hex
        exact ((entry_index_inj hk (List.mem_range.1 hk1) heq).1).symm
      · rw [if_neg hex]
        have hi1 : i ∈ is := by
          rcases List.mem_append.1 hi with h1 | h1
          · exact h1
          · exfalso
            rw [List.mem_singleton.1 h1] at hex
            exact hex ⟨k, List.mem_range.2 hk, rfl⟩
        exact ih2 i k hi1 hk
    · intro e
      rw [(smp_enable_entries_spec i0 (i0 * cnt) (List.range cnt) _ _).2.1]
      exact ih3 e

lemma isList_range' (next : Nat → Option Nat) (P : Nat)
    (hnext : ∀ i, i < P → next i = if i + 1 < P then some (i + 1) else none) :
    ∀ (n a : Nat), 0 < n → a + n = P → IsList next (some a) (List.range' a n) := by
  intro n
  induction n with
  | zero => intro a h; omega
  | succ n ih =>
    intro a _ ha
    rw [List.range'_succ]
    refine ⟨rfl, ?_⟩
    rw [hnext a (by omega)]
    by_cases hn : n = 0
    · subst hn
      rw [if_neg (by omega)]
      rfl
    · rw [if_pos (by omega)]
      exact ih (a + 1) (by omega) (by omega)

lemma balanced_nil (cap : Nat) : Balanced cap [] := by
  intro k
  rw [List.take_nil]
  exact ⟨by simp [returned, acquired], by simp [returned, acquired], fun m => by simp⟩

/-- The fields of the machine right after `smp_enable` on `N` freshly booted cores, when
the 32-bit product `N * 100` does not wrap. -/
lemma smp_enable_fields (mm : MemoryManager) (N : Nat) (cr3 : Nat → Nat)
    (hP32 : N * 100 < 2 ^ 32) :
    (∀ i, i < 100 * N → ((smp_enable (boot mm N cr3)).msgs i).next
        = if i + 1 < 100 * N then some (i + 1) else none) ∧
      (∀ i, i < 100 * N → ((smp_enable (boot mm N cr3)).msgs i).per_proc_entries = i * N) ∧
      (∀ i k, i < 100 * N → k < N → ((smp_enable (boot mm N cr3)).entries (i * N + k)).msg = i) ∧
      (smp_enable (boot mm N cr3)).s_message_pool = some 0 ∧
      (smp_enable (boot mm N cr3)).trace = [] ∧
      (∀ c, ((smp_enable (boot mm N cr3)).procs c).m_message_queue = none) ∧
      (smp_enable (boot mm N cr3)).count = N ∧
      (smp_enable (boot mm N cr3)).s_smp_enabled = true := by
  obtain ⟨h1, h2, _⟩ := smp_enable_loop_spec ((N * 100) % 2 ^ 32) N
    (List.range ((N * 100) % 2 ^ 32)) (fun _ => {}, fun _ => {})
  have hmod : (N * 100) % 2 ^ 32 = N * 100 := Nat.mod_eq_of_lt hP32
  have hP : N * 100 = 100 * N := Nat.mul_comm _ _
  refine ⟨?_, ?_, ?_, rfl, rfl, fun _ => rfl, rfl, rfl⟩
  · intro i hi
    have e : ((smp_enable (boot mm N cr3)).msgs i).next
        = if i + 1 < (N * 100) % 2 ^ 32 then some (i + 1) else none :=
      (h1 i (List.mem_range.2 (by omega))).1
    rw [e, hmod]
    by_cases hlt : i + 1 < 100 * N
    · rw [if_pos hlt, if_pos (by omega)]
    · rw [if_neg hlt, if_neg (by omega)]
  · intro i hi
    exact (h1 i (List.mem_range.2 (by omega))).2
  · intro i k hi hk
    exact h2 i k (List.mem_range.2 (by omega)) hk

/-- After `smp_enable` on a freshly booted machine with `N` cores both invariants hold:
all queues are empty, no message is held, and the free list is `0, 1, .., 100 * N - 1`. -/
lemma smp_enable_inv (mm : MemoryManager) (N : Nat) (cr3 : Nat → Nat) (hN : 0 < N)
    (hP32 : N * 100 < 2 ^ 32) :
    ChainInv N (smp_enable (boot mm N cr3)) (fun _ => []) ∧
      MsgInv N (smp_enable (boot mm N cr3)) (fun _ => []) [] (List.range (100 * N)) := by
  have hN32 : N < 2 ^ 32 := by omega
  obtain ⟨f1, f2, f3, f4, f5, f6, f7, f8⟩ := smp_enable_fields mm N cr3 hP32
  generalize smp_enable (boot mm N cr3) = E at f1 f2 f3 f4 f5 f6 f7 f8
  refine ⟨⟨?_, f3⟩, ?_⟩
  · intro c _
    rw [f6 c]
    rfl
  · refine ⟨f7, hN32, f8, f2, ?_, fun _ => List.nodup_nil, ?_, ?_, ?_, ?_, ?_, ?_, ?_, ?_, ?_,
      ?_⟩
    · rw [f4, List.range_eq_range']
      exact isList_range' _ (100 * N) f1 (100 * N) 0 (by omega) (by omega)
    · intro c m hm
      exact absurd hm (List.not_mem_nil _)
    · intro m hm
      exact absurd hm (List.not_mem_nil _)
    · intro m hm
      exact List.mem_range.1 hm
    · intro m hm
      exact Or.inl (List.mem_range.2 hm)
    · intro m _
      exact ⟨List.not_mem_nil _, fun _ => List.not_mem_nil _⟩
    · intro c m hm
      exact absurd hm (List.not_mem_nil _)
    · intro c m hm
      exact absurd hm (List.not_mem_nil _)
    · intro m
      have : m ∈ List.range (100 * N) ∨ 100 * N ≤ m := by
        rw [List.mem_range]; omega
      rw [f5, if_pos this]
      rfl
    · rw [f5]
      simp [acquired, returned]
    · rw [f5]
      exact balanced_nil _

end enable

section operations

/-- A message whose reference count is zero is in no queue. -/
lemma MsgInv.unqueued_of_refs_zero {N : Nat} {s : System} {Q : Nat → List Nat} {H F : List Nat}
    (mi : MsgInv N s Q H F) {m : Nat} (hz : (s.msgs m).refs = 0) : ∀ c, m ∉ Q c := by
  intro c hm
  have h1 := mi.refs c m hm
  have h2 := holders_pos (mi.queue_lt c m hm).2 hm
  omega

/-- What `smp_cleanup_message` changes: the callback of the message, and one trace event
that is neither pool traffic nor a decrement nor a flush. -/
lemma smp_cleanup_message_spec (m : Nat) (s : System) :
    ∃ evs, (smp_cleanup_message m s).trace = s.trace ++ evs ∧
      (∀ e ∈ evs, is_get e = false ∧ is_return e = false) ∧
      (∀ c, decremented_by c evs = [] ∧ flushes_on c evs = []) ∧
      (∀ m1, m1 ≠ m → (smp_cleanup_message m s).msgs m1 = s.msgs m1) ∧
      ((smp_cleanup_message m s).msgs m).refs = (s.msgs m).refs ∧
      ((smp_cleanup_message m s).msgs m).per_proc_entries = (s.msgs m).per_proc_entries ∧
      (smp_cleanup_message m s).s_message_pool = s.s_message_pool := by
  unfold smp_cleanup_message
  split
  · refine ⟨[Event.cleanup_callback m], rfl, ?_, fun c => ⟨rfl, rfl⟩, ?_, ?_, ?_, rfl⟩
    · intro e he
      rw [List.mem_singleton.1 he]
      exact ⟨rfl, rfl⟩
    · intro m1 hne
      simp [emit, upd, hne]
    · simp [emit]
    · simp [emit]
  · exact ⟨[], by simp, fun e he => absurd he (List.not_mem_nil e), fun c => ⟨rfl, rfl⟩,
      fun _ _ => rfl, rfl, rfl, rfl⟩

/-- The end of a synchronous send: once the reference count of the held message is zero,
the sender cleans it up and returns it to the pool, where it becomes the head of the free
list. -/
lemma sync_finish {N : Nat} {s : System} {Q : Nat → List Nat} {H F : List Nat}
    (ci : ChainInv N s Q) (mi : MsgInv N s Q H F) {m : Nat} (hheld : m ∈ H)
    (hz : (s.msgs m).refs = 0) :
    ∃ s1 evs, smp_return_to_pool m (smp_cleanup_message m s) = Except.ok s1 ∧
      ChainInv N s1 Q ∧ MsgInv N s1 Q (H.filter (fun x => decide (x ≠ m))) (m :: F) ∧
      s1.s_message_pool = some m ∧ (s1.msgs m).refs = 0 ∧
      s1.trace = s.trace ++ evs ++ [Event.return_to_pool m] ∧
      (∀ c, decremented_by c evs = [] ∧ flushes_on c evs = []) := by
  have hfresh := mi.unqueued_of_refs_zero hz
  have hmF : m ∉ F := fun hf => (mi.free_excl m hf).1 hheld
  obtain ⟨evs, htr, hquiet, hnone, hother, hrefs, hpp, hpool⟩ := smp_cleanup_message_spec m s
  obtain ⟨he, hp, hcount, _, hen, _⟩ := smp_cleanup_message_same m s
  have mi1 : MsgInv N (smp_cleanup_message m s) Q H F := by
    refine mi.update hcount hen hpool (fun m1 hm1 => hother m1 ?_) (fun m1 => ?_)
      ⟨evs, htr, hquiet⟩
    · rintro rfl
      rcases hm1 with hf | ⟨c, hq⟩
      · exact hmF hf
      · exact hfresh c hq
    · by_cases hne : m1 = m
      · subst hne; exact hpp
      · rw [hother m1 hne]
  refine ⟨_, evs, smp_return_to_pool_eq m _, ?_, ?_, rfl, ?_, ?_, hnone⟩
  · exact ci.transfer_chain he hp
  · refine mi1.return_held hheld hfresh rfl rfl rfl (fun m1 hne => ?_) ?_ ?_ rfl
    · simp [upd, hne]
    · simp
    · simp
  · simp only [upd_same]
    exact hrefs.trans hz
  · simp only [htr]

/-- The sending half of `smp_broadcast_flush_tlb`: the held message gets its payload, is
broadcast to every other core, and the caller flushes locally. -/
lemma flush_send_spec {N : Nat} {s1 : System} {Q1 : Nat → List Nat} {F1 : List Nat}
    {cur msg : Nat} (ci1 : ChainInv N s1 Q1) (mi1 : MsgInv N s1 Q1 [msg] F1)
    (hfresh : ∀ c, msg ∉ Q1 c) (hN : 2 ≤ N) (hcur : cur < N) (pd vaddr pc : Nat) :
    ∃ s3 ipi, smp_broadcast_message cur msg
        { s1 with msgs := upd s1.msgs msg { s1.msgs msg with
            async := false, type := MessageType.FlushTlb,
            flush_tlb := { page_directory := pd, ptr := vaddr, page_count := pc } } }
          = Except.ok s3 ∧
      ChainInv N (flush_tlb_local cur vaddr pc s3)
        (broadcast_queues (List.range N) cur msg Q1) ∧
      MsgInv N (flush_tlb_local cur vaddr pc s3)
        (broadcast_queues (List.range N) cur msg Q1) [msg] F1 ∧
      (s3.msgs msg).refs = N - 1 ∧ (s3.msgs msg).async = false ∧
      (s3.msgs msg).type = MessageType.FlushTlb ∧
      (s3.msgs msg).flush_tlb = { page_directory := pd, ptr := vaddr, page_count := pc } ∧
      (∀ m, m ≠ msg → s3.msgs m = s1.msgs m) ∧ s3.mm = s1.mm ∧
      s3.pause_schedule = s1.pause_schedule ∧
      (∀ c1, (s3.procs c1).m_halt_requested = (s1.procs c1).m_halt_requested ∧
        (s3.procs c1).cr3 = (s1.procs c1).cr3 ∧
        (s3.procs c1).m_in_critical = (s1.procs c1).m_in_critical) ∧
      (flush_tlb_local cur vaddr pc s3).trace
        = s1.trace ++ ipi ++ [Event.flush_tlb_local cur vaddr pc] ∧
      (ipi = [] ∨ ipi = [Event.broadcast_ipi]) := by
  have hmF : msg ∉ F1 := fun hf => (mi1.free_excl msg hf).1 (List.mem_cons_self msg [])
  have ci2 : ChainInv N
      { s1 with msgs := upd s1.msgs msg { s1.msgs msg with
          async := false, type := MessageType.FlushTlb,
          flush_tlb := { page_directory := pd, ptr := vaddr, page_count := pc } } } Q1 :=
    ci1.transfer_chain rfl rfl
  have mi2 : MsgInv N
      { s1 with msgs := upd s1.msgs msg { s1.msgs msg with
          async := false, type := MessageType.FlushTlb,
          flush_tlb := { page_directory := pd, ptr := vaddr, page_count := pc } } } Q1 [msg] F1 := by
    refine mi1.update rfl rfl rfl (fun m hm => ?_) (fun m => ?_) ⟨[], by simp, by simp⟩
    · have hne : m ≠ msg := by
        rintro rfl
        rcases hm with hf | ⟨c, hq⟩
        · exact hmF hf
        · exact hfresh c hq
      simp [upd, hne]
    · by_cases hne : m = msg
      · subst hne; simp
      · simp [upd, hne]
  obtain ⟨s3, hrun, ci3, mi3, hrefs, hother, hpay, hmm, hsch, hprocs, htr⟩ :=
    smp_broadcast_message_spec ci2 mi2 hN hcur (List.mem_cons_self msg []) hfresh
  simp only [upd_same] at hpay mi3
  have hheld : held_after_send false msg [msg] = [msg] := rfl
  rw [hheld] at mi3
  have hipi : ∃ ipi, s3.trace = s1.trace ++ ipi ∧ (ipi = [] ∨ ipi = [Event.broadcast_ipi]) := by
    rw [htr]
    split
    · exact ⟨[Event.broadcast_ipi], rfl, Or.inr rfl⟩
    · exact ⟨[], rfl, Or.inl rfl⟩
  obtain ⟨ipi, hipi1, hipi2⟩ := hipi
  refine ⟨s3, ipi, hrun, ci3.transfer_chain rfl rfl, ?_, hrefs, hpay.1, hpay.2.1, hpay.2.2.1,
    ?_, hmm, hsch, hprocs, ?_, hipi2⟩
  · exact mi3.update rfl rfl rfl (fun _ _ => rfl) (fun _ => rfl)
      ⟨[Event.flush_tlb_local cur vaddr pc], rfl, fun e he => by
        rw [List.mem_singleton.1 he]; exact ⟨rfl, rfl⟩⟩
  · intro m hne
    rw [hother m hne]
    simp [upd, hne]
  · show s3.trace ++ [Event.flush_tlb_local cur vaddr pc] = _
    rw [hipi1]

lemma filter_ne_singleton (m : Nat) : [m].filter (fun x => decide (x ≠ m)) = [] := by
  simp

lemma nil_of_shrink {Q Q1 : Nat → List Nat} {c : Nat} (hs : ∀ m, m ∈ Q1 c → m ∈ Q c)
    (h : Q c = []) : Q1 c = [] := by
  cases hq : Q1 c with
  | nil => rfl
  | cons x xs =>
    have := hs x (by rw [hq]; exact List.mem_cons_self x xs)
    rw [h] at this
    exact absurd this (List.not_mem_nil _)

/-- `smp_broadcast_flush_tlb`, when it returns: the machine has at least two cores; the
trace of the call is some drains `pre` inside `smp_get_from_pool`, the acquisition of a
message `msg`, at most one broadcast IPI, the caller's own `flush_tlb_local`, the drains
`wnew` of the wait loop, and the return of `msg` to the pool. -/
lemma smp_broadcast_flush_tlb_spec {N : Nat} {s : System} {Q : Nat → List Nat} {F : List Nat}
    (ci : ChainInv N s Q) (mi : MsgInv N s Q [] F) {fuel cur pd vaddr pc : Nat} (hcur : cur < N)
    (hfuel : 100 * N ≤ fuel) {s1 : System}
    (h : smp_broadcast_flush_tlb fuel cur pd vaddr pc s = Except.ok s1) :
    2 ≤ N ∧ ∃ msg pre ipi wnew Q1 F1,
      s1.trace = s.trace ++ pre ++ [Event.get_from_pool msg] ++ ipi
        ++ [Event.flush_tlb_local cur vaddr pc] ++ wnew ++ [Event.return_to_pool msg] ∧
      (ipi = [] ∨ ipi = [Event.broadcast_ipi]) ∧
      (∀ c, c < N → c ≠ cur → (decremented_by c wnew).count msg = 1) ∧
      (decremented_by cur wnew).count msg = 0 ∧
      ((∀ m, m ∈ Q cur → (s.msgs m).type = MessageType.Callback) →
        flushes_on cur pre = [] ∧ flushes_on cur wnew = []) ∧
      (s1.msgs msg).refs = 0 ∧ s1.s_message_pool = some msg ∧
      ChainInv N s1 Q1 ∧ MsgInv N s1 Q1 [] (msg :: F1) ∧ (∀ c, msg ∉ Q1 c) ∧
      (∀ c m, m ∈ Q1 c → m ∈ Q c) := by
  unfold smp_broadcast_flush_tlb at h
  cases hg : smp_get_from_pool fuel cur fuel s with
  | error f => simp [hg] at h
  | ok r =>
    obtain ⟨msg, t1⟩ := r
    simp only [hg] at h
    obtain ⟨s0, Q1, F1, pr0, ci1, mi1, hfresh, he, hp, hm, hmm, htr1⟩ :=
      smp_get_from_pool_progress hcur hfuel fuel s t1 Q F msg ci mi hg
    by_cases hN : 2 ≤ N
    · refine ⟨hN, ?_⟩
      obtain ⟨s3, ipi, hrun, ci4, mi4, hrefs, hasync, htype, hflush, hother, hmm3, hsch, hprocs,
        htr4, hipi⟩ := flush_send_spec ci1 mi1 hfresh hN hcur pd vaddr pc
      simp only [hrun] at h
      unfold smp_broadcast_wait_sync at h
      have hasync4 : ((flush_tlb_local cur vaddr pc s3).msgs msg).async = false := hasync
      rw [hasync4] at h
      simp only [Bool.false_eq_true, if_false] at h
      cases hw : wait_refs_zero fuel cur msg fuel (flush_tlb_local cur vaddr pc s3) with
      | error f => simp [hw] at h
      | ok t5 =>
        simp only [hw] at h
        obtain ⟨Q5, F5, ci5, mi5, pr5, hz⟩ :=
          wait_refs_zero_spec hcur hfuel fuel _ t5 _ F1 ci4 mi4 hw
        obtain ⟨t6, evs, hfin, ci6, mi6, hpool, hrefs6, htr6, hnone⟩ :=
          sync_finish ci5 mi5 (List.mem_cons_self msg []) hz
        rw [hfin] at h
        cases h
        rw [filter_ne_singleton] at mi6
        obtain ⟨pre, hpre, hfl0, _⟩ := pr0.trace
        obtain ⟨wnew, hwnew, hfl5, hc5⟩ := pr5.trace
        have hgone := mi5.unqueued_of_refs_zero hz
        refine ⟨msg, pre, ipi, wnew ++ evs, Q5, F5, ?_, hipi, ?_, ?_, ?_, hrefs6, hpool, ci6, mi6,
          hgone, ?_⟩
        · rw [htr6, hwnew, htr4, htr1, hpre]
          simp only [List.append_assoc]
        · intro c hc hne
          have := hc5 c msg
          rw [if_neg (hgone c)] at this
          rw [decremented_by_append, (hnone c).1, List.append_nil, Nat.add_zero] at *
          rw [this]
          simp [broadcast_queues, hc, hne]
        · have := hc5 cur msg
          rw [if_neg (hgone cur)] at this
          rw [decremented_by_append, (hnone cur).1, List.append_nil]
          simp only [Nat.add_zero] at this
          rw [this]
          simp [broadcast_queues, hfresh cur]
        · intro hQ
          refine ⟨hfl0 cur hQ, ?_⟩
          rw [flushes_on_append, (hnone cur).2, List.append_nil]
          refine hfl5 cur (fun m hm3 => ?_)
          have hm1 : m ∈ Q1 cur := by simpa [broadcast_queues] using hm3
          have hne : m ≠ msg := fun hh => hfresh cur (hh ▸ hm1)
          show (s3.msgs m).type = MessageType.Callback
          rw [hother m hne, hm, (pr0.payload m).2.1]
          exact hQ m (pr0.shrink cur m hm1)
        · intro c m hm5
          have hm3 := pr5.shrink c m hm5
          have hne : m ≠ msg := fun hh => hgone c (hh ▸ hm5)
          refine pr0.shrink c m ?_
          unfold broadcast_queues at hm3
          split at hm3
          · exact (List.mem_cons.1 hm3).resolve_left hne
          · exact hm3
    · exfalso
      have hcount : t1.count = 1 := by
        rw [mi1.count_eq]
        omega
      unfold smp_broadcast_message at h
      simp [hcount, u32_sub] at h

/-- The wait loop returns after one pause when the cores that still hold the awaited
message all run their IPI handler during that pause. -/
lemma wait_refs_zero_total {N : Nat} {s : System} {Q : Nat → List Nat} {H F : List Nat}
    (ci : ChainInv N s Q) (mi : MsgInv N s Q H F) {dfuel cur msg : Nat} (hcur : cur < N)
    (hfuel : 100 * N ≤ dfuel) (hhalt : ∀ c, (s.procs c).m_halt_requested = false)
    (hvalid : ∀ c m, m ∈ Q c → FlushValid s m) (hrefs : (s.msgs msg).refs = holders N Q msg)
    {others : List Nat} {rest : List (List Nat)} (hsch : s.pause_schedule = others :: rest)
    (hcov : ∀ c, msg ∈ Q c → c ∈ others ∧ c ≠ cur) (f : Nat) :
    ∃ s1, wait_refs_zero dfuel cur msg (f + 2) s = Except.ok s1 := by
  unfold wait_refs_zero
  by_cases hz : (s.msgs msg).refs = 0
  · rw [if_neg (not_not.2 hz)]
    exact ⟨s, rfl⟩
  · rw [if_pos hz]
    have ci0 : ChainInv N { s with pause_schedule := rest } Q := ci.transfer_chain rfl rfl
    have mi0 : MsgInv N { s with pause_schedule := rest } Q H F :=
      mi.transfer_msgs rfl rfl rfl rfl rfl (fun _ _ => Iff.rfl) mi.queue_nodup
    obtain ⟨t1, hrun1⟩ := run_ipi_handlers_total hfuel others _ Q F ci0 mi0 hhalt hvalid
    obtain ⟨ci1, ⟨F1, mi1⟩, da⟩ := run_ipi_handlers_spec hfuel others _ t1 Q F ci0 mi0 hrun1
    have hpause : pause dfuel s = Except.ok t1 := by
      unfold pause
      rw [hsch]
      exact hrun1
    have hsub : ∀ m, m ∈ emptied N Q others cur → m ∈ Q cur := by
      intro m hm
      unfold emptied at hm
      split at hm
      · exact absurd hm (List.not_mem_nil _)
      · exact hm
    obtain ⟨b, t2, hd⟩ := drain_total ci1 mi1 hcur hfuel
      (by rw [(da.procs_eq cur).1]; exact hhalt cur)
      (fun m hm => (hvalid cur m (hsub m hm)).transfer_valid da.mm_eq (da.payload m).2.1
        (da.payload m).2.2.1)
    obtain ⟨_, _, dr⟩ := drain_spec ci1 mi1 hcur hfuel hd
    have hcnt : (List.range N).countP (fun c => decide (c ∈ others ∧ msg ∈ Q c))
        = holders N Q msg := by
      unfold holders
      refine countP_range_congr _ _ N (fun c _ => ?_)
      by_cases hq : msg ∈ Q c
      · simp [hq, (hcov c hq).1]
      · simp [hq]
    have hz1 : (t1.msgs msg).refs = 0 := by
      rw [da.refs msg]
      show (s.msgs msg).refs - _ = 0
      rw [hcnt, hrefs]
      exact Nat.sub_self _
    have hz2 : (t2.msgs msg).refs = 0 := by
      rw [dr.refs_other msg (fun hm => (hcov cur (hsub msg hm)).2 rfl)]
      exact hz1
    simp only [hpause, hd]
    unfold wait_refs_zero
    rw [if_neg (not_not.2 hz2)]
    exact ⟨t2, rfl⟩

/-- `smp_broadcast_flush_tlb` returns when the pool is not empty, no core has been asked
to halt, every queued flush has a valid range, so has the new one, and all other cores
run their IPI handler at the first pause of the caller. -/
lemma smp_broadcast_flush_tlb_total {N : Nat} {s : System} {Q : Nat → List Nat} {F : List Nat}
    (ci : ChainInv N s Q) (mi : MsgInv N s Q [] F) {fuel cur : Nat} (pd vaddr pc : Nat)
    (hN : 2 ≤ N) (hcur : cur < N) (hfuel : 100 * N ≤ fuel) (hF : F ≠ [])
    (hhalt : ∀ c, (s.procs c).m_halt_requested = false)
    (hvalid : ∀ c m, m ∈ Q c → FlushValid s m)
    (hnew : s.mm.is_user_address vaddr = true →
      s.mm.is_user_range vaddr (pc * s.mm.PAGE_SIZE % 2 ^ s.mm.size_bits) = true)
    {others : List Nat} {rest : List (List Nat)} (hsch : s.pause_schedule = others :: rest)
    (hall : ∀ c, c < N → c ≠ cur → c ∈ others) :
    ∃ s1, smp_broadcast_flush_tlb fuel cur pd vaddr pc s = Except.ok s1 := by
  obtain ⟨f, rfl⟩ : ∃ f, fuel = f + 2 := ⟨fuel - 2, by omega⟩
  cases F with
  | nil => exact absurd rfl hF
  | cons msg F1 =>
    obtain ⟨t1, hget, mi1, hfresh, he, hp, hm, hmm, hsch1, htr1⟩ :=
      smp_get_from_pool_spec mi (f + 2) cur (f + 1)
    obtain ⟨s3, ipi, hrun, ci4, mi4, hrefs, hasync, htype, hflush, hother, hmm3, hsch3, hprocs,
      htr4, hipi⟩ := flush_send_spec (ci.transfer_chain he hp) mi1 hfresh hN hcur pd vaddr pc
    have hin : ∀ c, c < N → c ≠ cur →
        msg ∈ broadcast_queues (List.range N) cur msg Q c := by
      intro c hc hne
      simp [broadcast_queues, hc, hne]
    have hcur0 : (if cur = 0 then 1 else 0) < N ∧ (if cur = 0 then 1 else 0) ≠ cur := by
      split <;> omega
    have hrefs4 : ((flush_tlb_local cur vaddr pc s3).msgs msg).refs
        = holders N (broadcast_queues (List.range N) cur msg Q) msg :=
      mi4.refs _ msg (hin _ hcur0.1 hcur0.2)
    have hhalt4 : ∀ c, ((flush_tlb_local cur vaddr pc s3).procs c).m_halt_requested = false := by
      intro c
      show (s3.procs c).m_halt_requested = false
      rw [(hprocs c).1, hp]
      exact hhalt c
    have hvalid4 : ∀ c m, m ∈ broadcast_queues (List.range N) cur msg Q c →
        FlushValid (flush_tlb_local cur vaddr pc s3) m := by
      intro c m hmq
      by_cases hne : m = msg
      · subst hne
        intro _ hua
        show s3.mm.is_user_range (s3.msgs m).flush_tlb.ptr
          ((s3.msgs m).flush_tlb.page_count * s3.mm.PAGE_SIZE % 2 ^ s3.mm.size_bits) = true
        have hua1 : s3.mm.is_user_address (s3.msgs m).flush_tlb.ptr = true := hua
        rw [hflush, hmm3, hmm] at hua1 ⊢
        exact hnew hua1
      · have hq : m ∈ Q c := by
          unfold broadcast_queues at hmq
          split at hmq
          · exact (List.mem_cons.1 hmq).resolve_left hne
          · exact hmq
        have hsame : (flush_tlb_local cur vaddr pc s3).msgs m = s.msgs m := by
          show s3.msgs m = s.msgs m
          rw [hother m hne, hm]
        exact (hvalid c m hq).transfer_valid (hmm3.trans hmm) (by rw [hsame]) (by rw [hsame])
    have hcov : ∀ c, msg ∈ broadcast_queues (List.range N) cur msg Q c → c ∈ others ∧ c ≠ cur := by
      intro c hmq
      unfold broadcast_queues at hmq
      split at hmq
      · rename_i hc
        exact ⟨hall c (List.mem_range.1 hc.1) hc.2, hc.2⟩
      · exact absurd hmq (hfresh c)
    have hsch4 : (flush_tlb_local cur vaddr pc s3).pause_schedule = others :: rest := by
      show s3.pause_schedule = _
      rw [hsch3, hsch1]
      exact hsch
    obtain ⟨t5, hw⟩ := wait_refs_zero_total ci4 mi4 hcur hfuel hhalt4 hvalid4 hrefs4 hsch4 hcov f
    obtain ⟨Q5, F5, ci5, mi5, pr5, hz⟩ :=
      wait_refs_zero_spec hcur hfuel (f + 2) _ t5 _ F1 ci4 mi4 hw
    obtain ⟨t6, evs, hfin, _⟩ := sync_finish ci5 mi5 (List.mem_cons_self msg []) hz
    refine ⟨t6, ?_⟩
    unfold smp_broadcast_flush_tlb
    simp only [hget, hrun]
    unfold smp_broadcast_wait_sync
    have hasync4 : ((flush_tlb_local cur vaddr pc s3).msgs msg).async = false := hasync
    rw [hasync4]
    simp only [Bool.false_eq_true, if_false, hw]
    exact hfin

/-- `smp_unicast_message` to another, existing core: the two stores to the message, the
enqueue, the optional IPI, and for a synchronous send the wait and the return. -/
lemma smp_unicast_message_unfold (fuel cur cpu msg : Nat) (async : Bool) (s : System)
    (h1 : cpu ≠ cur) (h2 : cpu < s.count) :
    smp_unicast_message fuel cur cpu msg async s =
      match smp_enqueue_message cpu msg
          { s with msgs := upd s.msgs msg { s.msgs msg with async := async, refs := 1 } } with
      | Except.error f => Except.error f
      | Except.ok (was_empty, s3) =>
        if async = false then
          match wait_refs_zero fuel cur msg fuel
              (if was_empty then emit (Event.send_ipi cpu) s3 else s3) with
          | Except.error f => Except.error f
          | Except.ok s5 => smp_return_to_pool msg (smp_cleanup_message msg s5)
        else Except.ok (if was_empty then emit (Event.send_ipi cpu) s3 else s3) := by
  unfold smp_unicast_message
  rw [if_neg h1, if_neg (Nat.not_le.2 h2)]
  simp only [upd_same, upd_upd]

/-- The sending half of `smp_unicast_message`: the held message is queued on `cpu` with
one reference, and stays held exactly if the send is synchronous. -/
lemma unicast_send_spec {N : Nat} {s : System} {Q : Nat → List Nat} {F : List Nat}
    {cpu msg : Nat} (ci : ChainInv N s Q) (mi : MsgInv N s Q [msg] F)
    (hfresh : ∀ c, msg ∉ Q c) (hc : cpu < N) (async : Bool) :
    ∃ was_empty s3, smp_enqueue_message cpu msg
        { s with msgs := upd s.msgs msg { s.msgs msg with async := async, refs := 1 } }
          = Except.ok (was_empty, s3) ∧
      ChainInv N (if was_empty then emit (Event.send_ipi cpu) s3 else s3)
        (upd Q cpu (msg :: Q cpu)) ∧
      MsgInv N (if was_empty then emit (Event.send_ipi cpu) s3 else s3)
        (upd Q cpu (msg :: Q cpu)) (held_after_send async msg [msg]) F := by
  have hmN : msg < 100 * N := mi.held_lt msg (List.mem_cons_self msg [])
  have ci0 : ChainInv N
      { s with msgs := upd s.msgs msg { s.msgs msg with async := async, refs := 1 } } Q :=
    ci.transfer_chain rfl rfl
  obtain ⟨s3, hrun, ci3, _, _, hmsgs, htr, hpool, _, hen, hcount, _, _, _⟩ :=
    ci0.enqueue hc hmN (by simp only [upd_same]; exact mi.per_proc msg hmN) (hfresh cpu)
  refine ⟨_, s3, hrun, ?_, ?_⟩
  · split
    · exact ci3.transfer_chain rfl rfl
    · exact ci3
  · have hother : ∀ m1, m1 ≠ msg → s3.msgs m1 = s.msgs m1 := by
      intro m1 hne
      rw [hmsgs]
      simp [upd, hne]
    have hrefs : (s3.msgs msg).refs = 1 := by rw [hmsgs]; simp
    have hasync : (s3.msgs msg).async = async := by rw [hmsgs]; simp
    have hpp : (s3.msgs msg).per_proc_entries = (s.msgs msg).per_proc_entries := by
      rw [hmsgs]; simp
    split
    · exact mi.send_unicast (List.mem_cons_self msg []) hfresh hc hcount hen hpool hother hrefs
        hasync hpp ⟨[Event.send_ipi cpu], by simp only [emit]; rw [htr], fun e he => by
          rw [List.mem_singleton.1 he]; exact ⟨rfl, rfl⟩⟩
    · exact mi.send_unicast (List.mem_cons_self msg []) hfresh hc hcount hen hpool hother hrefs
        hasync hpp ⟨[], by rw [htr]; simp, fun e he => absurd he (List.not_mem_nil e)⟩

/-- `smp_unicast`, when it returns: the invariants hold again and no message is held. -/
lemma smp_unicast_spec {N : Nat} {s : System} {Q : Nat → List Nat} {F : List Nat}
    (ci : ChainInv N s Q) (mi : MsgInv N s Q [] F) {fuel cur cpu callback : Nat} {async : Bool}
    (hcur : cur < N) (hfuel : 100 * N ≤ fuel) {s1 : System}
    (h : smp_unicast fuel cur cpu callback async s = Except.ok s1) :
    ∃ Q1 F1, ChainInv N s1 Q1 ∧ MsgInv N s1 Q1 [] F1 := by
  unfold smp_unicast at h
  cases hg : smp_get_from_pool fuel cur fuel s with
  | error f => simp [hg] at h
  | ok r =>
    obtain ⟨msg, t1⟩ := r
    simp only [hg] at h
    obtain ⟨s0, Q1, F1, pr0, ci1, mi1, hfresh, he, hp, hm, hmm, htr1⟩ :=
      smp_get_from_pool_progress hcur hfuel fuel s t1 Q F msg ci mi hg
    have hmF : msg ∉ F1 := fun hf => (mi1.free_excl msg hf).1 (List.mem_cons_self msg [])
    have hne : ∀ m, (m ∈ F1 ∨ ∃ c, m ∈ Q1 c) → m ≠ msg := by
      rintro m hm1 rfl
      rcases hm1 with hf | ⟨c, hq⟩
      · exact hmF hf
      · exact hfresh c hq
    obtain ⟨S, hSe, hSp, hSm, hSpp, hSc, hSen, hSpool, hStr, h⟩ : ∃ S : System,
        S.entries = t1.entries ∧ S.procs = t1.procs ∧
        (∀ m1, m1 ≠ msg → S.msgs m1 = t1.msgs m1) ∧
        (S.msgs msg).per_proc_entries = (t1.msgs msg).per_proc_entries ∧
        S.count = t1.count ∧ S.s_smp_enabled = t1.s_smp_enabled ∧
        S.s_message_pool = t1.s_message_pool ∧ S.trace = t1.trace ∧
        smp_unicast_message fuel cur cpu msg async S = Except.ok s1 := by
      refine ⟨_, ?_, ?_, ?_, ?_, ?_, ?_, ?_, ?_, h⟩
      · rfl
      · rfl
      · intro m1 hm1
        simp [upd, hm1]
      · simp
      · rfl
      · rfl
      · rfl
      · rfl
    have mi3 : MsgInv N S Q1 [msg] F1 := by
      refine mi1.update hSc hSen hSpool (fun m hm1 => hSm m (hne m hm1)) (fun m => ?_)
        ⟨[], by simp [hStr], by simp⟩
      by_cases hmm1 : m = msg
      · subst hmm1; exact hSpp
      · rw [hSm m hmm1]
    have ci3 : ChainInv N S Q1 := ci1.transfer_chain hSe hSp
    by_cases h1 : cpu = cur
    · unfold smp_unicast_message at h
      rw [if_pos h1] at h
      cases h
    by_cases h2 : cpu < N
    · rw [smp_unicast_message_unfold fuel cur cpu msg async _ h1
        (by rw [mi3.count_eq]; exact h2)] at h
      obtain ⟨was_empty, s3, hrun, ci4, mi4⟩ := unicast_send_spec ci3 mi3 hfresh h2 async
      simp only [hrun] at h
      cases async with
      | true =>
        simp only [Bool.true_eq_false, if_false] at h
        cases h
        have hheld : held_after_send true msg [msg] = [] := filter_ne_singleton msg
        rw [hheld] at mi4
        exact ⟨_, F1, ci4, mi4⟩
      | false =>
        simp only [if_true] at h
        have hheld : held_after_send false msg [msg] = [msg] := rfl
        rw [hheld] at mi4
        cases hw : wait_refs_zero fuel cur msg fuel
            (if was_empty then emit (Event.send_ipi cpu) s3 else s3) with
        | error f => simp [hw] at h
        | ok t5 =>
          simp only [hw] at h
          obtain ⟨Q5, F5, ci5, mi5, _, hz⟩ :=
            wait_refs_zero_spec hcur hfuel fuel _ t5 _ F1 ci4 mi4 hw
          obtain ⟨t6, evs, hfin, ci6, mi6, _⟩ :=
            sync_finish ci5 mi5 (List.mem_cons_self msg []) hz
          rw [hfin] at h
          cases h
          rw [filter_ne_singleton] at mi6
          exact ⟨Q5, _, ci6, mi6⟩
    · unfold smp_unicast_message at h
      rw [if_neg h1, if_pos (by rw [mi3.count_eq]; omega)] at h
      cases h

/-- Every call that returns re-establishes the invariants with no message held. -/
lemma run_call_inv {N : Nat} {s : System} {Q : Nat → List Nat} {F : List Nat}
    (ci : ChainInv N s Q) (mi : MsgInv N s Q [] F) {fuel : Nat} (hfuel : 100 * N ≤ fuel)
    (call : Call) (hcore : call.core < N) {s1 : System}
    (h : run_call fuel call s = Except.ok s1) :
    ∃ Q1 F1, ChainInv N s1 Q1 ∧ MsgInv N s1 Q1 [] F1 := by
  cases call with
  | process_pending cpu =>
    unfold run_call at h
    cases hd : smp_process_pending_messages fuel cpu s with
    | error f => simp [hd] at h
    | ok r =>
      obtain ⟨b, t1⟩ := r
      simp only [hd] at h
      cases h
      obtain ⟨Q1, F1, ci1, mi1, _⟩ := drain_progress ci mi hcore hfuel hd
      exact ⟨Q1, F1, ci1, mi1⟩
  | unicast cur cpu callback async =>
    exact smp_unicast_spec ci mi hcore hfuel h
  | broadcast_flush_tlb cur pd vaddr pc =>
    obtain ⟨_, msg, _, _, _, Q1, F1, _, _, _, _, _, _, _, ci1, mi1, _⟩ :=
      smp_broadcast_flush_tlb_spec ci mi hcore hfuel h
    exact ⟨Q1, _, ci1, mi1⟩

lemma run_calls_inv {N fuel : Nat} (hfuel : 100 * N ≤ fuel) (calls : List Call) :
    ∀ (s s1 : System) (Q : Nat → List Nat) (F : List Nat), ChainInv N s Q → MsgInv N s Q [] F →
      (∀ call, call ∈ calls → call.core < N) → run_calls fuel calls s = Except.ok s1 →
      ∃ Q1 F1, ChainInv N s1 Q1 ∧ MsgInv N s1 Q1 [] F1 := by
  induction calls with
  | nil =>
    intro s s1 Q F ci mi _ h
    cases h
    exact ⟨Q, F, ci, mi⟩
  | cons call rest ih =>
    intro s s1 Q F ci mi hcores h
    unfold run_calls at h
    cases hc : run_call fuel call s with
    | error f => simp [hc] at h
    | ok t1 =>
      simp only [hc] at h
      obtain ⟨Q1, F1, ci1, mi1⟩ :=
        run_call_inv ci mi hfuel call (hcores call (List.mem_cons_self call rest)) hc
      exact ih t1 s1 Q1 F1 ci1 mi1 (fun c hcm => hcores c (List.mem_cons_of_mem call hcm)) h

/-- With every queue empty, the free list holds the whole pool and the trace is
balanced, in total and per message. -/
lemma MsgInv.all_returned {N : Nat} {s : System} {Q : Nat → List Nat} {F : List Nat}
    (ci : ChainInv N s Q) (mi : MsgInv N s Q [] F)
    (hq : ∀ c, c < N → (s.procs c).m_message_queue = none) :
    F.length = 100 * N ∧ acquired s.trace = returned s.trace ∧
      ∀ m, s.trace.count (Event.get_from_pool m) = s.trace.count (Event.return_to_pool m) := by
  have hempty : ∀ c m, m ∉ Q c := by
    intro c m hm
    have hc := (mi.queue_lt c m hm).2
    have hl := ci.queue c hc
    rw [hq c hc] at hl
    have := (IsList.nil_iff.1 hl)
    rw [List.map_eq_nil_iff] at this
    rw [this] at hm
    exact absurd hm (List.not_mem_nil m)
  have hfree : ∀ m, m < 100 * N → m ∈ F := by
    intro m hm
    rcases mi.cover m hm with hf | hh | ⟨c, hc⟩
    · exact hf
    · exact absurd hh (List.not_mem_nil m)
    · exact absurd hc (hempty c m)
  have hlen : F.length = 100 * N := by
    have h1 := length_le_of_nodup_lt mi.pool.nodup mi.free_lt
    have h2 := ((List.nodup_range (100 * N)).subperm
      (fun m hm => hfree m (List.mem_range.1 hm))).length_le
    rw [List.length_range] at h2
    omega
  refine ⟨hlen, ?_, fun m => ?_⟩
  · have := mi.trace_total
    omega
  · rw [mi.trace_msg m]
    by_cases hm : m < 100 * N
    · simp [hfree m hm]
    · simp [Nat.not_lt.1 hm]

end operations

section drain_trace

lemma flush_due_congr {s s1 : System} {cpu m : Nat} (hm : s1.msgs m = s.msgs m)
    (hmm : s1.mm = s.mm) (hcr3 : (s1.procs cpu).cr3 = (s.procs cpu).cr3) :
    flush_due s1 cpu m = flush_due s cpu m := by
  unfold flush_due
  rw [hm, hmm, hcr3]

lemma message_events_congr {s s1 : System} {cpu m : Nat} (hm : s1.msgs m = s.msgs m)
    (hmm : s1.mm = s.mm) (hcr3 : (s1.procs cpu).cr3 = (s.procs cpu).cr3) :
    message_events s1 cpu m = message_events s cpu m := by
  unfold message_events switch_events release_events
  rw [flush_due_congr hm hmm hcr3, hm]

/-- The `switch` appends exactly `switch_events`. -/
lemma process_message_trace {cpu m : Nat} {s s1 : System}
    (h : process_message cpu m s = Except.ok s1) :
    s1 = { s with trace := s.trace ++ switch_events s cpu m } := by
  unfold process_message at h
  unfold switch_events flush_due
  cases ht : (s.msgs m).type with
  | Callback =>
    simp only [ht] at h
    cases h
    rfl
  | FlushTlb =>
    simp only [ht] at h
    by_cases hu : s.mm.is_user_address (s.msgs m).flush_tlb.ptr = true
    · rw [if_pos hu] at h
      split at h
      · by_cases hc : (s.procs cpu).cr3 ≠ s.mm.cr3 (s.msgs m).flush_tlb.page_directory
        · rw [if_pos hc] at h
          cases h
          simp only [if_pos (And.intro hu hc), List.append_nil]
        · rw [if_neg hc] at h
          cases h
          simp only [if_neg (fun hh : _ ∧ _ => hc hh.2)]
          rfl
      · cases h
    · rw [if_neg hu] at h
      cases h
      simp only [if_neg (fun hh : _ ∧ _ => hu hh.1)]
      rfl

/-- What follows the `switch` appends exactly `release_events`, and the count was not
zero. -/
lemma release_message_trace {cpu m : Nat} {s s1 : System}
    (h : release_message cpu m s = Except.ok s1) :
    (s.msgs m).refs ≠ 0 ∧ s1.trace = s.trace ++ release_events s cpu m := by
  unfold release_message at h
  simp only at h
  unfold release_events
  split at h
  · cases h
  · rename_i hrefs
    refine ⟨hrefs, ?_⟩
    split at h
    · rename_i hret
      rw [smp_return_to_pool_eq] at h
      cases h
      rw [if_pos hret]
      unfold smp_cleanup_message
      simp only [emit, upd_same]
      cases ht : (s.msgs m).type <;> simp
    · rename_i hret
      cases h
      rw [if_neg hret]
      simp [emit]

/-- One pass through the loop body appends exactly `message_events`. -/
lemma process_one_trace {cpu m : Nat} {s s1 : System}
    (h : process_one cpu m s = Except.ok s1) :
    s1.trace = s.trace ++ message_events s cpu m := by
  unfold process_one at h
  cases h1 : process_message cpu m s with
  | error f => simp [h1] at h
  | ok t1 =>
    have ht1 := process_message_trace h1
    simp only [h1] at h
    cases h2 : release_message cpu m t1 with
    | error f => simp [h2] at h
    | ok t2 =>
      simp only [h2] at h
      split at h
      · cases h
      · cases h
        obtain ⟨_, htr⟩ := release_message_trace h2
        rw [htr]
        subst ht1
        unfold message_events
        simp only [List.append_assoc]
        rfl

lemma flatMap_congr_mem {α β : Type} {l : List α} {f g : α → List β}
    (h : ∀ x, x ∈ l → f x = g x) : l.flatMap f = l.flatMap g := by
  induction l with
  | nil => rfl
  | cons a l ih =>
    rw [List.flatMap_cons, List.flatMap_cons, h a (List.mem_cons_self a l),
      ih (fun x hx => h x (List.mem_cons_of_mem a hx))]

/-- Processing pairwise distinct messages in order appends the events of each of them, as
read off the initial state. -/
lemma process_in_order_trace (c : Nat) (ms : List Nat) :
    ∀ (s s1 : System), ms.Nodup → process_in_order c ms s = Except.ok s1 →
      s1.trace = s.trace ++ ms.flatMap (message_events s c) := by
  induction ms with
  | nil =>
    intro s s1 _ h
    cases h
    simp
  | cons m ms ih =>
    intro s s1 hnd h
    obtain ⟨hm, hnd1⟩ := List.nodup_cons.1 hnd
    unfold process_in_order at h
    cases h1 : process_one c m s with
    | error f => simp [h1] at h
    | ok t1 =>
      simp only [h1] at h
      have hsame := process_one_same h1
      obtain ⟨hother, _⟩ := process_one_effect h1
      rw [ih t1 s1 hnd1 h, process_one_trace h1, List.flatMap_cons, List.append_assoc]
      congr 1
      congr 1
      refine flatMap_congr_mem (fun m1 hm1 => ?_)
      have hne : m1 ≠ m := fun hh => hm (hh ▸ hm1)
      exact message_events_congr (hother m1 hne) hsame.2.2.2.1 (by rw [hsame.2.1])

/-- The trace of a drain that returns, for a well-formed queue `L` of entries of pairwise
distinct messages: the events of the queued messages in arrival order, as read off the
state in which the drain starts. -/
lemma drain_trace {cpu fuel : Nat} {s : System} {L : List Nat}
    (hen : s.s_smp_enabled = true)
    (hq : IsList (fun e => (s.entries e).next) (s.procs cpu).m_message_queue L)
    (hnd : (L.map (fun e => (s.entries e).msg)).Nodup) (hfuel : L.length ≤ fuel)
    {b : Bool} {s1 : System}
    (h : smp_process_pending_messages fuel cpu s = Except.ok (b, s1)) :
    s1.trace = s.trace
      ++ (L.reverse.map (fun e => (s.entries e).msg)).flatMap (message_events s cpu) := by
  by_cases hL : L = []
  · subst hL
    have hq1 : (s.procs cpu).m_message_queue = none := hq
    rw [smp_process_pending_messages_empty fuel cpu s hen hq1] at h
    split at h
    · cases h
    · cases h
      simp
  · obtain ⟨entries1, hframe, hmsg, heq⟩ :=
      smp_process_pending_messages_eq fuel cpu s L hen hq hL hfuel
    rw [heq] at h
    cases hp : process_in_order cpu (L.reverse.map (fun e => (s.entries e).msg))
        { s with
          procs := upd s.procs cpu
            { s.procs cpu with
              m_in_critical := (s.procs cpu).m_in_critical + 1, m_message_queue := none },
          entries := entries1 } with
    | error f =>
      rw [hp] at h
      cases h
    | ok t2 =>
      simp only [hp] at h
      cases h
      have hnd1 : (L.reverse.map (fun e => (s.entries e).msg)).Nodup := by
        rw [List.map_reverse]
        exact List.nodup_reverse.2 hnd
      have htr := process_in_order_trace cpu _ _ _ hnd1 hp
      simp only
      rw [htr]
      congr 1
      refine flatMap_congr_mem (fun m1 _ => ?_)
      exact message_events_congr rfl rfl (by simp)

lemma flushes_on_release_events (s : System) (cpu m c1 : Nat) :
    flushes_on c1 (release_events s cpu m) = [] := by
  unfold release_events
  split
  · cases (s.msgs m).type <;> rfl
  · rfl

lemma flushes_on_message_events (s : System) (cpu m c1 : Nat) :
    flushes_on c1 (message_events s cpu m)
      = if c1 = cpu then (flush_due s cpu m).toList else [] := by
  unfold message_events
  rw [flushes_on_append, flushes_on_release_events, List.append_nil]
  unfold switch_events
  cases ht : (s.msgs m).type with
  | Callback =>
    have : flush_due s cpu m = none := by unfold flush_due; rw [ht]
    simp [this, flushes_on]
  | FlushTlb =>
    cases hd : flush_due s cpu m with
    | none => simp [flushes_on]
    | some p =>
      obtain ⟨ptr, n⟩ := p
      by_cases hc : c1 = cpu
      · subst hc
        simp [flushes_on]
      · have hc2 : ¬ cpu = c1 := fun hh => hc hh.symm
        simp [flushes_on, hc, hc2]

/-- The flushes in the events of a run of messages: on the processing core the flushes
that are due, in order, and none on any other core. -/
lemma flushes_on_flatMap (s : System) (cpu c1 : Nat) (ms : List Nat) :
    flushes_on c1 (ms.flatMap (message_events s cpu))
      = if c1 = cpu then ms.filterMap (flush_due s cpu) else [] := by
  induction ms with
  | nil => simp [flushes_on]
  | cons m ms ih =>
    rw [List.flatMap_cons, flushes_on_append, ih, flushes_on_message_events]
    by_cases hc : c1 = cpu
    · simp only [if_pos hc, List.filterMap_cons]
      cases flush_due s cpu m <;> rfl
    · simp [hc]

lemma callbacks_on_append (cpu : Nat) (xs ys : List Event) :
    callbacks_on cpu (xs ++ ys) = callbacks_on cpu xs ++ callbacks_on cpu ys := by
  induction xs with
  | nil => rfl
  | cons e es ih =>
    cases e with
    | invoke_callback c m cb =>
      by_cases hc : c = cpu <;> simp [callbacks_on, hc, ih]
    | _ => simpa [callbacks_on] using ih

lemma callbacks_on_release_events (s : System) (cpu m c1 : Nat) :
    callbacks_on c1 (release_events s cpu m) = [] := by
  unfold release_events
  split
  · cases (s.msgs m).type <;> rfl
  · rfl

lemma callbacks_on_message_events (s : System) (cpu m : Nat) :
    callbacks_on cpu (message_events s cpu m) = (callback_due s m).toList := by
  unfold message_events
  rw [callbacks_on_append, callbacks_on_release_events, List.append_nil]
  unfold switch_events callback_due
  cases ht : (s.msgs m).type with
  | Callback => simp [callbacks_on]
  | FlushTlb =>
    cases hd : flush_due s cpu m with
    | none => simp [callbacks_on]
    | some p =>
      obtain ⟨ptr, n⟩ := p
      simp [callbacks_on]

/-- The callbacks in the events of a run of messages: on the processing core the callback
of every `Callback` message, in order. -/
lemma callbacks_on_flatMap (s : System) (cpu : Nat) (ms : List Nat) :
    callbacks_on cpu (ms.flatMap (message_events s cpu)) = ms.filterMap (callback_due s) := by
  induction ms with
  | nil => simp [callbacks_on]
  | cons m ms ih =>
    rw [List.flatMap_cons, callbacks_on_append, ih, callbacks_on_message_events,
      List.filterMap_cons]
    cases callback_due s m <;> rfl

/-- A drain of a well-formed queue of pairwise distinct, deliverable messages returns when
no halt is requested on the draining core. -/
lemma drain_returns {cpu fuel : Nat} {s : System} {L : List Nat}
    (hen : s.s_smp_enabled = true)
    (hq : IsList (fun e => (s.entries e).next) (s.procs cpu).m_message_queue L)
    (hnd : (L.map (fun e => (s.entries e).msg)).Nodup) (hfuel : L.length ≤ fuel)
    (hdel : ∀ m ∈ L.map (fun e => (s.entries e).msg), Deliverable s m)
    (hhalt : (s.procs cpu).m_halt_requested = false) :
    ∃ b s1, smp_process_pending_messages fuel cpu s = Except.ok (b, s1) := by
  by_cases hL : L = []
  · subst hL
    have hq1 : (s.procs cpu).m_message_queue = none := hq
    rw [smp_process_pending_messages_empty fuel cpu s hen hq1, hhalt]
    exact ⟨false, s, rfl⟩
  · obtain ⟨entries1, _, _, heq⟩ := smp_process_pending_messages_eq fuel cpu s L hen hq hL hfuel
    have hnd1 : (L.reverse.map (fun e => (s.entries e).msg)).Nodup := by
      rw [List.map_reverse]
      exact List.nodup_reverse.2 hnd
    obtain ⟨t2, _, hp, _⟩ := process_in_order_total cpu
      (L.reverse.map (fun e => (s.entries e).msg))
      { s with
        procs := upd s.procs cpu
          { s.procs cpu with
            m_in_critical := (s.procs cpu).m_in_critical + 1, m_message_queue := none },
        entries := entries1 }
      hnd1
      (fun m hm => by
        rw [List.map_reverse] at hm
        exact hdel m (List.mem_reverse.1 hm))
      (by simp only [upd_same]; exact hhalt)
    rw [hp] at heq
    exact ⟨true, _, heq⟩

/-- A drain of a non-empty, well-formed queue that returns is a run of
`process_in_order` over the queued messages in arrival order, between states that agree
with the states of the drain on the messages, the pool and the trace. -/
lemma drain_refines {cpu fuel : Nat} {s : System} {L : List Nat}
    (hen : s.s_smp_enabled = true)
    (hq : IsList (fun e => (s.entries e).next) (s.procs cpu).m_message_queue L)
    (hL : L ≠ []) (hfuel : L.length ≤ fuel) {b : Bool} {s1 : System}
    (h : smp_process_pending_messages fuel cpu s = Except.ok (b, s1)) :
    ∃ t0 t2, process_in_order cpu (L.reverse.map (fun e => (s.entries e).msg)) t0 = Except.ok t2 ∧
      t0.msgs = s.msgs ∧ t0.s_message_pool = s.s_message_pool ∧ t0.trace = s.trace ∧
      s1.msgs = t2.msgs ∧ s1.s_message_pool = t2.s_message_pool ∧ s1.trace = t2.trace := by
  obtain ⟨entries1, _, _, heq⟩ := smp_process_pending_messages_eq fuel cpu s L hen hq hL hfuel
  rw [heq] at h
  cases hp : process_in_order cpu (L.reverse.map (fun e => (s.entries e).msg))
      { s with
        procs := upd s.procs cpu
          { s.procs cpu with
            m_in_critical := (s.procs cpu).m_in_critical + 1, m_message_queue := none },
        entries := entries1 } with
  | error f =>
    rw [hp] at h
    cases h
  | ok t2 =>
    simp only [hp] at h
    cases h
    exact ⟨_, t2, hp, rfl, rfl, rfl, rfl, rfl, rfl⟩

lemma IsList.head_eq {next next1 : Nat → Option Nat} {head head1 : Option Nat} {xs : List Nat}
    (h : IsList next head xs) (h1 : IsList next1 head1 xs) : head = head1 := by
  cases xs with
  | nil =>
    have e : head = none := h
    have e1 : head1 = none := h1
    rw [e, e1]
  | cons x xs => rw [h.1, h1.1]

/-- The sending half of `smp_unicast_message` to another, existing core, on a well-formed
queue `L0`: the state `s3` in which the wait (or the return, for an asynchronous send)
starts. -/
lemma unicast_message_send_spec (cpu msg : Nat) (async : Bool) (s : System) (L0 : List Nat)
    (hentry : (s.entries ((s.msgs msg).per_proc_entries + cpu)).msg = msg)
    (hq : IsList (fun e => (s.entries e).next) (s.procs cpu).m_message_queue L0)
    (hfresh : (s.msgs msg).per_proc_entries + cpu ∉ L0) :
    ∃ t s3, smp_enqueue_message cpu msg
          { s with msgs := upd s.msgs msg { s.msgs msg with async := async, refs := 1 } }
        = Except.ok (decide ((s.procs cpu).m_message_queue = none), t) ∧
      s3 = (if decide ((s.procs cpu).m_message_queue = none) = true
        then emit (Event.send_ipi cpu) t else t) ∧
      (s3.msgs msg).refs = 1 ∧ (s3.msgs msg).async = async ∧
      (∀ m, m ≠ msg → s3.msgs m = s.msgs m) ∧
      (s3.procs cpu).m_message_queue = some ((s.msgs msg).per_proc_entries + cpu) ∧
      (s3.entries ((s.msgs msg).per_proc_entries + cpu)).next = (s.procs cpu).m_message_queue ∧
      (s3.entries ((s.msgs msg).per_proc_entries + cpu)).msg = msg ∧
      IsList (fun e => (s3.entries e).next) (s3.procs cpu).m_message_queue
        (((s.msgs msg).per_proc_entries + cpu) :: L0) ∧
      (∀ c, c ≠ cpu → s3.procs c = s.procs c) ∧
      (∀ e, e ≠ (s.msgs msg).per_proc_entries + cpu → s3.entries e = s.entries e) ∧
      s3.trace = s.trace
        ++ (if (s.procs cpu).m_message_queue = none then [Event.send_ipi cpu] else []) := by
  obtain ⟨t, hrun, hentries, hprocs, hmsgs, htr, _⟩ := smp_enqueue_message_spec cpu msg
    { s with msgs := upd s.msgs msg { s.msgs msg with async := async, refs := 1 } }
    (by simp only [upd_same]; exact hentry)
  simp only [upd_same] at hentries hprocs hrun
  have hchain : IsList (fun e => (t.entries e).next) (t.procs cpu).m_message_queue
      (((s.msgs msg).per_proc_entries + cpu) :: L0) := by
    refine ⟨by rw [hprocs]; simp, ?_⟩
    simp only [hentries, upd_same]
    refine hq.frame (fun e he => ?_)
    have hne : e ≠ (s.msgs msg).per_proc_entries + cpu := fun hh => hfresh (hh ▸ he)
    simp [upd, hne]
  have hfacts : (t.msgs msg).refs = 1 ∧ (t.msgs msg).async = async ∧
      (∀ m, m ≠ msg → t.msgs m = s.msgs m) ∧
      (t.procs cpu).m_message_queue = some ((s.msgs msg).per_proc_entries + cpu) ∧
      (t.entries ((s.msgs msg).per_proc_entries + cpu)).next = (s.procs cpu).m_message_queue ∧
      (t.entries ((s.msgs msg).per_proc_entries + cpu)).msg = msg ∧
      (∀ c, c ≠ cpu → t.procs c = s.procs c) ∧
      (∀ e, e ≠ (s.msgs msg).per_proc_entries + cpu → t.entries e = s.entries e) := by
    refine ⟨by rw [hmsgs]; simp, by rw [hmsgs]; simp, fun m hm => by rw [hmsgs]; simp [upd, hm],
      by rw [hprocs]; simp, by rw [hentries]; simp, by rw [hentries]; simp,
      fun c hc => by rw [hprocs]; simp [upd, hc], fun e he => by rw [hentries]; simp [upd, he]⟩
  obtain ⟨f1, f2, f3, f4, f5, f6, f7, f8⟩ := hfacts
  by_cases hnone : (s.procs cpu).m_message_queue = none
  · refine ⟨t, emit (Event.send_ipi cpu) t, hrun, by simp [hnone], f1, f2, f3, f4, f5, f6, hchain,
      f7, f8, ?_⟩
    rw [if_pos hnone]
    show t.trace ++ _ = _
    rw [htr]
  · refine ⟨t, t, hrun, by simp [hnone], f1, f2, f3, f4, f5, f6, hchain, f7, f8, ?_⟩
    rw [if_neg hnone, htr]
    simp

/-- The `switch` can only fail with a failed assertion. -/
lemma process_message_error {cpu m : Nat} {s : System} {f : Fault}
    (h : process_message cpu m s = Except.error f) : f = Fault.verify_failed := by
  unfold process_message at h
  split at h
  · cases h
  · simp only [flush_tlb_local, emit] at h
    split at h
    · split at h
      · split at h <;> cases h
      · cases h
        rfl
    · cases h

/-- Processing a message whose count is already zero fails the assertion
`VERIFY(prev_refs != 0)` (or an earlier one). -/
lemma process_one_zero_refs {cpu m : Nat} {s : System} (hz : (s.msgs m).refs = 0) :
    process_one cpu m s = Except.error Fault.verify_failed := by
  unfold process_one
  cases h1 : process_message cpu m s with
  | error f =>
    rw [process_message_error h1]
  | ok t1 =>
    have hm : t1.msgs = s.msgs := (process_message_same h1).2.1
    have h2 : release_message cpu m t1 = Except.error Fault.verify_failed := by
      unfold release_message
      simp only
      rw [if_pos (by rw [hm]; exact hz)]
    simp only [h2]

/-- A single-core machine cannot broadcast: the computed count is zero. -/
lemma smp_broadcast_message_single (sender msg : Nat) (s : System) (hc : s.count = 1) :
    smp_broadcast_message sender msg s = Except.error Fault.verify_failed := by
  unfold smp_broadcast_message
  simp [hc, u32_sub]

/-- A drain whose oldest queued entry belongs to a message with count zero fails the
assertion. -/
lemma drain_zero_refs_first {cpu fuel : Nat} {s : System} {L1 : List Nat} {e : Nat}
    (hen : s.s_smp_enabled = true)
    (hq : IsList (fun e => (s.entries e).next) (s.procs cpu).m_message_queue (L1 ++ [e]))
    (hfuel : (L1 ++ [e]).length ≤ fuel) (hz : (s.msgs (s.entries e).msg).refs = 0) :
    smp_process_pending_messages fuel cpu s = Except.error Fault.verify_failed := by
  obtain ⟨entries1, _, _, heq⟩ := smp_process_pending_messages_eq fuel cpu s (L1 ++ [e]) hen hq
    (by simp) hfuel
  rw [heq, List.reverse_append, List.reverse_singleton, List.singleton_append, List.map_cons]
  unfold process_in_order
  rw [process_one_zero_refs (by exact hz)]

end drain_trace

end invariants

section deferred

lemma invoked_append (xs ys : List DeferredEvent) :
    invoked (xs ++ ys) = invoked xs ++ invoked ys := by
  induction xs with
  | nil => rfl
  | cons e es ih =>
    cases e <;> simp [invoked, ih]

/-- The in-place reversal of a well-formed chain of deferred-call entries: only the
links of the visited entries change. -/
lemma reverse_deferred_list_spec (L : List Nat) :
    ∀ (fuel : Nat) (head rev : Option Nat) (R : List Nat) (entries : Nat → DeferredCallEntry),
      IsList (fun e => (entries e).next) head L →
      IsList (fun e => (entries e).next) rev R →
      (∀ x ∈ L, x ∉ R) → L.length ≤ fuel →
      ∃ entries1 rev1, reverse_deferred_list fuel head rev entries = Except.ok (entries1, rev1) ∧
        IsList (fun e => (entries1 e).next) rev1 (L.reverse ++ R) ∧
        (∀ e, (entries1 e).handler = (entries e).handler ∧
          (entries1 e).was_allocated = (entries e).was_allocated) := by
  induction L with
  | nil =>
    intro fuel head rev R entries hL hR _ _
    have hh : head = none := hL
    subst hh
    refine ⟨entries, rev, ?_, by simpa using hR, fun _ => ⟨rfl, rfl⟩⟩
    cases fuel <;> rfl
  | cons x xs ih =>
    intro fuel head rev R entries hL hR hdisj hfuel
    have hnd : (x :: xs).Nodup := hL.nodup
    obtain ⟨hh, hxs⟩ := hL
    subst hh
    have hx_xs : x ∉ xs := (List.nodup_cons.1 hnd).1
    have hx_R : x ∉ R := hdisj x (List.mem_cons_self x xs)
    cases fuel with
    | zero => simp at hfuel
    | succ fuel =>
      have hkeep : ∀ y, y ≠ x →
          ((upd entries x { entries x with next := rev }) y).next = (entries y).next := by
        intro y hy
        simp [upd, hy]
      obtain ⟨entries1, rev1, hrun, hlist, hsame⟩ :=
        ih fuel (entries x).next (some x) (x :: R)
          (upd entries x { entries x with next := rev })
          (hxs.frame (fun y hy => hkeep y (fun h => hx_xs (h ▸ hy))))
          ⟨rfl, by
            simp only [upd_same]
            exact hR.frame (fun y hy => hkeep y (fun h => hx_R (h ▸ hy)))⟩
          (by
            intro y hy hmem
            rcases List.mem_cons.1 hmem with rfl | hmem
            · exact hx_xs hy
            · exact hdisj y (List.mem_cons_of_mem x hy) hmem)
          (by simp at hfuel; omega)
      refine ⟨entries1, rev1, by simpa [reverse_deferred_list] using hrun, by simpa using hlist,
        fun e => ?_⟩
      rw [(hsame e).1, (hsame e).2]
      by_cases hex : e = x
      · subst hex; simp
      · simp [upd, hex]

/-- The execution loop walks a well-formed chain to its end and invokes the handlers of
its entries in chain order. -/
lemma deferred_call_execute_loop_spec (L : List Nat) :
    ∀ (fuel p : Nat) (s : DeferredCalls),
      IsList (fun e => (s.entries e).next) (some p) (p :: L) → L.length < fuel →
      0 < s.m_in_critical →
      ∃ s1, deferred_call_execute_loop fuel p s = Except.ok s1 ∧
        invoked s1.trace = invoked s.trace ++ (p :: L).map (fun e => (s.entries e).handler) ∧
        s1.m_pending_deferred_calls = s.m_pending_deferred_calls ∧
        s1.m_in_critical = s.m_in_critical := by
  induction L with
  | nil =>
    intro fuel p s hL hfuel hcrit
    obtain ⟨_, hnext⟩ := hL
    have hnone : (s.entries p).next = none := hnext
    cases fuel with
    | zero => omega
    | succ fuel =>
      unfold deferred_call_execute_loop
      simp only [hnone]
      by_cases hwa : (s.entries p).was_allocated = true
      · simp only [hwa, if_true]
        exact ⟨_, rfl, by simp [invoked_append, invoked], rfl, rfl⟩
      · simp only [hwa, Bool.false_eq_true, if_false, deferred_call_return_to_pool,
          Nat.ne_of_gt hcrit]
        exact ⟨_, rfl, by simp [invoked_append, invoked], rfl, rfl⟩
  | cons x xs ih =>
    intro fuel p s hL hfuel hcrit
    have hnd : (p :: x :: xs).Nodup := hL.nodup
    obtain ⟨_, hnext, hrest⟩ := hL
    have hpx : (s.entries p).next = some x := hnext
    have hp_notin : p ∉ x :: xs := (List.nodup_cons.1 hnd).1
    cases fuel with
    | zero => omega
    | succ fuel =>
      have key : ∀ s2 : DeferredCalls,
          (∀ e, e ≠ p → s2.entries e = s.entries e) →
          s2.m_in_critical = s.m_in_critical →
          s2.m_pending_deferred_calls = s.m_pending_deferred_calls →
          invoked s2.trace = invoked s.trace ++ [(s.entries p).handler] →
          ∃ s1, deferred_call_execute_loop fuel x s2 = Except.ok s1 ∧
            invoked s1.trace
              = invoked s.trace ++ (p :: x :: xs).map (fun e => (s.entries e).handler) ∧
            s1.m_pending_deferred_calls = s.m_pending_deferred_calls ∧
            s1.m_in_critical = s.m_in_critical := by
        intro s2 hent hc hpend htr
        have hchain : IsList (fun e => (s2.entries e).next) (some x) (x :: xs) := by
          have hold : IsList (fun e => (s.entries e).next) (some x) (x :: xs) := ⟨rfl, hrest⟩
          refine hold.frame (fun y hy => ?_)
          have hyp : y ≠ p := fun h => hp_notin (h ▸ hy)
          show (s2.entries y).next = (s.entries y).next
          rw [hent y hyp]
        obtain ⟨s1, hrun, hinv, h1, h2⟩ := ih fuel x s2 hchain (by simp at hfuel; omega)
          (by rw [hc]; exact hcrit)
        refine ⟨s1, hrun, ?_, h1.trans hpend, h2.trans hc⟩
        rw [hinv, htr]
        have hmap : (x :: xs).map (fun e => (s2.entries e).handler)
            = (x :: xs).map (fun e => (s.entries e).handler) := by
          refine List.map_congr_left (fun y hy => ?_)
          have hyp : y ≠ p := fun h => hp_notin (h ▸ hy)
          show (s2.entries y).handler = (s.entries y).handler
          rw [hent y hyp]
        rw [hmap]
        simp
      unfold deferred_call_execute_loop
      simp only [hpx]
      by_cases hwa : (s.entries p).was_allocated = true
      · simp only [hwa, if_true]
        exact key _ (fun e he => by simp [upd, he]) rfl rfl (by simp [invoked_append, invoked])
      · simp only [hwa, Bool.false_eq_true, if_false, deferred_call_return_to_pool,
          Nat.ne_of_gt hcrit]
        exact key _ (fun e he => by simp [upd, he]) rfl rfl (by simp [invoked_append, invoked])

/-- One `deferred_call_queue`: the entry taken from the pool (or from the heap when the
pool is empty) is put in front of the pending list with the callback as its handler;
nothing is invoked. -/
lemma deferred_call_queue_spec {s : DeferredCalls} {P F : List Nat} (hinv : DeferredInv s P F)
    (cb : Nat) :
    ∃ s1 e F1, deferred_call_queue cb s = Except.ok s1 ∧ DeferredInv s1 (e :: P) F1 ∧
      (s1.entries e).handler = some cb ∧
      (∀ e1, e1 ∈ P → (s1.entries e1).handler = (s.entries e1).handler) ∧
      invoked s1.trace = invoked s.trace ∧ s1.m_in_critical = s.m_in_critical := by
  cases F with
  | nil =>
    have hfree : s.m_free_deferred_call_pool_entry = none := hinv.free
    have hfresh : s.next_alloc ∉ P := fun h => absurd (hinv.bound _ (Or.inl h)) (lt_irrefl _)
    simp only [deferred_call_queue, deferred_call_get_free, deferred_call_queue_entry, hfree,
      Nat.add_one_ne_zero, if_false]
    refine ⟨_, s.next_alloc, [], rfl, ⟨?_, ?_, ?_, ?_, ?_⟩, ?_, ?_, ?_, ?_⟩
    · refine ⟨rfl, ?_⟩
      simp only [upd_same]
      refine hinv.pending.frame (fun y hy => ?_)
      have : y ≠ s.next_alloc := fun h => hfresh (h ▸ hy)
      simp [upd, this]
    · rfl
    · intro e _ h; exact absurd h (List.not_mem_nil _)
    · intro e h; exact absurd h (List.not_mem_nil _)
    · intro e he
      rcases he with he | he
      · rcases List.mem_cons.1 he with rfl | he
        · exact Nat.lt_succ_self _
        · exact Nat.lt_succ_of_lt (hinv.bound e (Or.inl he))
      · exact absurd he (List.not_mem_nil _)
    · simp
    · intro e1 he1
      have : e1 ≠ s.next_alloc := fun h => hfresh (h ▸ he1)
      simp [upd, this]
    · simp [invoked_append, invoked]
    · simp
  | cons e F1 =>
    obtain ⟨hhead, htail⟩ := hinv.free
    have hnd : (e :: F1).Nodup := hinv.free.nodup
    have heF : e ∉ F1 := (List.nodup_cons.1 hnd).1
    have heP : e ∉ P := fun h => hinv.disjoint e h (List.mem_cons_self e F1)
    have hwa : (s.entries e).was_allocated = false := hinv.free_pool e (List.mem_cons_self e F1)
    simp only [deferred_call_queue, deferred_call_get_free, deferred_call_queue_entry, hhead,
      Nat.add_one_ne_zero, if_false, hwa, Bool.false_eq_true]
    refine ⟨_, e, F1, rfl, ⟨?_, ?_, ?_, ?_, ?_⟩, ?_, ?_, ?_, ?_⟩
    · refine ⟨rfl, ?_⟩
      simp only [upd_same]
      refine hinv.pending.frame (fun y hy => ?_)
      have : y ≠ e := fun h => heP (h ▸ hy)
      simp [upd, this]
    · refine htail.frame (fun y hy => ?_)
      have : y ≠ e := fun h => heF (h ▸ hy)
      simp [upd, this]
    · intro e1 he1 hF
      rcases List.mem_cons.1 he1 with rfl | he1
      · exact heF hF
      · exact hinv.disjoint e1 he1 (List.mem_cons_of_mem e hF)
    · intro e1 he1
      have : e1 ≠ e := fun h => heF (h ▸ he1)
      simp only [upd_other _ _ this]
      exact hinv.free_pool e1 (List.mem_cons_of_mem e he1)
    · intro e1 he1
      rcases he1 with he1 | he1
      · rcases List.mem_cons.1 he1 with rfl | he1
        · exact hinv.bound e1 (Or.inr (List.mem_cons_self e1 F1))
        · exact hinv.bound e1 (Or.inl he1)
      · exact hinv.bound e1 (Or.inr (List.mem_cons_of_mem e he1))
    · simp
    · intro e1 he1
      have : e1 ≠ e := fun h => heP (h ▸ he1)
      simp [upd, this]
    · rfl
    · simp

/-- Submitting the callbacks `cbs` in order puts their entries in front of the pending
list, last submitted first. -/
lemma deferred_call_queue_all_spec (cbs : List Nat) :
    ∀ (s : DeferredCalls) (P F : List Nat), DeferredInv s P F →
      ∃ s1 P1 F1, deferred_call_queue_all cbs s = Except.ok s1 ∧ DeferredInv s1 P1 F1 ∧
        P1.map (fun e => (s1.entries e).handler)
          = (cbs.reverse.map some) ++ P.map (fun e => (s.entries e).handler) ∧
        P1.length = P.length + cbs.length ∧
        invoked s1.trace = invoked s.trace ∧ s1.m_in_critical = s.m_in_critical := by
  induction cbs with
  | nil =>
    intro s P F hinv
    exact ⟨s, P, F, rfl, hinv, by simp, by simp, rfl, rfl⟩
  | cons cb cbs ih =>
    intro s P F hinv
    obtain ⟨t, e, F1, hrun, hinv1, hh, hold, htr, hc⟩ := deferred_call_queue_spec hinv cb
    obtain ⟨s1, P1, F2, hrun1, hinv2, hmap, hlen, htr1, hc1⟩ := ih t (e :: P) F1 hinv1
    refine ⟨s1, P1, F2, ?_, hinv2, ?_, ?_, htr1.trans htr, hc1.trans hc⟩
    · rw [deferred_call_queue_all, hrun]
      exact hrun1
    · rw [hmap]
      simp only [List.map_cons, hh, List.reverse_cons, List.map_append, List.map_nil,
        List.append_assoc, List.singleton_append]
      rw [List.map_congr_left (fun e1 he1 => hold e1 he1)]
    · rw [hlen]
      simp only [List.length_cons]
      omega

/-! ### The pool discipline of the deferred-call lists -/

lemma freed_entries_append (xs ys : List DeferredEvent) :
    freed_entries (xs ++ ys) = freed_entries xs ++ freed_entries ys := by
  induction xs with
  | nil => rfl
  | cons e es ih =>
    cases e <;> simp [freed_entries, ih]

lemma allocated_entries_append (xs ys : List DeferredEvent) :
    allocated_entries (xs ++ ys) = allocated_entries xs ++ allocated_entries ys := by
  induction xs with
  | nil => rfl
  | cons e es ih =>
    cases e <;> simp [allocated_entries, ih]

lemma foldl_upd_apply {α : Type} (g : Nat → α) (is : List Nat) :
    ∀ (es : Nat → α) (i : Nat),
      (is.foldl (fun es j => upd es j (g j)) es) i = if i ∈ is then g i else es i := by
  induction is with
  | nil => intro es i; simp
  | cons j js ih =>
    intro es i
    rw [List.foldl_cons, ih]
    by_cases hi : i ∈ js
    · simp [hi]
    · by_cases hij : i = j
      · subst hij; simp [hi]
      · simp [hi, hij, upd]

lemma deferred_call_pool_init_entries (n : Nat) (s : DeferredCalls) (i : Nat) (hi : i < n) :
    (deferred_call_pool_init n s).entries i
      = { next := if i + 1 < n then some (i + 1) else none, handler := none,
          was_allocated := false } := by
  have h := foldl_upd_apply
    (fun i => (⟨if i + 1 < n then some (i + 1) else none, none, false⟩ : DeferredCallEntry))
    (List.range n) s.entries i
  rw [if_pos (List.mem_range.2 hi)] at h
  exact h

/-- After `deferred_call_pool_init` nothing is pending and the free list is the whole
pool, in index order. -/
lemma deferred_call_pool_init_inv (n : Nat) (hn : 0 < n) (s : DeferredCalls) :
    PoolInv n (deferred_call_pool_init n s) [] (List.range n) := by
  refine ⟨rfl, ?_, ?_, ?_, ?_, ?_, ?_, ?_, ?_⟩
  · rw [List.range_eq_range']
    refine isList_range' _ n (fun i hi => ?_) n 0 hn (by omega)
    show ((deferred_call_pool_init n s).entries i).next = _
    rw [deferred_call_pool_init_entries n s i hi]
  · intro e h; exact absurd h (List.not_mem_nil _)
  · intro e he; exact List.mem_range.1 he
  · intro e he
    rw [deferred_call_pool_init_entries n s e he]
  · intro e h; exact absurd h (List.not_mem_nil _)
  · intro e he; exact Or.inr (List.mem_range.2 he)
  · intro e h; exact absurd h (List.not_mem_nil _)
  · exact le_max_right _ _

/-- With a non-empty free list `deferred_call_get_free` takes its first entry, a pool entry,
and allocates nothing. -/
lemma deferred_call_get_free_pool {n : Nat} {s : DeferredCalls} {P F : List Nat} {e : Nat}
    (hinv : PoolInv n s P (e :: F)) (hcrit : 0 < s.m_in_critical) :
    ∃ s1, deferred_call_get_free s = Except.ok (e, s1) ∧
      (s1.entries e).was_allocated = false ∧ e < n ∧
      IsList (fun x => (s1.entries x).next) s1.m_free_deferred_call_pool_entry F ∧
      e ∉ F ∧ s1.entries = s.entries ∧ s1.trace = s.trace ∧
      s1.m_pending_deferred_calls = s.m_pending_deferred_calls := by
  obtain ⟨hhead, htail⟩ := hinv.free
  have hlt : e < n := hinv.free_lt e (List.mem_cons_self e F)
  have hwa : (s.entries e).was_allocated = false := hinv.flag_pool e hlt
  have heF : e ∉ F := (List.nodup_cons.1 hinv.free.nodup).1
  simp only [deferred_call_get_free, Nat.ne_of_gt hcrit, if_false, hhead, hwa,
    Bool.false_eq_true]
  exact ⟨_, rfl, hwa, hlt, htail, heF, rfl, rfl, rfl⟩

/-- With an empty free list `deferred_call_get_free` allocates a new entry, which is
neither a pool entry nor pending, and marks it `was_allocated`. -/
lemma deferred_call_get_free_heap {n : Nat} {s : DeferredCalls} {P : List Nat}
    (hinv : PoolInv n s P []) (hcrit : 0 < s.m_in_critical) :
    ∃ s1, deferred_call_get_free s = Except.ok (s.next_alloc, s1) ∧
      (s1.entries s.next_alloc).was_allocated = true ∧ n ≤ s.next_alloc ∧
      s.next_alloc ∉ P ∧ s1.m_free_deferred_call_pool_entry = none ∧
      s1.trace = s.trace ++ [DeferredEvent.allocate s.next_alloc] ∧
      s1.m_pending_deferred_calls = s.m_pending_deferred_calls := by
  have hfree : s.m_free_deferred_call_pool_entry = none := hinv.free
  have hfresh : s.next_alloc ∉ P := fun h => absurd (hinv.bound _ h) (lt_irrefl _)
  simp only [deferred_call_get_free, Nat.ne_of_gt hcrit, if_false, hfree]
  exact ⟨_, rfl, by simp, hinv.alloc_ge, hfresh, rfl, rfl, rfl⟩

/-- One `deferred_call_queue` under the pool discipline: the first free entry, or a new
heap entry when the free list is empty, becomes the first pending entry. -/
lemma deferred_call_queue_pool {n : Nat} {s : DeferredCalls} {P F : List Nat}
    (hinv : PoolInv n s P F) (cb : Nat) :
    ∃ s1, deferred_call_queue cb s = Except.ok s1 ∧
      PoolInv n s1 (F.head?.getD s.next_alloc :: P) F.tail ∧
      s1.m_in_critical = s.m_in_critical := by
  cases F with
  | nil =>
    have hfree : s.m_free_deferred_call_pool_entry = none := hinv.free
    have hfresh : s.next_alloc ∉ P := fun h => absurd (hinv.bound _ h) (lt_irrefl _)
    have hge : n ≤ s.next_alloc := hinv.alloc_ge
    simp only [deferred_call_queue, deferred_call_get_free, deferred_call_queue_entry, hfree,
      Nat.add_one_ne_zero, if_false, List.head?_nil, Option.getD_none, List.tail_nil]
    refine ⟨_, rfl, ⟨?_, ?_, ?_, ?_, ?_, ?_, ?_, ?_, ?_⟩, by simp⟩
    · refine ⟨rfl, ?_⟩
      simp only [upd_same]
      refine hinv.pending.frame (fun y hy => ?_)
      have : y ≠ s.next_alloc := fun h => hfresh (h ▸ hy)
      simp [upd, this]
    · rfl
    · intro e _ h; exact absurd h (List.not_mem_nil _)
    · intro e h; exact absurd h (List.not_mem_nil _)
    · intro e he
      have : e ≠ s.next_alloc := by omega
      simp only [upd_other _ _ this]
      exact hinv.flag_pool e he
    · intro e he hne
      rcases List.mem_cons.1 he with rfl | he
      · simp
      · have : e ≠ s.next_alloc := fun h => hfresh (h ▸ he)
        simp only [upd_other _ _ this]
        exact hinv.flag_heap e he hne
    · intro e he
      rcases hinv.cover e he with h | h
      · exact Or.inl (List.mem_cons_of_mem _ h)
      · exact absurd h (List.not_mem_nil _)
    · intro e he
      rcases List.mem_cons.1 he with rfl | he
      · exact Nat.lt_succ_self _
      · exact Nat.lt_succ_of_lt (hinv.bound e he)
    · exact Nat.le_succ_of_le hge
  | cons e F1 =>
    obtain ⟨hhead, htail⟩ := hinv.free
    have hnd : (e :: F1).Nodup := hinv.free.nodup
    have heF : e ∉ F1 := (List.nodup_cons.1 hnd).1
    have heP : e ∉ P := fun h => hinv.disjoint e h (List.mem_cons_self e F1)
    have hlt : e < n := hinv.free_lt e (List.mem_cons_self e F1)
    have hwa : (s.entries e).was_allocated = false := hinv.flag_pool e hlt
    simp only [deferred_call_queue, deferred_call_get_free, deferred_call_queue_entry, hhead,
      Nat.add_one_ne_zero, if_false, hwa, Bool.false_eq_true, List.head?_cons,
      Option.getD_some, List.tail_cons]
    refine ⟨_, rfl, ⟨?_, ?_, ?_, ?_, ?_, ?_, ?_, ?_, ?_⟩, by simp⟩
    · refine ⟨rfl, ?_⟩
      simp only [upd_same]
      refine hinv.pending.frame (fun y hy => ?_)
      have : y ≠ e := fun h => heP (h ▸ hy)
      simp [upd, this]
    · refine htail.frame (fun y hy => ?_)
      have : y ≠ e := fun h => heF (h ▸ hy)
      simp [upd, this]
    · intro e1 he1 hF
      rcases List.mem_cons.1 he1 with rfl | he1
      · exact heF hF
      · exact hinv.disjoint e1 he1 (List.mem_cons_of_mem e hF)
    · intro e1 he1
      exact hinv.free_lt e1 (List.mem_cons_of_mem e he1)
    · intro e1 he1
      by_cases h : e1 = e
      · subst h; simp [hwa]
      · simp only [upd_other _ _ h]
        exact hinv.flag_pool e1 he1
    · intro e1 he1 hne
      rcases List.mem_cons.1 he1 with rfl | he1
      · omega
      · have : e1 ≠ e := fun h => heP (h ▸ he1)
        simp only [upd_other _ _ this]
        exact hinv.flag_heap e1 he1 hne
    · intro e1 he1
      rcases hinv.cover e1 he1 with h | h
      · exact Or.inl (List.mem_cons_of_mem _ h)
      · rcases List.mem_cons.1 h with rfl | h
        · exact Or.inl (List.mem_cons_self _ _)
        · exact Or.inr h
    · intro e1 he1
      rcases List.mem_cons.1 he1 with rfl | he1
      · exact lt_of_lt_of_le hlt hinv.alloc_ge
      · exact hinv.bound e1 he1
    · exact hinv.alloc_ge

/-- The in-place reversal leaves every entry outside the visited chain as it was. -/
lemma reverse_deferred_list_frame (L : List Nat) :
    ∀ (fuel : Nat) (head rev : Option Nat) (entries entries1 : Nat → DeferredCallEntry)
      (rev1 : Option Nat),
      IsList (fun e => (entries e).next) head L →
      reverse_deferred_list fuel head rev entries = Except.ok (entries1, rev1) →
      ∀ e, e ∉ L → entries1 e = entries e := by
  induction L with
  | nil =>
    intro fuel head rev entries entries1 rev1 hL hrun e _
    have hh : head = none := hL
    subst hh
    have hrun1 : (Except.ok (entries, rev) : Except Fault _) = Except.ok (entries1, rev1) := by
      cases fuel <;> exact hrun
    injection hrun1 with h1
    rw [← (Prod.mk.inj h1).1]
  | cons x xs ih =>
    intro fuel head rev entries entries1 rev1 hL hrun e he
    have hnd : (x :: xs).Nodup := hL.nodup
    obtain ⟨hh, hxs⟩ := hL
    subst hh
    have hx_xs : x ∉ xs := (List.nodup_cons.1 hnd).1
    cases fuel with
    | zero => cases hrun
    | succ fuel =>
      have hchain : IsList (fun e => ((upd entries x { entries x with next := rev }) e).next)
          (entries x).next xs := by
        refine hxs.frame (fun y hy => ?_)
        have : y ≠ x := fun h => hx_xs (h ▸ hy)
        simp [upd, this]
      have h := ih fuel (entries x).next (some x) _ entries1 rev1 hchain hrun e
        (fun h => he (List.mem_cons_of_mem x h))
      rw [h]
      have : e ≠ x := fun h => he (h ▸ List.mem_cons_self x xs)
      simp [upd, this]

/-- One pass through the body of the execution loop: the handler of `p` is invoked; a
pool entry goes to the front of the free list, a heap entry is deleted. -/
lemma deferred_call_execute_loop_step (n fuel p : Nat) (s : DeferredCalls) (Fc : List Nat)
    (hcrit : 0 < s.m_in_critical)
    (hpool : p < n → (s.entries p).was_allocated = false)
    (hheap : n ≤ p → (s.entries p).was_allocated = true)
    (hfree : IsList (fun e => (s.entries e).next) s.m_free_deferred_call_pool_entry Fc)
    (hp : p ∉ Fc) :
    ∃ s2, deferred_call_execute_loop (fuel + 1) p s
        = (match (s.entries p).next with
           | some x => deferred_call_execute_loop fuel x s2
           | none => Except.ok s2) ∧
      (∀ e, e ≠ p → s2.entries e = s.entries e) ∧
      (s2.entries p).was_allocated = (s.entries p).was_allocated ∧
      IsList (fun e => (s2.entries e).next) s2.m_free_deferred_call_pool_entry
        (if p < n then p :: Fc else Fc) ∧
      s2.m_in_critical = s.m_in_critical ∧
      s2.m_pending_deferred_calls = s.m_pending_deferred_calls ∧
      s2.next_alloc = s.next_alloc ∧
      freed_entries s2.trace = freed_entries s.trace ++ (if p < n then [] else [p]) ∧
      allocated_entries s2.trace = allocated_entries s.trace := by
  rw [deferred_call_execute_loop]
  by_cases hlt : p < n
  · have hwa := hpool hlt
    simp only [hwa, Bool.false_eq_true, if_false, deferred_call_return_to_pool,
      Nat.ne_of_gt hcrit, if_pos hlt]
    refine ⟨_, rfl, fun e he => by simp [upd, he], by simp [hwa], ⟨rfl, ?_⟩, rfl, rfl, rfl,
      by simp [freed_entries_append, freed_entries],
      by simp [allocated_entries_append, allocated_entries]⟩
    simp only [upd_same]
    refine hfree.frame (fun y hy => ?_)
    have : y ≠ p := fun h => hp (h ▸ hy)
    simp [upd, this]
  · have hwa := hheap (Nat.le_of_not_lt hlt)
    simp only [hwa, if_true, if_neg hlt]
    refine ⟨_, rfl, fun e he => by simp [upd, he], by simp [hwa], ?_, rfl, rfl, rfl,
      by simp [freed_entries_append, freed_entries],
      by simp [allocated_entries_append, allocated_entries]⟩
    refine hfree.frame (fun y hy => ?_)
    have : y ≠ p := fun h => hp (h ▸ hy)
    simp [upd, this]

/-- The execution loop under the pool discipline: walking the chain `p :: L`, it puts the
pool entries on the free list (the last executed first) and deletes the heap entries. -/
lemma deferred_call_execute_loop_pool (n : Nat) (L : List Nat) :
    ∀ (fuel p : Nat) (s : DeferredCalls) (Fc : List Nat),
      IsList (fun e => (s.entries e).next) (some p) (p :: L) →
      IsList (fun e => (s.entries e).next) s.m_free_deferred_call_pool_entry Fc →
      (∀ e, e ∈ p :: L → e ∉ Fc) →
      (∀ e, e < n → (s.entries e).was_allocated = false) →
      (∀ e, e ∈ p :: L → n ≤ e → (s.entries e).was_allocated = true) →
      L.length < fuel → 0 < s.m_in_critical →
      ∃ s1, deferred_call_execute_loop fuel p s = Except.ok s1 ∧
        IsList (fun e => (s1.entries e).next) s1.m_free_deferred_call_pool_entry
          (((p :: L).filter (fun e => decide (e < n))).reverse ++ Fc) ∧
        (∀ e, (s1.entries e).was_allocated = (s.entries e).was_allocated) ∧
        freed_entries s1.trace
          = freed_entries s.trace ++ (p :: L).filter (fun e => decide (n ≤ e)) ∧
        allocated_entries s1.trace = allocated_entries s.trace ∧
        s1.m_pending_deferred_calls = s.m_pending_deferred_calls ∧
        s1.m_in_critical = s.m_in_critical ∧ s1.next_alloc = s.next_alloc := by
  induction L with
  | nil =>
    intro fuel p s Fc hL hfree hdisj hpool hheap hfuel hcrit
    obtain ⟨_, hnext⟩ := hL
    have hnone : (s.entries p).next = none := hnext
    cases fuel with
    | zero => omega
    | succ fuel =>
      obtain ⟨s2, hrun, hent, hwa, hfree2, hc, hpend, hna, hfr, hal⟩ :=
        deferred_call_execute_loop_step n fuel p s Fc hcrit (hpool p)
          (hheap p (List.mem_cons_self p [])) hfree (hdisj p (List.mem_cons_self p []))
      rw [hnone] at hrun
      refine ⟨s2, hrun, ?_, ?_, ?_, hal, hpend, hc, hna⟩
      · by_cases hlt : p < n
        · simpa [List.filter_cons, hlt] using hfree2
        · simpa [List.filter_cons, hlt] using hfree2
      · intro e
        by_cases he : e = p
        · rw [he]; exact hwa
        · rw [hent e he]
      · rw [hfr]
        by_cases hlt : p < n
        · simp [List.filter_cons, hlt]
        · simp [List.filter_cons, hlt, Nat.le_of_not_lt hlt]
  | cons x xs ih =>
    intro fuel p s Fc hL hfree hdisj hpool hheap hfuel hcrit
    have hnd : (p :: x :: xs).Nodup := hL.nodup
    obtain ⟨_, hnext, hrest⟩ := hL
    have hpx : (s.entries p).next = some x := hnext
    have hp_notin : p ∉ x :: xs := (List.nodup_cons.1 hnd).1
    cases fuel with
    | zero => omega
    | succ fuel =>
      obtain ⟨s2, hrun, hent, hwa, hfree2, hc, hpend, hna, hfr, hal⟩ :=
        deferred_call_execute_loop_step n fuel p s Fc hcrit (hpool p)
          (hheap p (List.mem_cons_self p _)) hfree (hdisj p (List.mem_cons_self p _))
      rw [hpx] at hrun
      have hflag : ∀ e, (s2.entries e).was_allocated = (s.entries e).was_allocated := by
        intro e
        by_cases he : e = p
        · rw [he]; exact hwa
        · rw [hent e he]
      have hchain : IsList (fun e => (s2.entries e).next) (some x) (x :: xs) := by
        have hold : IsList (fun e => (s.entries e).next) (some x) (x :: xs) := ⟨rfl, hrest⟩
        refine hold.frame (fun y hy => ?_)
        have hyp : y ≠ p := fun h => hp_notin (h ▸ hy)
        show (s2.entries y).next = (s.entries y).next
        rw [hent y hyp]
      obtain ⟨s1, hrun1, hfree1, hflag1, hfr1, hal1, hpend1, hc1, hna1⟩ :=
        ih fuel x s2 (if p < n then p :: Fc else Fc) hchain hfree2
          (by
            intro e he hmem
            by_cases hlt : p < n
            · rw [if_pos hlt] at hmem
              rcases List.mem_cons.1 hmem with rfl | hmem
              · exact hp_notin he
              · exact hdisj e (List.mem_cons_of_mem p he) hmem
            · rw [if_neg hlt] at hmem
              exact hdisj e (List.mem_cons_of_mem p he) hmem)
          (fun e he => by rw [hflag e]; exact hpool e he)
          (fun e he hne => by rw [hflag e]; exact hheap e (List.mem_cons_of_mem p he) hne)
          (by simp at hfuel; omega) (by rw [hc]; exact hcrit)
      refine ⟨s1, hrun.trans hrun1, ?_, fun e => (hflag1 e).trans (hflag e), ?_,
        hal1.trans hal, hpend1.trans hpend, hc1.trans hc, hna1.trans hna⟩
      · by_cases hlt : p < n
        · rw [if_pos hlt] at hfree1
          rw [List.filter_cons_of_pos (by simpa using hlt), List.reverse_cons,
            List.append_assoc]
          exact hfree1
        · rw [if_neg hlt] at hfree1
          rw [List.filter_cons_of_neg (by simpa using hlt)]
          exact hfree1
      · rw [hfr1, hfr]
        by_cases hlt : p < n
        · rw [if_pos hlt, List.append_nil,
            List.filter_cons_of_neg (l := x :: xs) (by simpa using hlt)]
        · rw [if_neg hlt, List.filter_cons_of_pos (l := x :: xs)
            (by simpa using Nat.le_of_not_lt hlt), List.append_assoc]
          rfl

/-- `deferred_call_execute_pending` under the pool discipline: it returns, nothing is
pending afterwards, the pending pool entries are back in front of the free list, and the
pending heap entries are deleted in execution order. -/
lemma deferred_call_execute_pending_pool {n : Nat} {s : DeferredCalls} {P F : List Nat}
    (hinv : PoolInv n s P F) (hcrit : 0 < s.m_in_critical) (fuel : Nat)
    (hfuel : P.length ≤ fuel) :
    ∃ s1, deferred_call_execute_pending fuel s = Except.ok s1 ∧
      PoolInv n s1 [] (P.filter (fun e => decide (e < n)) ++ F) ∧
      s1.m_pending_deferred_calls = none ∧
      freed_entries s1.trace
        = freed_entries s.trace ++ P.reverse.filter (fun e => decide (n ≤ e)) ∧
      allocated_entries s1.trace = allocated_entries s.trace ∧
      s1.m_in_critical = s.m_in_critical := by
  cases P with
  | nil =>
    have hpend : s.m_pending_deferred_calls = none := hinv.pending
    simp only [deferred_call_execute_pending, Nat.ne_of_gt hcrit, if_false, hpend]
    exact ⟨s, rfl, by simpa using hinv, hpend, by simp, rfl, rfl⟩
  | cons x xs =>
    have hpend : s.m_pending_deferred_calls = some x := hinv.pending.1
    obtain ⟨entries1, rev1, hrev, hchain, hsame⟩ :=
      reverse_deferred_list_spec (x :: xs) fuel (some x) none [] s.entries
        (by simpa [hpend] using hinv.pending) rfl (fun _ _ h => absurd h (List.not_mem_nil _))
        hfuel
    have hframe := reverse_deferred_list_frame (x :: xs) fuel (some x) none s.entries entries1
      rev1 (by simpa [hpend] using hinv.pending) hrev
    rw [List.append_nil] at hchain
    obtain ⟨p, L, hpL⟩ : ∃ p L, (x :: xs).reverse = p :: L := by
      cases h : (x :: xs).reverse with
      | nil => simp at h
      | cons p L => exact ⟨p, L, rfl⟩
    rw [hpL] at hchain
    have hrev1 : rev1 = some p := hchain.1
    subst hrev1
    have hmem : ∀ e, e ∈ p :: L ↔ e ∈ x :: xs := by
      intro e
      rw [← hpL]
      exact List.mem_reverse
    have hlen : L.length + 1 = (x :: xs).length := by
      rw [← List.length_reverse (x :: xs), hpL]
      rfl
    obtain ⟨S, hSe, hSf, hSc, hSp, hSt, hSn, hS⟩ : ∃ S : DeferredCalls,
        S.entries = entries1 ∧
        S.m_free_deferred_call_pool_entry = s.m_free_deferred_call_pool_entry ∧
        S.m_in_critical = s.m_in_critical ∧ S.m_pending_deferred_calls = none ∧
        S.trace = s.trace ∧ S.next_alloc = s.next_alloc ∧
        deferred_call_execute_pending fuel s = deferred_call_execute_loop fuel p S := by
      refine ⟨{ s with m_pending_deferred_calls := none, entries := entries1 },
        rfl, rfl, rfl, rfl, rfl, rfl, ?_⟩
      simp only [deferred_call_execute_pending, Nat.ne_of_gt hcrit, if_false, hpend, hrev]
    have hfreeS : IsList (fun e => (S.entries e).next) S.m_free_deferred_call_pool_entry F := by
      rw [hSe, hSf]
      refine hinv.free.frame (fun y hy => ?_)
      show (entries1 y).next = (s.entries y).next
      rw [hframe y (fun h => hinv.disjoint y h hy)]
    obtain ⟨s1, hrun, hfree1, hflag1, hfr1, hal1, hpend1, hc1, hna1⟩ :=
      deferred_call_execute_loop_pool n L fuel p S F (by rw [hSe]; exact hchain) hfreeS
        (fun e he => hinv.disjoint e ((hmem e).1 he))
        (fun e he => by rw [hSe, (hsame e).2]; exact hinv.flag_pool e he)
        (fun e he hne => by rw [hSe, (hsame e).2]; exact hinv.flag_heap e ((hmem e).1 he) hne)
        (by omega) (by rw [hSc]; exact hcrit)
    have hflag : ∀ e, (s1.entries e).was_allocated = (s.entries e).was_allocated := by
      intro e
      rw [hflag1 e, hSe, (hsame e).2]
    have hfilter : ((p :: L).filter (fun e => decide (e < n))).reverse
        = (x :: xs).filter (fun e => decide (e < n)) := by
      rw [← hpL, List.filter_reverse, List.reverse_reverse]
    rw [hfilter] at hfree1
    refine ⟨s1, hS.trans hrun, ⟨?_, hfree1, ?_, ?_, ?_, ?_, ?_, ?_, ?_⟩, hpend1.trans hSp, ?_,
      hal1.trans (by rw [hSt]), hc1.trans hSc⟩
    · show IsList _ s1.m_pending_deferred_calls []
      rw [hpend1, hSp]
      rfl
    · intro e h; exact absurd h (List.not_mem_nil _)
    · intro e he
      rcases List.mem_append.1 he with h | h
      · simpa using (List.mem_filter.1 h).2
      · exact hinv.free_lt e h
    · intro e he
      rw [hflag e]
      exact hinv.flag_pool e he
    · intro e h; exact absurd h (List.not_mem_nil _)
    · intro e he
      rcases hinv.cover e he with h | h
      · exact Or.inr (List.mem_append_left _ (List.mem_filter.2 ⟨h, by simpa using he⟩))
      · exact Or.inr (List.mem_append_right _ h)
    · intro e h; exact absurd h (List.not_mem_nil _)
    · rw [hna1, hSn]
      exact hinv.alloc_ge
    · rw [hfr1, hSt, hpL]

/-- Under the pool discipline the free list and the pending pool entries together are the
pool: their lengths add up to the pool size. -/
lemma PoolInv.count {n : Nat} {s : DeferredCalls} {P F : List Nat} (hinv : PoolInv n s P F) :
    F.length + (P.filter (fun e => decide (e < n))).length = n := by
  have hnd : (F ++ P.filter (fun e => decide (e < n))).Nodup := by
    refine List.Nodup.append hinv.free.nodup (hinv.pending.nodup.filter _) ?_
    intro e heF heP
    exact hinv.disjoint e (List.mem_filter.1 heP).1 heF
  have hlt : ∀ e ∈ F ++ P.filter (fun e => decide (e < n)), e < n := by
    intro e he
    rcases List.mem_append.1 he with h | h
    · exact hinv.free_lt e h
    · simpa using (List.mem_filter.1 h).2
  have h1 := length_le_of_nodup_lt hnd hlt
  have hsub : List.range n ⊆ F ++ P.filter (fun e => decide (e < n)) := by
    intro e he
    have he1 := List.mem_range.1 he
    rcases hinv.cover e he1 with h | h
    · exact List.mem_append_right _ (List.mem_filter.2 ⟨h, by simpa using he1⟩)
    · exact List.mem_append_left _ h
  have h2 := ((List.nodup_range n).subperm hsub).length_le
  rw [List.length_range] at h2
  rw [List.length_append] at h1 h2
  omega

/-- The pending pool entries are the pending entries that carry `was_allocated = false`. -/
lemma PoolInv.filter_flag {n : Nat} {s : DeferredCalls} {P F : List Nat}
    (hinv : PoolInv n s P F) :
    P.filter (fun e => !(s.entries e).was_allocated) = P.filter (fun e => decide (e < n)) := by
  refine List.filter_congr (fun e he => ?_)
  by_cases hlt : e < n
  · simp [hinv.flag_pool e hlt, hlt]
  · simp [hinv.flag_heap e he (Nat.le_of_not_lt hlt), hlt]

/-- Every sequence of `deferred_call_queue` and `deferred_call_execute_pending` calls made
inside a critical section returns and keeps the pool discipline. -/
lemma run_deferred_ops_pool (n : Nat) (ops : List DeferredOp) :
    ∀ (fuel : Nat) (s : DeferredCalls) (P F : List Nat), PoolInv n s P F →
      0 < s.m_in_critical → P.length + ops.length ≤ fuel →
      ∃ s1 P1 F1, run_deferred_ops fuel ops s = Except.ok s1 ∧ PoolInv n s1 P1 F1 ∧
        s1.m_in_critical = s.m_in_critical ∧ P1.length ≤ fuel := by
  induction ops with
  | nil =>
    intro fuel s P F hinv _ hfuel
    exact ⟨s, P, F, rfl, hinv, rfl, by simpa using hfuel⟩
  | cons op ops ih =>
    intro fuel s P F hinv hcrit hfuel
    simp only [List.length_cons] at hfuel
    cases op with
    | queue cb =>
      obtain ⟨t, hrun, hinv1, hc⟩ := deferred_call_queue_pool hinv cb
      obtain ⟨s1, P1, F1, hrun1, hinv2, hc1, hlen⟩ := ih fuel t _ _ hinv1 (by rw [hc]; exact hcrit)
        (by simp only [List.length_cons]; omega)
      refine ⟨s1, P1, F1, ?_, hinv2, hc1.trans hc, hlen⟩
      simp only [run_deferred_ops, run_deferred_op, hrun]
      exact hrun1
    | execute_pending =>
      obtain ⟨t, hrun, hinv1, _, _, _, hc⟩ :=
        deferred_call_execute_pending_pool hinv hcrit fuel (by omega)
      obtain ⟨s1, P1, F1, hrun1, hinv2, hc1, hlen⟩ := ih fuel t _ _ hinv1 (by rw [hc]; exact hcrit)
        (by simp only [List.length_nil]; omega)
      refine ⟨s1, P1, F1, ?_, hinv2, hc1.trans hc, hlen⟩
      simp only [run_deferred_ops, run_deferred_op, hrun]
      exact hrun1

/-- With a well-formed pending list `P` (most recent first), inside a critical section
and with enough iterations, `deferred_call_execute_pending` returns, has invoked the
handlers of `P` from the oldest to the most recent, and leaves nothing pending. -/
lemma deferred_call_execute_pending_invoked {s : DeferredCalls} {P : List Nat}
    (hP : IsList (fun e => (s.entries e).next) s.m_pending_deferred_calls P)
    (hcrit : 0 < s.m_in_critical) (fuel : Nat) (hfuel : P.length ≤ fuel) :
    ∃ s1, deferred_call_execute_pending fuel s = Except.ok s1 ∧
      invoked s1.trace = invoked s.trace ++ P.reverse.map (fun e => (s.entries e).handler) ∧
      s1.m_pending_deferred_calls = none := by
  cases P with
  | nil =>
    have hpend : s.m_pending_deferred_calls = none := hP
    simp only [deferred_call_execute_pending, Nat.ne_of_gt hcrit, if_false, hpend]
    exact ⟨s, rfl, by simp, hpend⟩
  | cons x xs =>
    have hpend : s.m_pending_deferred_calls = some x := hP.1
    obtain ⟨entries1, rev1, hrev, hchain, hsame⟩ :=
      reverse_deferred_list_spec (x :: xs) fuel (some x) none [] s.entries
        (by simpa [hpend] using hP) rfl (fun _ _ h => absurd h (List.not_mem_nil _)) hfuel
    rw [List.append_nil] at hchain
    obtain ⟨p, L, hpL⟩ : ∃ p L, (x :: xs).reverse = p :: L := by
      cases h : (x :: xs).reverse with
      | nil => simp at h
      | cons p L => exact ⟨p, L, rfl⟩
    rw [hpL] at hchain
    have hrev1 : rev1 = some p := hchain.1
    subst hrev1
    have hlen : L.length + 1 = (x :: xs).length := by
      rw [← List.length_reverse (x :: xs), hpL]
      rfl
    obtain ⟨s1, hloop, hinvk, hp1, _⟩ := deferred_call_execute_loop_spec L fuel p
      { s with m_pending_deferred_calls := none, entries := entries1 } hchain (by omega) hcrit
    refine ⟨s1, ?_, ?_, hp1⟩
    · simp only [deferred_call_execute_pending, Nat.ne_of_gt hcrit, if_false, hpend, hrev]
      exact hloop
    · rw [hinvk, hpL]
      congr 1
      exact List.map_congr_left (fun e _ => (hsame e).1)

end deferred

section syscalls

variable (abi : SyscallAbi) (function arg1 arg2 arg3 arg4 : Nat) (s : SyscallState)

lemma handle_out_of_range (hint : s.interrupts_enabled = true) (h : abi.Count ≤ function) :
    handle abi function arg1 arg2 arg3 arg4 s
      = (SyscallOutcome.returned (KResultOr.error abi.ENOSYS),
         { s with trace := s.trace ++ [SyscallEvent.did_syscall, SyscallEvent.add_syscall_event] }) := by
  simp [handle, hint, h, SyscallState.emit]

lemma handle_null (hint : s.interrupts_enabled = true) (h : function < abi.Count)
    (hnull : (abi.s_syscall_table function).handler = none) :
    handle abi function arg1 arg2 arg3 arg4 s
      = (SyscallOutcome.returned (KResultOr.error abi.ENOSYS),
         { s with trace := s.trace ++ [SyscallEvent.did_syscall, SyscallEvent.add_syscall_event,
            SyscallEvent.table_read function] }) := by
  simp [handle, hint, Nat.not_le.2 h, hnull, SyscallState.emit]

lemma handle_regs {handler : Nat} (hint : s.interrupts_enabled = true) (h : function < abi.Count)
    (hh : (abi.s_syscall_table function).handler = some handler)
    (hne : ¬ (function = abi.SC_exit ∨ function = abi.SC_exit_thread))
    (hregs : function = abi.SC_fork ∨ function = abi.SC_sigreturn) :
    handle abi function arg1 arg2 arg3 arg4 s
      = (SyscallOutcome.returned (abi.handler_result_regs handler s.regs),
         { s with trace := s.trace ++ ([SyscallEvent.did_syscall, SyscallEvent.add_syscall_event,
            SyscallEvent.table_read function] ++ lock_events (abi.s_syscall_table function)
            ++ [SyscallEvent.call_regs handler s.regs]
            ++ unlock_events (abi.s_syscall_table function)) }) := by
  unfold handle lock_events unlock_events
  by_cases hl : (abi.s_syscall_table function).needs_lock = NeedsBigProcessLock.Yes <;>
    simp [hint, Nat.not_le.2 h, hh, hne, hregs, hl, SyscallState.emit]

lemma handle_args {handler : Nat} (hint : s.interrupts_enabled = true) (h : function < abi.Count)
    (hh : (abi.s_syscall_table function).handler = some handler)
    (hne : ¬ (function = abi.SC_exit ∨ function = abi.SC_exit_thread))
    (hregs : ¬ (function = abi.SC_fork ∨ function = abi.SC_sigreturn)) :
    handle abi function arg1 arg2 arg3 arg4 s
      = (SyscallOutcome.returned (abi.handler_result handler arg1 arg2 arg3 arg4),
         { s with trace := s.trace ++ ([SyscallEvent.did_syscall, SyscallEvent.add_syscall_event,
            SyscallEvent.table_read function] ++ lock_events (abi.s_syscall_table function)
            ++ [SyscallEvent.call_args handler arg1 arg2 arg3 arg4]
            ++ unlock_events (abi.s_syscall_table function)) }) := by
  unfold handle lock_events unlock_events
  by_cases hl : (abi.s_syscall_table function).needs_lock = NeedsBigProcessLock.Yes <;>
    simp [hint, Nat.not_le.2 h, hh, hne, hregs, hl, SyscallState.emit]

lemma handle_exit_spec (s3 : SyscallState)
    (hexit : function = abi.SC_exit ∨ function = abi.SC_exit_thread) :
    (handle_exit abi function arg1 arg2 arg3 s3).1 = SyscallOutcome.never_returns ∧
      (handle_exit abi function arg1 arg2 arg3 s3).2.trace
        = s3.trace ++ (if s3.tracing_syscalls then [SyscallEvent.tracer_trap] else [])
          ++ [if function = abi.SC_exit then SyscallEvent.sys_exit arg1
              else SyscallEvent.sys_exit_thread arg1 arg2 arg3] := by
  unfold handle_exit
  by_cases he1 : function = abi.SC_exit
  · by_cases htr : s3.tracing_syscalls = true <;> simp [he1, htr, SyscallState.emit]
  · have he2 : function = abi.SC_exit_thread := hexit.resolve_left he1
    subst he2
    by_cases htr : s3.tracing_syscalls = true <;>
      simp [abi.exit_ne_exit_thread.symm, htr, SyscallState.emit]

/-- The exit special case: the tracer (if it traces system calls) is trapped once, then
control goes to the exit function and does not come back. -/
lemma handle_exits {handler : Nat} (hint : s.interrupts_enabled = true)
    (h : function < abi.Count)
    (hh : (abi.s_syscall_table function).handler = some handler)
    (hexit : function = abi.SC_exit ∨ function = abi.SC_exit_thread) :
    (handle abi function arg1 arg2 arg3 arg4 s).1 = SyscallOutcome.never_returns ∧
      (handle abi function arg1 arg2 arg3 arg4 s).2.trace
        = s.trace ++ ([SyscallEvent.did_syscall, SyscallEvent.add_syscall_event,
          SyscallEvent.table_read function] ++ lock_events (abi.s_syscall_table function)
          ++ (if s.tracing_syscalls then [SyscallEvent.tracer_trap] else [])
          ++ [if function = abi.SC_exit then SyscallEvent.sys_exit arg1
              else SyscallEvent.sys_exit_thread arg1 arg2 arg3]) := by
  have hred : ∀ s3 : SyscallState, handle abi function arg1 arg2 arg3 arg4 s
      = handle_exit abi function arg1 arg2 arg3 s3 →
      s3.trace = s.trace ++ ([SyscallEvent.did_syscall, SyscallEvent.add_syscall_event,
          SyscallEvent.table_read function] ++ lock_events (abi.s_syscall_table function)) →
      s3.tracing_syscalls = s.tracing_syscalls →
      (handle abi function arg1 arg2 arg3 arg4 s).1 = SyscallOutcome.never_returns ∧
      (handle abi function arg1 arg2 arg3 arg4 s).2.trace
        = s.trace ++ ([SyscallEvent.did_syscall, SyscallEvent.add_syscall_event,
          SyscallEvent.table_read function] ++ lock_events (abi.s_syscall_table function)
          ++ (if s.tracing_syscalls then [SyscallEvent.tracer_trap] else [])
          ++ [if function = abi.SC_exit then SyscallEvent.sys_exit arg1
              else SyscallEvent.sys_exit_thread arg1 arg2 arg3]) := by
    intro s3 heq htr hflag
    obtain ⟨h1, h2⟩ := handle_exit_spec abi function arg1 arg2 arg3 s3 hexit
    rw [heq]
    refine ⟨h1, ?_⟩
    rw [h2, htr, hflag]
    simp only [List.append_assoc]
  by_cases hl : (abi.s_syscall_table function).needs_lock = NeedsBigProcessLock.Yes
  · refine hred ((s.emit [SyscallEvent.did_syscall, SyscallEvent.add_syscall_event]).emit
      [SyscallEvent.table_read function] |>.emit [SyscallEvent.lock_big_lock]) ?_ ?_ rfl
    · simp [handle, hint, Nat.not_le.2 h, hh, hl, hexit]
    · simp [SyscallState.emit, lock_events, hl]
  · refine hred ((s.emit [SyscallEvent.did_syscall, SyscallEvent.add_syscall_event]).emit
      [SyscallEvent.table_read function]) ?_ ?_ rfl
    · simp [handle, hint, Nat.not_le.2 h, hh, hl, hexit]
    · simp [SyscallState.emit, lock_events, hl]

lemma filter_lock_events (md : HandlerMetadata) :
    (lock_events md).filter is_handler_call = [] ∧
      (unlock_events md).filter is_handler_call = [] := by
  unfold lock_events unlock_events
  constructor <;> split <;> rfl

end syscalls

section countdown

/-- The cores other than the sender split into those that have drained and those that
have not. -/
lemma drained_others_add (N sender : Nat) (order : List Nat) (hs : sender < N) :
    drained_others N sender order
      + (List.range N).countP (fun c => decide (c ∉ order ∧ c ≠ sender)) + 1 = N := by
  have h1 := countP_range_add (fun c => decide (c ∈ order ∧ c ≠ sender))
    (fun c => decide (c ∉ order ∧ c ≠ sender)) (fun c => decide (c ≠ sender)) N
    (fun c _ => by
      by_cases ho : c ∈ order <;> by_cases hcs : c = sender <;> simp [ho, hcs])
  have h2 := countP_range_flip (fun _ => true) (fun c => decide (c ≠ sender)) N sender hs rfl
    (by simp) (fun c1 hc1 => by simp [hc1])
  rw [countP_range_true] at h2
  unfold drained_others
  omega

lemma drained_others_all (N sender : Nat) (order : List Nat) (hs : sender < N) :
    drained_others N sender order = N - 1 ↔ ∀ c, c < N → c ≠ sender → c ∈ order := by
  have h := drained_others_add N sender order hs
  have hz : (List.range N).countP (fun c => decide (c ∉ order ∧ c ≠ sender)) = 0
      ↔ ∀ c, c < N → c ≠ sender → c ∈ order := by
    rw [List.countP_eq_zero]
    constructor
    · intro h1 c hc hcs
      by_contra hno
      exact h1 c (List.mem_range.2 hc) (by simp [hno, hcs])
    · intro h1 c hc
      have := h1 c (List.mem_range.1 hc)
      simp only [decide_eq_true_eq, not_and, not_not]
      intro hno
      by_contra hcs
      exact hno (this hcs)
  rw [← hz]
  omega

end countdown

section traps

lemma hook_count_append (xs ys : List TrapEvent) :
    hook_count (xs ++ ys) = hook_count xs + hook_count ys := by
  induction xs with
  | nil => simp [hook_count]
  | cons e es ih =>
    cases e with
    | update_time_scheduled t k r => simp [hook_count, ih]
    | invoke_async =>
      show hook_count (es ++ ys) + 1 = hook_count es + 1 + hook_count ys
      rw [ih]
      omega

lemma process_pending_loop_same (cpu : Nat) :
    ∀ (fuel : Nat) (cur : Option Nat) (s s1 : System),
      process_pending_loop cpu fuel cur s = Except.ok s1 → SameCores s s1 := by
  intro fuel
  induction fuel with
  | zero =>
    intro cur s s1 h
    cases cur with
    | none =>
      have h1 : (Except.ok s : Except Fault System) = Except.ok s1 := h
      cases h1
      exact SameCores.same_refl s
    | some c => cases h
  | succ fuel ih =>
    intro cur s s1 h
    cases cur with
    | none =>
      have h1 : (Except.ok s : Except Fault System) = Except.ok s1 := h
      cases h1
      exact SameCores.same_refl s
    | some c =>
      rw [process_pending_loop] at h
      cases h1 : process_message cpu (s.entries c).msg s with
      | error f => rw [h1] at h; cases h
      | ok t1 =>
        cases h2 : release_message cpu (s.entries c).msg t1 with
        | error f => simp only [h1, h2] at h; cases h
        | ok t2 =>
          simp only [h1, h2] at h
          split at h
          · cases h
          · exact SameCores.trans
              (SameCores.trans (process_message_same h1).1 (release_message_same h2)) (ih _ _ _ h)

/-- A returning drain leaves the critical-section depth of its processor as it was, and
the configuration too. -/
lemma smp_process_pending_messages_critical {fuel cpu : Nat} {s s1 : System} {b : Bool}
    (h : smp_process_pending_messages fuel cpu s = Except.ok (b, s1)) :
    (s1.procs cpu).m_in_critical = (s.procs cpu).m_in_critical ∧
      s1.s_smp_enabled = s.s_smp_enabled := by
  unfold smp_process_pending_messages at h
  split at h
  · cases h
  · simp only [enter_critical, upd_same] at h
    cases hq : (s.procs cpu).m_message_queue with
    | none =>
      simp only [hq, leave_critical, upd_same, Nat.add_one_ne_zero, if_false] at h
      split at h
      · cases h
      · cases h
        simp
    | some x =>
      simp only [hq] at h
      split at h
      · cases h
      · rename_i entries1 rev hrev
        split at h
        · cases h
        · rename_i s2 hloop
          obtain ⟨_, hp, _, _, hen, _⟩ := process_pending_loop_same cpu _ _ _ _ hloop
          simp only [leave_critical, hp, upd_same, Nat.add_one_ne_zero, if_false] at h
          cases h
          exact ⟨by simp, hen⟩

/-- The drain of `exit_trap` changes the messaging state only. -/
lemma exit_trap_messages_spec {fuel : Nat} {s s1 : Core}
    (h : exit_trap_messages fuel s = Except.ok s1) :
    s1.id = s.id ∧ s1.interrupts_enabled = s.interrupts_enabled ∧ s1.m_in_irq = s.m_in_irq ∧
      s1.m_in_critical = s.m_in_critical ∧
      s1.m_invoke_scheduler_async = s.m_invoke_scheduler_async ∧
      s1.m_scheduler_initialized = s.m_scheduler_initialized ∧
      s1.current_thread = s.current_thread ∧ s1.threads = s.threads ∧ s1.traps = s.traps ∧
      s1.deferred = s.deferred ∧ s1.trace = s.trace ∧ (MessagesQuiet s → MessagesQuiet s1) := by
  unfold exit_trap_messages at h
  split at h
  · rename_i hen
    simp only at h
    split at h
    · cases h
    · rename_i b smp1 hrun
      cases h
      have hc := smp_process_pending_messages_critical hrun
      simp only [upd_same] at hc
      refine ⟨rfl, rfl, rfl, hc.1, rfl, rfl, rfl, rfl, rfl, rfl, rfl, ?_⟩
      intro hq _
      obtain ⟨hq1, hq2⟩ := hq hen
      have hempty := smp_process_pending_messages_empty fuel s.id
        { s.smp with procs := upd s.smp.procs s.id { s.smp.procs s.id with m_in_critical := s.m_in_critical } }
        hen (by simp only [upd_same]; exact hq1)
      rw [hempty] at hrun
      simp only [upd_same, hq2, Bool.false_eq_true, if_false] at hrun
      cases hrun
      exact ⟨by simp [hq1], by simp [hq2]⟩
  · cases h
    exact ⟨rfl, rfl, rfl, rfl, rfl, rfl, rfl, rfl, rfl, rfl, rfl, fun hq => hq⟩

lemma deferred_call_execute_loop_critical :
    ∀ (fuel p : Nat) (s s1 : DeferredCalls),
      deferred_call_execute_loop fuel p s = Except.ok s1 → s1.m_in_critical = s.m_in_critical := by
  intro fuel
  induction fuel with
  | zero => intro p s s1 h; cases h
  | succ fuel ih =>
    intro p s s1 h
    rw [deferred_call_execute_loop] at h
    simp only at h
    split at h
    · cases h
    · rename_i s2 hfreed
      have hs2 : s2.m_in_critical = s.m_in_critical := by
        split at hfreed
        · cases hfreed
          rfl
        · unfold deferred_call_return_to_pool at hfreed
          split at hfreed
          · cases hfreed
          · cases hfreed
            rfl
      split at h
      · exact (ih _ _ _ h).trans hs2
      · cases h
        exact hs2

/-- A returning `deferred_call_execute_pending` ran inside a critical section and left
its depth as it was. -/
lemma deferred_call_execute_pending_critical {fuel : Nat} {s s1 : DeferredCalls}
    (h : deferred_call_execute_pending fuel s = Except.ok s1) :
    s1.m_in_critical = s.m_in_critical ∧ 0 < s.m_in_critical := by
  unfold deferred_call_execute_pending at h
  split at h
  · cases h
  · rename_i hc
    refine ⟨?_, Nat.pos_of_ne_zero hc⟩
    split at h
    · cases h
      rfl
    · simp only at h
      split at h
      · cases h
      · split at h
        · cases h
        · have hloop := deferred_call_execute_loop_critical _ _ _ _ h
          exact hloop

/-- The deferred-call statement of `exit_trap` changes the deferred-call state only, and
it is `deferred_call_execute_pending` that changes it. -/
lemma exit_trap_deferred_spec {fuel : Nat} {s s1 : Core}
    (h : exit_trap_deferred fuel s = Except.ok s1) :
    deferred_call_execute_pending fuel { s.deferred with m_in_critical := s.m_in_critical }
        = Except.ok s1.deferred ∧
      s1.id = s.id ∧ s1.interrupts_enabled = s.interrupts_enabled ∧ s1.m_in_irq = s.m_in_irq ∧
      s1.m_in_critical = s.m_in_critical ∧
      s1.m_invoke_scheduler_async = s.m_invoke_scheduler_async ∧
      s1.m_scheduler_initialized = s.m_scheduler_initialized ∧
      s1.current_thread = s.current_thread ∧ s1.threads = s.threads ∧ s1.traps = s.traps ∧
      s1.smp = s.smp ∧ s1.trace = s.trace := by
  unfold exit_trap_deferred at h
  split at h
  · cases h
  · rename_i d hrun
    cases h
    exact ⟨hrun, rfl, rfl, rfl, (deferred_call_execute_pending_critical hrun).1, rfl, rfl, rfl,
      rfl, rfl, rfl, rfl⟩

/-- The pop of `exit_trap` changes the current thread only and calls no scheduler hook. -/
lemma exit_trap_pop_spec {trap : Nat} {s s1 : Core} (h : exit_trap_pop trap s = Except.ok s1) :
    s1.id = s.id ∧ s1.interrupts_enabled = s.interrupts_enabled ∧ s1.m_in_irq = s.m_in_irq ∧
      s1.m_in_critical = s.m_in_critical ∧
      s1.m_invoke_scheduler_async = s.m_invoke_scheduler_async ∧
      s1.m_scheduler_initialized = s.m_scheduler_initialized ∧
      s1.current_thread = s.current_thread ∧ s1.traps = s.traps ∧
      s1.deferred = s.deferred ∧ s1.smp = s.smp ∧ hook_count s1.trace = hook_count s.trace ∧
      (∀ t, s.current_thread = some t →
        (s1.threads t).current_trap = (s.traps trap).next_trap) ∧
      (∀ t, s.current_thread ≠ some t → s1.threads t = s.threads t) := by
  unfold exit_trap_pop at h
  cases hct : s.current_thread with
  | none =>
    simp only [hct] at h
    cases h
    exact ⟨rfl, rfl, rfl, rfl, rfl, rfl, hct, rfl, rfl, rfl, rfl, fun t ht => (by cases ht),
      fun _ _ => rfl⟩
  | some ct =>
    simp only [hct, upd_same] at h
    have hmode : ∀ (mode : PreviousMode) (t : Thread),
        (set_previous_mode mode t).2.current_trap = t.current_trap := by
      intro mode t
      unfold set_previous_mode
      split <;> rfl
    split at h
    · cases h
    · rename_i mode hm
      split at h
      · cases h
        refine ⟨rfl, rfl, rfl, rfl, rfl, rfl, rfl, rfl, rfl, rfl,
          by simp [hook_count_append, hook_count], ?_, ?_⟩
        · intro t ht
          cases ht
          simp only [upd_same, hmode]
        · intro t ht
          have : t ≠ ct := fun h => ht (by rw [h])
          simp [upd, this]
      · cases h
        refine ⟨rfl, rfl, rfl, rfl, rfl, rfl, rfl, rfl, rfl, rfl, rfl, ?_, ?_⟩
        · intro t ht
          cases ht
          simp only [upd_same, hmode]
        · intro t ht
          have : t ≠ ct := fun h => ht (by rw [h])
          simp [upd, this]

/-- The pop of `exit_trap` returns when the envelope below, if there is one for the
current thread, has its register state. -/
lemma exit_trap_pop_total (trap : Nat) (s : Core)
    (hregs : ∀ t nt, s.current_thread = some t → (s.traps trap).next_trap = some nt →
      (s.traps nt).regs ≠ none) :
    ∃ s1, exit_trap_pop trap s = Except.ok s1 := by
  unfold exit_trap_pop
  cases hct : s.current_thread with
  | none => exact ⟨s, rfl⟩
  | some ct =>
    simp only [upd_same]
    cases hnt : (s.traps trap).next_trap with
    | none =>
      simp only
      split
      · exact ⟨_, rfl⟩
      · exact ⟨_, rfl⟩
    | some nt =>
      cases hr : (s.traps nt).regs with
      | none => exact absurd hr (hregs ct nt hct hnt)
      | some cs =>
        simp only [hr]
        split
        · exact ⟨_, rfl⟩
        · exact ⟨_, rfl⟩

/-- `check_invoke_scheduler` calls the scheduler once when a reschedule was requested and
the scheduler is initialized, and clears the request; otherwise it does nothing. -/
lemma check_invoke_scheduler_spec {s s1 : Core} (h : check_invoke_scheduler s = Except.ok s1) :
    s.m_in_irq = 0 ∧ s.m_in_critical = 0 ∧
      s1.id = s.id ∧ s1.interrupts_enabled = s.interrupts_enabled ∧ s1.m_in_irq = s.m_in_irq ∧
      s1.m_in_critical = s.m_in_critical ∧
      s1.m_scheduler_initialized = s.m_scheduler_initialized ∧
      s1.current_thread = s.current_thread ∧ s1.threads = s.threads ∧ s1.traps = s.traps ∧
      s1.deferred = s.deferred ∧ s1.smp = s.smp ∧
      hook_count s1.trace = hook_count s.trace +
        (if s.m_invoke_scheduler_async = true ∧ s.m_scheduler_initialized = true then 1 else 0) ∧
      s1.m_invoke_scheduler_async =
        (if s.m_invoke_scheduler_async = true ∧ s.m_scheduler_initialized = true then false
         else s.m_invoke_scheduler_async) := by
  unfold check_invoke_scheduler at h
  simp only at h
  split at h
  · cases h
  · rename_i hirq
    split at h
    · cases h
    · rename_i hcrit
      refine ⟨by simpa using hirq, by simpa using hcrit, ?_⟩
      by_cases hc : s.m_invoke_scheduler_async = true ∧ s.m_scheduler_initialized = true
      · rw [if_pos hc] at h
        cases h
        refine ⟨rfl, rfl, rfl, rfl, rfl, rfl, rfl, rfl, rfl, rfl, ?_, ?_⟩
        · rw [if_pos hc]
          simp [hook_count_append, hook_count]
        · rw [if_pos hc]
      · rw [if_neg hc] at h
        cases h
        refine ⟨rfl, rfl, rfl, rfl, rfl, rfl, rfl, rfl, rfl, rfl, ?_, ?_⟩
        · rw [if_neg hc]
          rfl
        · rw [if_neg hc]

lemma check_invoke_scheduler_total (s : Core) (hirq : s.m_in_irq = 0)
    (hcrit : s.m_in_critical = 0) : ∃ s1, check_invoke_scheduler s = Except.ok s1 := by
  unfold check_invoke_scheduler
  simp only [hirq, hcrit, ne_eq, not_true_eq_false, if_false]
  exact ⟨_, rfl⟩

/-- What a returning `exit_trap` has done, field by field. -/
lemma exit_trap_spec {fuel trap : Nat} {s s1 : Core} (h : exit_trap fuel trap s = Except.ok s1) :
    TrapExit fuel trap s s1 := by
  unfold exit_trap at h
  split at h
  · cases h
  · rename_i hint
    simp only at h
    split at h
    · cases h
    · rename_i hlevel
      split at h
      · cases h
      · rename_i s3 h3
        split at h
        · cases h
        · rename_i s4 h4
          split at h
          · cases h
          · rename_i s5 h5
            split at h
            · cases h
            · rename_i hint5
              obtain ⟨a1, a2, a3, a4, a5, a6, a7, a8, a9, a10, a11, a12⟩ :=
                exit_trap_messages_spec h3
              obtain ⟨b0, b1, b2, b3, b4, b5, b6, b7, b8, b9, b10, b11⟩ :=
                exit_trap_deferred_spec h4
              obtain ⟨c1, c2, c3, c4, c5, c6, c7, c8, c9, c10, c11, c12, c13⟩ :=
                exit_trap_pop_spec h5
              have e_ent : s.interrupts_enabled = false := by simpa using hint
              have e_lvl : (s.traps trap).prev_irq_level ≤ s.m_in_irq := Nat.le_of_not_lt hlevel
              have e_id : s5.id = s.id := c1.trans (b1.trans a1)
              have e_int : s5.interrupts_enabled = false := by simpa using hint5
              have e_irq : s5.m_in_irq = (s.traps trap).prev_irq_level := c3.trans (b3.trans a3)
              have e_crit : s5.m_in_critical = s.m_in_critical + 1 := c4.trans (b4.trans a4)
              have e_flag : s5.m_invoke_scheduler_async = s.m_invoke_scheduler_async :=
                c5.trans (b5.trans a5)
              have e_init : s5.m_scheduler_initialized = s.m_scheduler_initialized :=
                c6.trans (b6.trans a6)
              have e_thread : s5.current_thread = s.current_thread := c7.trans (b7.trans a7)
              have e_traps : s5.traps = s.traps := c8.trans (b9.trans a9)
              have e_def : deferred_call_execute_pending fuel
                  { s.deferred with m_in_critical := s.m_in_critical + 1 }
                    = Except.ok s5.deferred := by
                rw [c9]
                have hb := b0
                rw [a10, a4] at hb
                exact hb
              have e_hook : hook_count s5.trace = hook_count s.trace := by
                rw [c11, b11, a11]
              have e_pop : ∀ t, s.current_thread = some t →
                  (s5.threads t).current_trap = (s.traps trap).next_trap := by
                intro t ht
                rw [c12 t (by rw [b7, a7]; exact ht), b9, a9]
              have e_oth : ∀ t, s.current_thread ≠ some t → s5.threads t = s.threads t := by
                intro t ht
                rw [c13 t (by rw [b7, a7]; exact ht), b8, a8]
              have e_quiet : MessagesQuiet s → MessagesQuiet s5 := by
                intro hq
                have h3q : MessagesQuiet s3 := a12 hq
                unfold MessagesQuiet at h3q ⊢
                rw [c10, b10, c1, b1]
                exact h3q
              split at h
              · rename_i hzero
                obtain ⟨_, _, d1, d2, d3, d4, d5, d6, d7, d8, d9, d10, d11, d12⟩ :=
                  check_invoke_scheduler_spec h
                have hprev : (s.traps trap).prev_irq_level = 0 := e_irq.symm.trans hzero.1
                have hc0 : s.m_in_critical = 0 := by
                  have h0 : s5.m_in_critical - 1 = 0 := hzero.2
                  omega
                have hcond : invokes_scheduler trap s ↔
                    (s5.m_invoke_scheduler_async = true ∧ s5.m_scheduler_initialized = true) := by
                  unfold invokes_scheduler
                  rw [e_flag, e_init]
                  constructor
                  · intro hc; exact ⟨hc.2.2.1, hc.2.2.2⟩
                  · intro hc; exact ⟨hprev, hc0, hc.1, hc.2⟩
                refine ⟨e_ent, e_lvl, d3.trans e_irq, ?_, d2.trans e_int, d5.trans e_init,
                  d1.trans e_id, d6.trans e_thread, d8.trans e_traps, ?_, ?_, ?_, ?_, ?_, ?_⟩
                · rw [d4]
                  show s5.m_in_critical - 1 = s.m_in_critical
                  omega
                · intro t ht
                  rw [d7]
                  exact e_pop t ht
                · intro t ht
                  rw [d7]
                  exact e_oth t ht
                · rw [d9]
                  exact e_def
                · rw [d11]
                  show hook_count s5.trace + _ = _
                  rw [e_hook]
                  congr 1
                  by_cases hc : invokes_scheduler trap s
                  · rw [if_pos hc, if_pos (hcond.1 hc)]
                  · rw [if_neg hc, if_neg (fun h => hc (hcond.2 h))]
                · rw [d12]
                  by_cases hc : invokes_scheduler trap s
                  · rw [if_pos hc, if_pos (hcond.1 hc)]
                  · rw [if_neg hc, if_neg (fun h => hc (hcond.2 h))]
                    exact e_flag
                · intro hq
                  have h5q := e_quiet hq
                  unfold MessagesQuiet at h5q ⊢
                  rw [d10, d1]
                  exact h5q
              · rename_i hzero
                cases h
                have hcond : ¬ invokes_scheduler trap s := by
                  intro hc
                  apply hzero
                  refine ⟨e_irq.trans hc.1, ?_⟩
                  show s5.m_in_critical - 1 = 0
                  have := hc.2.1
                  omega
                refine ⟨e_ent, e_lvl, e_irq, ?_, e_int, e_init, e_id, e_thread, e_traps, e_pop,
                  e_oth, e_def, ?_, ?_, e_quiet⟩
                · show s5.m_in_critical - 1 = s.m_in_critical
                  omega
                · rw [if_neg hcond]
                  exact e_hook
                · rw [if_neg hcond]
                  exact e_flag

lemma exit_trap_messages_total (fuel : Nat) (s : Core) (hq : MessagesQuiet s) :
    ∃ s1, exit_trap_messages fuel s = Except.ok s1 := by
  unfold exit_trap_messages
  by_cases hen : s.smp.s_smp_enabled = true
  · obtain ⟨hq1, hq2⟩ := hq hen
    have hempty := smp_process_pending_messages_empty fuel s.id
      { s.smp with procs := upd s.smp.procs s.id { s.smp.procs s.id with m_in_critical := s.m_in_critical } }
      hen (by simp only [upd_same]; exact hq1)
    rw [if_pos hen]
    simp only []
    rw [hempty]
    simp only [upd_same, hq2, Bool.false_eq_true, if_false]
    exact ⟨_, rfl⟩
  · rw [if_neg hen]
    exact ⟨s, rfl⟩

lemma exit_trap_deferred_total (fuel : Nat) (s : Core) (P : List Nat)
    (hP : IsList (fun e => (s.deferred.entries e).next) s.deferred.m_pending_deferred_calls P)
    (hcrit : 0 < s.m_in_critical) (hfuel : P.length ≤ fuel) :
    ∃ s1, exit_trap_deferred fuel s = Except.ok s1 := by
  obtain ⟨d, hd, _, _⟩ := deferred_call_execute_pending_invoked
    (s := { s.deferred with m_in_critical := s.m_in_critical }) hP hcrit fuel hfuel
  unfold exit_trap_deferred
  rw [hd]
  exact ⟨_, rfl⟩

/-- `exit_trap` returns when its entry assertions hold, the drain has nothing to do, the
pending deferred calls form a list that the iteration budget covers, and the envelope
below the popped one has its register state. -/
lemma exit_trap_total (fuel trap : Nat) (s : Core) (P : List Nat)
    (hint : s.interrupts_enabled = false)
    (hlvl : (s.traps trap).prev_irq_level ≤ s.m_in_irq) (hq : MessagesQuiet s)
    (hP : IsList (fun e => (s.deferred.entries e).next) s.deferred.m_pending_deferred_calls P)
    (hfuel : P.length ≤ fuel)
    (hregs : ∀ t nt, s.current_thread = some t → (s.traps trap).next_trap = some nt →
      (s.traps nt).regs ≠ none) :
    ∃ s1, exit_trap fuel trap s = Except.ok s1 := by
  have key : ∀ S2 : Core, S2.interrupts_enabled = false → MessagesQuiet S2 →
      S2.deferred = s.deferred → S2.m_in_critical = s.m_in_critical + 1 →
      S2.traps = s.traps → S2.current_thread = s.current_thread →
      ∃ s1, (match exit_trap_messages fuel S2 with
        | Except.error f => Except.error f
        | Except.ok s3 =>
          match exit_trap_deferred fuel s3 with
          | Except.error f => Except.error f
          | Except.ok s4 =>
            match exit_trap_pop trap s4 with
            | Except.error f => Except.error f
            | Except.ok s5 =>
              if s5.interrupts_enabled then Except.error Fault.verify_failed
              else
                let s6 := { s5 with m_in_critical := s5.m_in_critical - 1 }
                if s6.m_in_irq = 0 ∧ s6.m_in_critical = 0 then check_invoke_scheduler s6
                else Except.ok s6) = Except.ok s1 := by
    intro S2 g1 g2 g3 g4 g5 g6
    obtain ⟨s3, h3⟩ := exit_trap_messages_total fuel S2 g2
    obtain ⟨a1, a2, a3, a4, a5, a6, a7, a8, a9, a10, a11, a12⟩ := exit_trap_messages_spec h3
    obtain ⟨s4, h4⟩ := exit_trap_deferred_total fuel s3 P (by rw [a10, g3]; exact hP)
      (by rw [a4, g4]; omega) hfuel
    obtain ⟨b0, b1, b2, b3, b4, b5, b6, b7, b8, b9, b10, b11⟩ := exit_trap_deferred_spec h4
    obtain ⟨s5, h5⟩ := exit_trap_pop_total trap s4 (by
      intro t nt ht hnt
      rw [b9, a9, g5]
      rw [b7, a7, g6] at ht
      rw [b9, a9, g5] at hnt
      exact hregs t nt ht hnt)
    obtain ⟨c1, c2, c3, c4, c5, c6, c7, c8, c9, c10, c11, c12, c13⟩ := exit_trap_pop_spec h5
    have e_int : s5.interrupts_enabled = false := by rw [c2, b2, a2, g1]
    simp only [h3, h4, h5, e_int, Bool.false_eq_true, if_false]
    split
    · rename_i hzero
      exact check_invoke_scheduler_total _ hzero.1 hzero.2
    · exact ⟨_, rfl⟩
  unfold exit_trap
  rw [if_neg (by simp [hint])]
  simp only
  rw [if_neg (Nat.not_lt.2 hlvl)]
  exact key _ hint hq rfl rfl rfl rfl

lemma set_previous_mode_current_trap (mode : PreviousMode) (t : Thread) :
    (set_previous_mode mode t).2.current_trap = t.current_trap := by
  unfold set_previous_mode
  split <;> rfl

/-- The push of `enter_trap`: the envelope goes on the trap stack of the current thread;
the counters are not touched. -/
lemma enter_trap_push_spec {trap : Nat} {s s1 : Core}
    (h : enter_trap_push trap s = Except.ok s1) :
    (s1.traps trap).prev_irq_level = (s.traps trap).prev_irq_level ∧
      s1.m_in_irq = s.m_in_irq ∧ s1.m_in_critical = s.m_in_critical ∧
      (∀ t, s.current_thread = some t →
        (s1.traps trap).next_trap = (s.threads t).current_trap ∧
          (s1.threads t).current_trap = some trap) ∧
      (s.current_thread = none → (s1.traps trap).next_trap = none ∧ s1.threads = s.threads) ∧
      (∀ t, s.current_thread ≠ some t → s1.threads t = s.threads t) ∧
      (∀ t, (s1.traps t).regs = (s.traps t).regs) ∧
      (∀ t, t ≠ trap → s1.traps t = s.traps t) ∧
      s1.interrupts_enabled = s.interrupts_enabled ∧ s1.id = s.id ∧
      s1.current_thread = s.current_thread ∧
      s1.m_invoke_scheduler_async = s.m_invoke_scheduler_async ∧
      s1.m_scheduler_initialized = s.m_scheduler_initialized ∧
      s1.deferred = s.deferred ∧ s1.smp = s.smp ∧ hook_count s1.trace = hook_count s.trace := by
  have hregs : ∀ (nt : Option Nat) (t : Nat),
      ((upd s.traps trap { s.traps trap with next_trap := nt }) t).regs = (s.traps t).regs := by
    intro nt t
    by_cases ht : t = trap
    · subst ht; simp
    · simp [upd, ht]
  have hframes : ∀ (nt : Option Nat) (t : Nat), t ≠ trap →
      (upd s.traps trap { s.traps trap with next_trap := nt }) t = s.traps t := by
    intro nt t ht
    simp [upd, ht]
  unfold enter_trap_push at h
  cases hct : s.current_thread with
  | none =>
    simp only [hct] at h
    cases h
    exact ⟨by simp, rfl, rfl, fun t ht => (by cases ht), fun _ => ⟨by simp, rfl⟩,
      fun _ _ => rfl, hregs none, hframes none, rfl, rfl, rfl, rfl, rfl, rfl, rfl, rfl⟩
  | some ct =>
    simp only [hct, upd_same] at h
    split at h
    · cases h
    · rename_i cs hcs
      split at h
      · cases h
        refine ⟨by simp, rfl, rfl, ?_, fun hn => (by cases hn), ?_, hregs _, hframes _, rfl,
          rfl, rfl, rfl, rfl, rfl, rfl, by simp [hook_count_append, hook_count]⟩
        · intro t ht
          cases ht
          exact ⟨by simp, by simp only [upd_same, set_previous_mode_current_trap]⟩
        · intro t ht
          have : t ≠ ct := fun h => ht (by rw [h])
          simp [upd, this]
      · cases h
        refine ⟨by simp, rfl, rfl, ?_, fun hn => (by cases hn), ?_, hregs _, hframes _, rfl,
          rfl, rfl, rfl, rfl, rfl, rfl, rfl⟩
        · intro t ht
          cases ht
          exact ⟨by simp, by simp only [upd_same, set_previous_mode_current_trap]⟩
        · intro t ht
          have : t ≠ ct := fun h => ht (by rw [h])
          simp [upd, this]

lemma enter_trap_push_total (trap : Nat) (s : Core)
    (hregs : s.current_thread ≠ none → (s.traps trap).regs ≠ none) :
    ∃ s1, enter_trap_push trap s = Except.ok s1 := by
  unfold enter_trap_push
  cases hct : s.current_thread with
  | none => exact ⟨_, rfl⟩
  | some ct =>
    simp only [upd_same]
    cases hr : (s.traps trap).regs with
    | none => exact absurd hr (hregs (by rw [hct]; simp))
    | some cs =>
      simp only
      split
      · exact ⟨_, rfl⟩
      · exact ⟨_, rfl⟩

/-- What a returning `enter_trap` has done, field by field. -/
lemma enter_trap_spec {trap : Nat} {raise_irq : Bool} {s s1 : Core}
    (h : enter_trap trap raise_irq s = Except.ok s1) :
    TrapEnter trap raise_irq s s1 ∧ s.interrupts_enabled = false := by
  have key : ∀ S : Core,
      S.traps = upd s.traps trap { s.traps trap with prev_irq_level := s.m_in_irq } →
      S.m_in_irq = (if raise_irq = true then s.m_in_irq + 1 else s.m_in_irq) →
      S.m_in_critical = s.m_in_critical → S.threads = s.threads →
      S.current_thread = s.current_thread → S.interrupts_enabled = s.interrupts_enabled →
      S.id = s.id → S.m_invoke_scheduler_async = s.m_invoke_scheduler_async →
      S.m_scheduler_initialized = s.m_scheduler_initialized → S.deferred = s.deferred →
      S.smp = s.smp → S.trace = s.trace →
      enter_trap_push trap S = Except.ok s1 → TrapEnter trap raise_irq s s1 := by
    intro S g1 g2 g3 g4 g5 g6 g7 g8 g9 g10 g11 g12 hpush
    obtain ⟨p1, p2, p3, p4, p5, p6, p7, p8, p9, p10, p11, p12, p13, p14, p15, p16⟩ :=
      enter_trap_push_spec hpush
    refine ⟨?_, p2.trans g2, p3.trans g3, ?_, ?_, ?_, ?_, ?_, p9.trans g6, p10.trans g7,
      p11.trans g5, p12.trans g8, p13.trans g9, p14.trans g10, p15.trans g11, ?_⟩
    · rw [p1, g1]
      simp
    · intro t ht
      rw [← g4]
      exact p4 t (g5.trans ht)
    · intro hn
      rw [← g4]
      exact p5 (g5.trans hn)
    · intro t ht
      rw [← g4]
      exact p6 t (fun h => ht (g5.symm.trans h))
    · intro t
      rw [p7 t, g1]
      by_cases ht : t = trap
      · subst ht; simp
      · simp [upd, ht]
    · intro t ht
      rw [p8 t ht, g1]
      simp [upd, ht]
    · rw [p16, g12]
  unfold enter_trap at h
  split at h
  · cases h
  · rename_i hint
    refine ⟨?_, by simpa using hint⟩
    cases raise_irq with
    | true =>
      simp only [if_true] at h
      refine key _ ?_ ?_ ?_ ?_ ?_ ?_ ?_ ?_ ?_ ?_ ?_ ?_ h <;> rfl
    | false =>
      simp only [Bool.false_eq_true, if_false] at h
      refine key _ ?_ ?_ ?_ ?_ ?_ ?_ ?_ ?_ ?_ ?_ ?_ ?_ h <;> rfl

/-- `enter_trap` returns when interrupts are disabled and, if there is a current thread,
the frame has its register state. -/
lemma enter_trap_total (trap : Nat) (raise_irq : Bool) (s : Core)
    (hint : s.interrupts_enabled = false)
    (hregs : s.current_thread ≠ none → (s.traps trap).regs ≠ none) :
    ∃ s1, enter_trap trap raise_irq s = Except.ok s1 := by
  unfold enter_trap
  rw [if_neg (by simp [hint])]
  cases raise_irq with
  | true =>
    exact enter_trap_push_total trap _ (fun hn => by
      have := hregs hn
      simpa using this)
  | false =>
    exact enter_trap_push_total trap _ (fun hn => by
      have := hregs hn
      simpa using this)

/-- With nothing pending `deferred_call_execute_pending` changes nothing. -/
lemma deferred_call_execute_pending_idle (fuel : Nat) (d : DeferredCalls)
    (hcrit : 0 < d.m_in_critical) (hpend : d.m_pending_deferred_calls = none) :
    deferred_call_execute_pending fuel d = Except.ok d := by
  simp only [deferred_call_execute_pending, Nat.ne_of_gt hcrit, if_false, hpend]

/-- A returning `exit_trap` that found no deferred call pending leaves none pending. -/
lemma TrapExit.idle {fuel trap : Nat} {s s1 : Core} (x : TrapExit fuel trap s s1)
    (hpend : s.deferred.m_pending_deferred_calls = none) :
    s1.deferred.m_pending_deferred_calls = none := by
  have h := (deferred_call_execute_pending_idle fuel
    { s.deferred with m_in_critical := s.m_in_critical + 1 } (Nat.succ_pos _) hpend).symm.trans
    x.deferred
  injection h with h
  rw [← h]
  exact hpend

/-- Entering a trap and leaving it again puts the nesting depth, the critical-section
depth and the trap stack of the current thread back. -/
lemma trap_pair_restores {fuel trap : Nat} {raise_irq : Bool} {s s1 s2 : Core}
    (e : TrapEnter trap raise_irq s s1) (x : TrapExit fuel trap s1 s2) :
    s2.m_in_irq = s.m_in_irq ∧ s2.m_in_critical = s.m_in_critical ∧
      ∀ t, s.current_thread = some t → (s2.threads t).current_trap = (s.threads t).current_trap := by
  refine ⟨x.irq.trans e.recorded, x.critical.trans e.critical, fun t ht => ?_⟩
  rw [x.popped t (e.thread.trans ht)]
  exact (e.pushed t ht).1

/-- After `enter_trap` on a quiet processor, `exit_trap` of the same frame returns. -/
lemma trap_pair_total (fuel : Nat) {trap : Nat} {raise_irq : Bool} {s s1 : Core}
    (e : TrapEnter trap raise_irq s s1) (hint : s.interrupts_enabled = false)
    (hregs : ∀ t, (s.traps t).regs ≠ none) (hq : MessagesQuiet s)
    (hpend : s.deferred.m_pending_deferred_calls = none) :
    ∃ s2, exit_trap fuel trap s1 = Except.ok s2 := by
  refine exit_trap_total fuel trap s1 [] (e.interrupts.trans hint) ?_ ?_ ?_ (Nat.zero_le _) ?_
  · rw [e.recorded, e.irq]
    split <;> omega
  · unfold MessagesQuiet at hq ⊢
    rw [e.smp, e.id_eq]
    exact hq
  · show s1.deferred.m_pending_deferred_calls = none
    rw [e.deferred]
    exact hpend
  · intro t nt _ _
    rw [e.regs nt]
    exact hregs nt

/-- The time accounting of `enter_trap` with a current thread: the thread's previous mode
becomes the mode of the saved code segment, and `update_time_scheduled` is called exactly
when that is a change and the nesting depth on entry is zero. -/
lemma enter_trap_charge (trap : Nat) (raise_irq : Bool) (s : Core) (t cs : Nat)
    (hint : s.interrupts_enabled = false) (hct : s.current_thread = some t)
    (hregs : (s.traps trap).regs = some cs) :
    ∃ s1, enter_trap trap raise_irq s = Except.ok s1 ∧
      (s1.threads t).previous_mode = mode_of_cs cs ∧
      s1.trace = s.trace ++
        (if (s.threads t).previous_mode ≠ mode_of_cs cs ∧ s.m_in_irq = 0 then
          [TrapEvent.update_time_scheduled t
            (decide (mode_of_cs cs = PreviousMode.KernelMode)) false]
         else []) := by
  unfold enter_trap
  rw [if_neg (by simp [hint])]
  by_cases hmode : (s.threads t).previous_mode = mode_of_cs cs
  · cases raise_irq <;>
      simp [enter_trap_push, hct, hregs, set_previous_mode, hmode]
  · by_cases hirq : s.m_in_irq = 0
    · cases raise_irq <;>
        simp [enter_trap_push, hct, hregs, set_previous_mode, hmode, hirq]
    · cases raise_irq <;>
        simp [enter_trap_push, hct, hregs, set_previous_mode, hmode, hirq]

end traps

section gdt

end gdt

section strings

lemma lex_cmp_swap : ∀ (a b : List Nat), lex_cmp b a = - lex_cmp a b := by
  intro a
  induction a with
  | nil =>
    intro b
    cases b <;> simp [lex_cmp]
  | cons x xs ih =>
    intro b
    cases b with
    | nil => simp [lex_cmp]
    | cons y ys =>
      simp only [lex_cmp]
      by_cases hxy : x = y
      · subst hxy
        simp [ih ys]
      · have hyx : ¬ y = x := fun h => hxy h.symm
        rw [if_neg hxy, if_neg hyx]
        by_cases hlt : x < y
        · rw [if_pos hlt, if_neg (by omega)]
          rfl
        · rw [if_neg hlt, if_pos (by omega)]

lemma lex_cmp_eq_zero : ∀ (a b : List Nat), lex_cmp a b = 0 ↔ a = b := by
  intro a
  induction a with
  | nil =>
    intro b
    cases b <;> simp [lex_cmp]
  | cons x xs ih =>
    intro b
    cases b with
    | nil => simp [lex_cmp]
    | cons y ys =>
      simp only [lex_cmp]
      by_cases hxy : x = y
      · subst hxy
        simp [ih ys]
      · rw [if_neg hxy]
        by_cases hlt : x < y
        · simp [hlt, hxy]
        · simp [hlt, hxy]

lemma lex_cmp_eq_neg_one : ∀ (a b : List Nat),
    lex_cmp a b = -1 ↔ List.Lex (fun x y => x < y) a b := by
  intro a
  induction a with
  | nil =>
    intro b
    cases b with
    | nil =>
      simp only [lex_cmp]
      constructor
      · intro h; cases h
      · intro h; cases h
    | cons y ys =>
      simp only [lex_cmp]
      exact ⟨fun _ => List.Lex.nil, fun _ => trivial⟩
  | cons x xs ih =>
    intro b
    cases b with
    | nil =>
      simp only [lex_cmp]
      constructor
      · intro h; cases h
      · intro h; cases h
    | cons y ys =>
      simp only [lex_cmp]
      by_cases hxy : x = y
      · subst hxy
        rw [if_pos rfl, ih ys]
        constructor
        · intro h; exact List.Lex.cons h
        · intro h
          cases h with
          | cons h1 => exact h1
          | rel h1 => exact absurd h1 (lt_irrefl _)
      · rw [if_neg hxy]
        by_cases hlt : x < y
        · rw [if_pos hlt]
          exact ⟨fun _ => List.Lex.rel hlt, fun _ => rfl⟩
        · rw [if_neg hlt]
          constructor
          · intro h; cases h
          · intro h
            cases h with
            | cons h1 => exact absurd rfl hxy
            | rel h1 => exact absurd h1 hlt

lemma lex_cmp_eq_one (a b : List Nat) :
    lex_cmp a b = 1 ↔ List.Lex (fun x y => x < y) b a := by
  rw [← lex_cmp_eq_neg_one b a, lex_cmp_swap a b]
  constructor
  · intro h; rw [h]
  · intro h
    have : lex_cmp a b = - (-1 : Int) := by rw [← h, neg_neg]
    simpa using this

/-- On two NUL-terminated strings `strcmp` returns, with the three-way comparison of
their contents. -/
lemma strcmp_eq_lex_cmp (mem : Nat → Nat) :
    ∀ (a b : List Nat) (s1 s2 fuel : Nat), CStr mem s1 a → CStr mem s2 b → a.length < fuel →
      strcmp mem fuel s1 s2 = Except.ok (lex_cmp a b) := by
  intro a
  induction a with
  | nil =>
    intro b s1 s2 fuel h1 h2 hfuel
    have hz : mem s1 = 0 := h1
    cases fuel with
    | zero => simp at hfuel
    | succ fuel =>
      cases b with
      | nil =>
        have hz2 : mem s2 = 0 := h2
        simp [strcmp, hz, hz2, lex_cmp]
      | cons y ys =>
        obtain ⟨hy, hy0, _⟩ := h2
        have hne : ¬ (0 = y) := fun h => hy0 h.symm
        simp [strcmp, hz, hy, hne, lex_cmp, Nat.pos_of_ne_zero hy0]
  | cons x xs ih =>
    intro b s1 s2 fuel h1 h2 hfuel
    obtain ⟨hx, hx0, hxs⟩ := h1
    cases fuel with
    | zero => simp at hfuel
    | succ fuel =>
      cases b with
      | nil =>
        have hz2 : mem s2 = 0 := h2
        simp [strcmp, hx, hz2, hx0, lex_cmp]
      | cons y ys =>
        obtain ⟨hy, hy0, hys⟩ := h2
        by_cases hxy : x = y
        · subst hxy
          have hrec := ih ys (s1 + 1) (s2 + 1) fuel hxs hys (by simpa using hfuel)
          simp [strcmp, hx, hy, hx0, lex_cmp, hrec]
        · simp [strcmp, hx, hy, hxy, lex_cmp]

lemma memcmp_eq_lex_cmp (mem : Nat → Nat) :
    ∀ (n v1 v2 : Nat), memcmp mem v1 v2 n
      = lex_cmp (read_bytes mem v1 n) (read_bytes mem v2 n) := by
  intro n
  induction n with
  | zero => intro v1 v2; simp [memcmp, read_bytes, lex_cmp]
  | succ n ih =>
    intro v1 v2
    simp only [memcmp, read_bytes, lex_cmp]
    by_cases h : mem v1 = mem v2
    · simp [h, ih]
    · simp [h]

/-- `strncmp` of a NUL-terminated string with the `ns.length` non-zero bytes `ns` is zero
exactly when the string starts with `ns`. -/
lemma strncmp_eq_zero_iff (mem : Nat → Nat) :
    ∀ (ns hs : List Nat) (h p : Nat), CStr mem h hs → CStr mem p ns →
      (strncmp mem h p ns.length = 0 ↔ hs.take ns.length = ns) := by
  intro ns
  induction ns with
  | nil =>
    intro hs h p _ _
    simp [strncmp]
  | cons c cs ih =>
    intro hs h p hh hp
    obtain ⟨hc, hc0, hcs⟩ := hp
    cases hs with
    | nil =>
      have hz : mem h = 0 := hh
      have hne : ¬ (0 = c) := fun e => hc0 e.symm
      simp only [List.length_cons, strncmp, hz, hc, ne_eq, hne, not_false_eq_true, if_true,
        List.take_nil]
      constructor
      · intro e
        exfalso
        have : (c : Int) = 0 := by omega
        exact hc0 (by exact_mod_cast this)
      · intro e; cases e
    | cons d ds =>
      obtain ⟨hd, hd0, hds⟩ := hh
      simp only [List.length_cons, strncmp, hd, hc, List.take_succ_cons]
      by_cases hdc : d = c
      · subst hdc
        simp only [ne_eq, not_true_eq_false, if_false, hd0]
        rw [ih ds (h + 1) (p + 1) hds hcs]
        constructor
        · intro e; rw [e]
        · intro e; exact (List.cons.inj e).2
      · simp only [ne_eq, hdc, not_false_eq_true, if_true]
        constructor
        · intro e
          exfalso
          have : (d : Int) = c := by omega
          exact hdc (by exact_mod_cast this)
        · intro e
          exact absurd (List.cons.inj e).1 hdc

lemma occurs_at_cons_zero (c d : Nat) (cs ds : List Nat) :
    occurs_at (c :: cs) (d :: ds) 0 ↔ d = c ∧ ds.take cs.length = cs := by
  unfold occurs_at
  simp only [Nat.zero_le, List.drop_zero, List.length_cons, List.take_succ_cons, true_and]
  constructor
  · intro e; exact ⟨(List.cons.inj e).1, (List.cons.inj e).2⟩
  · intro e; rw [e.1, e.2]

lemma occurs_at_cons_succ (needle : List Nat) (d : Nat) (ds : List Nat) (k : Nat) :
    occurs_at needle (d :: ds) (k + 1) ↔ occurs_at needle ds k := by
  unfold occurs_at
  simp only [List.length_cons, List.drop_succ_cons, Nat.add_le_add_iff_right]

lemma not_occurs_at_nil (c : Nat) (cs : List Nat) (k : Nat) : ¬ occurs_at (c :: cs) [] k := by
  unfold occurs_at
  intro h
  simp at h

/-- The scan of `strstr` over a NUL-terminated haystack stops just behind the first
byte at which the needle `c :: cs` occurs, and gives null when it occurs nowhere. -/
lemma strstr_scan_spec (mem : Nat → Nat) (c p : Nat) (cs : List Nat) (hc0 : c ≠ 0)
    (hp : CStr mem p cs) :
    ∀ (hs : List Nat) (h fuel : Nat), CStr mem h hs → hs.length < fuel →
      (∀ k, occurs_at (c :: cs) hs k → (∀ j, j < k → ¬ occurs_at (c :: cs) hs j) →
        strstr_scan mem c p cs.length fuel h = Except.ok (some (h + k + 1))) ∧
      ((∀ k, ¬ occurs_at (c :: cs) hs k) →
        strstr_scan mem c p cs.length fuel h = Except.ok none) := by
  intro hs
  induction hs with
  | nil =>
    intro h fuel hh hfuel
    have hz : mem h = 0 := hh
    cases fuel with
    | zero => simp at hfuel
    | succ fuel =>
      refine ⟨fun k hk _ => absurd hk (not_occurs_at_nil c cs k), fun _ => ?_⟩
      simp [strstr_scan, hz]
  | cons d ds ih =>
    intro h fuel hh hfuel
    obtain ⟨hd, hd0, hds⟩ := hh
    cases fuel with
    | zero => simp at hfuel
    | succ fuel =>
      obtain ⟨ih1, ih2⟩ := ih (h + 1) fuel hds (by simpa using hfuel)
      have hskip : ¬ occurs_at (c :: cs) (d :: ds) 0 →
          (∀ k, occurs_at (c :: cs) (d :: ds) k →
            (∀ j, j < k → ¬ occurs_at (c :: cs) (d :: ds) j) →
            strstr_scan mem c p cs.length fuel (h + 1) = Except.ok (some (h + k + 1))) ∧
          ((∀ k, ¬ occurs_at (c :: cs) (d :: ds) k) →
            strstr_scan mem c p cs.length fuel (h + 1) = Except.ok none) := by
        intro h0
        constructor
        · intro k hk hmin
          cases k with
          | zero => exact absurd hk h0
          | succ k =>
            have := ih1 k ((occurs_at_cons_succ _ d ds k).1 hk)
              (fun j hj hoc => hmin (j + 1) (by omega) ((occurs_at_cons_succ _ d ds j).2 hoc))
            rw [this]
            congr 2
            omega
        · intro hnone
          exact ih2 (fun k hoc => hnone (k + 1) ((occurs_at_cons_succ _ d ds k).2 hoc))
      by_cases hdc : d = c
      · by_cases hcmp : strncmp mem (h + 1) p cs.length = 0
        · have h0 : occurs_at (c :: cs) (d :: ds) 0 :=
            (occurs_at_cons_zero c d cs ds).2
              ⟨hdc, (strncmp_eq_zero_iff mem cs ds (h + 1) p hds hp).1 hcmp⟩
          constructor
          · intro k hk hmin
            have hk0 : k = 0 := by
              by_contra hne
              exact hmin 0 (Nat.pos_of_ne_zero hne) h0
            subst hk0
            simp [strstr_scan, hd, hd0, hdc, hc0, hcmp]
          · intro hnone
            exact absurd h0 (hnone 0)
        · have h0 : ¬ occurs_at (c :: cs) (d :: ds) 0 := by
            intro hoc
            exact hcmp ((strncmp_eq_zero_iff mem cs ds (h + 1) p hds hp).2
              ((occurs_at_cons_zero c d cs ds).1 hoc).2)
          have hstep : strstr_scan mem c p cs.length (fuel + 1) h
              = strstr_scan mem c p cs.length fuel (h + 1) := by
            simp [strstr_scan, hd, hd0, hdc, hc0, hcmp]
          rw [hstep]
          exact hskip h0
      · have h0 : ¬ occurs_at (c :: cs) (d :: ds) 0 := by
          intro hoc
          exact hdc ((occurs_at_cons_zero c d cs ds).1 hoc).1
        have hstep : strstr_scan mem c p cs.length (fuel + 1) h
            = strstr_scan mem c p cs.length fuel (h + 1) := by
          simp [strstr_scan, hd, hd0, hdc]
        rw [hstep]
        exact hskip h0

end strings

section idle

lemma find?_eq_head?_filter_list {α : Type} (p : α → Bool) :
    ∀ l : List α, l.find? p = (l.filter p).head? := by
  intro l
  induction l with
  | nil => rfl
  | cons a l ih =>
    by_cases h : p a = true
    · rw [List.find?_cons_of_pos _ h, List.filter_cons_of_pos h]
      rfl
    · rw [List.find?_cons_of_neg _ h, List.filter_cons_of_neg h]
      exact ih

lemma popcount_eq_length (x : Nat) : popcount x = (set_bits x).length := by
  unfold popcount set_bits
  exact List.countP_eq_length_filter _ _

lemma mem_set_bits (x c : Nat) : c ∈ set_bits x ↔ c < 32 ∧ x.testBit c = true := by
  unfold set_bits
  rw [List.mem_filter, List.mem_range]

lemma ffs_of_set_bits {x i : Nat} {t : List Nat} (h : set_bits x = i :: t) :
    ffs x = i + 1 ∧ i < 32 := by
  have hi : i ∈ set_bits x := by rw [h]; exact List.mem_cons_self _ _
  refine ⟨?_, ((mem_set_bits x i).1 hi).1⟩
  unfold ffs
  rw [find?_eq_head?_filter_list]
  have h1 : List.filter (fun i => x.testBit i) (List.range 32) = i :: t := h
  rw [h1]
  rfl

lemma testBit_u32_not (y j : Nat) :
    (u32_not y).testBit j = (decide (j < 32) && !y.testBit j) := by
  unfold u32_not
  rw [Nat.testBit_xor, Nat.testBit_two_pow_sub_one, Nat.testBit_mod_two_pow]
  by_cases hj : j < 32
  · simp [hj]
  · simp [hj]

lemma testBit_cpu_bit (i j : Nat) :
    ((1 <<< i) % 2 ^ 32).testBit j = (decide (j < 32) && decide (i = j)) := by
  rw [Nat.testBit_mod_two_pow, Nat.one_shiftLeft, Nat.testBit_two_pow]

lemma u32_not_lt (y : Nat) : u32_not y < 2 ^ 32 := by
  unfold u32_not
  exact Nat.xor_lt_two_pow (by norm_num) (Nat.mod_lt _ (by norm_num))

/-- Clearing the lowest set bit removes the head of the list of set bits. -/
lemma set_bits_clear {x i : Nat} {t : List Nat} (h : set_bits x = i :: t) :
    set_bits (x &&& u32_not ((1 <<< i) % 2 ^ 32)) = t := by
  have hnd : (i :: t).Nodup := by
    rw [← h]
    exact (List.nodup_range 32).filter _
  have hstep : set_bits (x &&& u32_not ((1 <<< i) % 2 ^ 32))
      = List.filter (fun j => decide (j ≠ i)) (set_bits x) := by
    unfold set_bits
    rw [List.filter_filter]
    refine List.filter_congr (fun j hj => ?_)
    have hj32 : j < 32 := List.mem_range.1 hj
    rw [Nat.testBit_and, testBit_u32_not, testBit_cpu_bit]
    by_cases hji : j = i
    · subst hji
      simp [hj32]
    · have hij : ¬ i = j := fun e => hji e.symm
      simp [hj32, hji, hij, Bool.and_comm]
  rw [hstep, h]
  have hi_t : i ∉ t := (List.nodup_cons.1 hnd).1
  rw [List.filter_cons_of_neg (by simp)]
  rw [List.filter_eq_self]
  intro a ha
  have : a ≠ i := fun e => hi_t (e ▸ ha)
  simpa using this

lemma u32_sub_succ_one {i : Nat} (hi : i < 32) : u32_sub (i + 1) 1 = i := by
  rw [u32_sub_one (Nat.succ_ne_zero i) (by omega)]
  rfl

/-- The second loop sends one IPI for each of the `n` lowest set bits, lowest first. -/
lemma wake_found_spec :
    ∀ (n x did : Nat) (s : IdleState), n ≤ (set_bits x).length → did + n < 2 ^ 32 →
      wake_found n x did s
        = (did + n, { s with ipis := s.ipis ++ (set_bits x).take n }) := by
  intro n
  induction n with
  | zero =>
    intro x did s _ _
    simp [wake_found]
  | succ n ih =>
    intro x did s hn hdid
    cases hb : set_bits x with
    | nil => rw [hb] at hn; simp at hn
    | cons i t =>
      obtain ⟨hffs, hi⟩ := ffs_of_set_bits hb
      rw [hb] at hn
      have hclear := set_bits_clear hb
      rw [wake_found]
      simp only [hffs, u32_sub_succ_one hi]
      rw [Nat.mod_eq_of_lt (show did + 1 < 2 ^ 32 by omega),
        ih _ _ _ (by rw [hclear]; simpa using hn) (by omega), hclear]
      simp only [List.take_succ_cons, List.append_assoc, List.singleton_append]
      congr 1
      omega

/-- The first loop collects the `n` lowest set bits. -/
lemma collect_idle_testBit :
    ∀ (n x found j : Nat), n ≤ (set_bits x).length →
      (collect_idle n x found).testBit j
        = (found.testBit j || decide (j ∈ (set_bits x).take n)) := by
  intro n
  induction n with
  | zero =>
    intro x found j _
    simp [collect_idle]
  | succ n ih =>
    intro x found j hn
    cases hb : set_bits x with
    | nil => rw [hb] at hn; simp at hn
    | cons i t =>
      obtain ⟨hffs, hi⟩ := ffs_of_set_bits hb
      rw [hb] at hn
      have hclear := set_bits_clear hb
      rw [collect_idle]
      simp only [hffs, u32_sub_succ_one hi]
      rw [ih _ _ _ (by rw [hclear]; simpa using hn), hclear, Nat.testBit_or, testBit_cpu_bit]
      simp only [List.take_succ_cons, List.mem_cons]
      by_cases hji : j = i
      · subst hji
        simp [hi]
      · have hij : ¬ i = j := fun e => hji e.symm
        simp [hji, hij]

/-- With all set bits collected into an empty mask, the mask found is the value itself. -/
lemma collect_idle_all {x : Nat} (hx : x < 2 ^ 32) : collect_idle (popcount x) x 0 = x := by
  apply Nat.eq_of_testBit_eq
  intro j
  rw [collect_idle_testBit _ _ _ _ (by rw [popcount_eq_length]), popcount_eq_length,
    List.take_length, Nat.zero_testBit, Bool.false_or]
  by_cases hj : j < 32
  · by_cases hb : x.testBit j = true
    · rw [hb]
      exact decide_eq_true ((mem_set_bits x j).2 ⟨hj, hb⟩)
    · have hb1 : x.testBit j = false := by simpa using hb
      rw [hb1]
      exact decide_eq_false (fun hm => hb ((mem_set_bits x j).1 hm).2)
  · have hb1 : x.testBit j = false :=
      Nat.testBit_lt_two_pow (lt_of_lt_of_le hx (Nat.pow_le_pow_right (by norm_num) (by omega)))
    rw [hb1]
    exact decide_eq_false (fun hm => hj ((mem_set_bits x j).1 hm).1)

lemma popcount_le (x : Nat) : popcount x ≤ 32 := by
  unfold popcount
  exact le_trans (List.countP_le_length _) (le_of_eq (List.length_range 32))

lemma idle_mask_lt (mask b : Nat) : mask &&& u32_not b < 2 ^ 32 :=
  Nat.and_lt_two_pow _ (u32_not_lt b)

lemma and_idle_mask (mask n : Nat) : mask &&& (mask &&& n) = mask &&& n := by
  rw [← Nat.and_assoc, Nat.and_self]

/-- Once the idle processors other than `cur` are cleared from the mask, no processor
other than `cur` is left in it. -/
lemma idle_mask_exhausted (mask cur : Nat) :
    (mask &&& u32_not (mask &&& u32_not ((1 <<< cur) % 2 ^ 32)))
      &&& u32_not ((1 <<< cur) % 2 ^ 32) = 0 := by
  apply Nat.eq_of_testBit_eq
  intro j
  simp only [Nat.testBit_and, testBit_u32_not, testBit_cpu_bit, Nat.zero_testBit]
  cases mask.testBit j <;> cases decide (j < 32) <;> cases decide (cur = j) <;> rfl

lemma not_mem_idle_mask (mask cur : Nat) :
    cur ∉ set_bits (mask &&& u32_not ((1 <<< cur) % 2 ^ 32)) := by
  intro h
  have h1 := ((mem_set_bits _ _).1 h).2
  have h2 := ((mem_set_bits _ _).1 h).1
  rw [Nat.testBit_and, testBit_u32_not, testBit_cpu_bit] at h1
  simp [h2] at h1

/-- The outer loop, started with nothing woken: its first iteration claims every idle
processor other than `cur` and sends an IPI to each, whatever `wake_count` is, and the
loop ends at the latest in its second iteration. -/
lemma wake_loop_spec (w cur fuel : Nat) (s : IdleState) (hw : 0 < w) :
    ∃ s1, wake_loop w cur (fuel + 2) 0 s
        = Except.ok (popcount (s.s_idle_cpu_mask &&& u32_not ((1 <<< cur) % 2 ^ 32)), s1) ∧
      s1.ipis = s.ipis ++ set_bits (s.s_idle_cpu_mask &&& u32_not ((1 <<< cur) % 2 ^ 32)) := by
  by_cases h0 : popcount (s.s_idle_cpu_mask &&& u32_not ((1 <<< cur) % 2 ^ 32)) = 0
  · have hnil : set_bits (s.s_idle_cpu_mask &&& u32_not ((1 <<< cur) % 2 ^ 32)) = [] :=
      List.length_eq_zero.1 (by rw [← popcount_eq_length]; exact h0)
    refine ⟨s, ?_, by rw [hnil, List.append_nil]⟩
    rw [wake_loop]
    simp only [hw, if_true, h0]
  · have hm0 : s.s_idle_cpu_mask &&& u32_not ((1 <<< cur) % 2 ^ 32) ≠ 0 := by
      intro e
      rw [e] at h0
      exact h0 rfl
    have hfound := collect_idle_all (idle_mask_lt s.s_idle_cpu_mask ((1 <<< cur) % 2 ^ 32))
    have hwake := wake_found_spec
      (popcount (s.s_idle_cpu_mask &&& u32_not ((1 <<< cur) % 2 ^ 32)))
      (s.s_idle_cpu_mask &&& u32_not ((1 <<< cur) % 2 ^ 32)) 0
      { s with s_idle_cpu_mask := s.s_idle_cpu_mask
          &&& u32_not (s.s_idle_cpu_mask &&& u32_not ((1 <<< cur) % 2 ^ 32)) }
      (by rw [popcount_eq_length])
      (by have := popcount_le (s.s_idle_cpu_mask &&& u32_not ((1 <<< cur) % 2 ^ 32)); omega)
    rw [popcount_eq_length, List.take_length, ← popcount_eq_length, Nat.zero_add] at hwake
    refine ⟨{ s with
        s_idle_cpu_mask := s.s_idle_cpu_mask
          &&& u32_not (s.s_idle_cpu_mask &&& u32_not ((1 <<< cur) % 2 ^ 32))
        ipis := s.ipis ++ set_bits (s.s_idle_cpu_mask &&& u32_not ((1 <<< cur) % 2 ^ 32)) },
      ?_, rfl⟩
    · rw [wake_loop]
      simp only [hw, if_true, h0, if_false, hfound, and_idle_mask, hm0, hwake]
      rw [wake_loop]
      simp only [idle_mask_exhausted]
      split
      · rfl
      · rfl

end idle

section claims

/-- C1 (broadcast reference count). On `N ≥ 2` cores, let the sender hold the message `msg`
(acquired, not yet queued anywhere) in a state that satisfies the invariants. Then
`smp_broadcast_message(msg)` on `sender` returns with `msg.refs = N - 1`, and for every
list `order` of cores that then run `smp_process_pending_messages` (any order, cores may
repeat, the sender may be among them) the run returns with
`msg.refs = N - 1 - (number of distinct other cores in order)`: the count is zero exactly
when all `N - 1` other cores have drained, every other core that drained decremented
`msg.refs` exactly once, and the sender never did. -/
theorem broadcast_refs_countdown {N : Nat} {s : System} {Q : Nat → List Nat} {H F : List Nat}
    (ci : ChainInv N s Q) (mi : MsgInv N s Q H F) (sender msg fuel : Nat)
    (hN : 2 ≤ N) (hs : sender < N) (hheld : msg ∈ H) (hfresh : ∀ c, msg ∉ Q c)
    (hhalt : ∀ c, (s.procs c).m_halt_requested = false)
    (hvalid : ∀ c m, m ∈ Q c → FlushValid s m) (hvmsg : FlushValid s msg)
    (hfuel : 100 * N ≤ fuel) :
    ∃ s1, smp_broadcast_message sender msg s = Except.ok s1 ∧ (s1.msgs msg).refs = N - 1 ∧
      ∀ order : List Nat, ∃ s2 new, run_ipi_handlers fuel order s1 = Except.ok s2 ∧
        s2.trace = s1.trace ++ new ∧
        (s2.msgs msg).refs = N - 1 - drained_others N sender order ∧
        ((s2.msgs msg).refs = 0 ↔ ∀ c, c < N → c ≠ sender → c ∈ order) ∧
        ∀ c, (decremented_by c new).count msg
          = if c ∈ order ∧ c < N ∧ c ≠ sender then 1 else 0 := by
  obtain ⟨s1, hrun, ci1, mi1, hrefs, hother, hpay, hmm, _, hprocs, _⟩ :=
    smp_broadcast_message_spec ci mi hN hs hheld hfresh
  refine ⟨s1, hrun, hrefs, fun order => ?_⟩
  have hhalt1 : ∀ c, (s1.procs c).m_halt_requested = false := fun c => by
    rw [(hprocs c).1]; exact hhalt c
  have hvalid1 : ∀ c m, m ∈ broadcast_queues (List.range N) sender msg Q c → FlushValid s1 m := by
    intro c m hm
    by_cases hne : m = msg
    · subst hne
      exact hvmsg.transfer_valid hmm hpay.2.1 hpay.2.2.1
    · have hq : m ∈ Q c := by
        unfold broadcast_queues at hm
        split at hm
        · exact (List.mem_cons.1 hm).resolve_left hne
        · exact hm
      exact (hvalid c m hq).transfer_valid hmm (by rw [hother m hne]) (by rw [hother m hne])
  obtain ⟨s2, hrun2⟩ := run_ipi_handlers_total hfuel order s1 _ F ci1 mi1 hhalt1 hvalid1
  obtain ⟨_, _, da⟩ := run_ipi_handlers_spec hfuel order s1 s2 _ F ci1 mi1 hrun2
  obtain ⟨new, hnew, hdec, _⟩ := da.trace
  have hcount : (List.range N).countP
      (fun c => decide (c ∈ order ∧ msg ∈ broadcast_queues (List.range N) sender msg Q c))
      = drained_others N sender order := by
    unfold drained_others
    refine countP_range_congr _ _ N (fun c hc => ?_)
    by_cases hcs : c = sender <;> simp [broadcast_queues, hc, hcs, hfresh]
  have hrefs2 : (s2.msgs msg).refs = N - 1 - drained_others N sender order := by
    rw [da.refs msg, hrefs, hcount]
  have hadd := drained_others_add N sender order hs
  refine ⟨s2, new, hrun2, hnew, hrefs2, ?_, ?_⟩
  · rw [hrefs2, ← drained_others_all N sender order hs]
    omega
  · intro c
    rw [hdec c]
    by_cases hco : c ∈ order ∧ c < N
    · rw [if_pos hco, List.count_reverse]
      by_cases hcs : c = sender
      · subst hcs
        rw [if_neg (fun h => h.2.2 rfl)]
        simp [broadcast_queues, List.count_eq_zero_of_not_mem (hfresh c)]
      · rw [if_pos ⟨hco.1, hco.2, hcs⟩]
        simp [broadcast_queues, hco.2, hcs, List.count_eq_zero_of_not_mem (hfresh c)]
    · rw [if_neg hco, if_neg (fun h => hco ⟨h.1, h.2.1⟩)]
      rfl

/-- Witness for C1 on two cores: core 0 acquires message 0 from the fresh pool and
broadcasts it; the count is 1, and 0 once core 1 has drained. -/
theorem broadcast_refs_countdown_witness :
    ∃ s0 s1 s2, smp_get_from_pool 200 0 1 (enabled_system 2) = Except.ok (0, s0) ∧
      smp_broadcast_message 0 0 s0 = Except.ok s1 ∧ (s1.msgs 0).refs = 1 ∧
      run_ipi_handlers 200 [1] s1 = Except.ok s2 ∧ (s2.msgs 0).refs = 0 := by
  obtain ⟨ci, mi⟩ := smp_enable_inv demo_mm 2 (fun c => c) (by norm_num) (by norm_num)
  have hrange : List.range (100 * 2) = 0 :: List.range' 1 199 := by
    rw [List.range_eq_range']
    exact List.range'_succ 0 199 1
  rw [hrange] at mi
  obtain ⟨s0, hget, mi0, hfresh, he, hp, hm, hmm, _, _⟩ := smp_get_from_pool_spec mi 200 0 0
  obtain ⟨s1, hb, hrefs, hall⟩ :=
    broadcast_refs_countdown (ci.transfer_chain he hp) mi0 0 0 200 (by norm_num) (by norm_num)
      (List.mem_cons_self 0 []) hfresh
      (fun c => by rw [hp]; rfl)
      (fun c m hm1 => absurd hm1 (List.not_mem_nil _))
      (fun _ hua => by rw [hmm] at hua; cases hua)
      (by norm_num)
  obtain ⟨s2, new, hrun, _, hrefs2, _, _⟩ := hall [1]
  refine ⟨s0, s1, s2, hget, hb, hrefs, hrun, ?_⟩
  rw [hrefs2]
  decide

/-- C4 (deferred calls are FIFO). In a well-formed state with an empty pending list,
inside a critical section, let the callbacks `c1..cn` (`n ≥ 1`, any `n`, also more than
the pool holds) be submitted with `deferred_call_queue` in this order. Submitting invokes
nothing, and `deferred_call_execute_pending` then returns, has invoked exactly `c1..cn`,
each once, in submission order, and leaves the pending list empty. -/
theorem deferred_calls_run_in_submission_order (s : DeferredCalls) (F cbs : List Nat)
    (fuel : Nat) (hinv : DeferredInv s [] F) (hcrit : 0 < s.m_in_critical) (hne : cbs ≠ [])
    (hfuel : cbs.length ≤ fuel) :
    ∃ s1 s2, deferred_call_queue_all cbs s = Except.ok s1 ∧
      invoked s1.trace = invoked s.trace ∧
      deferred_call_execute_pending fuel s1 = Except.ok s2 ∧
      invoked s2.trace = invoked s1.trace ++ cbs.map some ∧
      s2.m_pending_deferred_calls = none := by
  obtain ⟨s1, P1, F1, hrun, hinv1, hmap, hlen, htr, hc⟩ :=
    deferred_call_queue_all_spec cbs s [] F hinv
  simp only [List.map_nil, List.append_nil, List.length_nil, Nat.zero_add] at hmap hlen
  cases P1 with
  | nil =>
    cases cbs with
    | nil => exact absurd rfl hne
    | cons c cs => simp at hlen
  | cons p ps =>
    have hpend : s1.m_pending_deferred_calls = some p := hinv1.pending.1
    obtain ⟨entries1, rev1, hrev, hlist, hsame⟩ :=
      reverse_deferred_list_spec (p :: ps) fuel (some p) none [] s1.entries
        (hpend ▸ hinv1.pending) rfl (fun _ _ => List.not_mem_nil _) (by rw [hlen]; exact hfuel)
    rw [List.append_nil] at hlist
    have hrevne : (p :: ps).reverse ≠ [] := by simp
    obtain ⟨q, qs, hq⟩ := List.exists_cons_of_ne_nil hrevne
    rw [hq] at hlist
    have hrev1 : rev1 = some q := hlist.1
    subst hrev1
    obtain ⟨s2, hloop, hinvk, hp2, _⟩ := deferred_call_execute_loop_spec qs fuel q
      { s1 with m_pending_deferred_calls := none, entries := entries1 } hlist
      (by
        have : (q :: qs).length = cbs.length := by
          rw [← hq, List.length_reverse, hlen]
        simp only [List.length_cons] at this
        omega)
      (by simp only; rw [hc]; exact hcrit)
    refine ⟨s1, s2, hrun, htr, ?_, ?_, hp2⟩
    · unfold deferred_call_execute_pending
      rw [if_neg (by rw [hc]; omega)]
      simp only [hpend, hrev]
      exact hloop
    · rw [hinvk]
      congr 1
      have h1 : (q :: qs).map (fun e => (entries1 e).handler)
          = (q :: qs).map (fun e => (s1.entries e).handler) :=
        List.map_congr_left (fun e _ => (hsame e).1)
      simp only at h1 ⊢
      rw [h1, ← hq, List.map_reverse, hmap, List.map_reverse, List.reverse_reverse]

/-- Witness for C4: a pool of one entry, three callbacks submitted inside a critical
section; the second and third use heap entries, and they run in the order 7, 8, 9. -/
theorem deferred_calls_run_in_submission_order_witness :
    ∃ s1 s2,
      deferred_call_queue_all [7, 8, 9]
        { deferred_call_pool_init 1 deferred_boot with m_in_critical := 1 } = Except.ok s1 ∧
      deferred_call_execute_pending 3 s1 = Except.ok s2 ∧
      invoked s2.trace = [some 7, some 8, some 9] ∧ s2.m_pending_deferred_calls = none := by
  obtain ⟨s1, s2, h1, h2, h3, h4, h5⟩ :=
    deferred_calls_run_in_submission_order
      { deferred_call_pool_init 1 deferred_boot with m_in_critical := 1 } [0] [7, 8, 9] 3
      ⟨rfl, ⟨rfl, rfl⟩, fun _ h => absurd h (List.not_mem_nil _),
        fun e he => by
          rw [List.mem_singleton.1 he]
          rfl,
        fun e he => by
          rcases he with he | he
          · exact absurd he (List.not_mem_nil _)
          · rw [List.mem_singleton.1 he]
            decide⟩
      (by decide) (by simp) (by simp)
  refine ⟨s1, s2, h1, h3, ?_, h5⟩
  rw [h4, h2]
  rfl

/-- C5 (no such syscall). With interrupts enabled (the entry assertion of the
dispatcher), for every call number and all arguments: if the call number is out of range
(`function >= Function::__Count`) or its table slot holds a null handler, `Syscall::handle`
returns `ENOSYS`, invokes no handler and changes nothing but the trace; and in every call
the table is read only at index `function` and only when `function < Function::__Count`. -/
theorem syscall_enosys (abi : SyscallAbi) (function arg1 arg2 arg3 arg4 : Nat)
    (s : SyscallState) (hint : s.interrupts_enabled = true) :
    (abi.Count ≤ function ∨ (abi.s_syscall_table function).handler = none →
      ∃ new, handle abi function arg1 arg2 arg3 arg4 s
          = (SyscallOutcome.returned (KResultOr.error abi.ENOSYS),
             { s with trace := s.trace ++ new }) ∧
        ∀ e ∈ new, is_handler_call e = false) ∧
    (∀ i new, (handle abi function arg1 arg2 arg3 arg4 s).2.trace = s.trace ++ new →
      SyscallEvent.table_read i ∈ new → i = function ∧ function < abi.Count) := by
  constructor
  · intro hbad
    by_cases hr : abi.Count ≤ function
    · refine ⟨_, handle_out_of_range abi function arg1 arg2 arg3 arg4 s hint hr, ?_⟩
      intro e he
      simp only [List.mem_cons, List.mem_singleton, List.not_mem_nil, or_false] at he
      rcases he with rfl | rfl <;> rfl
    · have hnull := hbad.resolve_left hr
      refine ⟨_, handle_null abi function arg1 arg2 arg3 arg4 s hint (Nat.not_le.1 hr) hnull, ?_⟩
      intro e he
      simp only [List.mem_cons, List.mem_singleton, List.not_mem_nil, or_false] at he
      rcases he with rfl | rfl | rfl <;> rfl
  · intro i new htrace hmem
    by_cases hr : abi.Count ≤ function
    · rw [handle_out_of_range abi function arg1 arg2 arg3 arg4 s hint hr] at htrace
      have := List.append_cancel_left htrace
      rw [← this] at hmem
      simp at hmem
    · have hlt := Nat.not_le.1 hr
      refine ⟨?_, hlt⟩
      have hin : ∀ l : List SyscallEvent, s.trace ++ l = s.trace ++ new →
          (∀ e ∈ l, e = SyscallEvent.table_read function ∨ ∀ j, e ≠ SyscallEvent.table_read j) →
          i = function := by
        intro l hl hall
        rw [← List.append_cancel_left hl] at hmem
        rcases hall _ hmem with h | h
        · cases h; rfl
        · exact absurd rfl (h i)
      cases hh : (abi.s_syscall_table function).handler with
      | none =>
        rw [handle_null abi function arg1 arg2 arg3 arg4 s hint hlt hh] at htrace
        refine hin _ htrace (fun e he => ?_)
        simp only [List.mem_cons, List.mem_singleton, List.not_mem_nil, or_false] at he
        rcases he with rfl | rfl | rfl
        · exact Or.inr (fun j => by simp)
        · exact Or.inr (fun j => by simp)
        · exact Or.inl rfl
      | some handler =>
        have hlock : ∀ e ∈ lock_events (abi.s_syscall_table function),
            ∀ j, e ≠ SyscallEvent.table_read j := by
          intro e he j
          unfold lock_events at he
          split at he
          · rw [List.mem_singleton.1 he]; simp
          · exact absurd he (List.not_mem_nil _)
        have hunlock : ∀ e ∈ unlock_events (abi.s_syscall_table function),
            ∀ j, e ≠ SyscallEvent.table_read j := by
          intro e he j
          unfold unlock_events at he
          split at he
          · rw [List.mem_singleton.1 he]; simp
          · exact absurd he (List.not_mem_nil _)
        by_cases hexit : function = abi.SC_exit ∨ function = abi.SC_exit_thread
        · rw [(handle_exits abi function arg1 arg2 arg3 arg4 s hint hlt hh hexit).2] at htrace
          refine hin _ htrace (fun e he => ?_)
          simp only [List.mem_append, List.mem_cons, List.mem_singleton, List.not_mem_nil,
            or_false] at he
          rcases he with ((((rfl | rfl | rfl) | he) | he) | rfl)
          · exact Or.inr (fun j => by simp)
          · exact Or.inr (fun j => by simp)
          · exact Or.inl rfl
          · exact Or.inr (hlock e he)
          · split at he
            · rw [List.mem_singleton.1 he]; exact Or.inr (fun j => by simp)
            · exact absurd he (List.not_mem_nil _)
          · split
            · exact Or.inr (fun j => by simp)
            · exact Or.inr (fun j => by simp)
        · by_cases hregs : function = abi.SC_fork ∨ function = abi.SC_sigreturn
          · rw [handle_regs abi function arg1 arg2 arg3 arg4 s hint hlt hh hexit hregs] at htrace
            refine hin _ htrace (fun e he => ?_)
            simp only [List.mem_append, List.mem_cons, List.mem_singleton, List.not_mem_nil,
              or_false] at he
            rcases he with ((((rfl | rfl | rfl) | he) | rfl) | he)
            · exact Or.inr (fun j => by simp)
            · exact Or.inr (fun j => by simp)
            · exact Or.inl rfl
            · exact Or.inr (hlock e he)
            · exact Or.inr (fun j => by simp)
            · exact Or.inr (hunlock e he)
          · rw [handle_args abi function arg1 arg2 arg3 arg4 s hint hlt hh hexit hregs] at htrace
            refine hin _ htrace (fun e he => ?_)
            simp only [List.mem_append, List.mem_cons, List.mem_singleton, List.not_mem_nil,
              or_false] at he
            rcases he with ((((rfl | rfl | rfl) | he) | rfl) | he)
            · exact Or.inr (fun j => by simp)
            · exact Or.inr (fun j => by simp)
            · exact Or.inl rfl
            · exact Or.inr (hlock e he)
            · exact Or.inr (fun j => by simp)
            · exact Or.inr (hunlock e he)

/-- Witness for C5 on the demo ABI: call number 7 is out of range, slot 4 holds a null
handler; both yield `ENOSYS`. -/
theorem syscall_enosys_witness :
    (handle demo_abi 7 1 2 3 4 demo_syscall_state).1
        = SyscallOutcome.returned (KResultOr.error 38) ∧
      (handle demo_abi 4 1 2 3 4 demo_syscall_state).1
        = SyscallOutcome.returned (KResultOr.error 38) := by
  obtain ⟨_, h7, _⟩ :=
    (syscall_enosys demo_abi 7 1 2 3 4 demo_syscall_state rfl).1 (Or.inl (by decide))
  obtain ⟨_, h4, _⟩ :=
    (syscall_enosys demo_abi 4 1 2 3 4 demo_syscall_state rfl).1 (Or.inr rfl)
  rw [h7, h4]
  exact ⟨rfl, rfl⟩

/-- C6 (argument routing). With interrupts enabled, for a call number in range whose slot
holds the handler `handler`, other than `SC_exit` and `SC_exit_thread`: if it is `SC_fork`
or `SC_sigreturn`, the only handler invoked is the table handler, once, with the saved
register state `regs` (not with the decoded arguments); otherwise the only handler
invoked is the table handler, once, with exactly `(arg1, arg2, arg3, arg4)`; in both
cases `Syscall::handle` returns what the handler returned. -/
theorem syscall_dispatch (abi : SyscallAbi) (function arg1 arg2 arg3 arg4 handler : Nat)
    (s : SyscallState) (hint : s.interrupts_enabled = true) (hrange : function < abi.Count)
    (hh : (abi.s_syscall_table function).handler = some handler)
    (hne1 : function ≠ abi.SC_exit) (hne2 : function ≠ abi.SC_exit_thread) :
    ∃ new, (handle abi function arg1 arg2 arg3 arg4 s).2.trace = s.trace ++ new ∧
      (function = abi.SC_fork ∨ function = abi.SC_sigreturn →
        new.filter is_handler_call = [SyscallEvent.call_regs handler s.regs] ∧
        (handle abi function arg1 arg2 arg3 arg4 s).1
          = SyscallOutcome.returned (abi.handler_result_regs handler s.regs)) ∧
      (¬ (function = abi.SC_fork ∨ function = abi.SC_sigreturn) →
        new.filter is_handler_call = [SyscallEvent.call_args handler arg1 arg2 arg3 arg4] ∧
        (handle abi function arg1 arg2 arg3 arg4 s).1
          = SyscallOutcome.returned (abi.handler_result handler arg1 arg2 arg3 arg4)) := by
  have hexit : ¬ (function = abi.SC_exit ∨ function = abi.SC_exit_thread) := by
    rintro (h | h)
    · exact hne1 h
    · exact hne2 h
  obtain ⟨hl, hu⟩ := filter_lock_events (abi.s_syscall_table function)
  by_cases hregs : function = abi.SC_fork ∨ function = abi.SC_sigreturn
  · rw [handle_regs abi function arg1 arg2 arg3 arg4 s hint hrange hh hexit hregs]
    refine ⟨_, rfl, fun _ => ⟨?_, rfl⟩, fun h => absurd hregs h⟩
    simp only [List.filter_append, hl, hu]
    rfl
  · rw [handle_args abi function arg1 arg2 arg3 arg4 s hint hrange hh hexit hregs]
    refine ⟨_, rfl, fun h => absurd h hregs, fun _ => ⟨?_, rfl⟩⟩
    simp only [List.filter_append, hl, hu]
    rfl

/-- Witness for C6 on the demo ABI: call 2 (`SC_fork`, handler 12) is in range, has a
handler and is not an exit call; it is given the saved register state, whose content 99
it returns, and `Syscall::handle` returns that value. -/
theorem syscall_dispatch_witness :
    (handle demo_abi 2 1 2 3 4 demo_syscall_state).1
      = SyscallOutcome.returned (KResultOr.value 99) := by
  obtain ⟨_, _, h, _⟩ := syscall_dispatch demo_abi 2 1 2 3 4 12 demo_syscall_state rfl
    (by decide) rfl (by decide) (by decide)
  exact (h (Or.inl rfl)).2

/-- C7 (exit never returns). With interrupts enabled, for `function == SC_exit` or
`function == SC_exit_thread` (in range, non-null slot), `Syscall::handle` does not
return a result: control goes to `Process::sys$exit(arg1)`, respectively
`Process::sys$exit_thread(arg1, arg2, arg3)`, which is the only handler invoked, and the
table handler of the normal return path is never invoked. -/
theorem syscall_exit_never_returns (abi : SyscallAbi)
    (function arg1 arg2 arg3 arg4 handler : Nat) (s : SyscallState)
    (hint : s.interrupts_enabled = true) (hrange : function < abi.Count)
    (hh : (abi.s_syscall_table function).handler = some handler)
    (hexit : function = abi.SC_exit ∨ function = abi.SC_exit_thread) :
    (handle abi function arg1 arg2 arg3 arg4 s).1 = SyscallOutcome.never_returns ∧
      ∃ new, (handle abi function arg1 arg2 arg3 arg4 s).2.trace = s.trace ++ new ∧
        new.filter is_handler_call
          = [if function = abi.SC_exit then SyscallEvent.sys_exit arg1
             else SyscallEvent.sys_exit_thread arg1 arg2 arg3] ∧
        new.filter is_table_call = [] := by
  obtain ⟨h1, h2⟩ := handle_exits abi function arg1 arg2 arg3 arg4 s hint hrange hh hexit
  refine ⟨h1, _, h2, ?_, ?_⟩
  · simp only [List.filter_append, (filter_lock_events _).1]
    by_cases htr : s.tracing_syscalls = true <;> by_cases he : function = abi.SC_exit <;>
      simp [htr, he, is_handler_call]
  · have hlock : (lock_events (abi.s_syscall_table function)).filter is_table_call = [] := by
      unfold lock_events
      split <;> rfl
    simp only [List.filter_append, hlock]
    by_cases htr : s.tracing_syscalls = true <;> by_cases he : function = abi.SC_exit <;>
      simp [htr, he, is_table_call]

/-- Witness for C7 on the demo ABI: call 0 is `exit`, call 1 is `exit_thread`. -/
theorem syscall_exit_never_returns_witness :
    (handle demo_abi 0 1 2 3 4 demo_syscall_state).1 = SyscallOutcome.never_returns ∧
      (handle demo_abi 1 1 2 3 4 demo_syscall_state).1 = SyscallOutcome.never_returns :=
  ⟨(syscall_exit_never_returns demo_abi 0 1 2 3 4 10 demo_syscall_state rfl (by decide) rfl
      (Or.inl rfl)).1,
   (syscall_exit_never_returns demo_abi 1 1 2 3 4 11 demo_syscall_state rfl (by decide) rfl
      (Or.inr rfl)).1⟩

/-- C8 (big lock). With interrupts enabled, the events of one `Syscall::handle` call are
bookkeeping events (`did_syscall`, the performance event, the table read), then the lock
acquisition, then the rest; the lock is acquired (once) if and only if the call number
is in range, its slot has a non-null handler and the slot's flag is
`NeedsBigProcessLock::Yes`. So when it is acquired, it is acquired before the handler or
the exit special case runs, and on both `ENOSYS` paths it is never acquired. -/
theorem big_lock_acquired_iff (abi : SyscallAbi) (function arg1 arg2 arg3 arg4 : Nat)
    (s : SyscallState) (hint : s.interrupts_enabled = true) :
    ∃ book locks rest,
      (handle abi function arg1 arg2 arg3 arg4 s).2.trace = s.trace ++ (book ++ locks ++ rest) ∧
      (∀ e ∈ book, is_bookkeeping function e) ∧
      locks = (if function < abi.Count ∧ (abi.s_syscall_table function).handler ≠ none ∧
        (abi.s_syscall_table function).needs_lock = NeedsBigProcessLock.Yes
        then [SyscallEvent.lock_big_lock] else []) ∧
      SyscallEvent.lock_big_lock ∉ rest := by
  have hbook : ∀ e ∈ [SyscallEvent.did_syscall, SyscallEvent.add_syscall_event,
      SyscallEvent.table_read function], is_bookkeeping function e := by
    intro e he
    simp only [List.mem_cons, List.mem_singleton, List.not_mem_nil, or_false] at he
    exact he
  by_cases hr : abi.Count ≤ function
  · refine ⟨[SyscallEvent.did_syscall, SyscallEvent.add_syscall_event], [], [], ?_, ?_, ?_, ?_⟩
    · rw [handle_out_of_range abi function arg1 arg2 arg3 arg4 s hint hr]
      rfl
    · intro e he
      simp only [List.mem_cons, List.mem_singleton, List.not_mem_nil, or_false] at he
      rcases he with rfl | rfl
      · exact Or.inl rfl
      · exact Or.inr (Or.inl rfl)
    · rw [if_neg (fun h => absurd h.1 (Nat.not_lt.2 hr))]
    · exact List.not_mem_nil _
  · have hlt := Nat.not_le.1 hr
    cases hh : (abi.s_syscall_table function).handler with
    | none =>
      refine ⟨[SyscallEvent.did_syscall, SyscallEvent.add_syscall_event,
          SyscallEvent.table_read function], [], [], ?_, hbook, ?_, List.not_mem_nil _⟩
      · rw [handle_null abi function arg1 arg2 arg3 arg4 s hint hlt hh]
        rfl
      · rw [if_neg (fun h => h.2.1 rfl)]
    | some handler =>
      have hlocks : lock_events (abi.s_syscall_table function)
          = (if function < abi.Count ∧ some handler ≠ none ∧
            (abi.s_syscall_table function).needs_lock = NeedsBigProcessLock.Yes
            then [SyscallEvent.lock_big_lock] else []) := by
        unfold lock_events
        by_cases hl : (abi.s_syscall_table function).needs_lock = NeedsBigProcessLock.Yes
        · rw [if_pos hl, if_pos ⟨hlt, by simp, hl⟩]
        · rw [if_neg hl, if_neg (fun h => hl h.2.2)]
      have hunlock : SyscallEvent.lock_big_lock ∉ unlock_events (abi.s_syscall_table function) := by
        unfold unlock_events
        split <;> simp
      by_cases hexit : function = abi.SC_exit ∨ function = abi.SC_exit_thread
      · refine ⟨[SyscallEvent.did_syscall, SyscallEvent.add_syscall_event,
          SyscallEvent.table_read function], lock_events (abi.s_syscall_table function),
          (if s.tracing_syscalls then [SyscallEvent.tracer_trap] else [])
            ++ [if function = abi.SC_exit then SyscallEvent.sys_exit arg1
                else SyscallEvent.sys_exit_thread arg1 arg2 arg3], ?_, hbook, hlocks, ?_⟩
        · rw [(handle_exits abi function arg1 arg2 arg3 arg4 s hint hlt hh hexit).2]
          simp only [List.append_assoc]
        · by_cases htr : s.tracing_syscalls = true <;> by_cases he : function = abi.SC_exit <;>
            simp [htr, he]
      · by_cases hregs : function = abi.SC_fork ∨ function = abi.SC_sigreturn
        · refine ⟨[SyscallEvent.did_syscall, SyscallEvent.add_syscall_event,
          SyscallEvent.table_read function], lock_events (abi.s_syscall_table function),
            [SyscallEvent.call_regs handler s.regs]
              ++ unlock_events (abi.s_syscall_table function), ?_, hbook, hlocks, ?_⟩
          · rw [handle_regs abi function arg1 arg2 arg3 arg4 s hint hlt hh hexit hregs]
            simp only [List.append_assoc]
          · simp [hunlock]
        · refine ⟨[SyscallEvent.did_syscall, SyscallEvent.add_syscall_event,
          SyscallEvent.table_read function], lock_events (abi.s_syscall_table function),
            [SyscallEvent.call_args handler arg1 arg2 arg3 arg4]
              ++ unlock_events (abi.s_syscall_table function), ?_, hbook, hlocks, ?_⟩
          · rw [handle_args abi function arg1 arg2 arg3 arg4 s hint hlt hh hexit hregs]
            simp only [List.append_assoc]
          · simp [hunlock]

/-- Witness for C8 on the demo ABI: call 2 needs the lock and takes it before its handler
runs; call 3 does not. -/
theorem big_lock_acquired_iff_witness :
    (handle demo_abi 2 1 2 3 4 demo_syscall_state).2.trace
        = [SyscallEvent.did_syscall, SyscallEvent.add_syscall_event, SyscallEvent.table_read 2,
           SyscallEvent.lock_big_lock,
           SyscallEvent.call_regs 12 { return_reg := 0, saved := 99 },
           SyscallEvent.unlock_big_lock] ∧
      ∃ book locks rest,
        (handle demo_abi 3 1 2 3 4 demo_syscall_state).2.trace = [] ++ (book ++ locks ++ rest) ∧
        locks = [] := by
  refine ⟨by decide, ?_⟩
  obtain ⟨book, locks, rest, h1, _, h3, _⟩ :=
    big_lock_acquired_iff demo_abi 3 1 2 3 4 demo_syscall_state rfl
  exact ⟨book, locks, rest, h1, by rw [h3]; decide⟩

/-- C3 (per-destination FIFO). Let the queue of core `cpu` hold a well-formed chain `L0`,
and let the pairwise distinct messages `ms = m1..mn` (`n ≥ 1`, deliverable, none of them
already queued) be enqueued on that queue in this order with no drain in between. Then
the next `smp_process_pending_messages` on `cpu` returns and leaves the queue empty. What
it has done is, for the previously queued messages in their arrival order and then for
`m1..mn` in exactly that order, one block of events per message and nothing else: the
callback of the message invoked (for a `Callback` message) or the flush made that is due
(for a `FlushTlb` message), then the decrement of its reference count, then its cleanup
and return to the pool when it is asynchronous and this was its last reference. So the
callbacks are invoked, the flushes made and the counts decremented in the order of
arrival, each message exactly once and each one completely before the next starts;
afterwards the count of every processed message is one less (a `u32` decrement of a
count that was not zero) and no other message has changed. Its effect on the messages, the pool and the trace is that of processing
the messages one after the other. -/
theorem per_destination_fifo (cpu fuel : Nat) (s : System) (L0 ms : List Nat)
    (hen : s.s_smp_enabled = true)
    (hq : IsList (fun e => (s.entries e).next) (s.procs cpu).m_message_queue L0)
    (hentry : ∀ m ∈ ms, (s.entries ((s.msgs m).per_proc_entries + cpu)).msg = m)
    (hnd : (L0.map (fun e => (s.entries e).msg) ++ ms).Nodup)
    (hdel : ∀ m ∈ L0.map (fun e => (s.entries e).msg) ++ ms, Deliverable s m)
    (hhalt : (s.procs cpu).m_halt_requested = false)
    (hne : ms ≠ [])
    (hfuel : L0.length + ms.length ≤ fuel) :
    ∃ s1 s2 new, enqueue_all cpu ms s = Except.ok s1 ∧
      smp_process_pending_messages fuel cpu s1 = Except.ok (true, s2) ∧
      (s2.procs cpu).m_message_queue = none ∧
      s2.trace = s1.trace ++ new ∧
      decremented_by cpu new = (L0.map (fun e => (s.entries e).msg)).reverse ++ ms ∧
      (∃ t0 t2, process_in_order cpu ((L0.map (fun e => (s.entries e).msg)).reverse ++ ms) t0
          = Except.ok t2 ∧
        t0.msgs = s1.msgs ∧ t0.s_message_pool = s1.s_message_pool ∧ t0.trace = s1.trace ∧
        t0.mm = s1.mm ∧ (∀ c, (t0.procs c).cr3 = (s1.procs c).cr3) ∧
        t2.msgs = s2.msgs ∧ t2.s_message_pool = s2.s_message_pool ∧ t2.trace = s2.trace) ∧
      new = ((L0.map (fun e => (s.entries e).msg)).reverse ++ ms).flatMap
        (fun m => switch_events s cpu m ++ release_events s cpu m) ∧
      callbacks_on cpu new
        = ((L0.map (fun e => (s.entries e).msg)).reverse ++ ms).filterMap (callback_due s) ∧
      flushes_on cpu new
        = ((L0.map (fun e => (s.entries e).msg)).reverse ++ ms).filterMap (flush_due s cpu) ∧
      (∀ m, m ∈ (L0.map (fun e => (s.entries e).msg)).reverse ++ ms →
        (s.msgs m).refs ≠ 0 ∧ (s2.msgs m).refs = u32_sub (s.msgs m).refs 1) ∧
      (∀ m, m ∉ (L0.map (fun e => (s.entries e).msg)).reverse ++ ms →
        s2.msgs m = s.msgs m) := by
  obtain ⟨s1, L1, hrun, hL1, hmap, hlen, h1, h2, h3, h4, h5, h6, h7⟩ :=
    enqueue_all_spec cpu ms s L0 hq hnd hentry
  have hL1ne : L1 ≠ [] := by
    intro h
    rw [h] at hlen
    cases ms with
    | nil => exact hne rfl
    | cons m ms => simp at hlen; omega
  obtain ⟨entries1, _, _, hdrain⟩ :=
    smp_process_pending_messages_eq fuel cpu s1 L1 (h5.trans hen) hL1 hL1ne (by omega)
  have hmsgs : L1.reverse.map (fun e => (s1.entries e).msg)
      = (L0.map (fun e => (s.entries e).msg)).reverse ++ ms := by
    rw [List.map_reverse, hmap]
    simp
  rw [hmsgs] at hdrain
  have hnd1 : ((L0.map (fun e => (s.entries e).msg)).reverse ++ ms).Nodup := by
    have hperm : ((L0.map (fun e => (s.entries e).msg)).reverse ++ ms).Perm
        (L0.map (fun e => (s.entries e).msg) ++ ms) :=
      (List.reverse_perm _).append_right ms
    exact hperm.nodup_iff.2 hnd
  have hndL1 : (L1.map (fun e => (s1.entries e).msg)).Nodup := by
    rw [hmap]
    have hperm : (ms.reverse ++ L0.map (fun e => (s.entries e).msg)).Perm
        (L0.map (fun e => (s.entries e).msg) ++ ms) :=
      List.perm_append_comm.trans ((List.reverse_perm ms).append_left _)
    exact hperm.nodup_iff.2 hnd
  obtain ⟨t2, new, hproc, htr, hdec⟩ := process_in_order_total cpu
    ((L0.map (fun e => (s.entries e).msg)).reverse ++ ms)
    { s1 with
      procs := upd s1.procs cpu
        { s1.procs cpu with
          m_in_critical := (s1.procs cpu).m_in_critical + 1, m_message_queue := none },
      entries := entries1 }
    hnd1
    (by
      intro m hm
      have hm1 : m ∈ L0.map (fun e => (s.entries e).msg) ++ ms := by
        rcases List.mem_append.1 hm with h | h
        · exact List.mem_append_left _ (List.mem_reverse.1 h)
        · exact List.mem_append_right _ h
      exact (hdel m hm1).of_same_msg (by rw [← h1]) h4)
    (by simp only [upd_same]; rw [h6 cpu]; exact hhalt)
  rw [hproc] at hdrain
  have htrace := drain_trace (h5.trans hen) hL1 hndL1 (show L1.length ≤ fuel by omega) hdrain
  rw [hmsgs] at htrace
  have hev : ((L0.map (fun e => (s.entries e).msg)).reverse ++ ms).flatMap
        (message_events s1 cpu)
      = ((L0.map (fun e => (s.entries e).msg)).reverse ++ ms).flatMap
        (message_events s cpu) :=
    flatMap_congr_mem (fun m _ => message_events_congr (by rw [h1]) h4 (h7 cpu))
  rw [hev] at htrace
  have hnew : new = ((L0.map (fun e => (s.entries e).msg)).reverse ++ ms).flatMap
      (message_events s cpu) := by
    have h0 : s1.trace ++ new = s1.trace
        ++ ((L0.map (fun e => (s.entries e).msg)).reverse ++ ms).flatMap
          (message_events s cpu) := htr.symm.trans htrace
    exact List.append_cancel_left h0
  obtain ⟨hother, hrefs, _, _⟩ := process_in_order_effect cpu _ _ _ hnd1 hproc
  refine ⟨s1, _, new, hrun, hdrain, by simp, htr, hdec,
    ⟨_, t2, hproc, rfl, rfl, rfl, rfl, ?_, rfl, rfl, rfl⟩, hnew, ?_, ?_, ?_, ?_⟩
  · intro c
    by_cases hc : c = cpu
    · subst hc; simp
    · simp [upd, hc]
  · rw [hnew, callbacks_on_flatMap]
  · rw [hnew, flushes_on_flatMap, if_pos rfl]
  · intro m hm
    obtain ⟨hr, hnz⟩ := hrefs m hm
    have hm1 : m ∈ L0.map (fun e => (s.entries e).msg) ++ ms := by
      rcases List.mem_append.1 hm with h | h
      · exact List.mem_append_left _ (List.mem_reverse.1 h)
      · exact List.mem_append_right _ h
    have hs : (s1.msgs m).refs = (s.msgs m).refs := by rw [h1]
    have hnz1 : (s.msgs m).refs ≠ 0 := (hdel m hm1).1
    refine ⟨hnz1, ?_⟩
    show (t2.msgs m).refs = _
    rw [hr]
    show u32_sub (s1.msgs m).refs 1 = _
    rw [hs]
  · intro m hm
    show t2.msgs m = _
    rw [hother m hm]
    show s1.msgs m = _
    rw [h1]

/-- Witness for C3 on the demo machine: the callback messages 0 and 1 are enqueued on
core 1 in this order. The next drain invokes the callback of message 0, takes its last
reference, destroys the callback and returns the message to the pool, and only then does
the same for message 1. -/
theorem per_destination_fifo_witness :
    ∃ s1 s2 new, enqueue_all 1 [0, 1] demo_system = Except.ok s1 ∧
      smp_process_pending_messages 2 1 s1 = Except.ok (true, s2) ∧
      (s2.procs 1).m_message_queue = none ∧ s2.trace = s1.trace ++ new ∧
      decremented_by 1 new = [0, 1] ∧
      new = [Event.invoke_callback 1 0 (some 0), Event.refs_fetch_sub 1 0 1,
        Event.cleanup_callback 0, Event.return_to_pool 0,
        Event.invoke_callback 1 1 (some 1), Event.refs_fetch_sub 1 1 1,
        Event.cleanup_callback 1, Event.return_to_pool 1] ∧
      callbacks_on 1 new = [(0, some 0), (1, some 1)] := by
  obtain ⟨s1, s2, new, h1, h2, h3, h4, h5, _, h7, h8, _⟩ :=
    per_destination_fifo 1 2 demo_system [] [0, 1] rfl rfl
      (by
        intro m hm
        simp only [List.mem_cons, List.mem_singleton, List.not_mem_nil, or_false] at hm
        rcases hm with rfl | rfl <;> rfl)
      (by decide)
      (by
        intro m _
        exact ⟨by simp [demo_system], by simp [demo_system]⟩)
      rfl (by simp) (by simp)
  exact ⟨s1, s2, new, h1, h2, h3, h4, by simpa using h5, h7.trans rfl, h8.trans rfl⟩

/-- C10 (broadcast TLB flush). On `N ≥ 2` cores, in a state that satisfies the invariants
with no message held, let core `cur` call
`smp_broadcast_flush_tlb(page_directory, vaddr, page_count)`, for any page directory,
address and page count and whatever the `cr3` of the caller is.
If the call returns, its events are: the drains `pre` while it waits for a free message,
the acquisition of a message `msg`, at most one broadcast IPI, the caller's own
`flush_tlb_local(vaddr, page_count)`, the drains `wnew` of the wait loop, and the return
of `msg` to the pool. In `wnew` every other core decrements `msg.refs` exactly once and
the caller never does, and when no flush message was pending on the caller's own queue,
the caller's flushes during the call are exactly the one `(vaddr, page_count)`. In the
final state `msg.refs = 0`, `msg` is the head of the free list and is queued nowhere.
The call does return when the pool is not empty, no core has been asked to halt, the
flush ranges are valid, and every other core runs its IPI handler at the caller's first
pause. -/
theorem broadcast_flush_tlb_complete {N : Nat} {s : System} {Q : Nat → List Nat} {F : List Nat}
    (ci : ChainInv N s Q) (mi : MsgInv N s Q [] F) (fuel cur page_directory vaddr page_count : Nat)
    (hN : 2 ≤ N) (hcur : cur < N) (hfuel : 100 * N ≤ fuel) :
    (∀ s1, smp_broadcast_flush_tlb fuel cur page_directory vaddr page_count s = Except.ok s1 →
      ∃ msg pre ipi wnew Q1 F1,
        s1.trace = s.trace ++ (pre ++ [Event.get_from_pool msg] ++ ipi
          ++ [Event.flush_tlb_local cur vaddr page_count] ++ wnew
          ++ [Event.return_to_pool msg]) ∧
        (ipi = [] ∨ ipi = [Event.broadcast_ipi]) ∧
        (∀ c, c < N → c ≠ cur → (decremented_by c wnew).count msg = 1) ∧
        (decremented_by cur wnew).count msg = 0 ∧
        ((∀ m, m ∈ Q cur → (s.msgs m).type = MessageType.Callback) →
          flushes_on cur (pre ++ [Event.get_from_pool msg] ++ ipi
            ++ [Event.flush_tlb_local cur vaddr page_count] ++ wnew
            ++ [Event.return_to_pool msg]) = [(vaddr, page_count)]) ∧
        (s1.msgs msg).refs = 0 ∧ s1.s_message_pool = some msg ∧
        ChainInv N s1 Q1 ∧ MsgInv N s1 Q1 [] (msg :: F1) ∧ (∀ c, msg ∉ Q1 c)) ∧
    (F ≠ [] → (∀ c, (s.procs c).m_halt_requested = false) →
      (∀ c m, m ∈ Q c → FlushValid s m) →
      (s.mm.is_user_address vaddr = true →
        s.mm.is_user_range vaddr (page_count * s.mm.PAGE_SIZE % 2 ^ s.mm.size_bits) = true) →
      ∀ others rest, s.pause_schedule = others :: rest →
        (∀ c, c < N → c ≠ cur → c ∈ others) →
        ∃ s1, smp_broadcast_flush_tlb fuel cur page_directory vaddr page_count s
          = Except.ok s1) := by
  refine ⟨fun s1 h => ?_, fun hF hhalt hvalid hnew others rest hsch hall => ?_⟩
  · obtain ⟨_, msg, pre, ipi, wnew, Q1, F1, htr, hipi, hdec, hdec0, hfl, hz, hpool, ci1, mi1,
      hgone, _⟩ := smp_broadcast_flush_tlb_spec ci mi hcur hfuel h
    refine ⟨msg, pre, ipi, wnew, Q1, F1, ?_, hipi, hdec, hdec0, ?_, hz, hpool, ci1, mi1, hgone⟩
    · rw [htr]
      simp only [List.append_assoc]
    · intro hQ
      obtain ⟨hf1, hf2⟩ := hfl hQ
      have hf3 : flushes_on cur ipi = [] := by
        rcases hipi with rfl | rfl <;> rfl
      simp only [flushes_on_append, hf1, hf2, hf3]
      simp [flushes_on]
  · exact smp_broadcast_flush_tlb_total ci mi page_directory vaddr page_count hN hcur hfuel hF
      hhalt hvalid hnew hsch hall

/-- Witness for C10 on two freshly enabled cores: core 0 broadcasts a flush of two pages at
`0x1000` for page directory 7 (its own `cr3` is 0) while core 1 answers its IPI at the
first pause. The call returns, the message count is zero, the message is the head of the
free list, and core 0 has flushed exactly once. -/
theorem broadcast_flush_tlb_complete_witness :
    ∃ s1 msg, smp_broadcast_flush_tlb 200 0 7 4096 2
        { enabled_system 2 with pause_schedule := [[1]] } = Except.ok s1 ∧
      (s1.msgs msg).refs = 0 ∧ s1.s_message_pool = some msg ∧
      flushes_on 0 s1.trace = [(4096, 2)] := by
  obtain ⟨ci, mi⟩ := smp_enable_inv demo_mm 2 (fun c => c) (by norm_num) (by norm_num)
  have ci0 : ChainInv 2 { enabled_system 2 with pause_schedule := [[1]] } (fun _ => []) :=
    ci.transfer_chain rfl rfl
  have mi0 : MsgInv 2 { enabled_system 2 with pause_schedule := [[1]] } (fun _ => []) []
      (List.range (100 * 2)) :=
    mi.transfer_msgs rfl rfl rfl rfl rfl (fun _ _ => Iff.rfl) mi.queue_nodup
  obtain ⟨hpart, htot⟩ := broadcast_flush_tlb_complete ci0 mi0 200 0 7 4096 2 (by norm_num)
    (by norm_num) (by norm_num)
  obtain ⟨s1, hrun⟩ := htot
    (fun h => by have := congrArg List.length h; simp at this)
    (fun _ => rfl) (fun _ m hm => absurd hm (List.not_mem_nil m)) (fun hua => by cases hua)
    [1] [] rfl (fun c hc hne => by
      have : c = 1 := by omega
      simp [this])
  obtain ⟨msg, pre, ipi, wnew, Q1, F1, htr, _, _, _, hfl, hz, hpool, _⟩ := hpart s1 hrun
  refine ⟨s1, msg, hrun, hz, hpool, ?_⟩
  rw [htr]
  have hnil : ({ enabled_system 2 with pause_schedule := [[1]] } : System).trace = [] := rfl
  rw [hnil, List.nil_append]
  exact hfl (fun m hm => absurd hm (List.not_mem_nil m))

/-- C2 (pool conservation). Start from the pool that `smp_enable` builds on `N` freshly
booted cores, for every `N ≥ 1` whose 32-bit product `N * 100` does not wrap
(`N * 100 < 2^32`, so that the pool built has the capacity `100 * N`), with any schedule
for the IPI handlers of the other cores at the pauses, and let any list of calls of `smp_process_pending_messages`, `smp_unicast`
(synchronous or asynchronous) and `smp_broadcast_flush_tlb`, each made on an existing
core, run one after the other to the end. In the final state `s` the queues are
well-formed chains of messages `Q`, the free list is a chain `F`, and a pool message is
on the free list exactly if it is in no queue, which is also exactly if the trace holds
as many acquisitions as returns of it (one more acquisition if it is in flight). At
every moment `k` of the trace no more messages were returned than acquired, at most
`100 * N` were acquired and not yet returned, and every single message was acquired as
often as it was returned or once more. When no queue holds a message any more, the free
list holds all `100 * N` messages and the number of `smp_get_from_pool` calls equals the
number of `smp_return_to_pool` calls, in total and for each message. -/
theorem pool_conservation (mm : MemoryManager) (N : Nat) (cr3 : Nat → Nat)
    (schedule : List (List Nat)) (fuel : Nat) (calls : List Call) (s : System)
    (hN : 0 < N) (hP32 : N * 100 < 2 ^ 32) (hfuel : 100 * N ≤ fuel)
    (hcores : ∀ call, call ∈ calls → call.core < N)
    (hrun : run_calls fuel calls { smp_enable (boot mm N cr3) with pause_schedule := schedule }
      = Except.ok s) :
    ∃ Q F, ChainInv N s Q ∧ IsList (fun m => (s.msgs m).next) s.s_message_pool F ∧
      (∀ m, m < 100 * N → (m ∈ F ↔ ∀ c, m ∉ Q c)) ∧
      (∀ m, m < 100 * N → s.trace.count (Event.get_from_pool m)
        = s.trace.count (Event.return_to_pool m) + (if m ∈ F then 0 else 1)) ∧
      (∀ k, returned (s.trace.take k) ≤ acquired (s.trace.take k) ∧
        acquired (s.trace.take k) ≤ returned (s.trace.take k) + 100 * N ∧
        ∀ m, (s.trace.take k).count (Event.return_to_pool m)
            ≤ (s.trace.take k).count (Event.get_from_pool m) ∧
          (s.trace.take k).count (Event.get_from_pool m)
            ≤ (s.trace.take k).count (Event.return_to_pool m) + 1) ∧
      ((∀ c, c < N → (s.procs c).m_message_queue = none) →
        F.length = 100 * N ∧ acquired s.trace = returned s.trace ∧
        ∀ m, s.trace.count (Event.get_from_pool m)
          = s.trace.count (Event.return_to_pool m)) := by
  obtain ⟨ci, mi⟩ := smp_enable_inv mm N cr3 hN hP32
  have ci0 : ChainInv N { smp_enable (boot mm N cr3) with pause_schedule := schedule }
      (fun _ => []) := ci.transfer_chain rfl rfl
  have mi0 : MsgInv N { smp_enable (boot mm N cr3) with pause_schedule := schedule }
      (fun _ => []) [] (List.range (100 * N)) :=
    mi.transfer_msgs rfl rfl rfl rfl rfl (fun _ _ => Iff.rfl) mi.queue_nodup
  obtain ⟨Q, F, ci1, mi1⟩ := run_calls_inv hfuel calls _ s _ _ ci0 mi0 hcores hrun
  refine ⟨Q, F, ci1, mi1.pool, ?_, ?_, fun k => mi1.balanced k, mi1.all_returned ci1⟩
  · intro m hm
    constructor
    · intro hf
      exact (mi1.free_excl m hf).2
    · intro hq
      rcases mi1.cover m hm with hf | hh | ⟨c, hc⟩
      · exact hf
      · exact absurd hh (List.not_mem_nil m)
      · exact absurd hc (hq c)
  · intro m hm
    rw [mi1.trace_msg m]
    by_cases hf : m ∈ F
    · simp [hf]
    · simp [hf, Nat.not_le.2 hm]

/-- Witness for C2 on two cores: core 0 broadcasts a TLB flush and core 1 answers at the
first pause. The run returns; afterwards as many messages were returned as acquired, and
at no moment more than 200 were outstanding. -/
theorem pool_conservation_witness :
    ∃ s, run_calls 200 [Call.broadcast_flush_tlb 0 7 4096 2]
        { smp_enable (boot demo_mm 2 (fun c => c)) with pause_schedule := [[1]] }
          = Except.ok s ∧
      acquired s.trace = returned s.trace ∧
      ∀ k, acquired (s.trace.take k) ≤ returned (s.trace.take k) + 100 * 2 := by
  obtain ⟨ci, mi⟩ := smp_enable_inv demo_mm 2 (fun c => c) (by norm_num) (by norm_num)
  have ci0 : ChainInv 2 { smp_enable (boot demo_mm 2 (fun c => c)) with pause_schedule := [[1]] }
      (fun _ => []) := ci.transfer_chain rfl rfl
  have mi0 : MsgInv 2 { smp_enable (boot demo_mm 2 (fun c => c)) with pause_schedule := [[1]] }
      (fun _ => []) [] (List.range (100 * 2)) :=
    mi.transfer_msgs rfl rfl rfl rfl rfl (fun _ _ => Iff.rfl) mi.queue_nodup
  obtain ⟨s, hflush⟩ := smp_broadcast_flush_tlb_total ci0 mi0 7 4096 2 (le_refl 2)
    (show 0 < 2 by norm_num) (show 100 * 2 ≤ 200 by norm_num)
    (fun h => by have := congrArg List.length h; simp at this)
    (fun _ => rfl) (fun _ m hm => absurd hm (List.not_mem_nil m)) (fun hua => by cases hua)
    rfl (fun c hc hne => by
      have : c = 1 := by omega
      simp [this])
  have hrun : run_calls 200 [Call.broadcast_flush_tlb 0 7 4096 2]
      { smp_enable (boot demo_mm 2 (fun c => c)) with pause_schedule := [[1]] }
        = Except.ok s := by
    simp only [run_calls, run_call, hflush]
  obtain ⟨_, _, _, _, _, Q1, F1, _, _, _, _, _, _, _, ci1, _, _, hsub⟩ :=
    smp_broadcast_flush_tlb_spec ci0 mi0 (show 0 < 2 by norm_num)
      (show 100 * 2 ≤ 200 by norm_num) hflush
  have hnone : ∀ c, c < 2 → (s.procs c).m_message_queue = none := by
    intro c hc
    have hQ1 : Q1 c = [] := nil_of_shrink (Q := fun _ => []) (hsub c) rfl
    have := ci1.queue c hc
    rw [hQ1] at this
    exact this
  obtain ⟨Q, F, _, _, _, _, hbal, hall⟩ :=
    pool_conservation demo_mm 2 (fun c => c) [[1]] 200 [Call.broadcast_flush_tlb 0 7 4096 2] s
      (by norm_num) (by norm_num) (by norm_num)
      (fun call hc => by
        rw [List.mem_singleton.1 hc]
        show 0 < 2
        norm_num)
      hrun
  exact ⟨s, hrun, (hall hnone).2.1, fun k => (hbal k).2.1⟩

/-- C11, as amended (flush of a `FlushTlb` message). Let the queue of core `cpu` be a
well-formed chain `L` of entries of pairwise distinct messages. A drain of `cpu` that
returns has made, in arrival order, exactly the flushes that are due (`flush_due`): for
every queued `FlushTlb` message one `flush_tlb_local` with the address and page count of
the message, except that the flush is skipped, with no `flush_tlb_local` call at all,
when the address is a user address and the active page directory of `cpu` is not the one
of the message. A flush of an address that is not a user address is made whatever the
active page directory is. No other core flushes. The drain does return when the messages
are deliverable (count not zero, user ranges valid) and no halt is requested. -/
theorem drain_flushes_what_is_due (cpu fuel : Nat) (s : System) (L : List Nat)
    (hen : s.s_smp_enabled = true)
    (hq : IsList (fun e => (s.entries e).next) (s.procs cpu).m_message_queue L)
    (hnd : (L.map (fun e => (s.entries e).msg)).Nodup) (hfuel : L.length ≤ fuel) :
    (∀ b s1, smp_process_pending_messages fuel cpu s = Except.ok (b, s1) →
      ∃ new, s1.trace = s.trace ++ new ∧
        flushes_on cpu new
          = (L.reverse.map (fun e => (s.entries e).msg)).filterMap (flush_due s cpu) ∧
        ∀ c1, c1 ≠ cpu → flushes_on c1 new = []) ∧
    (∀ m, (s.msgs m).type = MessageType.FlushTlb →
      (flush_due s cpu m = none ↔
        (s.mm.is_user_address (s.msgs m).flush_tlb.ptr = true ∧
          (s.procs cpu).cr3 ≠ s.mm.cr3 (s.msgs m).flush_tlb.page_directory)) ∧
      (flush_due s cpu m = some ((s.msgs m).flush_tlb.ptr, (s.msgs m).flush_tlb.page_count) ↔
        (s.mm.is_user_address (s.msgs m).flush_tlb.ptr = false ∨
          (s.procs cpu).cr3 = s.mm.cr3 (s.msgs m).flush_tlb.page_directory))) ∧
    ((∀ m ∈ L.map (fun e => (s.entries e).msg), Deliverable s m) →
      (s.procs cpu).m_halt_requested = false →
      ∃ b s1, smp_process_pending_messages fuel cpu s = Except.ok (b, s1)) := by
  refine ⟨fun b s1 h => ?_, fun m ht => ?_, fun hdel hhalt =>
    drain_returns hen hq hnd hfuel hdel hhalt⟩
  · refine ⟨_, drain_trace hen hq hnd hfuel h, ?_, fun c1 hc1 => ?_⟩
    · rw [flushes_on_flatMap, if_pos rfl]
    · rw [flushes_on_flatMap, if_neg hc1]
  · unfold flush_due
    rw [ht]
    simp only
    by_cases hu : s.mm.is_user_address (s.msgs m).flush_tlb.ptr = true
    · by_cases hc : (s.procs cpu).cr3 = s.mm.cr3 (s.msgs m).flush_tlb.page_directory
      · simp [hu, hc]
      · simp [hu, hc]
    · simp [hu]

/-- Witness for C11: on `flush_demo_system`, messages 1 and 0 are queued on core 0, which
runs with the page directory of both, and messages 2 and 0 on core 1, which does not.
Core 0 flushes the user page and the kernel page; core 1 skips the user page and flushes
the kernel page. -/
theorem drain_flushes_what_is_due_witness :
    ∃ a1 a2 a3 b1 b2 b3, enqueue_all 0 [1, 0] flush_demo_system = Except.ok a1 ∧
      smp_process_pending_messages 2 0 a1 = Except.ok (a2, a3) ∧
      flushes_on 0 a3.trace = [(0x1000, 1), (0xC0100000, 1)] ∧
      enqueue_all 1 [2, 0] flush_demo_system = Except.ok b1 ∧
      smp_process_pending_messages 2 1 b1 = Except.ok (b2, b3) ∧
      flushes_on 1 b3.trace = [(0xC0100000, 1)] := by
  obtain ⟨a1, ha1⟩ : ∃ a1, enqueue_all 0 [1, 0] flush_demo_system = Except.ok a1 := ⟨_, rfl⟩
  obtain ⟨b1, hb1⟩ : ∃ b1, enqueue_all 1 [2, 0] flush_demo_system = Except.ok b1 := ⟨_, rfl⟩
  have ha := drain_flushes_what_is_due 0 2 a1 [0, 2] (by cases ha1; rfl)
    (by cases ha1; exact ⟨rfl, rfl, rfl⟩) (by cases ha1; decide) (by decide)
  have hb := drain_flushes_what_is_due 1 2 b1 [1, 5] (by cases hb1; rfl)
    (by cases hb1; exact ⟨rfl, rfl, rfl⟩) (by cases hb1; decide) (by decide)
  obtain ⟨a2, a3, hrun_a⟩ : ∃ a2 a3, smp_process_pending_messages 2 0 a1 = Except.ok (a2, a3) := by
    cases ha1
    exact ⟨_, _, rfl⟩
  obtain ⟨b2, b3, hrun_b⟩ : ∃ b2 b3, smp_process_pending_messages 2 1 b1 = Except.ok (b2, b3) := by
    cases hb1
    exact ⟨_, _, rfl⟩
  obtain ⟨na, htra, hfa, _⟩ := ha.1 a2 a3 hrun_a
  obtain ⟨nb, htrb, hfb, _⟩ := hb.1 b2 b3 hrun_b
  refine ⟨a1, a2, a3, b1, b2, b3, ha1, hrun_a, ?_, hb1, hrun_b, ?_⟩
  · rw [htra, flushes_on_append, hfa]
    cases ha1
    rfl
  · rw [htrb, flushes_on_append, hfb]
    cases hb1
    rfl

/-- Counterexample to C11 as stated: on `flush_demo_system` core 1 runs with page
directory 1 and drains the `FlushTlb` message 0, whose page directory is 0 and whose
address `0xC0100000` is not a user address. The active page directory differs from the
one of the message, and the flush is made all the same. -/
theorem kernel_flush_not_skipped :
    ∃ s1 s2, smp_enqueue_message 1 0 flush_demo_system = Except.ok (true, s1) ∧
      smp_process_pending_messages 1 1 s1 = Except.ok (true, s2) ∧
      (s1.msgs 0).type = MessageType.FlushTlb ∧
      (s1.procs 1).cr3 ≠ s1.mm.cr3 (s1.msgs 0).flush_tlb.page_directory ∧
      flushes_on 1 s2.trace = [((s1.msgs 0).flush_tlb.ptr, (s1.msgs 0).flush_tlb.page_count)] :=
  ⟨_, _, rfl, rfl, rfl, by decide, rfl⟩

/-- C13 (unicast send). Let `cpu` be an existing core other than the caller `cur`, let
its pending queue be a well-formed chain `L0`, and let the delivery entry of `msg` for
`cpu` (`per_proc_entries[cpu]`, which belongs to `msg` and is not queued yet) be `entry`.
Then `smp_unicast_message` reaches a state `s3` in which `msg.refs = 1` and
`msg.async = async`, the queue of `cpu` is the chain `entry :: L0` (`entry` is the head
and its `next` is the old head), no other queue, entry or message has changed, and an
IPI has been sent to `cpu` if and only if its queue was empty before the insertion,
which is exactly when `smp_enqueue_message` returns `true`. An asynchronous send returns
in `s3`; a synchronous one goes on from `s3` with the wait loop and the return to the
pool. -/
theorem unicast_message_send (fuel cur cpu msg : Nat) (async : Bool) (s : System)
    (L0 : List Nat) (hne : cpu ≠ cur) (hcpu : cpu < s.count)
    (hentry : (s.entries ((s.msgs msg).per_proc_entries + cpu)).msg = msg)
    (hq : IsList (fun e => (s.entries e).next) (s.procs cpu).m_message_queue L0)
    (hfresh : (s.msgs msg).per_proc_entries + cpu ∉ L0) :
    ∃ t s3, smp_enqueue_message cpu msg
          { s with msgs := upd s.msgs msg { s.msgs msg with async := async, refs := 1 } }
        = Except.ok (decide ((s.procs cpu).m_message_queue = none), t) ∧
      (s3.msgs msg).refs = 1 ∧ (s3.msgs msg).async = async ∧
      (∀ m, m ≠ msg → s3.msgs m = s.msgs m) ∧
      (s3.procs cpu).m_message_queue = some ((s.msgs msg).per_proc_entries + cpu) ∧
      (s3.entries ((s.msgs msg).per_proc_entries + cpu)).next = (s.procs cpu).m_message_queue ∧
      IsList (fun e => (s3.entries e).next) (s3.procs cpu).m_message_queue
        (((s.msgs msg).per_proc_entries + cpu) :: L0) ∧
      (∀ c, c ≠ cpu → s3.procs c = s.procs c) ∧
      (∀ e, e ≠ (s.msgs msg).per_proc_entries + cpu → s3.entries e = s.entries e) ∧
      s3.trace = s.trace
        ++ (if (s.procs cpu).m_message_queue = none then [Event.send_ipi cpu] else []) ∧
      smp_unicast_message fuel cur cpu msg async s =
        (if async = false then
          match wait_refs_zero fuel cur msg fuel s3 with
          | Except.error f => Except.error f
          | Except.ok s5 => smp_return_to_pool msg (smp_cleanup_message msg s5)
         else Except.ok s3) := by
  obtain ⟨t, s3, hrun, hs3, f1, f2, f3, f4, f5, _, f7, f8, f9, f10⟩ :=
    unicast_message_send_spec cpu msg async s L0 hentry hq hfresh
  refine ⟨t, s3, hrun, f1, f2, f3, f4, f5, f7, f8, f9, f10, ?_⟩
  rw [smp_unicast_message_unfold fuel cur cpu msg async s hne hcpu, hrun, hs3]

/-- Witness for C13 on `demo_system`: core 0 sends message 0 asynchronously to core 1,
whose queue is empty. The call returns with entry 1 as the queue of core 1, count 1, and
one IPI to core 1. -/
theorem unicast_message_send_witness :
    ∃ s3, smp_unicast_message 1 0 1 0 true demo_system = Except.ok s3 ∧
      (s3.msgs 0).refs = 1 ∧ (s3.procs 1).m_message_queue = some 1 ∧
      (s3.entries 1).next = none ∧ s3.trace = [Event.send_ipi 1] := by
  obtain ⟨_, s3, _, a1, _, _, a4, a5, _, _, _, a9, a10⟩ :=
    unicast_message_send 1 0 1 0 true demo_system [] (by decide) (by decide) rfl rfl
      (List.not_mem_nil _)
  have hd0 : (demo_system.msgs 0).per_proc_entries + 1 = 1 := rfl
  have hq0 : (demo_system.procs 1).m_message_queue = none := rfl
  rw [hd0] at a4 a5
  rw [hq0] at a5
  rw [hq0, if_pos rfl] at a9
  simp only [Bool.true_eq_false, if_false] at a10
  exact ⟨s3, a10, a1, a4, a5, a9⟩

/-- C14 (broadcast send). On `N ≥ 2` cores, let the sender hold the message `msg`
(acquired, queued nowhere) in a state that satisfies the invariants. Then
`smp_broadcast_message(msg)` on `sender` returns with `msg.refs = N - 1`; the queue of
every other core `c` is its old queue with the one delivery entry `msg * N + c` of `msg`
in front (the entry is the new head and its `next` is the old head), the queue of the
sender is what it was, and one broadcast IPI is sent if and only if the queue of some
other core was empty before the insertion into it (the insertions into the other queues
do not touch it). -/
theorem broadcast_message_send {N : Nat} {s : System} {Q : Nat → List Nat} {H F : List Nat}
    (ci : ChainInv N s Q) (mi : MsgInv N s Q H F) (sender msg : Nat)
    (hN : 2 ≤ N) (hs : sender < N) (hheld : msg ∈ H) (hfresh : ∀ c, msg ∉ Q c) :
    ∃ s1, smp_broadcast_message sender msg s = Except.ok s1 ∧ (s1.msgs msg).refs = N - 1 ∧
      ChainInv N s1 (fun c => if c < N ∧ c ≠ sender then msg :: Q c else Q c) ∧
      (∀ c, c < N → c ≠ sender →
        (s1.procs c).m_message_queue = some (msg * N + c) ∧
        (s1.entries (msg * N + c)).next = (s.procs c).m_message_queue ∧
        (s1.entries (msg * N + c)).msg = msg) ∧
      (s1.procs sender).m_message_queue = (s.procs sender).m_message_queue ∧
      s1.trace = s.trace ++
        (if ∃ c, c < N ∧ c ≠ sender ∧ (s.procs c).m_message_queue = none
          then [Event.broadcast_ipi] else []) := by
  obtain ⟨s1, hrun, ci1, _, hrefs, _, _, _, _, _, htr⟩ :=
    smp_broadcast_message_spec ci mi hN hs hheld hfresh
  have hQ : broadcast_queues (List.range N) sender msg Q
      = fun c => if c < N ∧ c ≠ sender then msg :: Q c else Q c := by
    funext c
    simp [broadcast_queues, List.mem_range]
  rw [hQ] at ci1
  have hmN : msg < 100 * N := mi.held_lt msg hheld
  refine ⟨s1, hrun, hrefs, ci1, fun c hc hcs => ?_, ?_, ?_⟩
  · have h1 := ci1.queue c hc
    simp only [if_pos (And.intro hc hcs), List.map_cons] at h1
    exact ⟨h1.1, h1.2.head_eq (ci.queue c hc), ci1.entry_msg msg c hmN hc⟩
  · have h1 := ci1.queue sender hs
    simp only [if_neg (fun hh : sender < N ∧ sender ≠ sender => hh.2 rfl)] at h1
    exact h1.head_eq (ci.queue sender hs)
  · rw [htr]
    by_cases hex : ∃ c, c < N ∧ c ≠ sender ∧ (s.procs c).m_message_queue = none
    · have hany : (List.range N).any
          (fun c => decide (c ≠ sender ∧ (s.procs c).m_message_queue = none)) = true := by
        obtain ⟨c, hc, hcs, hq⟩ := hex
        exact List.any_eq_true.2 ⟨c, List.mem_range.2 hc, by simp [hcs, hq]⟩
      rw [if_pos hex, if_pos hany]
    · have hany : ¬ (List.range N).any
          (fun c => decide (c ≠ sender ∧ (s.procs c).m_message_queue = none)) = true := by
        intro hh
        obtain ⟨c, hc, hd⟩ := List.any_eq_true.1 hh
        simp only [decide_eq_true_eq] at hd
        exact hex ⟨c, List.mem_range.1 hc, hd.1, hd.2⟩
      rw [if_neg hex, if_neg hany]

/-- Witness for C14 on two freshly enabled cores: core 0 acquires message 0 and broadcasts
it. The count is 1, entry 1 is the queue of core 1, the queue of core 0 stays empty, and
one broadcast IPI is sent. -/
theorem broadcast_message_send_witness :
    ∃ s0 s1, smp_get_from_pool 200 0 1 (enabled_system 2) = Except.ok (0, s0) ∧
      smp_broadcast_message 0 0 s0 = Except.ok s1 ∧ (s1.msgs 0).refs = 1 ∧
      (s1.procs 1).m_message_queue = some 1 ∧ (s1.procs 0).m_message_queue = none ∧
      s1.trace = [Event.get_from_pool 0, Event.broadcast_ipi] := by
  obtain ⟨ci, mi⟩ := smp_enable_inv demo_mm 2 (fun c => c) (by norm_num) (by norm_num)
  have hrange : List.range (100 * 2) = 0 :: List.range' 1 199 := by
    rw [List.range_eq_range']
    exact List.range'_succ 0 199 1
  rw [hrange] at mi
  obtain ⟨s0, hget, mi0, hfresh, he, hp, _, _, _, htr0⟩ := smp_get_from_pool_spec mi 200 0 0
  obtain ⟨s1, hb, hrefs, _, hq, hq0, htr⟩ :=
    broadcast_message_send (ci.transfer_chain he hp) mi0 0 0 (by norm_num) (by norm_num)
      (List.mem_cons_self 0 []) hfresh
  have hnone : ∀ c, (s0.procs c).m_message_queue = none := fun c => by rw [hp]; rfl
  refine ⟨s0, s1, hget, hb, hrefs, (hq 1 (by norm_num) (by norm_num)).1, ?_, ?_⟩
  · rw [hq0]
    exact hnone 0
  · rw [htr, if_pos ⟨1, by norm_num, by norm_num, hnone 1⟩, htr0]
    rfl

/-- C20 (zero expected contributors is fatal). On a single-core machine
`smp_broadcast_message` fails its assertion `VERIFY(msg.refs > 0)`, for every sender and
message. One pass of the drain loop over a message whose count is already zero fails an
assertion instead of going on with a wrapped counter. So a drain whose oldest queued
entry belongs to such a message fails the assertion, and a drain of a well-formed queue
of pairwise distinct messages never returns when any queued message has count zero. -/
theorem zero_contributors_fatal :
    (∀ sender msg (s : System), s.count = 1 →
      smp_broadcast_message sender msg s = Except.error Fault.verify_failed) ∧
    (∀ cpu m (s : System), (s.msgs m).refs = 0 →
      process_one cpu m s = Except.error Fault.verify_failed) ∧
    (∀ cpu fuel (s : System) (L1 : List Nat) (e : Nat), s.s_smp_enabled = true →
      IsList (fun e => (s.entries e).next) (s.procs cpu).m_message_queue (L1 ++ [e]) →
      (L1 ++ [e]).length ≤ fuel → (s.msgs (s.entries e).msg).refs = 0 →
      smp_process_pending_messages fuel cpu s = Except.error Fault.verify_failed) ∧
    (∀ cpu fuel (s : System) (L : List Nat), s.s_smp_enabled = true →
      IsList (fun e => (s.entries e).next) (s.procs cpu).m_message_queue L →
      (L.map (fun e => (s.entries e).msg)).Nodup → L.length ≤ fuel →
      (∃ e, e ∈ L ∧ (s.msgs (s.entries e).msg).refs = 0) →
      ∀ r, smp_process_pending_messages fuel cpu s ≠ Except.ok r) := by
  refine ⟨fun sender msg s hc => smp_broadcast_message_single sender msg s hc,
    fun cpu m s hz => process_one_zero_refs hz,
    fun cpu fuel s L1 e hen hq hfuel hz => drain_zero_refs_first hen hq hfuel hz, ?_⟩
  intro cpu fuel s L hen hq hnd hfuel hex r h
  obtain ⟨e, he, hz⟩ := hex
  obtain ⟨b, s1⟩ := r
  have hL : L ≠ [] := by
    rintro rfl
    exact absurd he (List.not_mem_nil e)
  obtain ⟨t0, t2, hp, hm0, _⟩ := drain_refines hen hq hL hfuel h
  have hnd1 : (L.reverse.map (fun e => (s.entries e).msg)).Nodup := by
    rw [List.map_reverse]
    exact List.nodup_reverse.2 hnd
  obtain ⟨_, erefs, _⟩ := process_in_order_effect cpu _ t0 t2 hnd1 hp
  have hm1 : (s.entries e).msg ∈ L.reverse.map (fun e => (s.entries e).msg) :=
    List.mem_map.2 ⟨e, List.mem_reverse.2 he, rfl⟩
  have := (erefs _ hm1).2
  rw [hm0] at this
  exact this hz

/-- Witness for C20: a broadcast on one freshly enabled core, and a drain of core 1 of
`demo_system` after message 0 was queued there with its count set to zero; both fail
the assertion. -/
theorem zero_contributors_fatal_witness :
    smp_broadcast_message 0 0 (enabled_system 1) = Except.error Fault.verify_failed ∧
      ∃ s1, smp_enqueue_message 1 0
          { demo_system with msgs := fun m => { demo_system.msgs m with refs := 0 } }
            = Except.ok (true, s1) ∧
        smp_process_pending_messages 1 1 s1 = Except.error Fault.verify_failed :=
  ⟨zero_contributors_fatal.1 0 0 (enabled_system 1) rfl,
    _, rfl, zero_contributors_fatal.2.2.1 1 1 _ [] 1 rfl ⟨rfl, rfl⟩ (by decide) rfl⟩

/-- C19: deferred-call pool discipline. After `deferred_call_pool_init` on a pool of
`n` entries, every sequence of `deferred_call_queue` and `deferred_call_execute_pending`
calls made inside a critical section returns, and in the state it reaches, with pending
list `P` and free list `F`: the length of the free list plus the number of pending
pool-resident entries (`was_allocated = false`) is the pool size; when the free list is
`e :: F1`, `deferred_call_get_free` returns `e`, a pool entry with `was_allocated = false`,
leaves the free list `F1` and allocates nothing; when the free list is empty it returns
a new heap entry with `was_allocated = true` that is neither a pool entry nor pending;
`deferred_call_execute_pending` returns with nothing pending, the executed pool-resident
entries back in front of the free list, which then holds every pool entry, and every
executed heap entry deleted, in execution order. -/
theorem deferred_pool_discipline (n : Nat) (hn : 0 < n) (s0 : DeferredCalls)
    (hcrit : 0 < s0.m_in_critical) (ops : List DeferredOp) (fuel : Nat)
    (hfuel : ops.length ≤ fuel) :
    ∃ s P F, run_deferred_ops fuel ops (deferred_call_pool_init n s0) = Except.ok s ∧
      IsList (fun e => (s.entries e).next) s.m_pending_deferred_calls P ∧
      IsList (fun e => (s.entries e).next) s.m_free_deferred_call_pool_entry F ∧
      F.length + (P.filter (fun e => !(s.entries e).was_allocated)).length = n ∧
      (∀ e, e ∈ F → e < n ∧ (s.entries e).was_allocated = false) ∧
      (∀ e F1, F = e :: F1 →
        ∃ s1, deferred_call_get_free s = Except.ok (e, s1) ∧
          (s1.entries e).was_allocated = false ∧ e < n ∧
          IsList (fun x => (s1.entries x).next) s1.m_free_deferred_call_pool_entry F1 ∧
          e ∉ F1 ∧ allocated_entries s1.trace = allocated_entries s.trace) ∧
      (F = [] →
        ∃ s1, deferred_call_get_free s = Except.ok (s.next_alloc, s1) ∧
          (s1.entries s.next_alloc).was_allocated = true ∧ n ≤ s.next_alloc ∧
          s.next_alloc ∉ P ∧
          allocated_entries s1.trace = allocated_entries s.trace ++ [s.next_alloc]) ∧
      (∃ s1 F1, deferred_call_execute_pending fuel s = Except.ok s1 ∧
        s1.m_pending_deferred_calls = none ∧
        IsList (fun e => (s1.entries e).next) s1.m_free_deferred_call_pool_entry F1 ∧
        F1 = P.filter (fun e => !(s.entries e).was_allocated) ++ F ∧
        F1.length = n ∧ (∀ e, e < n → e ∈ F1) ∧
        freed_entries s1.trace
          = freed_entries s.trace ++ P.reverse.filter (fun e => (s.entries e).was_allocated)) := by
  obtain ⟨s, P, F, hrun, hinv, hc, hlen⟩ :=
    run_deferred_ops_pool n ops fuel (deferred_call_pool_init n s0) [] (List.range n)
      (deferred_call_pool_init_inv n hn s0) hcrit (by simpa using hfuel)
  have hcs : 0 < s.m_in_critical := by rw [hc]; exact hcrit
  refine ⟨s, P, F, hrun, hinv.pending, hinv.free, ?_, ?_, ?_, ?_, ?_⟩
  · rw [hinv.filter_flag]
    exact hinv.count
  · intro e he
    exact ⟨hinv.free_lt e he, hinv.flag_pool e (hinv.free_lt e he)⟩
  · intro e F1 hF
    subst hF
    obtain ⟨s1, hget, hwa, hlt, hfree, heF, _, htr, _⟩ := deferred_call_get_free_pool hinv hcs
    exact ⟨s1, hget, hwa, hlt, hfree, heF, by rw [htr]⟩
  · intro hF
    subst hF
    obtain ⟨s1, hget, hwa, hge, hfresh, _, htr, _⟩ := deferred_call_get_free_heap hinv hcs
    exact ⟨s1, hget, hwa, hge, hfresh, by
      rw [htr, allocated_entries_append]
      rfl⟩
  · obtain ⟨s1, hex, hinv1, hpend, hfr, _, _⟩ :=
      deferred_call_execute_pending_pool hinv hcs fuel hlen
    refine ⟨s1, _, hex, hpend, hinv1.free, by rw [hinv.filter_flag], ?_, ?_, ?_⟩
    · simpa using hinv1.count
    · intro e he
      rcases hinv1.cover e he with h | h
      · exact absurd h (List.not_mem_nil _)
      · exact h
    · rw [hfr]
      congr 1
      refine List.filter_congr (fun e he => ?_)
      have heP : e ∈ P := List.mem_reverse.1 he
      by_cases hlt : e < n
      · simp [hinv.flag_pool e hlt, hlt]
      · simp [hinv.flag_heap e heP (Nat.le_of_not_lt hlt), Nat.le_of_not_lt hlt]

/-- A pool of two entries and three submitted callbacks: the third one takes a heap
entry. -/
theorem deferred_pool_discipline_witness :
    0 < 2 ∧ 0 < ({ deferred_boot with m_in_critical := 1 } : DeferredCalls).m_in_critical ∧
    [DeferredOp.queue 7, DeferredOp.queue 8, DeferredOp.queue 9].length ≤ 3 ∧
    ∃ s P F, run_deferred_ops 3 [DeferredOp.queue 7, DeferredOp.queue 8, DeferredOp.queue 9]
        (deferred_call_pool_init 2 { deferred_boot with m_in_critical := 1 }) = Except.ok s ∧
      IsList (fun e => (s.entries e).next) s.m_pending_deferred_calls P ∧
      IsList (fun e => (s.entries e).next) s.m_free_deferred_call_pool_entry F ∧
      F.length + (P.filter (fun e => !(s.entries e).was_allocated)).length = 2 ∧
      (∀ e, e ∈ F → e < 2 ∧ (s.entries e).was_allocated = false) ∧
      (∀ e F1, F = e :: F1 →
        ∃ s1, deferred_call_get_free s = Except.ok (e, s1) ∧
          (s1.entries e).was_allocated = false ∧ e < 2 ∧
          IsList (fun x => (s1.entries x).next) s1.m_free_deferred_call_pool_entry F1 ∧
          e ∉ F1 ∧ allocated_entries s1.trace = allocated_entries s.trace) ∧
      (F = [] →
        ∃ s1, deferred_call_get_free s = Except.ok (s.next_alloc, s1) ∧
          (s1.entries s.next_alloc).was_allocated = true ∧ 2 ≤ s.next_alloc ∧
          s.next_alloc ∉ P ∧
          allocated_entries s1.trace = allocated_entries s.trace ++ [s.next_alloc]) ∧
      (∃ s1 F1, deferred_call_execute_pending 3 s = Except.ok s1 ∧
        s1.m_pending_deferred_calls = none ∧
        IsList (fun e => (s1.entries e).next) s1.m_free_deferred_call_pool_entry F1 ∧
        F1 = P.filter (fun e => !(s.entries e).was_allocated) ++ F ∧
        F1.length = 2 ∧ (∀ e, e < 2 → e ∈ F1) ∧
        freed_entries s1.trace
          = freed_entries s.trace ++ P.reverse.filter (fun e => (s.entries e).was_allocated)) :=
  ⟨by decide, by decide, by decide,
    deferred_pool_discipline 2 (by decide) { deferred_boot with m_in_critical := 1 } (by decide)
      [DeferredOp.queue 7, DeferredOp.queue 8, DeferredOp.queue 9] 3 (by decide)⟩

/-- C17: the effect of `enter_trap`. With interrupts disabled (its entry assertion) and,
when there is a current thread, a frame that has its register state, `enter_trap(trap,
raise_irq)` returns; it has recorded the value of `m_in_irq` on entry in
`trap.prev_irq_level`; `m_in_irq` is one larger if `raise_irq` is true and unchanged
otherwise; with a current thread the frame is pushed (`trap.next_trap` is the thread's
previous `current_trap`, and the thread's `current_trap` is the frame); without a
current thread `trap.next_trap` is null; `m_in_critical` is not modified. -/
theorem enter_trap_records_and_pushes (trap : Nat) (raise_irq : Bool) (s : Core)
    (hint : s.interrupts_enabled = false)
    (hregs : s.current_thread ≠ none → (s.traps trap).regs ≠ none) :
    ∃ s1, enter_trap trap raise_irq s = Except.ok s1 ∧
      (s1.traps trap).prev_irq_level = s.m_in_irq ∧
      s1.m_in_irq = (if raise_irq = true then s.m_in_irq + 1 else s.m_in_irq) ∧
      (∀ t, s.current_thread = some t →
        (s1.traps trap).next_trap = (s.threads t).current_trap ∧
          (s1.threads t).current_trap = some trap) ∧
      (s.current_thread = none → (s1.traps trap).next_trap = none) ∧
      s1.m_in_critical = s.m_in_critical := by
  obtain ⟨s1, h⟩ := enter_trap_total trap raise_irq s hint hregs
  have e := (enter_trap_spec h).1
  exact ⟨s1, h, e.recorded, e.irq, e.pushed, fun hn => (e.no_thread hn).1, e.critical⟩

/-- Entering a second, interrupt-sourced trap with frame 1 inside one interrupt handler:
the depth goes from 1 to 2 and frame 1 is pushed above frame 0. -/
theorem enter_trap_records_and_pushes_witness :
    irq_demo_core.interrupts_enabled = false ∧
    (irq_demo_core.current_thread ≠ none → (irq_demo_core.traps 1).regs ≠ none) ∧
    ∃ s1, enter_trap 1 true irq_demo_core = Except.ok s1 ∧
      (s1.traps 1).prev_irq_level = irq_demo_core.m_in_irq ∧
      s1.m_in_irq = (if true = true then irq_demo_core.m_in_irq + 1 else irq_demo_core.m_in_irq) ∧
      (∀ t, irq_demo_core.current_thread = some t →
        (s1.traps 1).next_trap = (irq_demo_core.threads t).current_trap ∧
          (s1.threads t).current_trap = some 1) ∧
      (irq_demo_core.current_thread = none → (s1.traps 1).next_trap = none) ∧
      s1.m_in_critical = irq_demo_core.m_in_critical :=
  ⟨rfl, fun _ => Option.some_ne_none 8,
    enter_trap_records_and_pushes 1 true irq_demo_core rfl (fun _ => Option.some_ne_none 8)⟩

/-- C15: the scheduler hook of `exit_trap`. A returning `exit_trap` has restored
`m_in_irq` to `trap.prev_irq_level` and has undone its own increment of `m_in_critical`;
it has called `Scheduler::invoke_async` once if both are then zero, a reschedule was
requested and the scheduler is initialized, and not at all otherwise; when it has called
it, `m_invoke_scheduler_async` is cleared, and while the flag is clear a following
`check_invoke_scheduler` or `exit_trap` does not call it again. -/
theorem exit_trap_invokes_scheduler_once (fuel trap : Nat) (s s1 : Core)
    (h : exit_trap fuel trap s = Except.ok s1) :
    s1.m_in_irq = (s.traps trap).prev_irq_level ∧ s1.m_in_critical = s.m_in_critical ∧
      hook_count s1.trace = hook_count s.trace +
        (if s1.m_in_irq = 0 ∧ s1.m_in_critical = 0 ∧ s.m_invoke_scheduler_async = true ∧
            s.m_scheduler_initialized = true then 1 else 0) ∧
      (hook_count s1.trace ≠ hook_count s.trace → s1.m_invoke_scheduler_async = false) ∧
      (hook_count s1.trace = hook_count s.trace →
        s1.m_invoke_scheduler_async = s.m_invoke_scheduler_async) ∧
      (s1.m_invoke_scheduler_async = false →
        (∀ s2, check_invoke_scheduler s1 = Except.ok s2 →
          hook_count s2.trace = hook_count s1.trace) ∧
        (∀ fuel2 trap2 s2, exit_trap fuel2 trap2 s1 = Except.ok s2 →
          hook_count s2.trace = hook_count s1.trace)) := by
  have x := exit_trap_spec h
  have hcond : (s1.m_in_irq = 0 ∧ s1.m_in_critical = 0 ∧ s.m_invoke_scheduler_async = true ∧
      s.m_scheduler_initialized = true) ↔ invokes_scheduler trap s := by
    unfold invokes_scheduler
    rw [x.irq, x.critical]
  have hhook := x.hook
  have hflag := x.flag
  refine ⟨x.irq, x.critical, ?_, ?_, ?_, ?_⟩
  · rw [hhook]
    by_cases hc : invokes_scheduler trap s
    · rw [if_pos hc, if_pos (hcond.2 hc)]
    · rw [if_neg hc, if_neg (fun h => hc (hcond.1 h))]
  · intro hne
    by_cases hc : invokes_scheduler trap s
    · rw [hflag, if_pos hc]
    · rw [if_neg hc] at hhook
      exact absurd hhook hne
  · intro heq
    by_cases hc : invokes_scheduler trap s
    · rw [if_pos hc] at hhook
      omega
    · rw [hflag, if_neg hc]
  · intro hclear
    constructor
    · intro s2 h2
      obtain ⟨_, _, _, _, _, _, _, _, _, _, _, _, d11, _⟩ := check_invoke_scheduler_spec h2
      rw [d11, if_neg (fun hc => by rw [hclear] at hc; cases hc.1)]
      rfl
    · intro fuel2 trap2 s2 h2
      have x2 := exit_trap_spec h2
      rw [x2.hook, if_neg (fun hc => by
        have h3 := hc.2.2.1
        rw [hclear] at h3
        cases h3)]
      rfl

/-- Leaving the only interrupt handler with a reschedule requested: the scheduler is
called once and the request is cleared. -/
theorem exit_trap_invokes_scheduler_once_witness :
    ∃ s1, exit_trap 1 0 irq_demo_core = Except.ok s1 ∧ hook_count s1.trace = 1 ∧
      s1.m_in_irq = (irq_demo_core.traps 0).prev_irq_level ∧
      s1.m_in_critical = irq_demo_core.m_in_critical ∧
      hook_count s1.trace = hook_count irq_demo_core.trace +
        (if s1.m_in_irq = 0 ∧ s1.m_in_critical = 0 ∧
            irq_demo_core.m_invoke_scheduler_async = true ∧
            irq_demo_core.m_scheduler_initialized = true then 1 else 0) ∧
      (hook_count s1.trace ≠ hook_count irq_demo_core.trace →
        s1.m_invoke_scheduler_async = false) ∧
      (hook_count s1.trace = hook_count irq_demo_core.trace →
        s1.m_invoke_scheduler_async = irq_demo_core.m_invoke_scheduler_async) ∧
      (s1.m_invoke_scheduler_async = false →
        (∀ s2, check_invoke_scheduler s1 = Except.ok s2 →
          hook_count s2.trace = hook_count s1.trace) ∧
        (∀ fuel2 trap2 s2, exit_trap fuel2 trap2 s1 = Except.ok s2 →
          hook_count s2.trace = hook_count s1.trace)) :=
  ⟨_, rfl, rfl, exit_trap_invokes_scheduler_once 1 0 irq_demo_core _ rfl⟩

/-- C16: trap entry and exit are a round trip. With interrupts disabled and every frame
holding its register state, for both values of `raise_irq`: `enter_trap(t1)` returns,
and every returning `exit_trap(t1)` after it has restored `m_in_irq` and the current
thread's `current_trap` to their values before `enter_trap` and left `m_in_critical`
unchanged; for a second frame `t2`, the nested sequence `enter(t1)`, `enter(t2)`,
`exit(t2)`, `exit(t1)` unwinds last in, first out: after `exit(t2)` the three are what
they were after `enter(t1)` (the current trap is `t1`), after `exit(t1)` what they were
at the start. When no message and no deferred call is pending the exits do return. -/
theorem trap_round_trip (s : Core) (t1 t2 : Nat) (r1 r2 : Bool) (fuel : Nat)
    (hint : s.interrupts_enabled = false) (hregs : ∀ t, (s.traps t).regs ≠ none)
    (hne : t1 ≠ t2) :
    ∃ s1, enter_trap t1 r1 s = Except.ok s1 ∧
      (∀ s2, exit_trap fuel t1 s1 = Except.ok s2 →
        s2.m_in_irq = s.m_in_irq ∧ s2.m_in_critical = s.m_in_critical ∧
        ∀ t, s.current_thread = some t →
          (s2.threads t).current_trap = (s.threads t).current_trap) ∧
      (MessagesQuiet s → s.deferred.m_pending_deferred_calls = none →
        ∃ s2, exit_trap fuel t1 s1 = Except.ok s2) ∧
      ∃ s2, enter_trap t2 r2 s1 = Except.ok s2 ∧
        (∀ s3 s4, exit_trap fuel t2 s2 = Except.ok s3 → exit_trap fuel t1 s3 = Except.ok s4 →
          (s3.m_in_irq = s1.m_in_irq ∧ s3.m_in_critical = s1.m_in_critical ∧
            ∀ t, s.current_thread = some t → (s3.threads t).current_trap = some t1) ∧
          (s4.m_in_irq = s.m_in_irq ∧ s4.m_in_critical = s.m_in_critical ∧
            ∀ t, s.current_thread = some t →
              (s4.threads t).current_trap = (s.threads t).current_trap)) ∧
        (MessagesQuiet s → s.deferred.m_pending_deferred_calls = none →
          ∃ s3 s4, exit_trap fuel t2 s2 = Except.ok s3 ∧ exit_trap fuel t1 s3 = Except.ok s4) := by
  obtain ⟨s1, h1⟩ := enter_trap_total t1 r1 s hint (fun _ => hregs t1)
  have e1 := (enter_trap_spec h1).1
  have hint1 : s1.interrupts_enabled = false := e1.interrupts.trans hint
  have hregs1 : ∀ t, (s1.traps t).regs ≠ none := fun t => by rw [e1.regs t]; exact hregs t
  obtain ⟨s2, h2⟩ := enter_trap_total t2 r2 s1 hint1 (fun _ => hregs1 t2)
  have e2 := (enter_trap_spec h2).1
  have hquiet1 : MessagesQuiet s → MessagesQuiet s1 := by
    intro hq
    unfold MessagesQuiet at hq ⊢
    rw [e1.smp, e1.id_eq]
    exact hq
  have hpend1 : s.deferred.m_pending_deferred_calls = none →
      s1.deferred.m_pending_deferred_calls = none := by
    intro hp
    rw [e1.deferred]
    exact hp
  refine ⟨s1, h1, fun s2 hx => trap_pair_restores e1 (exit_trap_spec hx),
    fun hq hp => trap_pair_total fuel e1 hint hregs hq hp, s2, h2, ?_, ?_⟩
  · intro s3 s4 hx2 hx1
    have x2 := exit_trap_spec hx2
    have x1 := exit_trap_spec hx1
    obtain ⟨a1, a2, a3⟩ := trap_pair_restores e2 x2
    have hframe : s3.traps t1 = s1.traps t1 := by
      rw [x2.traps]
      exact e2.frames t1 hne
    refine ⟨⟨a1, a2, fun t ht => ?_⟩, x1.irq.trans ?_, x1.critical.trans (a2.trans e1.critical),
      fun t ht => ?_⟩
    · rw [a3 t (e1.thread.trans ht)]
      exact (e1.pushed t ht).2
    · rw [hframe]
      exact e1.recorded
    · rw [x1.popped t (x2.thread.trans (e2.thread.trans (e1.thread.trans ht))), hframe]
      exact (e1.pushed t ht).1
  · intro hq hp
    obtain ⟨s3, hx2⟩ := trap_pair_total fuel e2 hint1 hregs1 (hquiet1 hq) (hpend1 hp)
    have x2 := exit_trap_spec hx2
    obtain ⟨a1, a2, a3⟩ := trap_pair_restores e2 x2
    have hq3 : MessagesQuiet s3 := by
      apply x2.quiet
      unfold MessagesQuiet
      rw [e2.smp, e2.id_eq]
      exact hquiet1 hq
    have hp3 : s3.deferred.m_pending_deferred_calls = none :=
      x2.idle (by rw [e2.deferred]; exact hpend1 hp)
    obtain ⟨s4, hx1⟩ := exit_trap_total fuel t1 s3 [] x2.interrupts
      (by
        rw [x2.traps, e2.frames t1 hne, e1.recorded, a1, e1.irq]
        split <;> omega)
      hq3 hp3 (Nat.zero_le _)
      (fun t nt _ _ => by rw [x2.traps, e2.regs nt]; exact hregs1 nt)
    exact ⟨s3, s4, hx2, hx1⟩

/-- Two more traps (frames 1 and 2, the first interrupt-sourced) entered and left inside
one interrupt handler. -/
theorem trap_round_trip_witness :
    irq_demo_core.interrupts_enabled = false ∧ (∀ t, (irq_demo_core.traps t).regs ≠ none) ∧
    (1 : Nat) ≠ 2 ∧
    ∃ s1, enter_trap 1 true irq_demo_core = Except.ok s1 ∧
      (∀ s2, exit_trap 1 1 s1 = Except.ok s2 →
        s2.m_in_irq = irq_demo_core.m_in_irq ∧
        s2.m_in_critical = irq_demo_core.m_in_critical ∧
        ∀ t, irq_demo_core.current_thread = some t →
          (s2.threads t).current_trap = (irq_demo_core.threads t).current_trap) ∧
      (MessagesQuiet irq_demo_core → irq_demo_core.deferred.m_pending_deferred_calls = none →
        ∃ s2, exit_trap 1 1 s1 = Except.ok s2) ∧
      ∃ s2, enter_trap 2 false s1 = Except.ok s2 ∧
        (∀ s3 s4, exit_trap 1 2 s2 = Except.ok s3 → exit_trap 1 1 s3 = Except.ok s4 →
          (s3.m_in_irq = s1.m_in_irq ∧ s3.m_in_critical = s1.m_in_critical ∧
            ∀ t, irq_demo_core.current_thread = some t →
              (s3.threads t).current_trap = some 1) ∧
          (s4.m_in_irq = irq_demo_core.m_in_irq ∧
            s4.m_in_critical = irq_demo_core.m_in_critical ∧
            ∀ t, irq_demo_core.current_thread = some t →
              (s4.threads t).current_trap = (irq_demo_core.threads t).current_trap)) ∧
        (MessagesQuiet irq_demo_core →
          irq_demo_core.deferred.m_pending_deferred_calls = none →
          ∃ s3 s4, exit_trap 1 2 s2 = Except.ok s3 ∧ exit_trap 1 1 s3 = Except.ok s4) :=
  ⟨rfl, fun _ => Option.some_ne_none 8, by decide,
    trap_round_trip irq_demo_core 1 2 true false 1 rfl (fun _ => Option.some_ne_none 8)
      (by decide)⟩

/-- C18, counterexample: leaving the inner of two nested interrupt handlers restores the
nesting depth 1, which is not zero, and the deferred call that was pending has been
executed all the same and is no longer queued. -/
theorem nested_exit_runs_deferred_calls :
    (nested_demo_core.traps 1).prev_irq_level = 1 ∧
    nested_demo_core.deferred.m_pending_deferred_calls = some 0 ∧
    invoked nested_demo_core.deferred.trace = [] ∧
    ∃ s1, exit_trap 1 1 nested_demo_core = Except.ok s1 ∧ s1.m_in_irq = 1 ∧
      invoked s1.deferred.trace = [some 7] ∧ s1.deferred.m_pending_deferred_calls = none :=
  ⟨rfl, rfl, rfl, _, rfl, rfl, rfl, rfl⟩

/-- C18, as the code has it: `exit_trap` executes the pending deferred calls on every
exit, whatever the nesting depth it restores. With a well-formed pending list `P` that
the iteration budget covers, every returning `exit_trap` has restored `m_in_irq` to
`trap.prev_irq_level`, zero or not, has invoked the handlers of all of `P`, oldest first,
and leaves no deferred call pending; and `exit_trap` does return when its entry
assertions hold, the drain has nothing to do and the frame below has its register
state. -/
theorem exit_trap_executes_deferred_calls (fuel trap : Nat) (s : Core) (P : List Nat)
    (hP : IsList (fun e => (s.deferred.entries e).next) s.deferred.m_pending_deferred_calls P)
    (hfuel : P.length ≤ fuel) :
    (∀ s1, exit_trap fuel trap s = Except.ok s1 →
      s1.m_in_irq = (s.traps trap).prev_irq_level ∧
      s1.deferred.m_pending_deferred_calls = none ∧
      invoked s1.deferred.trace
        = invoked s.deferred.trace ++ P.reverse.map (fun e => (s.deferred.entries e).handler)) ∧
    (s.interrupts_enabled = false → (s.traps trap).prev_irq_level ≤ s.m_in_irq →
      MessagesQuiet s →
      (∀ t nt, s.current_thread = some t → (s.traps trap).next_trap = some nt →
        (s.traps nt).regs ≠ none) →
      ∃ s1, exit_trap fuel trap s = Except.ok s1) := by
  constructor
  · intro s1 h
    have x := exit_trap_spec h
    obtain ⟨d, hd, hinvk, hpend⟩ := deferred_call_execute_pending_invoked
      (s := { s.deferred with m_in_critical := s.m_in_critical + 1 }) hP (Nat.succ_pos _)
      fuel hfuel
    have heq := hd.symm.trans x.deferred
    injection heq with heq
    rw [← heq]
    exact ⟨x.irq, hpend, hinvk⟩
  · intro hint hlvl hq hregs
    exact exit_trap_total fuel trap s P hint hlvl hq hP hfuel hregs

/-- The inner exit of two nested interrupt handlers with one deferred call pending. -/
theorem exit_trap_executes_deferred_calls_witness :
    IsList (fun e => (nested_demo_core.deferred.entries e).next)
      nested_demo_core.deferred.m_pending_deferred_calls [0] ∧ [0].length ≤ 1 ∧
    (∀ s1, exit_trap 1 1 nested_demo_core = Except.ok s1 →
      s1.m_in_irq = (nested_demo_core.traps 1).prev_irq_level ∧
      s1.deferred.m_pending_deferred_calls = none ∧
      invoked s1.deferred.trace
        = invoked nested_demo_core.deferred.trace
          ++ [0].reverse.map (fun e => (nested_demo_core.deferred.entries e).handler)) ∧
    (nested_demo_core.interrupts_enabled = false →
      (nested_demo_core.traps 1).prev_irq_level ≤ nested_demo_core.m_in_irq →
      MessagesQuiet nested_demo_core →
      (∀ t nt, nested_demo_core.current_thread = some t →
        (nested_demo_core.traps 1).next_trap = some nt →
        (nested_demo_core.traps nt).regs ≠ none) →
      ∃ s1, exit_trap 1 1 nested_demo_core = Except.ok s1) :=
  ⟨⟨rfl, rfl⟩, by decide,
    exit_trap_executes_deferred_calls 1 1 nested_demo_core [0] ⟨rfl, rfl⟩ (by decide)⟩

/-- C24: the message pool is a stack. With the free list `F` and a message `m` that is
not on it: on a non-empty pool `smp_get_from_pool` returns the head and makes the head's
`next` the new head; `smp_return_to_pool(m)` makes `m` the head with `m.next` the old
head; and `smp_return_to_pool(m)` followed at once by `smp_get_from_pool` returns `m`
and leaves the pool head and the free list as they were before the release. -/
theorem pool_is_lifo (s : System) (F : List Nat) (m dfuel cpu fuel : Nat)
    (hF : IsList (fun x => (s.msgs x).next) s.s_message_pool F) (hm : m ∉ F) :
    (∀ h F1, F = h :: F1 →
      ∃ s1, smp_get_from_pool dfuel cpu (fuel + 1) s = Except.ok (h, s1) ∧
        s1.s_message_pool = (s.msgs h).next ∧
        IsList (fun x => (s1.msgs x).next) s1.s_message_pool F1) ∧
    ∃ s1, smp_return_to_pool m s = Except.ok s1 ∧
      s1.s_message_pool = some m ∧ (s1.msgs m).next = s.s_message_pool ∧
      IsList (fun x => (s1.msgs x).next) s1.s_message_pool (m :: F) ∧
      ∃ s2, smp_get_from_pool dfuel cpu (fuel + 1) s1 = Except.ok (m, s2) ∧
        s2.s_message_pool = s.s_message_pool ∧
        IsList (fun x => (s2.msgs x).next) s2.s_message_pool F ∧
        ∀ x, x ≠ m → s2.msgs x = s.msgs x := by
  constructor
  · intro h F1 hcons
    subst hcons
    obtain ⟨hhead, htail⟩ := hF
    refine ⟨emit (Event.get_from_pool h) { s with s_message_pool := (s.msgs h).next }, ?_, rfl,
      htail⟩
    unfold smp_get_from_pool
    simp [hhead, compare_exchange_strong]
  · have hchain : IsList (fun x => ((upd s.msgs m { s.msgs m with next := s.s_message_pool }) x).next)
        s.s_message_pool F := by
      refine hF.frame (fun y hy => ?_)
      have : y ≠ m := fun h => hm (h ▸ hy)
      simp [upd, this]
    refine ⟨_, smp_return_to_pool_eq m s, rfl, by simp, ⟨rfl, by simpa using hchain⟩, ?_⟩
    refine ⟨emit (Event.get_from_pool m)
      { s with msgs := upd s.msgs m { s.msgs m with next := s.s_message_pool },
               trace := s.trace ++ [Event.return_to_pool m] }, ?_, rfl, hchain, ?_⟩
    · unfold smp_get_from_pool
      simp [compare_exchange_strong, emit]
    · intro x hx
      simp [emit, upd, hx]

/-- A pool holding the messages 1 and 2; message 0 is released and acquired again. -/
theorem pool_is_lifo_witness :
    IsList (fun x => (pool_demo_system.msgs x).next) pool_demo_system.s_message_pool [1, 2] ∧
    0 ∉ [1, 2] ∧
    (∀ h F1, [1, 2] = h :: F1 →
      ∃ s1, smp_get_from_pool 1 0 (0 + 1) pool_demo_system = Except.ok (h, s1) ∧
        s1.s_message_pool = (pool_demo_system.msgs h).next ∧
        IsList (fun x => (s1.msgs x).next) s1.s_message_pool F1) ∧
    ∃ s1, smp_return_to_pool 0 pool_demo_system = Except.ok s1 ∧
      s1.s_message_pool = some 0 ∧ (s1.msgs 0).next = pool_demo_system.s_message_pool ∧
      IsList (fun x => (s1.msgs x).next) s1.s_message_pool (0 :: [1, 2]) ∧
      ∃ s2, smp_get_from_pool 1 0 (0 + 1) s1 = Except.ok (0, s2) ∧
        s2.s_message_pool = pool_demo_system.s_message_pool ∧
        IsList (fun x => (s2.msgs x).next) s2.s_message_pool [1, 2] ∧
        ∀ x, x ≠ 0 → s2.msgs x = pool_demo_system.msgs x :=
  ⟨⟨rfl, rfl, rfl⟩, by decide,
    pool_is_lifo pool_demo_system [1, 2] 0 1 0 0 ⟨rfl, rfl, rfl⟩ (by decide)⟩

/-- C26: the pool that `smp_enable` builds. On a machine with `N ≥ 1` cores, `N` in the
range in which the 32-bit product `N * 100` of the code does not wrap, after
`smp_enable` the free list is the chain of the `100 * N` messages `0 .. 100 * N - 1`,
pairwise distinct, ending in null; message `i` owns the delivery entries
`i * N .. i * N + N - 1`, and the blocks of two different messages share no entry; the
entry of every pooled message `m` for every core `k < N` points back at `m`, so
`smp_enqueue_message` passes its assertion for it. Starting from the booted machine this
stays so after every sequence of drains, unicasts and broadcast flushes that returns. -/
theorem smp_enable_pool_layout (s : System) (hN : 0 < s.count)
    (hP32 : s.count * 100 < 2 ^ 32) :
    IsList (fun m => ((smp_enable s).msgs m).next) (smp_enable s).s_message_pool
      (List.range (100 * s.count)) ∧
    (List.range (100 * s.count)).Nodup ∧
    (List.range (100 * s.count)).length = 100 * s.count ∧
    (∀ i, i < 100 * s.count → ((smp_enable s).msgs i).per_proc_entries = i * s.count) ∧
    (∀ i j k l, i < 100 * s.count → j < 100 * s.count → k < s.count → l < s.count → i ≠ j →
      ((smp_enable s).msgs i).per_proc_entries + k
        ≠ ((smp_enable s).msgs j).per_proc_entries + l) ∧
    (∀ m k, m < 100 * s.count → k < s.count →
      ((smp_enable s).entries (((smp_enable s).msgs m).per_proc_entries + k)).msg = m ∧
      ∃ b s1, smp_enqueue_message k m (smp_enable s) = Except.ok (b, s1)) ∧
    (∀ (cr3 : Nat → Nat) (fuel : Nat) (calls : List Call) (s1 : System),
      100 * s.count ≤ fuel →
      (∀ call, call ∈ calls → call.core < s.count) →
      run_calls fuel calls (smp_enable (boot s.mm s.count cr3)) = Except.ok s1 →
      ∀ m k, m < 100 * s.count → k < s.count →
        (s1.entries ((s1.msgs m).per_proc_entries + k)).msg = m ∧
        ∃ b s2, smp_enqueue_message k m s1 = Except.ok (b, s2)) := by
  obtain ⟨f1, f2, f3, f4, _, _, _, _⟩ := smp_enable_fields s.mm s.count (fun _ => 0) hP32
  have hmsgs : (smp_enable s).msgs = (smp_enable (boot s.mm s.count (fun _ => 0))).msgs := rfl
  have hents : (smp_enable s).entries
      = (smp_enable (boot s.mm s.count (fun _ => 0))).entries := rfl
  have hpool : (smp_enable s).s_message_pool = some 0 := rfl
  have hpp : ∀ i, i < 100 * s.count →
      ((smp_enable s).msgs i).per_proc_entries = i * s.count := by
    intro i hi
    rw [hmsgs]
    exact f2 i hi
  have hback : ∀ m k, m < 100 * s.count → k < s.count →
      ((smp_enable s).entries (((smp_enable s).msgs m).per_proc_entries + k)).msg = m := by
    intro m k hm hk
    rw [hpp m hm, hents]
    exact f3 m k hm hk
  refine ⟨?_, List.nodup_range _, List.length_range _, hpp, ?_, ?_, ?_⟩
  · rw [hpool, hmsgs, List.range_eq_range']
    exact isList_range' _ (100 * s.count) f1 (100 * s.count) 0 (by omega) (by omega)
  · intro i j k l hi hj hk hl hij heq
    rw [hpp i hi, hpp j hj] at heq
    exact hij (entry_index_inj hk hl heq).1
  · intro m k hm hk
    refine ⟨hback m k hm hk, ?_⟩
    obtain ⟨s1, h1, _⟩ := smp_enqueue_message_spec k m (smp_enable s) (hback m k hm hk)
    exact ⟨_, s1, h1⟩
  · intro cr3 fuel calls s1 hfuel hcores hrun m k hm hk
    obtain ⟨ci, mi⟩ := smp_enable_inv s.mm s.count cr3 hN hP32
    obtain ⟨Q1, F1, ci1, mi1⟩ := run_calls_inv hfuel calls _ s1 _ _ ci mi hcores hrun
    have hb : (s1.entries ((s1.msgs m).per_proc_entries + k)).msg = m := by
      rw [mi1.per_proc m hm]
      exact ci1.entry_msg m k hm hk
    refine ⟨hb, ?_⟩
    obtain ⟨s2, h2, _⟩ := smp_enqueue_message_spec k m s1 hb
    exact ⟨_, s2, h2⟩

/-- The pool of a machine with two cores. -/
theorem smp_enable_pool_layout_witness :
    0 < (boot demo_mm 2 (fun c => c)).count ∧
    (boot demo_mm 2 (fun c => c)).count * 100 < 2 ^ 32 ∧
    IsList (fun m => ((smp_enable (boot demo_mm 2 (fun c => c))).msgs m).next)
      (smp_enable (boot demo_mm 2 (fun c => c))).s_message_pool (List.range 200) ∧
    (∀ m k, m < 200 → k < 2 →
      ((smp_enable (boot demo_mm 2 (fun c => c))).entries
        (((smp_enable (boot demo_mm 2 (fun c => c))).msgs m).per_proc_entries + k)).msg = m) :=
  ⟨by decide, by decide,
    (smp_enable_pool_layout (boot demo_mm 2 (fun c => c)) (by decide) (by decide)).1,
    fun m k hm hk =>
      ((smp_enable_pool_layout (boot demo_mm 2 (fun c => c)) (by decide)
        (by decide)).2.2.2.2.2.1 m k hm hk).1⟩

/-- C25, counterexample: a trap from kernel mode taken at nesting depth 1 by a thread
whose previous mode is user mode is a mode transition, and `enter_trap` calls
`update_time_scheduled` not at all. -/
theorem nested_transition_not_charged :
    ((thread_demo_core 1 8 PreviousMode.UserMode).threads 0).previous_mode
      = PreviousMode.UserMode ∧
    mode_of_cs 8 = PreviousMode.KernelMode ∧
    ∃ s1, enter_trap 1 true (thread_demo_core 1 8 PreviousMode.UserMode) = Except.ok s1 ∧
      (s1.threads 0).previous_mode = PreviousMode.KernelMode ∧
      (s1.traps 1).prev_irq_level = 1 ∧ s1.trace = [] :=
  ⟨rfl, rfl, _, rfl, rfl, rfl, rfl⟩

/-- C25, as the code has it: in `enter_trap` with a current thread, the elapsed time is
charged on a mode transition that happens at nesting depth zero. The thread's previous
mode becomes the mode of the saved `cs` (`UserMode` if `cs & 3` is not zero, `KernelMode`
otherwise); when that is a change and `trap.prev_irq_level`, the depth on entry, is zero,
`update_time_scheduled` is called once, for the kernel bucket exactly when the new mode is
`KernelMode`; when the mode does not change, or the depth on entry is not zero, it is not
called. -/
theorem enter_trap_charges_at_depth_zero (trap : Nat) (raise_irq : Bool) (s : Core)
    (t cs : Nat) (hint : s.interrupts_enabled = false) (hct : s.current_thread = some t)
    (hregs : (s.traps trap).regs = some cs) :
    ∃ s1, enter_trap trap raise_irq s = Except.ok s1 ∧
      (s1.traps trap).prev_irq_level = s.m_in_irq ∧
      (s1.threads t).previous_mode = mode_of_cs cs ∧
      ((s.threads t).previous_mode ≠ mode_of_cs cs → s.m_in_irq = 0 →
        s1.trace = s.trace ++ [TrapEvent.update_time_scheduled t
          (decide (mode_of_cs cs = PreviousMode.KernelMode)) false]) ∧
      ((s.threads t).previous_mode = mode_of_cs cs ∨ s.m_in_irq ≠ 0 → s1.trace = s.trace) := by
  obtain ⟨s1, h, hmode, htrace⟩ := enter_trap_charge trap raise_irq s t cs hint hct hregs
  refine ⟨s1, h, (enter_trap_spec h).1.recorded, hmode, ?_, ?_⟩
  · intro hne hz
    rw [htrace, if_pos ⟨hne, hz⟩]
  · intro hc
    rw [htrace, if_neg (fun hp => by
      rcases hc with hc | hc
      · exact hp.1 hc
      · exact hc hp.2), List.append_nil]

/-- A trap from user mode (`cs = 0x1b`) at depth zero, taken by a thread whose previous
mode is kernel mode: the time is charged to the user bucket. -/
theorem enter_trap_charges_at_depth_zero_witness :
    (thread_demo_core 0 0x1b PreviousMode.KernelMode).interrupts_enabled = false ∧
    (thread_demo_core 0 0x1b PreviousMode.KernelMode).current_thread = some 0 ∧
    ((thread_demo_core 0 0x1b PreviousMode.KernelMode).traps 1).regs = some 0x1b ∧
    ∃ s1, enter_trap 1 true (thread_demo_core 0 0x1b PreviousMode.KernelMode) = Except.ok s1 ∧
      (s1.traps 1).prev_irq_level = (thread_demo_core 0 0x1b PreviousMode.KernelMode).m_in_irq ∧
      (s1.threads 0).previous_mode = mode_of_cs 0x1b ∧
      (((thread_demo_core 0 0x1b PreviousMode.KernelMode).threads 0).previous_mode
          ≠ mode_of_cs 0x1b →
        (thread_demo_core 0 0x1b PreviousMode.KernelMode).m_in_irq = 0 →
        s1.trace = (thread_demo_core 0 0x1b PreviousMode.KernelMode).trace ++
          [TrapEvent.update_time_scheduled 0
            (decide (mode_of_cs 0x1b = PreviousMode.KernelMode)) false]) ∧
      (((thread_demo_core 0 0x1b PreviousMode.KernelMode).threads 0).previous_mode
          = mode_of_cs 0x1b ∨
        (thread_demo_core 0 0x1b PreviousMode.KernelMode).m_in_irq ≠ 0 →
        s1.trace = (thread_demo_core 0 0x1b PreviousMode.KernelMode).trace) :=
  ⟨rfl, rfl, rfl,
    enter_trap_charges_at_depth_zero 1 true (thread_demo_core 0 0x1b PreviousMode.KernelMode)
      0 0x1b rfl rfl rfl⟩

/-- C21, counterexample: with both ranges in user space, `copy_to_user` and
`copy_from_user` fail their assertion on the kernel-side pointer. -/
theorem copy_between_user_ranges_aborts :
    kernel_split_mm.is_user_range 0x1000 4 = true ∧
    kernel_split_mm.is_user_range 0x2000 4 = true ∧
    copy_to_user kernel_split_mm flat_safe_mem 0x1000 0x2000 4 zero_memory
      = Except.error Fault.verify_failed ∧
    copy_from_user kernel_split_mm flat_safe_mem 0x1000 0x2000 4 zero_memory
      = Except.error Fault.verify_failed :=
  ⟨rfl, rfl, rfl, rfl⟩

/-- C21, as the code has it: `copy_to_user` and `copy_from_user` complete with a boolean
result on every input that passes their assertions. When the user range (the destination
of `copy_to_user`, the source of `copy_from_user`) is not a user-space range they return
false. When it is one and the kernel-side range is not a user-space range, they return a
boolean provided that a fault reported by the copy lies in the user range `[p, p + n]`.
When both ranges are user-space ranges they fail a kernel assertion. -/
theorem user_copy_returns_or_asserts (mm : MemoryManager) (sm : SafeMem)
    (dest_ptr src_ptr n : Nat) (s : UserMemory) :
    (mm.is_user_range dest_ptr n = false →
      copy_to_user mm sm dest_ptr src_ptr n s = Except.ok (false, s)) ∧
    (mm.is_user_range dest_ptr n = true → mm.is_user_range src_ptr n = false →
      ((sm.safe_memcpy dest_ptr src_ptr n s.mem).1 = true ∨
        (dest_ptr ≤ (sm.safe_memcpy dest_ptr src_ptr n s.mem).2.1 ∧
          (sm.safe_memcpy dest_ptr src_ptr n s.mem).2.1
            ≤ (dest_ptr + n) % 2 ^ mm.size_bits)) →
      ∃ s1, copy_to_user mm sm dest_ptr src_ptr n s
        = Except.ok ((sm.safe_memcpy dest_ptr src_ptr n s.mem).1, s1)) ∧
    (mm.is_user_range dest_ptr n = true → mm.is_user_range src_ptr n = true →
      copy_to_user mm sm dest_ptr src_ptr n s = Except.error Fault.verify_failed) ∧
    (mm.is_user_range src_ptr n = false →
      copy_from_user mm sm dest_ptr src_ptr n s = Except.ok (false, s)) ∧
    (mm.is_user_range src_ptr n = true → mm.is_user_range dest_ptr n = false →
      ((sm.safe_memcpy dest_ptr src_ptr n s.mem).1 = true ∨
        (src_ptr ≤ (sm.safe_memcpy dest_ptr src_ptr n s.mem).2.1 ∧
          (sm.safe_memcpy dest_ptr src_ptr n s.mem).2.1
            ≤ (src_ptr + n) % 2 ^ mm.size_bits)) →
      ∃ s1, copy_from_user mm sm dest_ptr src_ptr n s
        = Except.ok ((sm.safe_memcpy dest_ptr src_ptr n s.mem).1, s1)) ∧
    (mm.is_user_range src_ptr n = true → mm.is_user_range dest_ptr n = true →
      copy_from_user mm sm dest_ptr src_ptr n s = Except.error Fault.verify_failed) := by
  refine ⟨?_, ?_, ?_, ?_, ?_, ?_⟩
  · intro hd
    simp [copy_to_user, hd]
  · intro hd hs hsafe
    cases hr : (sm.safe_memcpy dest_ptr src_ptr n s.mem).1
    · rw [hr] at hsafe
      have hin := hsafe.resolve_left (by simp)
      simp [copy_to_user, hd, hs, hr, hin]
    · simp [copy_to_user, hd, hs, hr]
  · intro hd hs
    simp [copy_to_user, hd, hs]
  · intro hs
    simp [copy_from_user, hs]
  · intro hs hd hsafe
    cases hr : (sm.safe_memcpy dest_ptr src_ptr n s.mem).1
    · rw [hr] at hsafe
      have hin := hsafe.resolve_left (by simp)
      simp [copy_from_user, hd, hs, hr, hin]
    · simp [copy_from_user, hd, hs, hr]
  · intro hs hd
    simp [copy_from_user, hd, hs]

/-- C22: validation precedes the copy. `copy_to_user` and `memset_user` with a
destination range, and `copy_from_user` with a source range, that is not a user-space
range return false and leave the memory and the list of primitive calls as they were
(`safe_memcpy` or `safe_memset` is not called, no byte is read or written); and each of
the three returns true only if the range check passed and the primitive reported success,
the memory then being the one the primitive left. -/
theorem validation_precedes_copy (mm : MemoryManager) (sm : SafeMem)
    (dest_ptr src_ptr c n : Nat) (s : UserMemory) :
    (mm.is_user_range dest_ptr n = false →
      copy_to_user mm sm dest_ptr src_ptr n s = Except.ok (false, s)) ∧
    (mm.is_user_range src_ptr n = false →
      copy_from_user mm sm dest_ptr src_ptr n s = Except.ok (false, s)) ∧
    (mm.is_user_range dest_ptr n = false → memset_user mm sm dest_ptr c n s = (false, s)) ∧
    (∀ s1, copy_to_user mm sm dest_ptr src_ptr n s = Except.ok (true, s1) →
      mm.is_user_range dest_ptr n = true ∧
      (sm.safe_memcpy dest_ptr src_ptr n s.mem).1 = true ∧
      s1 = s.after (SafeEvent.safe_memcpy dest_ptr src_ptr n)
        (sm.safe_memcpy dest_ptr src_ptr n s.mem).2.2) ∧
    (∀ s1, copy_from_user mm sm dest_ptr src_ptr n s = Except.ok (true, s1) →
      mm.is_user_range src_ptr n = true ∧
      (sm.safe_memcpy dest_ptr src_ptr n s.mem).1 = true ∧
      s1 = s.after (SafeEvent.safe_memcpy dest_ptr src_ptr n)
        (sm.safe_memcpy dest_ptr src_ptr n s.mem).2.2) ∧
    (∀ s1, memset_user mm sm dest_ptr c n s = (true, s1) →
      mm.is_user_range dest_ptr n = true ∧
      (sm.safe_memset dest_ptr c n s.mem).1 = true ∧
      s1 = s.after (SafeEvent.safe_memset dest_ptr c n)
        (sm.safe_memset dest_ptr c n s.mem).2.2) := by
  refine ⟨?_, ?_, ?_, ?_, ?_, ?_⟩
  · intro hd
    simp [copy_to_user, hd]
  · intro hs
    simp [copy_from_user, hs]
  · intro hd
    simp [memset_user, hd]
  · intro s1 h
    unfold copy_to_user at h
    simp only at h
    split at h
    · cases h
    · rename_i hd
      split at h
      · cases h
      · split at h
        · split at h
          · cases h
          · cases h
        · rename_i hr
          cases h
          exact ⟨by simpa using hd, by simpa using hr, rfl⟩
  · intro s1 h
    unfold copy_from_user at h
    simp only at h
    split at h
    · cases h
    · rename_i hd
      split at h
      · cases h
      · split at h
        · split at h
          · cases h
          · cases h
        · rename_i hr
          cases h
          exact ⟨by simpa using hd, by simpa using hr, rfl⟩
  · intro s1 h
    unfold memset_user at h
    simp only at h
    split at h
    · cases h
    · rename_i hd
      split at h
      · cases h
      · rename_i hr
        cases h
        exact ⟨by simpa using hd, by simpa using hr, rfl⟩

/-- C23, counterexample: `var = 0xC0000100` is 4-byte aligned and its 4 bytes do not lie
in user space, and `expected` refers to the user address `0x2000`. The call of
`user_atomic_compare_exchange_relaxed` does not return the empty result: it stops on
`VERIFY(!is_user_range(&expected, sizeof(expected)))`, which comes before the test of
the range of `var`. -/
theorem compare_exchange_user_expected_aborts :
    (0xC0000100 &&& 3 ≠ 0 ∨ kernel_split_mm.is_user_range 0xC0000100 4 = false) ∧
    kernel_split_mm.is_user_range 0x2000 4 = true ∧
    user_atomic_compare_exchange_relaxed kernel_split_mm flat_safe_mem 0xC0000100 0x2000 1
      zero_memory = Except.error Fault.verify_failed ∧
    user_atomic_compare_exchange_relaxed kernel_split_mm flat_safe_mem 0xC0000100 0x2000 1
      zero_memory ≠ Except.ok (none, zero_memory) :=
  ⟨Or.inr rfl, rfl, rfl, fun h => by cases h⟩

/-- C23, as amended: the user atomics reject a bad address before any access. If `var` is
not 4-byte aligned, or the 4 bytes at `var` are not a user-space range, then each of
`user_atomic_fetch_add_relaxed`, `exchange`, `load`, `fetch_and`, `fetch_and_not`,
`fetch_or` and `fetch_xor` returns the empty result and `user_atomic_store_relaxed`
returns false, with the memory and the list of primitive calls as they were (the
`safe_atomic_*` access is not performed). For such a `var`,
`user_atomic_compare_exchange_relaxed` stops on its assertion when `var` is aligned and
`expected` lies in user space, and in every other case returns the empty result with the
memory and the list of primitive calls as they were; it performs the access in neither
case. -/
theorem user_atomics_reject_bad_address (mm : MemoryManager) (sm : SafeMem)
    (var expected val : Nat) (s : UserMemory)
    (hbad : var &&& 3 ≠ 0 ∨ mm.is_user_range var 4 = false) :
    user_atomic_fetch_add_relaxed mm sm var val s = (none, s) ∧
    user_atomic_exchange_relaxed mm sm var val s = (none, s) ∧
    user_atomic_load_relaxed mm sm var s = (none, s) ∧
    user_atomic_store_relaxed mm sm var val s = (false, s) ∧
    user_atomic_fetch_and_relaxed mm sm var val s = (none, s) ∧
    user_atomic_fetch_and_not_relaxed mm sm var val s = (none, s) ∧
    user_atomic_fetch_or_relaxed mm sm var val s = (none, s) ∧
    user_atomic_fetch_xor_relaxed mm sm var val s = (none, s) ∧
    user_atomic_compare_exchange_relaxed mm sm var expected val s
      = (if var &&& 3 = 0 ∧ mm.is_user_range expected 4 = true
          then Except.error Fault.verify_failed
          else Except.ok (none, s)) := by
  have key : ∀ (α : Type) (a b : α), (if var &&& 3 ≠ 0 then a
      else if mm.is_user_range var 4 = false then a else b) = a := by
    intro α a b
    rcases hbad with h | h
    · rw [if_pos h]
    · rw [if_pos h]
      split <;> rfl
  refine ⟨key _ _ _, key _ _ _, key _ _ _, key _ _ _, key _ _ _, key _ _ _, key _ _ _,
    key _ _ _, ?_⟩
  unfold user_atomic_compare_exchange_relaxed
  by_cases ha : var &&& 3 ≠ 0
  · rw [if_pos ha, if_neg (fun h => ha h.1)]
  · rw [if_neg ha]
    have hu := hbad.resolve_left ha
    have ha0 : var &&& 3 = 0 := not_not.1 ha
    by_cases he : mm.is_user_range expected 4 = true
    · rw [if_pos he, if_pos ⟨ha0, he⟩]
    · rw [if_neg he]
      simp only [hu, if_true]
      rw [if_neg (fun h => he h.2)]

/-- The address `0x1002` is not 4-byte aligned: every operation on it is rejected, the
compare-exchange too, whatever `expected` is. The address `0xC0000100` is aligned and
outside user space: the compare-exchange with `expected` in kernel memory returns the
empty result. -/
theorem user_atomics_reject_bad_address_witness :
    (0x1002 &&& 3 ≠ 0 ∨ kernel_split_mm.is_user_range 0x1002 4 = false) ∧
    user_atomic_fetch_add_relaxed kernel_split_mm flat_safe_mem 0x1002 1 zero_memory
      = (none, zero_memory) ∧
    user_atomic_store_relaxed kernel_split_mm flat_safe_mem 0x1002 1 zero_memory
      = (false, zero_memory) ∧
    user_atomic_compare_exchange_relaxed kernel_split_mm flat_safe_mem 0x1002 0x2000 1
      zero_memory = Except.ok (none, zero_memory) ∧
    (0xC0000100 &&& 3 ≠ 0 ∨ kernel_split_mm.is_user_range 0xC0000100 4 = false) ∧
    user_atomic_compare_exchange_relaxed kernel_split_mm flat_safe_mem 0xC0000100 0xC0000200 1
      zero_memory = Except.ok (none, zero_memory) :=
  ⟨Or.inl (by decide),
    (user_atomics_reject_bad_address kernel_split_mm flat_safe_mem 0x1002 0x2000 1
      zero_memory (Or.inl (by decide))).1,
    (user_atomics_reject_bad_address kernel_split_mm flat_safe_mem 0x1002 0x2000 1
      zero_memory (Or.inl (by decide))).2.2.2.1,
    (user_atomics_reject_bad_address kernel_split_mm flat_safe_mem 0x1002 0x2000 1
      zero_memory (Or.inl (by decide))).2.2.2.2.2.2.2.2.trans (if_neg (by decide)),
    Or.inr rfl,
    (user_atomics_reject_bad_address kernel_split_mm flat_safe_mem 0xC0000100 0xC0000200 1
      zero_memory (Or.inr rfl)).2.2.2.2.2.2.2.2.trans (if_neg (by decide))⟩

/-- C27, the failing input: on four processors of which the three others are idle, a
request to wake one processor sends three IPIs and returns 3, which is more than
`min(wake_count, Processor::count() - 1) = 1`; none of them goes to the caller. -/
theorem wake_one_wakes_all_idle :
    min 1 (wake_demo.count - 1) = 1 ∧
    ∃ s1, smp_wake_n_idle_processors 2 1 wake_demo = Except.ok (3, s1) ∧
      s1.ipis = [1, 2, 3] ∧ wake_demo.current_id ∉ s1.ipis ∧ s1.s_idle_cpu_mask = 0 :=
  ⟨rfl, _, rfl, rfl, by decide, rfl⟩

/-- C27, what the code does for every input: with interrupts disabled, SMP enabled, at
least two processors and `wake_count > 0`, `smp_wake_n_idle_processors` returns after
at most two iterations of its outer loop. It sends one IPI to every idle processor other
than the caller, lowest id first, and returns their number, whatever `wake_count` is: the
returned count is the number of IPIs sent and no IPI goes to the calling processor, but
the count is bounded by the number of idle processors and not by `wake_count`. -/
theorem smp_wake_n_idle_processors_wakes_every_idle (fuel wake_count : Nat) (s : IdleState)
    (hint : s.interrupts_enabled = false) (hsmp : s.s_smp_enabled = true)
    (hcount : 2 ≤ s.count) (hc32 : s.count < 2 ^ 32) (hw : 0 < wake_count)
    (hfuel : 2 ≤ fuel) :
    ∃ s1, smp_wake_n_idle_processors fuel wake_count s
        = Except.ok (popcount (s.s_idle_cpu_mask
            &&& u32_not ((1 <<< s.current_id) % 2 ^ 32)), s1) ∧
      s1.ipis = s.ipis
        ++ set_bits (s.s_idle_cpu_mask &&& u32_not ((1 <<< s.current_id) % 2 ^ 32)) ∧
      (set_bits (s.s_idle_cpu_mask &&& u32_not ((1 <<< s.current_id) % 2 ^ 32))).length
        = popcount (s.s_idle_cpu_mask &&& u32_not ((1 <<< s.current_id) % 2 ^ 32)) ∧
      s.current_id
        ∉ set_bits (s.s_idle_cpu_mask &&& u32_not ((1 <<< s.current_id) % 2 ^ 32)) ∧
      ∀ c, c ∈ set_bits (s.s_idle_cpu_mask &&& u32_not ((1 <<< s.current_id) % 2 ^ 32))
        ↔ c < 32 ∧ c ≠ s.current_id ∧ s.s_idle_cpu_mask.testBit c = true := by
  obtain ⟨f, rfl⟩ : ∃ f, fuel = f + 2 := ⟨fuel - 2, by omega⟩
  have hsub : u32_sub s.count 1 = s.count - 1 := u32_sub_one (by omega) hc32
  have hmem : ∀ c, c ∈ set_bits (s.s_idle_cpu_mask
        &&& u32_not ((1 <<< s.current_id) % 2 ^ 32))
      ↔ c < 32 ∧ c ≠ s.current_id ∧ s.s_idle_cpu_mask.testBit c = true := by
    intro c
    rw [mem_set_bits, Nat.testBit_and, testBit_u32_not, testBit_cpu_bit]
    by_cases hc : c < 32
    · by_cases hcc : s.current_id = c
      · have hcc1 : ¬ c ≠ s.current_id := fun h => h hcc.symm
        simp [hc, hcc, hcc1]
      · have hcc1 : c ≠ s.current_id := fun h => hcc h.symm
        simp [hc, hcc, hcc1]
    · simp [hc]
  by_cases hge : wake_count ≥ s.count
  · obtain ⟨s1, h1, h2⟩ := wake_loop_spec (s.count - 1) s.current_id f s (by omega)
    refine ⟨s1, ?_, h2, (popcount_eq_length _).symm, not_mem_idle_mask _ _, hmem⟩
    unfold smp_wake_n_idle_processors
    have hpos : s.count - 1 > 0 := by omega
    simp only [hint, hsmp, hw, hge, hsub, hpos, if_true, if_false, not_true_eq_false,
      Bool.false_eq_true, Bool.true_eq_false, gt_iff_lt]
    exact h1
  · obtain ⟨s1, h1, h2⟩ := wake_loop_spec wake_count s.current_id f s hw
    refine ⟨s1, ?_, h2, (popcount_eq_length _).symm, not_mem_idle_mask _ _, hmem⟩
    unfold smp_wake_n_idle_processors
    simp only [hint, hsmp, hw, hge, if_true, if_false, not_true_eq_false,
      Bool.false_eq_true, Bool.true_eq_false, gt_iff_lt]
    exact h1

/-- C27, witness: on four processors with the three others idle, a request for one
processor gets the count of the three idle processors, which is above
`min(wake_count, Processor::count() - 1) = 1`. -/
theorem smp_wake_n_idle_processors_wakes_every_idle_witness :
    min 1 (wake_demo.count - 1)
      < popcount (wake_demo.s_idle_cpu_mask
          &&& u32_not ((1 <<< wake_demo.current_id) % 2 ^ 32)) ∧
    ∃ s1, smp_wake_n_idle_processors 2 1 wake_demo
        = Except.ok (popcount (wake_demo.s_idle_cpu_mask
            &&& u32_not ((1 <<< wake_demo.current_id) % 2 ^ 32)), s1) ∧
      s1.ipis = wake_demo.ipis
        ++ set_bits (wake_demo.s_idle_cpu_mask
            &&& u32_not ((1 <<< wake_demo.current_id) % 2 ^ 32)) ∧
      (set_bits (wake_demo.s_idle_cpu_mask
          &&& u32_not ((1 <<< wake_demo.current_id) % 2 ^ 32))).length
        = popcount (wake_demo.s_idle_cpu_mask
            &&& u32_not ((1 <<< wake_demo.current_id) % 2 ^ 32)) ∧
      wake_demo.current_id
        ∉ set_bits (wake_demo.s_idle_cpu_mask
            &&& u32_not ((1 <<< wake_demo.current_id) % 2 ^ 32)) ∧
      ∀ c, c ∈ set_bits (wake_demo.s_idle_cpu_mask
            &&& u32_not ((1 <<< wake_demo.current_id) % 2 ^ 32))
        ↔ c < 32 ∧ c ≠ wake_demo.current_id ∧ wake_demo.s_idle_cpu_mask.testBit c = true :=
  ⟨by decide, smp_wake_n_idle_processors_wakes_every_idle 2 1 wake_demo rfl rfl
    (by decide) (by decide) (by decide) (by decide)⟩

/-- C30: `strcmp` and `memcmp` are three-way comparisons in the lexicographic order on
unsigned bytes. For NUL-terminated strings with contents `a` at `s1` and `b` at `s2`,
`strcmp(s1, s2)` returns; the result is 0 exactly when `a = b`, -1 exactly when `a`
precedes `b`, and 1 exactly when `a` follows `b`; `strcmp(s2, s1)` is the negated result.
`memcmp(v1, v2, n)` is the same comparison of the first `n` bytes at `v1` and at `v2`,
and is 0 for `n = 0`. -/
theorem strcmp_memcmp_lexicographic (mem : Nat → Nat) (s1 s2 : Nat) (a b : List Nat)
    (fuel v1 v2 n : Nat) (h1 : CStr mem s1 a) (h2 : CStr mem s2 b)
    (hfuel : a.length < fuel ∧ b.length < fuel) :
    ∃ r r1, strcmp mem fuel s1 s2 = Except.ok r ∧ strcmp mem fuel s2 s1 = Except.ok r1 ∧
      (r = 0 ↔ a = b) ∧
      (r = -1 ↔ List.Lex (fun x y => x < y) a b) ∧
      (r = 1 ↔ List.Lex (fun x y => x < y) b a) ∧
      (r = 0 ∨ r = -1 ∨ r = 1) ∧ r1 = -r ∧
      (memcmp mem v1 v2 n = 0 ↔ read_bytes mem v1 n = read_bytes mem v2 n) ∧
      (memcmp mem v1 v2 n = -1 ↔
        List.Lex (fun x y => x < y) (read_bytes mem v1 n) (read_bytes mem v2 n)) ∧
      (memcmp mem v1 v2 n = 1 ↔
        List.Lex (fun x y => x < y) (read_bytes mem v2 n) (read_bytes mem v1 n)) ∧
      memcmp mem v1 v2 0 = 0 := by
  have hvals : ∀ (x y : List Nat), lex_cmp x y = 0 ∨ lex_cmp x y = -1 ∨ lex_cmp x y = 1 := by
    intro x
    induction x with
    | nil => intro y; cases y <;> simp [lex_cmp]
    | cons c cs ih =>
      intro y
      cases y with
      | nil => simp [lex_cmp]
      | cons d ds =>
        simp only [lex_cmp]
        by_cases hcd : c = d
        · rw [if_pos hcd]
          exact ih ds
        · rw [if_neg hcd]
          by_cases hlt : c < d
          · simp [hlt]
          · simp [hlt]
  refine ⟨lex_cmp a b, lex_cmp b a, strcmp_eq_lex_cmp mem a b s1 s2 fuel h1 h2 hfuel.1,
    strcmp_eq_lex_cmp mem b a s2 s1 fuel h2 h1 hfuel.2, lex_cmp_eq_zero a b,
    lex_cmp_eq_neg_one a b, lex_cmp_eq_one a b, hvals a b, lex_cmp_swap a b, ?_, ?_, ?_, rfl⟩
  · rw [memcmp_eq_lex_cmp]
    exact lex_cmp_eq_zero _ _
  · rw [memcmp_eq_lex_cmp]
    exact lex_cmp_eq_neg_one _ _
  · rw [memcmp_eq_lex_cmp]
    exact lex_cmp_eq_one _ _

/-- The strings "ab" at address 0 and "ac" at address 3. -/
theorem strcmp_memcmp_lexicographic_witness :
    CStr (memory_of [97, 98, 0, 97, 99, 0]) 0 [97, 98] ∧
    CStr (memory_of [97, 98, 0, 97, 99, 0]) 3 [97, 99] ∧
    ([97, 98].length < 3 ∧ [97, 99].length < 3) ∧
    ∃ r r1, strcmp (memory_of [97, 98, 0, 97, 99, 0]) 3 0 3 = Except.ok r ∧
      strcmp (memory_of [97, 98, 0, 97, 99, 0]) 3 3 0 = Except.ok r1 ∧
      (r = 0 ↔ [97, 98] = [97, 99]) ∧
      (r = -1 ↔ List.Lex (fun x y => x < y) [97, 98] [97, 99]) ∧
      (r = 1 ↔ List.Lex (fun x y => x < y) [97, 99] [97, 98]) ∧
      (r = 0 ∨ r = -1 ∨ r = 1) ∧ r1 = -r ∧
      (memcmp (memory_of [97, 98, 0, 97, 99, 0]) 0 3 2 = 0 ↔
        read_bytes (memory_of [97, 98, 0, 97, 99, 0]) 0 2
          = read_bytes (memory_of [97, 98, 0, 97, 99, 0]) 3 2) ∧
      (memcmp (memory_of [97, 98, 0, 97, 99, 0]) 0 3 2 = -1 ↔
        List.Lex (fun x y => x < y) (read_bytes (memory_of [97, 98, 0, 97, 99, 0]) 0 2)
          (read_bytes (memory_of [97, 98, 0, 97, 99, 0]) 3 2)) ∧
      (memcmp (memory_of [97, 98, 0, 97, 99, 0]) 0 3 2 = 1 ↔
        List.Lex (fun x y => x < y) (read_bytes (memory_of [97, 98, 0, 97, 99, 0]) 3 2)
          (read_bytes (memory_of [97, 98, 0, 97, 99, 0]) 0 2)) ∧
      memcmp (memory_of [97, 98, 0, 97, 99, 0]) 0 3 0 = 0 :=
  ⟨⟨rfl, by decide, rfl, by decide, rfl⟩, ⟨rfl, by decide, rfl, by decide, rfl⟩,
    ⟨by decide, by decide⟩,
    strcmp_memcmp_lexicographic (memory_of [97, 98, 0, 97, 99, 0]) 0 3 [97, 98] [97, 99] 3 0 3 2
      ⟨rfl, by decide, rfl, by decide, rfl⟩ ⟨rfl, by decide, rfl, by decide, rfl⟩
      ⟨by decide, by decide⟩⟩

/-- C29: `strstr` finds the first occurrence. For NUL-terminated strings with contents
`hs` at `haystack` and `ns` at `needle` (and `strlen` giving the length of the needle
behind its first byte), `strstr` returns; the result is `haystack` itself when the needle
is empty, it is `haystack + k` for the lowest offset `k` at which the needle occurs in
the haystack as a contiguous substring, and it is null if and only if the needle occurs
at no offset. -/
theorem strstr_finds_first_occurrence (mem : Nat → Nat) (strlen : Nat → Nat)
    (fuel haystack needle : Nat) (hs ns : List Nat)
    (hh : CStr mem haystack hs) (hn : CStr mem needle ns)
    (hlen : ns ≠ [] → strlen (needle + 1) = ns.length - 1) (hfuel : hs.length < fuel) :
    ∃ r, strstr mem strlen fuel haystack needle = Except.ok r ∧
      (ns = [] → r = some haystack) ∧
      (∀ k, occurs_at ns hs k → (∀ j, j < k → ¬ occurs_at ns hs j) →
        r = some (haystack + k)) ∧
      (r = none ↔ ∀ k, ¬ occurs_at ns hs k) := by
  cases ns with
  | nil =>
    have hz : mem needle = 0 := hn
    have h0 : occurs_at [] hs 0 := ⟨Nat.zero_le _, by simp⟩
    refine ⟨some haystack, by simp [strstr, hz], fun _ => rfl, ?_, ?_⟩
    · intro k _ hmin
      have hk0 : k = 0 := by
        by_contra hne
        exact hmin 0 (Nat.pos_of_ne_zero hne) h0
      rw [hk0]
      rfl
    · constructor
      · intro e; cases e
      · intro hnone; exact absurd h0 (hnone 0)
  | cons c cs =>
    obtain ⟨hc, hc0, hcs⟩ := hn
    have hl : strlen (needle + 1) = cs.length := by
      rw [hlen (by simp)]
      simp
    obtain ⟨sp1, sp2⟩ := strstr_scan_spec mem c (needle + 1) cs hc0 hcs hs haystack fuel hh hfuel
    have hrun : strstr mem strlen fuel haystack needle
        = match strstr_scan mem c (needle + 1) cs.length fuel haystack with
          | Except.error f => Except.error f
          | Except.ok none => Except.ok none
          | Except.ok (some haystack1) => Except.ok (some (haystack1 - 1)) := by
      simp [strstr, hc, hc0, hl]
    by_cases hex : ∃ k, occurs_at (c :: cs) hs k
    · classical
      have hfind := Nat.find_spec hex
      have hleast : ∀ j, j < Nat.find hex → ¬ occurs_at (c :: cs) hs j :=
        fun j hj => Nat.find_min hex hj
      have hscan := sp1 (Nat.find hex) hfind hleast
      refine ⟨some (haystack + Nat.find hex), ?_, fun e => (by cases e), ?_, ?_⟩
      · rw [hrun, hscan]
        simp
      · intro k hk hmin
        have hk1 : k = Nat.find hex := by
          rcases Nat.lt_trichotomy k (Nat.find hex) with hlt | heq | hgt
          · exact absurd hk (hleast k hlt)
          · exact heq
          · exact absurd hfind (hmin _ hgt)
        rw [hk1]
      · constructor
        · intro e; cases e
        · intro hnone; exact absurd hfind (hnone _)
    · have hnone : ∀ k, ¬ occurs_at (c :: cs) hs k := fun k hk => hex ⟨k, hk⟩
      refine ⟨none, ?_, fun e => (by cases e), ?_, ?_⟩
      · rw [hrun, sp2 hnone]
      · intro k hk _
        exact absurd hk (hnone k)
      · exact ⟨fun _ => hnone, fun _ => rfl⟩

/-- The strings "hello" at address 0 and "ll" at address 6: the needle occurs first at
offset 2. -/
theorem strstr_finds_first_occurrence_witness :
    CStr (memory_of [104, 101, 108, 108, 111, 0, 108, 108, 0]) 0 [104, 101, 108, 108, 111] ∧
    CStr (memory_of [104, 101, 108, 108, 111, 0, 108, 108, 0]) 6 [108, 108] ∧
    strstr (memory_of [104, 101, 108, 108, 111, 0, 108, 108, 0])
      (fun p => strnlen (memory_of [104, 101, 108, 108, 111, 0, 108, 108, 0]) p 16) 6 0 6
      = Except.ok (some 2) ∧
    ∃ r, strstr (memory_of [104, 101, 108, 108, 111, 0, 108, 108, 0])
        (fun p => strnlen (memory_of [104, 101, 108, 108, 111, 0, 108, 108, 0]) p 16) 6 0 6
        = Except.ok r ∧
      (([108, 108] : List Nat) = [] → r = some 0) ∧
      (∀ k, occurs_at [108, 108] [104, 101, 108, 108, 111] k →
        (∀ j, j < k → ¬ occurs_at [108, 108] [104, 101, 108, 108, 111] j) →
        r = some (0 + k)) ∧
      (r = none ↔ ∀ k, ¬ occurs_at [108, 108] [104, 101, 108, 108, 111] k) :=
  ⟨⟨rfl, by decide, rfl, by decide, rfl, by decide, rfl, by decide, rfl, by decide, rfl⟩,
    ⟨rfl, by decide, rfl, by decide, rfl⟩, rfl,
    strstr_finds_first_occurrence (memory_of [104, 101, 108, 108, 111, 0, 108, 108, 0])
      (fun p => strnlen (memory_of [104, 101, 108, 108, 111, 0, 108, 108, 0]) p 16) 6 0 6
      [104, 101, 108, 108, 111] [108, 108]
      ⟨rfl, by decide, rfl, by decide, rfl, by decide, rfl, by decide, rfl, by decide, rfl⟩
      ⟨rfl, by decide, rfl, by decide, rfl⟩ (fun _ => rfl) (by decide)⟩

end claims

end Kernel
